import Mathlib

/-!
# Suricata: sliding-window aggregator and orchestrator of the uptime monitor

A shallow embedding of `monitor/MaxHeap.go`, `monitor/Aggregator.go`,
`monitor/Alert.go`, `monitor/Orchestrator.go`, `monitor/Pinger.go`,
`monitor/Report.go` and of `parseConfig` of `main.go`, and the properties of
the windowed aggregates, of the registry and of the config parser that the
specification states about them.

Modelling conventions.

* Go pointers to `QueueElement` are addresses, natural numbers indexing an
  explicit object memory `Mem`; a nil pointer is `none`. A dereference of a nil
  or dangling pointer and an index out of range are the result `none` (a Go
  panic).
* `time.Time` and `time.Duration` are integers counting nanoseconds.
* `float32` and `float64` values are the fractions they denote, and every
  conversion, quotient, sum and product is rounded to the nearest value of
  its format, ties to even, as the hardware does. A zero denominator stands
  for an infinity or NaN.
* `sumResTime` is an `int64` and wraps. The counters `count`, `errorCount`
  and the two status maps hold at most one unit per element of the window
  and are unbounded integers.
* Loops and the recursion of `bubbleDown` take a fuel argument; the callers
  pass a fuel that is shown to suffice on every state reached by `Add`.
* The mutex of the aggregator is not modelled: the embedding is sequential.
* The maps of the orchestrator are association lists with one entry per key;
  the channel of alerts is the list of the alerts sent on it. The operations
  of the orchestrator take the value of `time.Now()` as an argument.
* `go pinger.Start()` only launches a goroutine: `Start` records it, and the
  first statement of the goroutine, which sets the running flag, is a step of
  its own (`proberBegins`) that happens when the scheduler runs it.
* A `range` over a map visits its entries in an order Go leaves unspecified:
  `StartAll`, `PauseAll` and `UnregisterAll` take the slice that `GetPingers`
  built as an argument, and it may be any permutation of the probers.
* `parseConfig` is embedded on the text of the file, a UTF-8 text; the scanner
  is the one `bufio.NewScanner` makes, with its limit on the length of a line; the
  functions of the Go standard library it calls are modelled next to it.
-/

namespace Monitor

/-! ## Data model -/

/-- Largest `int64`, the value of `math.MaxInt64`. -/
def maxInt64 : Int := 9223372036854775807

/-! ### Binary floating point

`float32` and `float64` arithmetic rounds every result to the nearest value of
the format, to the even mantissa on a tie. The operands met here are machine
integers and quotients of two of them, all inside the normal range of both
formats, so the exponent limits of the formats play no part. -/

/-- Number of binary digits of `n`, by halving; the fuel bounds the number of
halvings. -/
def bitLen : Nat → Nat → Nat
  | 0, _ => 0
  | fuel + 1, n => if n = 0 then 0 else bitLen fuel (n / 2) + 1

/-- Number of binary digits of `n`. -/
def bits (n : Nat) : Nat := bitLen n n

/-- The quotient `n / d` divided by `2 ^ e`, as a numerator and a
denominator. -/
def scale (n d : Nat) (e : Int) : Nat × Nat :=
  if 0 ≤ e then (n, d * 2 ^ e.toNat) else (n * 2 ^ (-e).toNat, d)

/-- The integer nearest to `n / d`, the even one of the two when `n / d` lies
half-way between two integers. -/
def nearestEven (n d : Nat) : Nat :=
  if 2 * (n % d) < d then n / d
  else if d < 2 * (n % d) then n / d + 1
  else if (n / d) % 2 = 0 then n / d else n / d + 1

/-- Rounding of the quotient `n / d` to `p` significant bits, to nearest and
to even on a tie: the mantissa `m` and the exponent `e` of the result
`m * 2 ^ e`. The exponent is the one that puts `n / d / 2 ^ e` between
`2 ^ (p - 1)` and `2 ^ p`. -/
def roundBits (p n d : Nat) : Nat × Int :=
  let e0 : Int := (bits n : Int) - (bits d : Int) - (p : Int)
  let s0 := scale n d e0
  let e : Int := if s0.2 * 2 ^ p ≤ s0.1 then e0 + 1 else e0
  let s := scale n d e
  (nearestEven s.1 s.2, e)

/-- The value `m * 2 ^ e` as a fraction in lowest terms. -/
def dyadic (m : Nat) (e : Int) : Nat × Nat :=
  if 0 ≤ e then (m * 2 ^ e.toNat, 1)
  else (m / Nat.gcd m (2 ^ (-e).toNat), 2 ^ (-e).toNat / Nat.gcd m (2 ^ (-e).toNat))

/-- A `float32` value. A finite value is the fraction `num / den` in lowest
terms with `den > 0`, and `0 / -1` is the negative zero. A zero denominator
encodes the other values: `1 / 0` is `+Inf`, `-1 / 0` is `-Inf` and `0 / 0`
is NaN. -/
structure Float32 where
  num : Int
  den : Int
deriving DecidableEq, Repr

/-- The `float32` nearest to the quotient `n / d`, negated when `neg`. -/
def Float32.round (neg : Bool) (n d : Nat) : Float32 :=
  let r := roundBits 24 n d
  let v := dyadic r.1 r.2
  if neg then ⟨-(v.1 : Int), if v.1 = 0 then -1 else (v.2 : Int)⟩
  else ⟨(v.1 : Int), (v.2 : Int)⟩

/-- Conversion `float32(n)` of an integer. -/
def Float32.ofInt (n : Int) : Float32 := Float32.round (decide (n < 0)) n.natAbs 1

/-- The sign bit of a `float32` value. -/
def Float32.neg (x : Float32) : Bool :=
  decide (x.num < 0) || (decide (x.num = 0) && decide (x.den < 0))

/-- The value is NaN. -/
def Float32.isNaN (x : Float32) : Bool := decide (x.num = 0) && decide (x.den = 0)

/-- Division `x / y` of two `float32` values. -/
def Float32.div (x y : Float32) : Float32 :=
  if x.den = 0 then
    if y.den = 0 then ⟨0, 0⟩
    else if x.num = 0 then ⟨0, 0⟩
    else if x.neg != y.neg then ⟨-1, 0⟩ else ⟨1, 0⟩
  else if y.den = 0 then
    if y.num = 0 then ⟨0, 0⟩
    else if x.neg != y.neg then ⟨0, -1⟩ else ⟨0, 1⟩
  else if y.num = 0 then
    if x.num = 0 then ⟨0, 0⟩
    else if x.neg != y.neg then ⟨-1, 0⟩ else ⟨1, 0⟩
  else
    Float32.round (x.neg != y.neg) (x.num.natAbs * y.den.natAbs) (x.den.natAbs * y.num.natAbs)

/-- The quotient `float32(a) / float32(b)` of two integers. -/
def Float32.quot (a b : Int) : Float32 := (Float32.ofInt a).div (Float32.ofInt b)

/-- The `float32` that stands for the constant `p / q` in a comparison with a
`float32` value: the nearest one. For `0.80` it is `13421773 / 16777216`. -/
def Float32.ofConst (p q : Nat) : Float32 := Float32.round false p q

/-- Comparison `x <= p/q` with the constant `p / q`; false on NaN. -/
def Float32.leConst (x : Float32) (p q : Nat) : Bool :=
  if x.den = 0 then decide (x.num < 0)
  else decide (x.num * (Float32.ofConst p q).den ≤ (Float32.ofConst p q).num * x.den.natAbs)

/-- Comparison `x > p/q` with the constant `p / q`; false on NaN. -/
def Float32.gtConst (x : Float32) (p q : Nat) : Bool :=
  if x.den = 0 then decide (0 < x.num)
  else decide ((Float32.ofConst p q).num * x.den.natAbs < x.num * (Float32.ofConst p q).den)

/-- The `float64` nearest to the quotient `n / d`, as a fraction in lowest
terms. -/
def Float64.round (n d : Nat) : Nat × Nat :=
  dyadic (roundBits 53 n d).1 (roundBits 53 n d).2

/-- The `int64` a sum or difference of two `int64` wraps to. -/
def wrapInt64 (x : Int) : Int :=
  (x + 9223372036854775808) % 18446744073709551616 - 9223372036854775808

/-- Go struct `PingLog` (Pinger.go). `Error = none` is the nil error. -/
structure PingLog where
  Time : Int
  Website : String
  Error : Option String
  Status : Int
  ResponseTime : Int
deriving DecidableEq, Repr

/-- Go struct `QueueElement` (Aggregator.go). `Value` is a pointer to a
`PingLog` that is never written through and is non-nil at every place the
repository builds a `QueueElement`; it is embedded by value. -/
structure QueueElement where
  Value : PingLog
  Timestamp : Int
  next : Option Nat
  heapIndex : Nat
deriving DecidableEq, Repr

/-- Object memory: the `QueueElement`s allocated so far, by address. -/
abbrev Mem := List QueueElement

/-- Go struct `MaxHeap` (MaxHeap.go): a slice of pointers. -/
structure MaxHeap where
  values : List Nat
deriving DecidableEq, Repr

/-- Text of an alert: either a plain string or one of the two availability
messages of `Aggregator.Add`, kept with the values that `fmt.Sprint` renders. -/
inductive Message where
  | text (s : String)
  | down (website : String) (availability : Float32) (timestamp : Int)
  | upAgain (website : String) (availability : Float32) (timestamp : Int)
deriving DecidableEq, Repr

/-- Go struct `Alert` (Alert.go). -/
structure Alert where
  Url : String
  Timestamp : Int
  Value : Float32
  Message : Message
  Init : Bool
deriving DecidableEq, Repr

/-- The zero value of `Alert` (`var alert Alert`). -/
def Alert.zero : Alert :=
  { Url := "", Timestamp := 0, Value := Float32.ofInt 0, Message := Message.text "", Init := false }

/-! ## MaxHeap.go -/

/-- The zero `PingLog` with the given response time. -/
def PingLog.ofResponseTime (d : Int) : PingLog :=
  { Time := 0, Website := "", Error := none, Status := 0, ResponseTime := d }

/-- The sentinel element stored at index 0 of every heap. -/
def sentinel : QueueElement :=
  { Value := PingLog.ofResponseTime maxInt64, Timestamp := 0, next := none, heapIndex := 0 }

/-- Dereference of the pointer stored at index `i` of the heap array. -/
def MaxHeap.elemAt (mem : Mem) (m : MaxHeap) (i : Nat) : Option QueueElement :=
  match m.values[i]? with
  | some p => mem[p]?
  | none => none

/-- `NewMaxHeap`: allocates the sentinel and returns the one-element heap. -/
def NewMaxHeap (mem : Mem) : Mem × MaxHeap :=
  (mem ++ [sentinel], { values := [mem.length] })

/-- `QueueElement.gt`: strict comparison of the response times. -/
def QueueElement.gt (e other : QueueElement) : Bool :=
  decide (other.Value.ResponseTime < e.Value.ResponseTime)

/-- `MaxHeap.swap`: exchanges the two slots and the two stored back-indices. -/
def MaxHeap.swap (mem : Mem) (m : MaxHeap) (idx1 idx2 : Nat) : Option (Mem × MaxHeap) :=
  match m.values[idx1]?, m.values[idx2]? with
  | some v1, some v2 =>
    match mem[v1]?, mem[v2]? with
    | some e1, some e2 =>
      let mem1 := mem.set v1 { e1 with heapIndex := e2.heapIndex }
      let mem2 := mem1.set v2 { e2 with heapIndex := e1.heapIndex }
      some (mem2, { values := (m.values.set idx1 v2).set idx2 v1 })
    | _, _ => none
  | _, _ => none

/-- The loop of `MaxHeap.bubbleUp`, one iteration per unit of fuel. -/
def MaxHeap.bubbleUpLoop : Nat → Mem → MaxHeap → Nat → Nat → Option (Mem × MaxHeap)
  | 0, _, _, _, _ => none
  | fuel + 1, mem, m, currentIdx, parentIdx =>
    if 0 < currentIdx then
      match m.elemAt mem currentIdx, m.elemAt mem parentIdx with
      | some c, some p =>
        if c.gt p then
          match m.swap mem currentIdx parentIdx with
          | some (mem1, m1) => MaxHeap.bubbleUpLoop fuel mem1 m1 parentIdx (parentIdx / 2)
          | none => none
        else some (mem, m)
      | _, _ => none
    else some (mem, m)

/-- `MaxHeap.bubbleUp`. -/
def MaxHeap.bubbleUp (mem : Mem) (m : MaxHeap) (idx : Nat) (_el : Nat) : Option (Mem × MaxHeap) :=
  MaxHeap.bubbleUpLoop (idx + 1) mem m idx (idx / 2)

/-- One comparison of `bubbleDown`: `child` replaces `smallest` when it lies
inside the array and its element is greater. -/
def MaxHeap.pick (mem : Mem) (m : MaxHeap) (child smallest : Nat) : Option Nat :=
  if child < m.values.length then
    match m.elemAt mem child, m.elemAt mem smallest with
    | some c, some s => some (if c.gt s then child else smallest)
    | _, _ => none
  else some smallest

/-- `MaxHeap.bubbleDown`, one call per unit of fuel. -/
def MaxHeap.bubbleDownFuel : Nat → Mem → MaxHeap → Nat → Nat → Option (Mem × MaxHeap)
  | 0, _, _, _, _ => none
  | fuel + 1, mem, m, idx, el =>
    match m.pick mem (2 * idx) idx with
    | none => none
    | some s1 =>
      match m.pick mem (2 * idx + 1) s1 with
      | none => none
      | some smallest =>
        if smallest ≠ idx then
          match m.swap mem idx smallest with
          | some (mem1, m1) => MaxHeap.bubbleDownFuel fuel mem1 m1 smallest el
          | none => none
        else some (mem, m)

/-- `MaxHeap.bubbleDown`. -/
def MaxHeap.bubbleDown (mem : Mem) (m : MaxHeap) (idx : Nat) (el : Nat) : Option (Mem × MaxHeap) :=
  MaxHeap.bubbleDownFuel (m.values.length + 1) mem m idx el

/-- `MaxHeap.insert`. -/
def MaxHeap.insert (mem : Mem) (m : MaxHeap) (el : Nat) : Option (Mem × MaxHeap) :=
  match mem[el]? with
  | some e =>
    let mem1 := mem.set el { e with heapIndex := m.values.length }
    let m1 : MaxHeap := { values := m.values ++ [el] }
    m1.bubbleUp mem1 (m1.values.length - 1) el
  | none => none

/-- `MaxHeap.delete`. -/
def MaxHeap.delete (mem : Mem) (m : MaxHeap) (e : Nat) : Option (Mem × MaxHeap) :=
  if m.values.length = 0 then none
  else
    match m.values[m.values.length - 1]? with
    | some lastEl =>
      match mem[e]?, mem[lastEl]? with
      | some ee, some le =>
        match m.swap mem ee.heapIndex le.heapIndex with
        | some (mem1, m1) =>
          let m2 : MaxHeap := { values := m1.values.take (m1.values.length - 1) }
          match mem1[lastEl]? with
          | some le1 => m2.bubbleDown mem1 le1.heapIndex lastEl
          | none => none
        | none => none
      | _, _ => none
    | none => none

/-- `MaxHeap.getMax`: the pointer at index 1. -/
def MaxHeap.getMax (m : MaxHeap) : Option Nat := m.values[1]?

/-! ## Aggregator.go -/

/-- `SHORT_INTERVAL`: two minutes. -/
def SHORT_INTERVAL : Int := 2 * 60 * 1000000000

/-- `MEDIUM_INTERVAL`: ten minutes. -/
def MEDIUM_INTERVAL : Int := 10 * 60 * 1000000000

/-- `LONG_INTERAVL`: one hour. -/
def LONG_INTERAVL : Int := 3600 * 1000000000

/-- Go struct `Aggregator`. `first` is the newest and `last` the oldest element
of the queue. The maps are read with the default 0 of a missing key. The field
`mem` holds the objects reachable from the aggregator: the sentinel of its heap
and the copies `e` of the arguments of `Add`, whose addresses `&e` it stores. -/
structure Aggregator where
  duration : Int
  website : String
  last : Option Nat
  first : Option Nat
  heap : MaxHeap
  count : Int
  errorCount : Int
  sumResTime : Int
  statusCount : Int → Int
  statusAgg : Int → Int
  AlertStatus : Bool
  mem : Mem

/-- Go struct `Aggregators`. -/
structure Aggregators where
  Short : Aggregator
  Medium : Aggregator
  Long : Aggregator

/-- One of the three literals of `NewAggregators`. -/
def NewAggregator (duration : Int) (website : String) : Aggregator :=
  { duration := duration, website := website, last := none, first := none,
    heap := (NewMaxHeap []).2, count := 0, errorCount := 0, sumResTime := 0,
    statusCount := fun _ => 0, statusAgg := fun _ => 0, AlertStatus := false,
    mem := (NewMaxHeap []).1 }

/-- `NewAggregators`. -/
def NewAggregators (website : String) : Aggregators :=
  { Short := NewAggregator SHORT_INTERVAL website,
    Medium := NewAggregator MEDIUM_INTERVAL website,
    Long := NewAggregator LONG_INTERAVL website }

/-- `d.Seconds() * 1000` in `float64` for a duration of `d >= 0` nanoseconds,
as a fraction. `Seconds` returns `float64(sec) + float64(nsec)/1e9` with
`sec = d / Second` and `nsec = d % Second`; the two conversions are exact, the
quotient, the sum and the product by 1000 are each rounded. -/
def secondsTimes1000 (d : Nat) : Nat × Nat :=
  let sec := d / 1000000000
  let nsec := d % 1000000000
  let q := Float64.round nsec 1000000000
  let s := Float64.round (sec * q.2 + q.1) q.2
  Float64.round (s.1 * 1000) s.2

/-- `int64(math.Floor(d.Seconds() * 1000))`, the milliseconds `Add` and
`GetMaxResTime` take from a duration. For a negative duration `sec` and `nsec`
are negative, every rounding is mirrored and the floor is minus the ceiling. -/
def resMillis (d : Int) : Int :=
  let p := secondsTimes1000 d.natAbs
  if 0 ≤ d then ((p.1 / p.2 : Nat) : Int) else -(((p.1 + p.2 - 1) / p.2 : Nat) : Int)

/-- Map update `m[k] += delta` on a map read with default 0. -/
def mapAdd (m : Int → Int) (k delta : Int) : Int → Int :=
  fun x => if x = k then m x + delta else m x

/-- `Add`, lines 88-94: `&e` is appended to the newest end of the queue. -/
def Aggregator.link (a : Aggregator) (e : QueueElement) : Option Aggregator :=
  let p : Nat := a.mem.length
  let mem0 := a.mem ++ [e]
  match a.first with
  | some f =>
    match mem0[f]? with
    | some fe => some { a with mem := mem0.set f { fe with next := some p }, first := some p }
    | none => none
  | none => some { a with mem := mem0, first := some p }

/-- `Add`, line 97: `a.heap.insert(&e)`, where `&e` is now `a.first`. -/
def Aggregator.heapInsert (a : Aggregator) : Option Aggregator :=
  match a.first with
  | some p =>
    match a.heap.insert a.mem p with
    | some (mem1, heap1) => some { a with mem := mem1, heap := heap1 }
    | none => none
  | none => none

/-- `Add`, lines 99-107: the counters take the newest element in. -/
def Aggregator.countIn (a : Aggregator) : Option Aggregator :=
  match a.first with
  | some p =>
    match a.mem[p]? with
    | some fe =>
      if fe.Value.Error.isSome then some { a with errorCount := a.errorCount + 1 }
      else
        some { a with
          count := a.count + 1
          sumResTime := wrapInt64 (a.sumResTime + resMillis fe.Value.ResponseTime)
          statusCount := mapAdd a.statusCount fe.Value.Status 1
          statusAgg := mapAdd a.statusAgg (fe.Value.Status.tdiv 100) 1 }
    | none => none
  | none => none

/-- `Add`, lines 109-111: the first element added is also the oldest. -/
def Aggregator.initLast (a : Aggregator) : Aggregator :=
  match a.last with
  | none => { a with last := a.first }
  | some _ => a

/-- `Add`, lines 116-123: the counters give the element `last` back. -/
def Aggregator.countOut (a : Aggregator) (last : QueueElement) : Aggregator :=
  if last.Value.Error.isSome then { a with errorCount := a.errorCount - 1 }
  else
    { a with
      count := a.count - 1
      sumResTime := wrapInt64 (a.sumResTime - resMillis last.Value.ResponseTime)
      statusCount := mapAdd a.statusCount last.Value.Status (-1)
      statusAgg := mapAdd a.statusAgg (last.Value.Status.tdiv 100) (-1) }

/-- `Add`, lines 113-127: the expiry loop, one test of the condition per unit
of fuel. -/
def Aggregator.expire : Nat → Aggregator → Option Aggregator
  | 0, _ => none
  | fuel + 1, a =>
    match a.last, a.first with
    | some lp, some fp =>
      match a.mem[lp]?, a.mem[fp]? with
      | some l, some f =>
        if l.Timestamp + a.duration < f.Timestamp then
          let a1 := a.countOut l
          match a1.heap.delete a1.mem lp with
          | some (mem1, heap1) =>
            match mem1[lp]? with
            | some l1 => Aggregator.expire fuel { a1 with mem := mem1, heap := heap1, last := l1.next }
            | none => none
          | none => none
        else some a
      | _, _ => none
    | _, _ => none

/-- `GetAvailability`, also the local `availability` of `Add`. -/
def Aggregator.availability (a : Aggregator) : Float32 :=
  Float32.quot (a.statusCount 200) (a.count + a.errorCount)

/-- `Add`, lines 129-155: the alert decision and the returned pair. The
constant `0.80` is the fraction 4/5, compared as a `float32`. -/
def Aggregator.emit (a : Aggregator) : Option (Aggregator × Option String × Alert) :=
  let availability := a.availability
  if availability.leConst 4 5 && a.AlertStatus == false then
    match a.first with
    | some fp =>
      match a.mem[fp]? with
      | some f =>
        some ({ a with AlertStatus := true }, none,
          { Init := true, Url := a.website, Timestamp := f.Timestamp, Value := availability,
            Message := Message.down a.website availability f.Timestamp })
      | none => none
    | none => none
  else if availability.gtConst 4 5 && a.AlertStatus == true then
    match a.first with
    | some fp =>
      match a.mem[fp]? with
      | some f =>
        some ({ a with AlertStatus := false }, none,
          { Init := true, Url := a.website, Timestamp := f.Timestamp, Value := availability,
            Message := Message.upAgain a.website availability f.Timestamp })
      | none => none
    | none => none
  else some (a, none, Alert.zero)

/-- `Aggregator.Add`: the new state, the returned error and the returned alert;
`none` when the call does not return. -/
def Aggregator.Add (a : Aggregator) (e : QueueElement) : Option (Aggregator × Option String × Alert) :=
  match a.link e with
  | none => none
  | some a1 =>
    match a1.heapInsert with
    | none => none
    | some a2 =>
      match a2.countIn with
      | none => none
      | some a3 =>
        match (a3.initLast).expire a3.mem.length with
        | none => none
        | some a4 => a4.emit

/-- `GetAvgResTime`. -/
def Aggregator.GetAvgResTime (a : Aggregator) : Float32 × Option String :=
  (Float32.quot a.sumResTime a.count, none)

/-- `GetStatusCount`. -/
def Aggregator.GetStatusCount (a : Aggregator) (status : Int) : Int × Option String :=
  (a.statusCount status, none)

/-- `GetStatusAgg`. -/
def Aggregator.GetStatusAgg (a : Aggregator) (firstDigit : Int) : Float32 × Option String :=
  (Float32.quot (a.statusAgg firstDigit) a.count, none)

/-- `GetMaxResTime`: `none` when `getMax` indexes past the end of the heap. -/
def Aggregator.GetMaxResTime (a : Aggregator) : Option (Float32 × Option String) :=
  match a.heap.getMax with
  | some p =>
    match a.mem[p]? with
    | some e => some (Float32.ofInt (resMillis e.Value.ResponseTime), none)
    | none => none
  | none => none

/-- `GetErrorCount`. -/
def Aggregator.GetErrorCount (a : Aggregator) : Int × Option String := (a.errorCount, none)

/-- `GetCount`. -/
def Aggregator.GetCount (a : Aggregator) : Int × Option String := (a.count, none)

/-! ## Observations used to state the properties -/

/-- The elements of the queue from `p` up to and including `first`, following
the `next` pointers. -/
def walk (mem : Mem) (first : Option Nat) : Nat → Option Nat → List QueueElement
  | 0, _ => []
  | _ + 1, none => []
  | fuel + 1, some p =>
    match mem[p]? with
    | none => []
    | some e => if some p = first then [e] else e :: walk mem first fuel e.next

/-- The window: the queue of the aggregator, oldest to newest. -/
def Aggregator.window (a : Aggregator) : List QueueElement :=
  walk a.mem a.first a.mem.length a.last

/-- What an element carries of the event it was made from. -/
def QueueElement.event (e : QueueElement) : PingLog × Int := (e.Value, e.Timestamp)

/-- The state after adding the events in order, `none` if some `Add` fails. -/
def addAll : Aggregator → List QueueElement → Option Aggregator
  | a, [] => some a
  | a, e :: es =>
    match a.Add e with
    | some r => addAll r.1 es
    | none => none

/-- The states and alerts after each `Add` of a run, in order. -/
def trace : Aggregator → List QueueElement → List (Option (Aggregator × Alert))
  | _, [] => []
  | a, e :: es =>
    match a.Add e with
    | some r => some (r.1, r.2.2) :: trace r.1 es
    | none => [none]

/-! ## Heap structure: back-indices and frame -/

/-- The part of an element that the heap never writes. -/
def QueueElement.core (e : QueueElement) : PingLog × Int × Option Nat :=
  (e.Value, e.Timestamp, e.next)

/-- Two memories hold the same objects up to the stored back-indices. -/
def SameCore (mem mem' : Mem) : Prop :=
  mem'.map QueueElement.core = mem.map QueueElement.core

/-- Back-index property: the element stored at index `i` records `i`. -/
def BackIdx (mem : Mem) (vals : List Nat) : Prop :=
  ∀ (i : Nat) (v : Nat), vals[i]? = some v → ∃ e : QueueElement, mem[v]? = some e ∧ e.heapIndex = i

/-- Every response time fits the sentinel's `math.MaxInt64`. -/
def Bounded (mem : Mem) : Prop := ∀ e ∈ mem, e.Value.ResponseTime ≤ maxInt64

/-- Structural invariant of a heap: valid back-indices, the sentinel at index 0
and no key above the sentinel's. -/
structure HeapOK (mem : Mem) (vals : List Nat) : Prop where
  back : BackIdx mem vals
  top : ∃ s : QueueElement, MaxHeap.elemAt mem ⟨vals⟩ 0 = some s ∧ s.Value.ResponseTime = maxInt64
  bound : Bounded mem

/-! ## Counters of a window -/

/-- The probe carries no error. -/
def PingLog.ok (v : PingLog) : Bool := v.Error.isNone

/-- Number of error-absent probes. -/
def nOk (vs : List PingLog) : Nat := vs.countP PingLog.ok

/-- Number of error-present probes. -/
def nErr (vs : List PingLog) : Nat := vs.countP (fun v => !v.ok)

/-- Sum of the milliseconds `resMillis` of the error-absent probes. -/
def sumMs (vs : List PingLog) : Int :=
  ((vs.filter PingLog.ok).map (fun v => resMillis v.ResponseTime)).sum

/-- Number of error-absent probes with status `c`. -/
def nStatus (vs : List PingLog) (c : Int) : Nat :=
  vs.countP (fun v => v.ok && decide (v.Status = c))

/-- Number of error-absent probes whose status divided by 100 is `d`. -/
def nClass (vs : List PingLog) (d : Int) : Nat :=
  vs.countP (fun v => v.ok && decide (v.Status.tdiv 100 = d))

/-- The counters of the aggregator are those of the probes `vs`. -/
structure Counted (a : Aggregator) (vs : List PingLog) : Prop where
  count : a.count = nOk vs
  errorCount : a.errorCount = nErr vs
  sumResTime : a.sumResTime = wrapInt64 (sumMs vs)
  statusCount : ∀ c, a.statusCount c = nStatus vs c
  statusAgg : ∀ d, a.statusAgg d = nClass vs d

/-! ## The invariant of `Add` -/

/-- The counters after taking the probe `v` in (the two branches of `countIn`). -/
def Aggregator.counting (a : Aggregator) (v : PingLog) : Aggregator :=
  if v.Error.isSome then { a with errorCount := a.errorCount + 1 }
  else
    { a with
      count := a.count + 1
      sumResTime := wrapInt64 (a.sumResTime + resMillis v.ResponseTime)
      statusCount := mapAdd a.statusCount v.Status 1
      statusAgg := mapAdd a.statusAgg (v.Status.tdiv 100) 1 }

/-- State of an aggregator that has been given the events `es` and whose
oldest kept element is the `l`-th of them (counting from 1): layout of the
memory, queue pointers, heap structure, counters, and the reason each
dropped element was dropped. -/
structure Inv (a : Aggregator) (es : List QueueElement) (l : Nat) : Prop where
  len : a.mem.length = es.length + 1
  cells : ∀ (j : Nat) (x : QueueElement), es[j]? = some x →
    ∃ y : QueueElement, a.mem[j + 1]? = some y ∧ y.event = x.event
  lpos : 1 ≤ l
  ends : (es = [] ∧ l = 1 ∧ a.last = none ∧ a.first = none) ∨
    (l ≤ es.length ∧ a.last = some l ∧ a.first = some es.length)
  chain : ∀ j : Nat, l ≤ j → j < es.length →
    ∃ y : QueueElement, a.mem[j]? = some y ∧ y.next = some (j + 1)
  heap : HeapOK a.mem a.heap.values
  root : a.heap.values[0]? = some 0
  members : ∀ v : Nat, v ∈ a.heap.values ↔ v = 0 ∨ (l ≤ v ∧ v ≤ es.length)
  hlen : a.heap.values.length + l = es.length + 2
  counted : Counted a ((es.drop (l - 1)).map (fun e => e.Value))
  hist : ∀ (j : Nat) (x : QueueElement), j + 1 < l → es[j]? = some x →
    ∃ (k : Nat) (y : QueueElement), j < k ∧ es[k]? = some y ∧
      x.Timestamp + a.duration < y.Timestamp

/-! ## The alert decision -/

/-- The "down" alert of `Add` for the state `a` and the newest timestamp. -/
def downAlert (a : Aggregator) (ts : Int) : Alert :=
  { Init := true, Url := a.website, Timestamp := ts, Value := a.availability,
    Message := Message.down a.website a.availability ts }

/-- The "up again" alert of `Add` for the state `a` and the newest timestamp. -/
def upAlert (a : Aggregator) (ts : Int) : Alert :=
  { Init := true, Url := a.website, Timestamp := ts, Value := a.availability,
    Message := Message.upAgain a.website a.availability ts }

/-- The test `availability <= 0.80` of `Add`, in `float32`. -/
def Aggregator.low (a : Aggregator) : Bool := a.availability.leConst 4 5

/-- The test `availability > 0.8` of `Add`, in `float32`. -/
def Aggregator.high (a : Aggregator) : Bool := a.availability.gtConst 4 5

/-- The three outcomes of the alert decision of an `Add` that leaves the state
`a`: `old` is the alert flag before the call, `ts` the timestamp of the newest
element and `alert` the alert returned. Availability is that of `a`, computed
after insertion and expiry. -/
def AlertRule (old : Bool) (a : Aggregator) (ts : Int) (alert : Alert) : Prop :=
  (a.low = true ∧ old = false ∧ a.AlertStatus = true ∧ alert = downAlert a ts) ∨
  (a.high = true ∧ old = true ∧ a.AlertStatus = false ∧ alert = upAlert a ts) ∨
  (¬ (a.low = true ∧ old = false) ∧ ¬ (a.high = true ∧ old = true) ∧
    a.AlertStatus = old ∧ alert = Alert.zero)

/-! ## Fields that `Add` only changes in its alert decision -/

/-- The aggregators agree on duration, website and alert flag. -/
def SameSetup (a b : Aggregator) : Prop :=
  b.duration = a.duration ∧ b.website = a.website ∧ b.AlertStatus = a.AlertStatus

/-! ## `Add` on the states it reaches -/

/-- State of an aggregator after at least one `Add`: the invariant, the window
bound and the alert flag mirroring the availability. -/
structure Settled (a : Aggregator) (es : List QueueElement) (l : Nat) : Prop where
  inv : Inv a es l
  nonempty : es ≠ []
  lle : l ≤ es.length
  first : a.first = some es.length
  last : a.last = some l
  bound : ∃ x y : QueueElement, es[l - 1]? = some x ∧ es[es.length - 1]? = some y ∧
    ¬ (x.Timestamp + a.duration < y.Timestamp)
  flag : a.AlertStatus = a.low

/-! ## Fixtures -/

/-- A probe without error, as `AggLog` and the tests wrap it in a
`QueueElement`: time in seconds, status code, response time in milliseconds. -/
def probe (seconds status millis : Int) : QueueElement :=
  { Value :=
      { Time := seconds * 1000000000, Website := "", Error := none, Status := status,
        ResponseTime := millis * 1000000 },
    Timestamp := seconds * 1000000000, next := none, heapIndex := 0 }

/-- The fixture `pingLogs` of Aggregator_test.go, wrapped as the tests do;
times are seconds after 11:10:00. -/
def pingLogs : List QueueElement :=
  [probe 0 200 50, probe 60 200 50, probe 120 200 50, probe 180 500 80, probe 240 200 50,
   probe 300 200 50, probe 390 200 50, probe 450 401 50]

/-- The integer a `float32` value equals, when it is one. -/
def Float32.whole? (x : Float32) : Option Int :=
  if x.den ≠ 0 ∧ x.num % x.den = 0 then some (x.num / x.den) else none

/-- What the tests of Aggregator_test.go read after an `Add`. -/
structure Snapshot where
  alert : Bool
  count : Int
  avg : Option Int
  max : Option Int
  n200 : Int
  n500 : Int
  n401 : Int
deriving DecidableEq, Repr

/-- The readings of the tests after an `Add`: the flag `Init` of the returned
alert, `GetCount`, `GetAvgResTime`, `GetMaxResTime` and `GetStatusCount` of
200, 500 and 401. -/
def observe (r : Aggregator × Alert) : Snapshot :=
  { alert := r.2.Init, count := r.1.GetCount.1, avg := r.1.GetAvgResTime.1.whole?,
    max := r.1.GetMaxResTime.bind (fun m => m.1.whole?),
    n200 := (r.1.GetStatusCount 200).1, n500 := (r.1.GetStatusCount 500).1,
    n401 := (r.1.GetStatusCount 401).1 }

/-- Seven probes 30 s to 60 s apart for which the heap loses its order. -/
def heapLossRun : List QueueElement :=
  [probe 0 200 10, probe 30 200 30, probe 60 200 30, probe 90 200 20, probe 120 200 10,
   probe 150 200 30, probe 210 200 10]

/-- The events of scenario S6: t = 0, 119 s and 121 s. -/
def expiryRun : List QueueElement := [probe 0 200 50, probe 119 200 50, probe 121 200 50]

/-- A failed probe as `Pinger.Start` reports it: an error and status 0. -/
def failure (seconds millis : Int) : QueueElement :=
  { Value :=
      { Time := seconds * 1000000000, Website := "", Error := some "timeout", Status := 0,
        ResponseTime := millis * 1000000 },
    Timestamp := seconds * 1000000000, next := none, heapIndex := 0 }

/-- A run with a failed probe and two status classes; the last probe expires
the first. -/
def mixedRun : List QueueElement :=
  [probe 0 200 50, failure 30 1000, probe 60 404 70, probe 90 200 40, probe 130 200 45]

/-- Four probes with status 200 followed by one with status 500. -/
def fourOfFive : List QueueElement :=
  [probe 0 200 50, probe 10 200 50, probe 20 200 50, probe 30 200 50]

/-- The element `last` points to. -/
def Aggregator.oldest (a : Aggregator) : Option QueueElement :=
  match a.last with
  | some p => a.mem[p]?
  | none => none

/-- The element `first` points to. -/
def Aggregator.newest (a : Aggregator) : Option QueueElement :=
  match a.first with
  | some p => a.mem[p]?
  | none => none

/-! ## Report.go -/

/-- Go struct `Measures`. -/
structure Measures where
  Period : String
  AvgRes : Float32
  MaxRes : Float32
  Share2XX : Float32
  Share5XX : Float32
  Share3XX : Float32
  Share4XX : Float32
  Availability : Float32
  UnsuccessfulRate : Float32
deriving DecidableEq, Repr

/-- Go struct `Report`. -/
structure Report where
  Url : String
  Active : Bool
  CheckInterval : Int
  ShortTerm : Measures
  MediumTerm : Measures
  LongTerm : Measures
deriving DecidableEq, Repr

/-- Modelled from the spec: the struct `Website`, whose declaration is not
among the sources. The spec's endpoint configuration is a URL and a
`CheckInterval` in milliseconds; the callers build it as
`Website{Url: url, CheckInterval: interval}`. -/
structure Website where
  Url : String
  CheckInterval : Int
deriving DecidableEq, Repr

/-- One of the three `Measures` literals of `NewReport`: every value is `-1`. -/
def newMeasures (period : String) : Measures :=
  { Period := period, AvgRes := Float32.ofInt (-1), MaxRes := Float32.ofInt (-1),
    Share2XX := Float32.ofInt (-1), Share5XX := Float32.ofInt (-1),
    Share3XX := Float32.ofInt (-1), Share4XX := Float32.ofInt (-1),
    Availability := Float32.ofInt (-1), UnsuccessfulRate := Float32.ofInt (-1) }

/-- `NewReport`: the report and the nil error. -/
def NewReport (website : Website) : Report × Option String :=
  ({ Active := false, Url := website.Url, CheckInterval := website.CheckInterval,
     ShortTerm := newMeasures "Past 2 min", MediumTerm := newMeasures "Past 10 min",
     LongTerm := newMeasures "Past 1 hour" }, none)

/-! ## Pinger.go -/

/-- Go struct `Pinger`, without its channel and HTTP client. `addr` is the
address of the object: the map of the orchestrator and the goroutine of
`go pinger.Start()` both hold a pointer to it. -/
structure Pinger where
  Url : String
  Interval : Int
  IsRunning : Bool
  addr : Nat
deriving DecidableEq, Repr

/-- `NewPinger`, allocated at `addr`. -/
def NewPinger (addr : Nat) (website : Website) : Pinger :=
  { Url := website.Url, Interval := website.CheckInterval, IsRunning := false, addr := addr }

/-- `Pinger.Start`, its first statement `p.IsRunning = true`; the probing loop
that follows is not modelled. -/
def Pinger.Start (p : Pinger) : Pinger := { p with IsRunning := true }

/-- `Pinger.Pause`. -/
def Pinger.Pause (p : Pinger) : Pinger := { p with IsRunning := false }

/-! ## Orchestrator.go -/

/-- A Go `map[string]V` as the list of its entries, one per key. -/
structure GoMap (V : Type) where
  entries : List (String × V)

/-- `make(map[string]V)`. -/
def GoMap.empty {V : Type} : GoMap V := ⟨[]⟩

/-- `v, ok := m[k]`. -/
def GoMap.get {V : Type} (m : GoMap V) (k : String) : Option V := m.entries.lookup k

/-- `m[k] = v`. -/
def GoMap.set {V : Type} (m : GoMap V) (k : String) (v : V) : GoMap V :=
  ⟨(k, v) :: m.entries.filter (fun kv => kv.1 != k)⟩

/-- `delete(m, k)`. -/
def GoMap.del {V : Type} (m : GoMap V) (k : String) : GoMap V :=
  ⟨m.entries.filter (fun kv => kv.1 != k)⟩

/-- Go struct `Orchestrator`. The channel `alerts` is the list of the alerts
sent on it, oldest first; the channel `pipeline` is not kept: what arrives on
it is the argument of `AggLog`. `spawned` holds the addresses of the probers
for which `go pinger.Start()` has launched a goroutine that has not yet run,
and `nextAddr` is the next free address. -/
structure Orchestrator where
  alerts : List Alert
  pingers : GoMap Pinger
  aggregators : GoMap Aggregators
  reports : GoMap Report
  spawned : List Nat
  nextAddr : Nat

/-- `GetOrchestrator`, the literal it builds: three empty maps. The `sync.Once`
and the dispatcher goroutine are not modelled. -/
def GetOrchestrator : Orchestrator :=
  { alerts := [], pingers := GoMap.empty, aggregators := GoMap.empty, reports := GoMap.empty,
    spawned := [], nextAddr := 0 }

/-- The alert literal of the lifecycle operations: `Init` true, `Value` 0. -/
def lifecycleAlert (url : String) (now : Int) (message : String) : Alert :=
  { Url := url, Init := true, Timestamp := now, Message := Message.text message,
    Value := Float32.ofInt 0 }

/-- The `QueueElement` literal of `AggLog`. -/
def wrapper (log : PingLog) : QueueElement :=
  { Value := log, Timestamp := log.Time, next := none, heapIndex := 0 }

/-- `Orchestrator.AggLog`: the new state and the returned error; `none` when
an `Add` does not return. -/
def Orchestrator.AggLog (o : Orchestrator) (log : PingLog) :
    Option (Orchestrator × Option String) :=
  match o.aggregators.get log.Website with
  | none => some (o, some ("NO AGGREGATOR FOR WEBSITE " ++ log.Website))
  | some agg =>
    match agg.Short.Add (wrapper log) with
    | none => none
    | some (short, err, alert) =>
      let agg1 : Aggregators := { agg with Short := short }
      match err with
      | some e => some ({ o with aggregators := o.aggregators.set log.Website agg1 }, some e)
      | none =>
        match agg1.Medium.Add (wrapper log) with
        | none => none
        | some (medium, err2, _) =>
          let agg2 : Aggregators := { agg1 with Medium := medium }
          match err2 with
          | some e => some ({ o with aggregators := o.aggregators.set log.Website agg2 }, some e)
          | none =>
            match agg2.Long.Add (wrapper log) with
            | none => none
            | some (long, err3, _) =>
              let agg3 : Aggregators := { agg2 with Long := long }
              let o3 : Orchestrator :=
                { o with aggregators := o.aggregators.set log.Website agg3 }
              match err3 with
              | some e => some (o3, some e)
              | none =>
                if alert.Init then some ({ o3 with alerts := o3.alerts ++ [alert] }, none)
                else some (o3, none)

/-- `Orchestrator.addAggregators`. -/
def Orchestrator.addAggregators (o : Orchestrator) (url : String) :
    Orchestrator × Option String :=
  match o.aggregators.get url with
  | some _ => (o, some ("WEBSITE " ++ url ++ " ALREADY HAVE AGGREGATORS"))
  | none => ({ o with aggregators := o.aggregators.set url (NewAggregators url) }, none)

/-- `Orchestrator.deleteAggregators`. -/
def Orchestrator.deleteAggregators (o : Orchestrator) (url : String) :
    Orchestrator × Option String :=
  match o.aggregators.get url with
  | none => (o, some ("WEBSITE " ++ url ++ " HAS NO AGGREGATORS"))
  | some _ => ({ o with aggregators := o.aggregators.del url }, none)

/-- `Orchestrator.Register`; `now` is the value of `time.Now()`. -/
def Orchestrator.Register (o : Orchestrator) (website : Website) (now : Int) :
    Orchestrator × Option String :=
  match o.pingers.get website.Url with
  | some _ =>
    ({ o with alerts := o.alerts ++ [lifecycleAlert website.Url now
        ("Website " ++ website.Url ++ " is already registered for monitoring, aborting")] },
      some ("WEBSITE " ++ website.Url ++ " ALREADY REGISTERED"))
  | none =>
    let newPinger := NewPinger o.nextAddr website
    let o1 : Orchestrator :=
      { o with pingers := o.pingers.set website.Url newPinger, nextAddr := o.nextAddr + 1 }
    match o1.addAggregators website.Url with
    | (o2, some err) => (o2, some err)
    | (o2, none) =>
      let o3 : Orchestrator :=
        { o2 with reports := o2.reports.set website.Url (NewReport website).1 }
      match (NewReport website).2 with
      | some err => (o3, some err)
      | none =>
        ({ o3 with alerts := o3.alerts ++ [lifecycleAlert website.Url now
            ("Website " ++ website.Url ++ " is registered for monitoring")] }, none)

/-- `Orchestrator.Unregister`; `now` is the value of `time.Now()`. -/
def Orchestrator.Unregister (o : Orchestrator) (url : String) (now : Int) :
    Orchestrator × Option String :=
  match o.pingers.get url with
  | none =>
    ({ o with alerts := o.alerts ++ [lifecycleAlert url now
        ("Website " ++ url ++ " is not registered, aborting")] },
      some ("WEBSITE " ++ url ++ " IS NOT REGISTERED"))
  | some pinger =>
    if pinger.IsRunning then
      ({ o with alerts := o.alerts ++ [lifecycleAlert url now
          ("Website " ++ url ++ " is still running, aborting")] },
        some ("PINGER FOR WEBSITE " ++ url ++ " IS STILL RUNNING"))
    else
      let o1 : Orchestrator :=
        { o with pingers := o.pingers.del url, reports := o.reports.del url }
      match o1.deleteAggregators url with
      | (o2, err) =>
        ({ o2 with alerts := o2.alerts ++ [lifecycleAlert url now
            ("Website " ++ url ++ " is unregistered")] }, err)

/-- `Orchestrator.Start`: the new state and the returned pair; `none` when the
report of a registered prober is missing (nil dereference). The goroutine of
`go pinger.Start()` is recorded in `spawned`. -/
def Orchestrator.Start (o : Orchestrator) (website : String) (now : Int) :
    Option (Orchestrator × Bool × Option String) :=
  match o.pingers.get website with
  | none => some (o, false, some ("WEBSITE " ++ website ++ " IS NOT REGISTERED"))
  | some pinger =>
    if !pinger.IsRunning then
      match o.reports.get website with
      | none => none
      | some r =>
        some ({ o with
            reports := o.reports.set website { r with Active := true }
            spawned := o.spawned ++ [pinger.addr]
            alerts := o.alerts ++ [lifecycleAlert website now
              ("Website " ++ website ++ " monitoring has started")] }, true, none)
    else some (o, false, none)

/-- `Orchestrator.Pause`: the new state and the returned pair; `none` when the
report of a running prober is missing (nil dereference). -/
def Orchestrator.Pause (o : Orchestrator) (url : String) (now : Int) :
    Option (Orchestrator × Bool × Option String) :=
  match o.pingers.get url with
  | none => some (o, false, some ("WEBSITE " ++ url ++ " IS NOT REGISTERED"))
  | some pinger =>
    if pinger.IsRunning then
      match o.reports.get url with
      | none => none
      | some r =>
        some ({ o with
            reports := o.reports.set url { r with Active := false }
            pingers := o.pingers.set url pinger.Pause
            alerts := o.alerts ++ [lifecycleAlert url now
              ("Website " ++ url ++ " monitoring is paused")] }, true, none)
    else some (o, false, none)

/-- A goroutine launched by `go pinger.Start()` for the prober at `addr` runs
the first statement of `Pinger.Start`; nothing happens when no such goroutine
is waiting. -/
def Orchestrator.proberBegins (o : Orchestrator) (addr : Nat) : Orchestrator :=
  if addr ∈ o.spawned then
    { o with
      spawned := o.spawned.erase addr
      pingers := ⟨o.pingers.entries.map
        (fun kv => if kv.2.addr = addr then (kv.1, kv.2.Start) else kv)⟩ }
  else o

/-- What happens to an orchestrator: the calls of its operations, with the
value `time.Now()` takes in them, the probe events the dispatcher hands to
`AggLog`, and the launched prober goroutines starting to run. -/
inductive Call where
  | register (website : Website) (now : Int)
  | unregister (url : String) (now : Int)
  | start (url : String) (now : Int)
  | pause (url : String) (now : Int)
  | aggLog (log : PingLog)
  | proberBegins (addr : Nat)
deriving DecidableEq, Repr

/-- The state after one call; `none` when the call does not return. -/
def Orchestrator.call (o : Orchestrator) : Call → Option Orchestrator
  | Call.register website now => some (o.Register website now).1
  | Call.unregister url now => some (o.Unregister url now).1
  | Call.start url now => (o.Start url now).map (fun r => r.1)
  | Call.pause url now => (o.Pause url now).map (fun r => r.1)
  | Call.aggLog log => (o.AggLog log).map (fun r => r.1)
  | Call.proberBegins addr => some (o.proberBegins addr)

/-- The state after a sequence of calls. -/
def Orchestrator.run : Orchestrator → List Call → Option Orchestrator
  | o, [] => some o
  | o, c :: cs =>
    match o.call c with
    | some o1 => Orchestrator.run o1 cs
    | none => none


/-! ## Invariants of the orchestrator -/

/-- Registry invariant: the three maps have the same keys. -/
def Orchestrator.KeysAgree (o : Orchestrator) : Prop :=
  ∀ url : String, (o.pingers.get url).isSome = (o.aggregators.get url).isSome ∧
    (o.pingers.get url).isSome = (o.reports.get url).isSome

/-- The three aggregators of `g` are those of `NewAggregators url` after the
probe events `logs`, each added once to each of them through `AggLog`. -/
structure Fed (g : Aggregators) (url : String) (logs : List PingLog) : Prop where
  bounded : ∀ l ∈ logs, l.ResponseTime ≤ maxInt64
  short : addAll (NewAggregators url).Short (logs.map wrapper) = some g.Short
  medium : addAll (NewAggregators url).Medium (logs.map wrapper) = some g.Medium
  long : addAll (NewAggregators url).Long (logs.map wrapper) = some g.Long

/-- Every registered triple of aggregators has been fed from a fresh one. -/
def Orchestrator.Sound (o : Orchestrator) : Prop :=
  ∀ (url : String) (g : Aggregators), o.aggregators.get url = some g →
    ∃ logs : List PingLog, Fed g url logs

/-- The probe events of the calls have response times in the range of `int64`. -/
def Call.bounded : Call → Prop
  | Call.aggLog log => log.ResponseTime ≤ maxInt64
  | _ => True


/-- The orchestrator of the tests after `Register` of the endpoint `example`. -/
def registered : Orchestrator := (GetOrchestrator.Register ⟨"example", 100⟩ 0).1

/-! ## main.go -/

/-- `DEFAULT_CHECKING_INTERVAL`. -/
def DEFAULT_CHECKING_INTERVAL : Int := 1000

/-- The pieces of a list of characters between the occurrences of `sep`: one
more than there are occurrences. -/
def splitChars (sep : Char) : List Char → List (List Char)
  | [] => [[]]
  | c :: cs =>
    if c = sep then [] :: splitChars sep cs
    else
      match splitChars sep cs with
      | [] => [[c]]
      | f :: fs => (c :: f) :: fs

/-- `strings.Split(s, sep)` of the Go standard library for a separator of one
character, as `parseConfig` calls it. -/
def strings.Split (s : String) (sep : Char) : List String :=
  (splitChars sep s.data).map String.mk

/-- The first position at or after `i` at which `substr` occurs, `-1` when
there is none. -/
def indexFrom (substr : List Char) : List Char → Nat → Int
  | [], i => if substr.isPrefixOf [] then (i : Int) else -1
  | c :: cs, i => if substr.isPrefixOf (c :: cs) then (i : Int) else indexFrom substr cs (i + 1)

/-- `strings.Index(s, substr)` of the Go standard library, with positions
counted in characters; `parseConfig` only compares the result with 0. -/
def strings.Index (s substr : String) : Int := indexFrom substr.data s.data 0

/-- The value of a string of decimal digits read after the value `n`; `none`
at a character that is not a digit. -/
def digitsValue : List Char → Nat → Option Nat
  | [], n => some n
  | c :: cs, n => if c.isDigit then digitsValue cs (n * 10 + (c.toNat - 48)) else none

/-- `strconv.Atoi` of the Go standard library with a 64-bit `int`: an optional
sign and at least one decimal digit, with a value in the range of `int`;
`none` stands for a non-nil error. -/
def strconv.Atoi (s : String) : Option Int :=
  match s.data with
  | [] => none
  | '-' :: ds =>
    if ds.isEmpty then none
    else (digitsValue ds 0).bind (fun n => if n ≤ 2 ^ 63 then some (-(n : Int)) else none)
  | '+' :: ds =>
    if ds.isEmpty then none
    else (digitsValue ds 0).bind (fun n => if n < 2 ^ 63 then some (n : Int) else none)
  | ds => (digitsValue ds 0).bind (fun n => if n < 2 ^ 63 then some (n : Int) else none)

/-- The body of the loop of `parseConfig` from `scanner.Text()` to the literal
`website`: the endpoint built for a line, or the message of the error
returned. -/
def parseLine (line : String) : Except String Website :=
  let params := strings.Split line ','
  if params.length > 2 then Except.error "INVALID CONFIG FILE: 1 WEBSITE PER lINE"
  else
    let url :=
      if !(strings.Index (params.getD 0 "") "http://" == 0 ||
          strings.Index (params.getD 0 "") "https://" == 0) then
        "http://" ++ params.getD 0 ""
      else params.getD 0 ""
    if params.length = 2 then
      match strconv.Atoi (params.getD 1 "") with
      | none => Except.error "INVALID CONFIG FILE: INTERVAL MUST BE INTEGER"
      | some interval => Except.ok { Url := url, CheckInterval := interval }
    else Except.ok { Url := url, CheckInterval := DEFAULT_CHECKING_INTERVAL }

/-- The loop of `parseConfig` over the remaining lines, with the values of
`websites`, `urls` and `foundUrls`; the nil slices of an error return are the
empty lists. -/
def parseConfig.loop : List String → List Website → List String → GoMap Bool →
    List Website × List String × Option String
  | [], websites, urls, _ => (websites, urls, none)
  | line :: rest, websites, urls, foundUrls =>
    match parseLine line with
    | Except.error e => ([], [], some e)
    | Except.ok website =>
      match foundUrls.get website.Url with
      | none =>
        parseConfig.loop rest (websites ++ [website]) (urls ++ [website.Url])
          (foundUrls.set website.Url true)
      | some _ => parseConfig.loop rest websites urls foundUrls

/-- The loop of `parseConfig` from its start, on the lines that the scanner
delivers. -/
def parseConfig.onLines (lines : List String) : List Website × List String × Option String :=
  parseConfig.loop lines [] [] GoMap.empty

/-- `bufio.MaxScanTokenSize`: the size up to which a `bufio.Scanner` lets its
buffer grow. -/
def MaxScanTokenSize : Nat := 64 * 1024

/-- The number of bytes of a text in UTF-8, which is the length of the Go
string that holds it. -/
def byteLength : List Char → Nat
  | [] => 0
  | c :: cs => c.utf8Size + byteLength cs

/-- `dropCR` of package `bufio`: a carriage return at the end is dropped. -/
def dropCR (data : List Char) : List Char :=
  if data.getLast? = some '\r' then data.dropLast else data

/-- The raw lines of a text read after the characters `cur` of the current
line: each piece that a newline ends, and what follows the last newline when
it is not empty. -/
def rawLines.go : List Char → List Char → List (List Char)
  | [], cur => if cur.isEmpty then [] else [cur]
  | c :: cs, cur => if c = '\n' then cur :: rawLines.go cs [] else rawLines.go cs (cur ++ [c])

/-- The raw lines of a file, without their newlines. -/
def rawLines (file : String) : List (List Char) := rawLines.go file.data []

/-- The lines of a file as `bufio.ScanLines` cuts them: without the newline
and without a carriage return before it. -/
def fileLines (file : String) : List String :=
  (rawLines file).map (fun raw => String.mk (dropCR raw))

/-- The calls of `Scan` on a `bufio.Scanner` of the Go standard library made
by `bufio.NewScanner`, with the split function `ScanLines` and a buffer that
grows to `MaxScanTokenSize` bytes: the lines that `Text` delivers in turn, and
the value of `Err` after the last call. A raw line that fills the buffer
before its newline is read ends the scan with `ErrTooLong`; a line shorter
than the buffer is delivered. -/
def bufio.scan : List (List Char) → List String × Option String
  | [] => ([], none)
  | raw :: rest =>
    if MaxScanTokenSize ≤ byteLength raw then ([], some "bufio.Scanner: token too long")
    else (String.mk (dropCR raw) :: (bufio.scan rest).1, (bufio.scan rest).2)

/-- `parseConfig`, on the text of the file (a file that `os.Open` opens and
that is read to its end without an input error): the loop over the lines of
the scanner, then the check of `scanner.Err()`. -/
def parseConfig (file : String) : List Website × List String × Option String :=
  match parseConfig.loop (bufio.scan (rawLines file)).1 [] [] GoMap.empty with
  | (_, _, some e) => ([], [], some e)
  | (websites, urls, none) =>
    match (bufio.scan (rawLines file)).2 with
    | some e => ([], [], some e)
    | none => (websites, urls, none)

/-- A string that begins with `http://` or with `https://`. -/
def HasScheme (s : String) : Prop :=
  (∃ t : String, s = "http://" ++ t) ∨ (∃ t : String, s = "https://" ++ t)

/-- The endpoints `ws` added in turn to the list `acc`, each one unless the
list already holds an endpoint with its URL. -/
def keepFirst : List Website → List Website → List Website
  | acc, [] => acc
  | acc, w :: ws =>
    if w.Url ∈ acc.map (fun x => x.Url) then keepFirst acc ws else keepFirst (acc ++ [w]) ws

/-! ## Notions used to state the properties of `parseConfig` -/

/-- The value of a list of decimal digits, most significant first. -/
def digitsNat (ds : List Char) : Nat :=
  Nat.ofDigits 10 (ds.reverse.map (fun c => c.toNat - 48))

/-- The string `s` is the decimal notation of the integer `n`: an optional
sign followed by at least one decimal digit. -/
def Denotes (s : String) (n : Int) : Prop :=
  ∃ ds : List Char, ds ≠ [] ∧ (∀ c ∈ ds, c.isDigit = true) ∧
    ((s.data = ds ∧ n = (digitsNat ds : Int)) ∨ (s.data = '+' :: ds ∧ n = (digitsNat ds : Int)) ∨
      (s.data = '-' :: ds ∧ n = -(digitsNat ds : Int)))

/-- The number of commas of a line. -/
def commas (line : String) : Nat := line.data.count ','

/-- What follows the first comma of a line. -/
def secondField (line : String) : String :=
  String.mk ((line.data.dropWhile (fun c => c != ',')).drop 1)

/-- What precedes the first comma of a line (the whole line when it has
none). -/
def firstField (line : String) : String :=
  String.mk (line.data.takeWhile (fun c => c != ','))

/-- A line as the config format asks for it: at most one comma, and after the
comma the decimal notation of an integer in the range of `int`. -/
def GoodLine (line : String) : Prop :=
  commas line ≤ 1 ∧
    (commas line = 1 →
      ∃ n : Int, Denotes (secondField line) n ∧ -(2 : Int) ^ 63 ≤ n ∧ n < (2 : Int) ^ 63)

/-- Scenario S1 as the spec words it: eight error-free events exactly one
minute apart. -/
def minuteRun : List QueueElement :=
  [probe 0 200 50, probe 60 200 50, probe 120 200 50, probe 180 500 80, probe 240 200 50,
   probe 300 200 50, probe 360 200 50, probe 420 401 50]

/-! ## The order of the heap -/

/-- The key of the element at address `v`: its response time. -/
def keyOf (mem : Mem) (v : Nat) : Int :=
  match mem[v]? with
  | some e => e.Value.ResponseTime
  | none => 0

/-- The key of the element at index `i` of the heap array. -/
def keyAt (mem : Mem) (vals : List Nat) (i : Nat) : Int :=
  match vals[i]? with
  | some v => keyOf mem v
  | none => 0

/-- Max-heap order: the element at an index `i >= 2` has a key not greater than
the key of its parent at index `i / 2`. -/
def HeapOrder (mem : Mem) (vals : List Nat) : Prop :=
  ∀ i : Nat, i < vals.length → 2 ≤ i → keyAt mem vals i ≤ keyAt mem vals (i / 2)

instance decHeapOrder (mem : Mem) (vals : List Nat) : Decidable (HeapOrder mem vals) := by
  unfold HeapOrder
  infer_instance

/-- An element as MaxHeap_test.go builds them: a status and a response time. -/
def heapElement (status key : Int) : QueueElement :=
  { Value := { Time := 0, Website := "", Error := none, Status := status, ResponseTime := key },
    Timestamp := 0, next := none, heapIndex := 0 }

/-- The fixture `insert` of MaxHeap_test.go. -/
def insertFixture : List QueueElement :=
  [heapElement 1 2, heapElement 2 7, heapElement 3 3, heapElement 4 24, heapElement 5 3]

/-- Six elements with the keys 10, 5, 9, 1, 2 and 8. -/
def orderFixture : List QueueElement :=
  [heapElement 1 10, heapElement 2 5, heapElement 3 9, heapElement 4 1, heapElement 5 2,
   heapElement 6 8]

/-- The elements at the addresses `ps` inserted in turn. -/
def insertAll : Mem → MaxHeap → List Nat → Option (Mem × MaxHeap)
  | mem, m, [] => some (mem, m)
  | mem, m, p :: ps =>
    match m.insert mem p with
    | some (mem1, m1) => insertAll mem1 m1 ps
    | none => none

/-- `createHeap` for the elements `es`, allocated at the addresses `0, 1, ...`,
followed by their `insert` in order. -/
def heapOf (es : List QueueElement) : Option (Mem × MaxHeap) :=
  insertAll (NewMaxHeap es).1 (NewMaxHeap es).2 (List.range es.length)

/-- The statuses of the elements of the heap array, in order. -/
def statuses (h : Mem × MaxHeap) : List Int :=
  h.2.values.map (fun v => match h.1[v]? with | some e => e.Value.Status | none => -1)

/-- The keys of the elements of the heap array after the sentinel, in order. -/
def keys (h : Mem × MaxHeap) : List Int :=
  (h.2.values.drop 1).map (fun v => keyOf h.1 v)

/-- The heap of `TestHeapInsert` after the first four of its five inserts. -/
def fourInserted : Mem × MaxHeap :=
  (insertAll (NewMaxHeap insertFixture).1 (NewMaxHeap insertFixture).2 [0, 1, 2, 3]).getD
    ([], ⟨[]⟩)

/-- Three elements with the same key. -/
def tieFixture : List QueueElement := [heapElement 1 5, heapElement 2 5, heapElement 3 5]

/-! ## The alerts of a run -/

/-- The alert is a "down" alert of `Add`. -/
def Alert.isDown (al : Alert) : Bool :=
  match al.Message with
  | Message.down _ _ _ => true
  | _ => false

/-- The alert is an "up again" alert of `Add`. -/
def Alert.isUp (al : Alert) : Bool :=
  match al.Message with
  | Message.upAgain _ _ _ => true
  | _ => false

/-- The alerts a run sends: those `Add` returns with `Init` true, in order. -/
def emitted (a : Aggregator) (es : List QueueElement) : List Alert :=
  (trace a es).filterMap (fun r =>
    match r with
    | some x => if x.2.Init then some x.2 else none
    | none => none)

/-- The alerts alternate between "down" and "up again"; the first one is
"down" when the flag is false and "up again" when it is true. -/
def Alternating : Bool → List Alert → Prop
  | _, [] => True
  | false, al :: rest => al.isDown = true ∧ Alternating true rest
  | true, al :: rest => al.isUp = true ∧ Alternating false rest

/-- A run of `A` probes with status 200 followed by `B` probes with status
500, all at the same time. -/
def twoBlocks (A B : Nat) : List QueueElement :=
  List.replicate A (probe 0 200 50) ++ List.replicate B (probe 0 500 50)

/-- A run of 4000001 probes with status 200 and 999999 probes with status
500, all at the same time. -/
def roundingRun : List QueueElement := twoBlocks 4000001 999999

/-- A run in which the availability falls, recovers and falls again. -/
def flappingRun : List QueueElement :=
  [probe 0 200 50, probe 10 500 50, probe 130 200 50, probe 140 200 50, probe 150 200 50,
   probe 160 200 50, probe 170 200 50, probe 180 503 50, probe 190 503 50]

/-! ## Nested windows -/

/-- The window of `a` is the newest part of the window of `b`, and no counter
of `a` exceeds that of `b`. -/
structure Nested (a b : Aggregator) : Prop where
  suffix : List.IsSuffix (a.window.map QueueElement.event) (b.window.map QueueElement.event)
  total : a.count + a.errorCount ≤ b.count + b.errorCount
  count : a.GetCount.1 ≤ b.GetCount.1
  errorCount : a.GetErrorCount.1 ≤ b.GetErrorCount.1
  statusCount : ∀ c : Int, (a.GetStatusCount c).1 ≤ (b.GetStatusCount c).1

/-- Three probe events of the endpoint `example`, seven minutes apart. -/
def sparseLogs : List PingLog :=
  [⟨0, "example", none, 200, 50000000⟩, ⟨420000000000, "example", some "timeout", 0, 90000000⟩,
   ⟨840000000000, "example", none, 200, 60000000⟩]

/-! ## Orchestrator.go: the operations on all endpoints -/

/-- `GetPingers`: the probers of the map and the nil error. The `range` over a
Go map yields its entries in an order Go leaves unspecified: the slice returned
is some permutation of this list. -/
def Orchestrator.GetPingers (o : Orchestrator) : List Pinger × Option String :=
  (o.pingers.entries.map (fun kv => kv.2), none)

/-- The loop of `StartAll` over the rest of the slice; `clock url` is the
value of `time.Now()` in the call for `url`. `none` when a call does not
return. -/
def Orchestrator.startLoop (clock : String → Int) :
    Orchestrator → List Pinger → Option (Orchestrator × Option String)
  | o, [] => some (o, none)
  | o, pinger :: rest =>
    match o.Start pinger.Url (clock pinger.Url) with
    | none => none
    | some (o1, _, some err) => some (o1, some err)
    | some (o1, _, none) => Orchestrator.startLoop clock o1 rest

/-- `StartAll`, with `pingers` the slice that `GetPingers` returned. -/
def Orchestrator.StartAll (o : Orchestrator) (pingers : List Pinger) (clock : String → Int) :
    Option (Orchestrator × Option String) :=
  match o.GetPingers.2 with
  | some err => some (o, some err)
  | none => Orchestrator.startLoop clock o pingers

/-- The loop of `PauseAll` over the rest of the slice. -/
def Orchestrator.pauseLoop (clock : String → Int) :
    Orchestrator → List Pinger → Option (Orchestrator × Option String)
  | o, [] => some (o, none)
  | o, pinger :: rest =>
    match o.Pause pinger.Url (clock pinger.Url) with
    | none => none
    | some (o1, _, some err) => some (o1, some err)
    | some (o1, _, none) => Orchestrator.pauseLoop clock o1 rest

/-- `PauseAll`, with `pingers` the slice that `GetPingers` returned. -/
def Orchestrator.PauseAll (o : Orchestrator) (pingers : List Pinger) (clock : String → Int) :
    Option (Orchestrator × Option String) :=
  match o.GetPingers.2 with
  | some err => some (o, some err)
  | none => Orchestrator.pauseLoop clock o pingers

/-- The loop of `UnregisterAll` over the rest of the slice. -/
def Orchestrator.unregisterLoop (clock : String → Int) :
    Orchestrator → List Pinger → Orchestrator × Option String
  | o, [] => (o, none)
  | o, pinger :: rest =>
    match o.Unregister pinger.Url (clock pinger.Url) with
    | (o1, some err) => (o1, some err)
    | (o1, none) => Orchestrator.unregisterLoop clock o1 rest

/-- `UnregisterAll`, with `pingers` the slice that `GetPingers` returned. -/
def Orchestrator.UnregisterAll (o : Orchestrator) (pingers : List Pinger)
    (clock : String → Int) : Orchestrator × Option String :=
  match o.GetPingers.2 with
  | some err => (o, some err)
  | none => Orchestrator.unregisterLoop clock o pingers

/-- The map of probers is a map, one entry per key, and holds each prober
under its own URL, as `Register` stores it. -/
def Orchestrator.Keyed (o : Orchestrator) : Prop :=
  (o.pingers.entries.map (fun kv => kv.1)).Nodup ∧ ∀ kv ∈ o.pingers.entries, kv.2.Url = kv.1

instance decKeyed (o : Orchestrator) : Decidable o.Keyed := by
  unfold Orchestrator.Keyed
  infer_instance

/-- The keys of a map, in the order of its entries. -/
def GoMap.keys {V : Type} (m : GoMap V) : List String := m.entries.map (fun kv => kv.1)

/-- The three maps have the same keys, as a check on the entries. -/
def Orchestrator.keysMatch (o : Orchestrator) : Bool :=
  o.pingers.keys.all (fun k => decide (k ∈ o.aggregators.keys)) &&
  o.aggregators.keys.all (fun k => decide (k ∈ o.pingers.keys)) &&
  o.pingers.keys.all (fun k => decide (k ∈ o.reports.keys)) &&
  o.reports.keys.all (fun k => decide (k ∈ o.pingers.keys))

/-- An orchestrator with three endpoints: the prober of `a` runs, that of `b`
has been started but its goroutine has not run yet, that of `c` is idle. -/
def shutdownFixture : Orchestrator :=
  (GetOrchestrator.run [Call.register ⟨"a", 100⟩ 0, Call.register ⟨"b", 200⟩ 1,
    Call.register ⟨"c", 300⟩ 2, Call.start "a" 3, Call.start "b" 4,
    Call.proberBegins 0]).getD GetOrchestrator

theorem get_lt {α : Type} {l : List α} {p : Nat} {e : α} (h : l[p]? = some e) : p < l.length := by
  by_contra hc
  rw [List.getElem?_eq_none (Nat.le_of_not_lt hc)] at h
  cases h

theorem SameCore.refl (mem : Mem) : SameCore mem mem := rfl

theorem SameCore.trans {m1 m2 m3 : Mem} (h12 : SameCore m1 m2) (h23 : SameCore m2 m3) :
    SameCore m1 m3 := by
  unfold SameCore at *
  rw [h23, h12]

theorem SameCore.length_eq {mem mem' : Mem} (h : SameCore mem mem') : mem'.length = mem.length := by
  have := congrArg List.length h
  simpa using this

theorem SameCore.get {mem mem' : Mem} (h : SameCore mem mem') {p : Nat} {e : QueueElement}
    (he : mem[p]? = some e) : ∃ e', mem'[p]? = some e' ∧ e'.core = e.core := by
  have h1 : (mem'.map QueueElement.core)[p]? = (mem.map QueueElement.core)[p]? := by rw [h]
  simp only [List.getElem?_map, he, Option.map_some'] at h1
  cases hm : mem'[p]? with
  | none => simp [hm] at h1
  | some e' =>
    refine ⟨e', rfl, ?_⟩
    simpa [hm] using h1

theorem SameCore.set_heapIndex {mem : Mem} {p : Nat} {e : QueueElement} (k : Nat)
    (he : mem[p]? = some e) : SameCore mem (mem.set p { e with heapIndex := k }) := by
  unfold SameCore
  apply List.ext_getElem?
  intro n
  simp only [List.getElem?_map, List.getElem?_set]
  by_cases hn : p = n
  · subst hn
    have hlt : p < mem.length := get_lt he
    simp [hlt, he, QueueElement.core]
  · simp [hn]

theorem BackIdx.inj {mem : Mem} {vals : List Nat} (hb : BackIdx mem vals) {i j : Nat} {v : Nat}
    (hi : vals[i]? = some v) (hj : vals[j]? = some v) : i = j := by
  obtain ⟨e, he, hei⟩ := hb i v hi
  obtain ⟨e', he', hej⟩ := hb j v hj
  rw [he] at he'
  cases he'
  omega

theorem getElem?_swap (vals : List Nat) {i j : Nat} (hi : i < vals.length) (hj : j < vals.length)
    (k : Nat) :
    ((vals.set i vals[j]).set j vals[i])[k]? =
      if k = j then some vals[i] else if k = i then some vals[j] else vals[k]? := by
  simp only [List.getElem?_set, List.length_set]
  by_cases hkj : k = j
  · subst hkj; simp [hj]
  · by_cases hki : k = i
    · subst hki
      simp [hkj, hi, Ne.symm hkj]
    · simp [hkj, hki, Ne.symm hkj, Ne.symm hki]

/-- Result of `swap` on a heap with valid back-indices. -/
theorem swap_spec {mem : Mem} {vals : List Nat} {i j : Nat}
    (hb : BackIdx mem vals) (hi : i < vals.length) (hj : j < vals.length) :
    ∃ mem', MaxHeap.swap mem ⟨vals⟩ i j = some (mem', ⟨(vals.set i vals[j]).set j vals[i]⟩) ∧
      BackIdx mem' ((vals.set i vals[j]).set j vals[i]) ∧ SameCore mem mem' := by
  have hvi : vals[i]? = some vals[i] := List.getElem?_eq_getElem hi
  have hvj : vals[j]? = some vals[j] := List.getElem?_eq_getElem hj
  obtain ⟨e1, he1, h1⟩ := hb i _ hvi
  obtain ⟨e2, he2, h2⟩ := hb j _ hvj
  have hlt1 : vals[i] < mem.length := get_lt he1
  have hlt2 : vals[j] < mem.length := get_lt he2
  refine ⟨(mem.set vals[i] { e1 with heapIndex := e2.heapIndex }).set vals[j]
      { e2 with heapIndex := e1.heapIndex }, ?_, ?_, ?_⟩
  · simp [MaxHeap.swap, hvi, hvj, he1, he2]
  · intro k v hk
    rw [getElem?_swap vals hi hj] at hk
    by_cases hkj : k = j
    · subst hkj
      simp only [if_true, Option.some.injEq] at hk
      subst hk
      by_cases hij : i = k
      · subst hij
        rw [he1] at he2
        cases he2
        refine ⟨_, ?_, h1⟩
        simp [List.getElem?_set, hlt1, he1]
      · have hne : vals[i] ≠ vals[k] := by
          intro hc
          exact hij (hb.inj hvi (hc ▸ hvj))
        refine ⟨{ e1 with heapIndex := e2.heapIndex }, ?_, h2⟩
        simp [List.getElem?_set, hlt1, Ne.symm hne]
    · by_cases hki : k = i
      · subst hki
        simp only [hkj, if_false, if_true, Option.some.injEq] at hk
        subst hk
        refine ⟨{ e2 with heapIndex := e1.heapIndex }, ?_, h1⟩
        simp [List.getElem?_set, hlt2]
      · simp only [hkj, hki, if_false] at hk
        obtain ⟨e, he, hek⟩ := hb k v hk
        have hn1 : vals[i] ≠ v := fun hc => hki (hb.inj hk (hc ▸ hvi))
        have hn2 : vals[j] ≠ v := fun hc => hkj (hb.inj hk (hc ▸ hvj))
        refine ⟨e, ?_, hek⟩
        simp [List.getElem?_set, hn1, hn2, he]
  · refine SameCore.trans (SameCore.set_heapIndex e2.heapIndex he1) ?_
    have he2' : (mem.set vals[i] { e1 with heapIndex := e2.heapIndex })[vals[j]]? =
        some { e2 with heapIndex := (if vals[i] = vals[j] then e2.heapIndex else e2.heapIndex) } := by
      by_cases hv : vals[i] = vals[j]
      · have : e1 = e2 := by
          rw [hv] at he1; rw [he1] at he2; exact Option.some.inj he2
        subst this
        simp [List.getElem?_set, hv, hlt2]
      · simp [List.getElem?_set, hv, he2]
    have := SameCore.set_heapIndex e1.heapIndex he2'
    simpa using this

theorem SameCore.bounded {mem mem' : Mem} (h : SameCore mem mem') (hb : Bounded mem) :
    Bounded mem' := by
  intro e he
  have h1 : e.core ∈ mem'.map QueueElement.core := List.mem_map_of_mem _ he
  rw [h] at h1
  obtain ⟨e0, he0, hc⟩ := List.mem_map.1 h1
  have := hb e0 he0
  have hv : e0.Value = e.Value := congrArg Prod.fst hc
  rw [← hv]
  exact this

theorem elemAt_some {mem : Mem} {vals : List Nat} (hb : BackIdx mem vals) {i : Nat}
    (hi : i < vals.length) :
    ∃ e : QueueElement, MaxHeap.elemAt mem ⟨vals⟩ i = some e ∧ mem[vals[i]]? = some e ∧
      e.heapIndex = i := by
  have hvi : vals[i]? = some vals[i] := List.getElem?_eq_getElem hi
  obtain ⟨e, he, h⟩ := hb i _ hvi
  exact ⟨e, by simp [MaxHeap.elemAt, hvi, he], he, h⟩

theorem elemAt_sameCore {mem mem' : Mem} {vals vals' : List Nat} (h : SameCore mem mem')
    {i : Nat} (hv : vals'[i]? = vals[i]?) {s : QueueElement}
    (hs : MaxHeap.elemAt mem ⟨vals⟩ i = some s) :
    ∃ s' : QueueElement, MaxHeap.elemAt mem' ⟨vals'⟩ i = some s' ∧ s'.core = s.core := by
  unfold MaxHeap.elemAt at hs ⊢
  simp only [hv]
  cases hvi : vals[i]? with
  | none => simp [hvi] at hs
  | some p =>
    simp only [hvi] at hs
    obtain ⟨e', he', hc⟩ := h.get hs
    exact ⟨e', by simpa using he', hc⟩

/-- `swap` at two valid indices: the outcome in the form the loops use. -/
theorem swap_step {mem : Mem} {vals : List Nat} {i j : Nat}
    (hb : BackIdx mem vals) (hi : i < vals.length) (hj : j < vals.length) :
    ∃ mem' vals', MaxHeap.swap mem ⟨vals⟩ i j = some (mem', ⟨vals'⟩) ∧
      BackIdx mem' vals' ∧ SameCore mem mem' ∧ vals'.length = vals.length ∧
      (∀ v, v ∈ vals' ↔ v ∈ vals) ∧ (∀ k, k ≠ i → k ≠ j → vals'[k]? = vals[k]?) := by
  obtain ⟨mem', h1, h2, h3⟩ := swap_spec hb hi hj
  refine ⟨mem', _, h1, h2, h3, by simp, ?_, ?_⟩
  · intro v
    simp only [List.mem_iff_getElem?, getElem?_swap vals hi hj]
    constructor
    · rintro ⟨k, hk⟩
      by_cases hkj : k = j
      · simp only [hkj, if_true] at hk
        exact ⟨i, by rw [← hk]; exact List.getElem?_eq_getElem hi⟩
      · by_cases hki : k = i
        · subst hki
          simp only [hkj, if_false, if_true] at hk
          exact ⟨j, by rw [← hk]; exact List.getElem?_eq_getElem hj⟩
        · simp only [hkj, hki, if_false] at hk
          exact ⟨k, hk⟩
    · rintro ⟨k, hk⟩
      by_cases hki : k = i
      · refine ⟨j, ?_⟩
        subst hki
        rw [List.getElem?_eq_getElem hi] at hk
        simp [hk]
      · by_cases hkj : k = j
        · refine ⟨i, ?_⟩
          subst hkj
          rw [List.getElem?_eq_getElem hj] at hk
          by_cases hik : i = k
          · subst hik; simp [hk]
          · simp [hik, hk]
        · exact ⟨k, by simp [hki, hkj, hk]⟩
  · intro k hki hkj
    rw [getElem?_swap vals hi hj]
    simp [hki, hkj]

theorem HeapOK.of_step {mem mem' : Mem} {vals vals' : List Nat} (h : HeapOK mem vals)
    (hb : BackIdx mem' vals') (hc : SameCore mem mem') (hr : vals'[0]? = vals[0]?) :
    HeapOK mem' vals' := by
  refine ⟨hb, ?_, hc.bounded h.bound⟩
  obtain ⟨s, hs, hm⟩ := h.top
  obtain ⟨s', hs', hcore⟩ := elemAt_sameCore hc hr hs
  refine ⟨s', hs', ?_⟩
  have hv : s'.Value = s.Value := congrArg Prod.fst hcore
  rw [hv]; exact hm

/-- The loop of `bubbleUp` returns, keeps the heap structure and moves only
back-indices. -/
theorem bubbleUpLoop_spec : ∀ (fuel : Nat) (mem : Mem) (vals : List Nat) (cur : Nat),
    HeapOK mem vals → cur < vals.length → cur < fuel →
    ∃ mem' vals', MaxHeap.bubbleUpLoop fuel mem ⟨vals⟩ cur (cur / 2) = some (mem', ⟨vals'⟩) ∧
      HeapOK mem' vals' ∧ SameCore mem mem' ∧ vals'[0]? = vals[0]? ∧
      vals'.length = vals.length ∧ (∀ v, v ∈ vals' ↔ v ∈ vals) := by
  intro fuel
  induction fuel with
  | zero => intro mem vals cur _ _ hf; omega
  | succ fuel ih =>
    intro mem vals cur hok hcur hfuel
    by_cases h0 : 0 < cur
    · have hpar : cur / 2 < vals.length := by omega
      obtain ⟨c, hc, hcm, _⟩ := elemAt_some hok.back hcur
      obtain ⟨p, hp, hpm, _⟩ := elemAt_some hok.back hpar
      by_cases hgt : c.gt p = true
      · have hpar1 : 1 ≤ cur / 2 := by
          by_contra hlt
          have hz : cur / 2 = 0 := by omega
          obtain ⟨s, hs, hmax⟩ := hok.top
          rw [hz] at hp
          rw [hp] at hs
          cases hs
          have hcb : c.Value.ResponseTime ≤ maxInt64 :=
            hok.bound c (List.mem_iff_getElem?.2 ⟨_, hcm⟩)
          simp only [QueueElement.gt, decide_eq_true_eq] at hgt
          omega
        obtain ⟨mem1, vals1, hsw, hb1, hc1, hl1, hm1, hk1⟩ := swap_step hok.back hcur hpar
        have hr1 : vals1[0]? = vals[0]? := hk1 0 (by omega) (by omega)
        have hok1 := hok.of_step hb1 hc1 hr1
        obtain ⟨mem2, vals2, hrec, hok2, hc2, hr2, hl2, hm2⟩ :=
          ih mem1 vals1 (cur / 2) hok1 (by omega) (by omega)
        refine ⟨mem2, vals2, ?_, hok2, hc1.trans hc2, by rw [hr2, hr1], by rw [hl2, hl1], ?_⟩
        · simp [MaxHeap.bubbleUpLoop, h0, hc, hp, hgt, hsw, hrec]
        · intro v; rw [hm2, hm1]
      · refine ⟨mem, vals, ?_, hok, SameCore.refl _, rfl, rfl, fun _ => Iff.rfl⟩
        simp [MaxHeap.bubbleUpLoop, h0, hc, hp, hgt]
    · refine ⟨mem, vals, ?_, hok, SameCore.refl _, rfl, rfl, fun _ => Iff.rfl⟩
      simp [MaxHeap.bubbleUpLoop, h0]

theorem pick_spec (mem : Mem) (vals : List Nat) (child s : Nat) (hb : BackIdx mem vals)
    (hs : child < vals.length → s < vals.length) :
    ∃ r, MaxHeap.pick mem ⟨vals⟩ child s = some r ∧
      (r = s ∨ (r = child ∧ child < vals.length)) := by
  unfold MaxHeap.pick
  by_cases hc : child < vals.length
  · obtain ⟨c, hce, _, _⟩ := elemAt_some hb hc
    obtain ⟨e, hse, _, _⟩ := elemAt_some hb (hs hc)
    rw [if_pos hc]
    simp only [hce, hse]
    by_cases hgt : c.gt e = true
    · exact ⟨child, by simp [hgt], Or.inr ⟨rfl, hc⟩⟩
    · exact ⟨s, by simp [hgt], Or.inl rfl⟩
  · exact ⟨s, by simp [hc], Or.inl rfl⟩

/-- `bubbleDown` returns, keeps the heap structure and moves only back-indices. -/
theorem bubbleDownFuel_spec : ∀ (fuel : Nat) (mem : Mem) (vals : List Nat) (idx : Nat) (el : Nat),
    HeapOK mem vals → 1 ≤ idx → 0 < fuel → vals.length < fuel + idx →
    ∃ mem' vals', MaxHeap.bubbleDownFuel fuel mem ⟨vals⟩ idx el = some (mem', ⟨vals'⟩) ∧
      HeapOK mem' vals' ∧ SameCore mem mem' ∧ vals'[0]? = vals[0]? ∧
      vals'.length = vals.length ∧ (∀ v, v ∈ vals' ↔ v ∈ vals) := by
  intro fuel
  induction fuel with
  | zero =>
    intro mem vals idx el hok h1 hpos hf
    omega
  | succ fuel ih =>
    intro mem vals idx el hok h1 _ hf
    obtain ⟨s1, hp1, hs1⟩ := pick_spec mem vals (2 * idx) idx hok.back (by intro h; omega)
    have hs1lt : 2 * idx + 1 < vals.length → s1 < vals.length := by
      intro h
      rcases hs1 with h | ⟨h, _⟩ <;> omega
    obtain ⟨sm, hp2, hs2⟩ := pick_spec mem vals (2 * idx + 1) s1 hok.back hs1lt
    by_cases hne : sm = idx
    · refine ⟨mem, vals, ?_, hok, SameCore.refl _, rfl, rfl, fun _ => Iff.rfl⟩
      simp [MaxHeap.bubbleDownFuel, hp1, hp2, hne]
    · have hsm : sm < vals.length ∧ idx < sm := by
        rcases hs2 with h | ⟨h, hl⟩
        · rcases hs1 with h' | ⟨h', hl'⟩
          · omega
          · omega
        · omega
      have hidx : idx < vals.length := by omega
      obtain ⟨mem1, vals1, hsw, hb1, hc1, hl1, hm1, hk1⟩ := swap_step hok.back hidx hsm.1
      have hr1 : vals1[0]? = vals[0]? := hk1 0 (by omega) (by omega)
      have hok1 := hok.of_step hb1 hc1 hr1
      obtain ⟨mem2, vals2, hrec, hok2, hc2, hr2, hl2, hm2⟩ :=
        ih mem1 vals1 sm el hok1 (by omega) (by omega) (by omega)
      refine ⟨mem2, vals2, ?_, hok2, hc1.trans hc2, by rw [hr2, hr1], by rw [hl2, hl1], ?_⟩
      · simp [MaxHeap.bubbleDownFuel, hp1, hp2, hne, hsw, hrec]
      · intro v; rw [hm2, hm1]

theorem HeapOK.length_pos {mem : Mem} {vals : List Nat} (h : HeapOK mem vals) :
    0 < vals.length := by
  obtain ⟨s, hs, _⟩ := h.top
  unfold MaxHeap.elemAt at hs
  cases hv : vals[0]? with
  | none => simp [hv] at hs
  | some p => exact get_lt hv

/-- `insert` of a fresh, allocated element returns and extends the heap by it. -/
theorem insert_spec {mem : Mem} {vals : List Nat} {p : Nat} (hok : HeapOK mem vals)
    (hp : p < mem.length) (hnot : p ∉ vals) :
    ∃ mem' vals', MaxHeap.insert mem ⟨vals⟩ p = some (mem', ⟨vals'⟩) ∧
      HeapOK mem' vals' ∧ SameCore mem mem' ∧ vals'[0]? = vals[0]? ∧
      vals'.length = vals.length + 1 ∧ (∀ v, v ∈ vals' ↔ v ∈ vals ∨ v = p) := by
  have hpe : mem[p]? = some mem[p] := List.getElem?_eq_getElem hp
  have hpos := hok.length_pos
  have hc1 : SameCore mem (mem.set p { mem[p] with heapIndex := vals.length }) :=
    SameCore.set_heapIndex vals.length hpe
  have hb1 : BackIdx (mem.set p { mem[p] with heapIndex := vals.length }) (vals ++ [p]) := by
    intro i v hv
    rw [List.getElem?_append] at hv
    by_cases hi : i < vals.length
    · rw [if_pos hi] at hv
      obtain ⟨e, he, hei⟩ := hok.back i v hv
      have hne : p ≠ v := fun hc => hnot (hc ▸ List.getElem?_mem hv)
      exact ⟨e, by simp [List.getElem?_set, hne, he], hei⟩
    · rw [if_neg hi] at hv
      have hlt := get_lt hv
      simp only [List.length_singleton] at hlt
      have hi0 : i - vals.length = 0 := by omega
      rw [hi0] at hv
      simp only [List.getElem?_cons_zero, Option.some.injEq] at hv
      subst hv
      refine ⟨{ mem[p] with heapIndex := vals.length }, by simp [List.getElem?_set, hp], ?_⟩
      show vals.length = i
      omega
  have hr1 : (vals ++ [p])[0]? = vals[0]? := by
    rw [List.getElem?_append, if_pos hpos]
  have hok1 := hok.of_step hb1 hc1 hr1
  obtain ⟨mem2, vals2, hrec, hok2, hc2, hr2, hl2, hm2⟩ :=
    bubbleUpLoop_spec (vals.length + 1) _ (vals ++ [p]) vals.length hok1 (by simp) (by omega)
  refine ⟨mem2, vals2, ?_, hok2, hc1.trans hc2, by rw [hr2, hr1], by rw [hl2]; simp, ?_⟩
  · simp only [MaxHeap.insert, hpe, MaxHeap.bubbleUp, List.length_append, List.length_singleton,
      Nat.add_sub_cancel]
    exact hrec
  · intro v; rw [hm2]; simp

/-- `delete` of an element of the heap other than the sentinel returns and
removes exactly that element. -/
theorem delete_spec {mem : Mem} {vals : List Nat} {p : Nat} (hok : HeapOK mem vals)
    (hp : p ∈ vals) (hroot : vals[0]? ≠ some p) :
    ∃ mem' vals', MaxHeap.delete mem ⟨vals⟩ p = some (mem', ⟨vals'⟩) ∧
      HeapOK mem' vals' ∧ SameCore mem mem' ∧ vals'[0]? = vals[0]? ∧
      vals'.length + 1 = vals.length ∧ (∀ v, v ∈ vals' ↔ v ∈ vals ∧ v ≠ p) := by
  obtain ⟨i, hi⟩ := List.mem_iff_getElem?.1 hp
  have hilt : i < vals.length := get_lt hi
  have hi1 : 1 ≤ i := by
    by_contra hc
    have : i = 0 := by omega
    subst this
    exact hroot hi
  have hn : vals.length - 1 < vals.length := by omega
  have hvi : vals[i] = p := by
    rw [List.getElem?_eq_getElem hilt] at hi
    exact Option.some.inj hi
  obtain ⟨ee, hee, hei⟩ := hok.back i p hi
  obtain ⟨le, hle, hli⟩ := hok.back (vals.length - 1) _ (List.getElem?_eq_getElem hn)
  obtain ⟨mem1, hsw, hb1, hc1⟩ := swap_spec hok.back hilt hn
  have hget := getElem?_swap vals hilt hn
  generalize hv1 : (vals.set i vals[vals.length - 1]).set (vals.length - 1) vals[i] = vals1
    at hsw hb1 hget
  have hl1 : vals1.length = vals.length := by rw [← hv1]; simp
  have hlastp : vals1[vals.length - 1]? = some p := by rw [hget]; simp [hvi]
  have hil : vals1[i]? = some vals[vals.length - 1] := by
    rw [hget]
    by_cases hc : i = vals.length - 1
    · simp [hc]
    · simp [hc]
  obtain ⟨le1, hle1, hl1i⟩ := hb1 i _ hil
  have htake : ∀ k, (vals1.take (vals1.length - 1))[k]? =
      if k < vals.length - 1 then vals1[k]? else none := by
    intro k
    rw [List.getElem?_take, hl1]
  have hb2 : BackIdx mem1 (vals1.take (vals1.length - 1)) := by
    intro k v hk
    rw [htake] at hk
    by_cases hkl : k < vals.length - 1
    · rw [if_pos hkl] at hk
      exact hb1 k v hk
    · rw [if_neg hkl] at hk
      cases hk
  have hr2 : (vals1.take (vals1.length - 1))[0]? = vals[0]? := by
    rw [htake, if_pos (by omega), hget]
    simp only [show ¬ (0 = vals.length - 1) by omega, show ¬ (0 = i) by omega, if_false]
  have hok2 := hok.of_step hb2 hc1 hr2
  have hlen2 : (vals1.take (vals1.length - 1)).length = vals.length - 1 := by
    rw [List.length_take, hl1]; omega
  obtain ⟨mem3, vals3, hrec, hok3, hc3, hr3, hl3, hm3⟩ :=
    bubbleDownFuel_spec ((vals1.take (vals1.length - 1)).length + 1) mem1
      (vals1.take (vals1.length - 1)) i (vals[vals.length - 1]) hok2 hi1 (by omega) (by omega)
  refine ⟨mem3, vals3, ?_, hok3, hc1.trans hc3, by rw [hr3, hr2], by rw [hl3, hlen2]; omega, ?_⟩
  · have hne : ¬ vals.length = 0 := by omega
    simp only [MaxHeap.delete, List.length_eq_zero] at *
    have hne' : ¬ vals = [] := fun hc => hne (by simp [hc])
    simp only [hne', if_false, List.getElem?_eq_getElem hn, hee, hle, hei, hli, hsw, hle1, hl1i]
    exact hrec
  · intro v
    rw [hm3]
    constructor
    · intro hv
      obtain ⟨k, hk⟩ := List.mem_iff_getElem?.1 hv
      rw [htake] at hk
      by_cases hkl : k < vals.length - 1
      · rw [if_pos hkl] at hk
        have hvm : v ∈ vals1 := List.getElem?_mem hk
        have hvm' : v ∈ vals := by
          obtain ⟨k', hk'⟩ := List.mem_iff_getElem?.1 hvm
          rw [hget] at hk'
          by_cases h1 : k' = vals.length - 1
          · simp only [h1, if_true, Option.some.injEq] at hk'
            rw [← hk']; exact List.getElem_mem _
          · by_cases h2 : k' = i
            · subst h2
              simp only [h1, if_false, if_true, Option.some.injEq] at hk'
              rw [← hk']; exact List.getElem_mem _
            · simp only [h1, h2, if_false] at hk'
              exact List.getElem?_mem hk'
        refine ⟨hvm', ?_⟩
        intro hvp
        subst hvp
        have := hb1.inj hk hlastp
        omega
      · rw [if_neg hkl] at hk
        cases hk
    · rintro ⟨hv, hvp⟩
      obtain ⟨k, hk⟩ := List.mem_iff_getElem?.1 hv
      have hklt := get_lt hk
      have hki : k ≠ i := by
        intro hc
        subst hc
        rw [hi] at hk
        exact hvp (Option.some.inj hk).symm
      by_cases hkl : k = vals.length - 1
      · -- the tail element now sits at index `i`
        apply List.mem_iff_getElem?.2
        refine ⟨i, ?_⟩
        rw [htake, if_pos (by omega), hil]
        subst hkl
        rw [List.getElem?_eq_getElem hn] at hk
        exact hk
      · apply List.mem_iff_getElem?.2
        refine ⟨k, ?_⟩
        rw [htake, if_pos (by omega), hget]
        simp only [hkl, hki, if_false]
        exact hk

/-! ## Counters of a window -/

theorem isSome_eq_not_ok (v : PingLog) : v.Error.isSome = !v.ok := by
  unfold PingLog.ok
  cases v.Error <;> rfl

theorem wrapInt64_add (x y : Int) : wrapInt64 (wrapInt64 x + y) = wrapInt64 (x + y) := by
  unfold wrapInt64
  omega

theorem wrapInt64_sub (x y : Int) : wrapInt64 (wrapInt64 x - y) = wrapInt64 (x - y) := by
  unfold wrapInt64
  omega

theorem Counted.push {a : Aggregator} {vs : List PingLog} (h : Counted a vs) (v : PingLog) :
    Counted
      (if v.Error.isSome then { a with errorCount := a.errorCount + 1 }
       else { a with
          count := a.count + 1
          sumResTime := wrapInt64 (a.sumResTime + resMillis v.ResponseTime)
          statusCount := mapAdd a.statusCount v.Status 1
          statusAgg := mapAdd a.statusAgg (v.Status.tdiv 100) 1 })
      (vs ++ [v]) := by
  rw [isSome_eq_not_ok]
  by_cases hv : v.ok = true
  · simp only [hv, Bool.not_true, Bool.false_eq_true, if_false]
    refine ⟨?_, ?_, ?_, ?_, ?_⟩
    · simp [nOk, List.countP_append, hv, h.count]
    · simp [nErr, List.countP_append, hv, h.errorCount]
    · simp [sumMs, List.filter_append, hv, h.sumResTime, List.filter_cons, wrapInt64_add]
    · intro c
      by_cases hc : c = v.Status
      · subst hc
        simp [nStatus, List.countP_append, hv, mapAdd, h.statusCount]
      · have hc' : ¬ v.Status = c := fun h => hc h.symm
        simp [nStatus, List.countP_append, hv, mapAdd, h.statusCount, hc, hc']
    · intro d
      by_cases hd : d = v.Status.tdiv 100
      · subst hd
        simp [nClass, List.countP_append, hv, mapAdd, h.statusAgg]
      · have hd' : ¬ v.Status.tdiv 100 = d := fun h => hd h.symm
        simp [nClass, List.countP_append, hv, mapAdd, h.statusAgg, hd, hd']
  · have hv' : v.ok = false := by simpa using hv
    simp only [hv', Bool.not_false, if_true]
    refine ⟨?_, ?_, ?_, ?_, ?_⟩
    · simp [nOk, List.countP_append, hv', h.count]
    · simp [nErr, List.countP_append, hv', h.errorCount]
    · simp [sumMs, List.filter_append, hv', h.sumResTime, List.filter_cons]
    · intro c; simp [nStatus, List.countP_append, hv', h.statusCount]
    · intro d; simp [nClass, List.countP_append, hv', h.statusAgg]

theorem Counted.pop {a : Aggregator} {v : PingLog} {vs : List PingLog} (h : Counted a (v :: vs))
    (q : QueueElement) (hq : q.Value = v) : Counted (a.countOut q) vs := by
  unfold Aggregator.countOut
  rw [hq, isSome_eq_not_ok]
  by_cases hv : v.ok = true
  · simp only [hv, Bool.not_true, Bool.false_eq_true, if_false]
    refine ⟨?_, ?_, ?_, ?_, ?_⟩
    · simp [nOk, List.countP_cons, hv, h.count]
    · simp [nErr, List.countP_cons, hv, h.errorCount]
    · simp [sumMs, hv, h.sumResTime, List.filter_cons, wrapInt64_sub]
    · intro c
      by_cases hc : c = v.Status
      · subst hc
        simp [nStatus, List.countP_cons, hv, mapAdd, h.statusCount]
      · have hc' : ¬ v.Status = c := fun h => hc h.symm
        simp [nStatus, List.countP_cons, hv, mapAdd, h.statusCount, hc, hc']
    · intro d
      by_cases hd : d = v.Status.tdiv 100
      · subst hd
        simp [nClass, List.countP_cons, hv, mapAdd, h.statusAgg]
      · have hd' : ¬ v.Status.tdiv 100 = d := fun h => hd h.symm
        simp [nClass, List.countP_cons, hv, mapAdd, h.statusAgg, hd, hd']
  · have hv' : v.ok = false := by simpa using hv
    simp only [hv', Bool.not_false, if_true]
    refine ⟨?_, ?_, ?_, ?_, ?_⟩
    · simp [nOk, List.countP_cons, hv', h.count]
    · simp [nErr, List.countP_cons, hv', h.errorCount]
    · simp [sumMs, hv', h.sumResTime, List.filter_cons]
    · intro c; simp [nStatus, List.countP_cons, hv', h.statusCount]
    · intro d; simp [nClass, List.countP_cons, hv', h.statusAgg]

/-! ## The invariant of `Add` -/

theorem countIn_eq {a : Aggregator} {p : Nat} {fe : QueueElement} (hf : a.first = some p)
    (hm : a.mem[p]? = some fe) : a.countIn = some (a.counting fe.Value) := by
  unfold Aggregator.countIn Aggregator.counting
  simp only [hf, hm]
  split <;> rfl

theorem counting_frame (a : Aggregator) (v : PingLog) :
    (a.counting v).mem = a.mem ∧ (a.counting v).heap = a.heap ∧
    (a.counting v).first = a.first ∧ (a.counting v).last = a.last ∧
    (a.counting v).duration = a.duration ∧ (a.counting v).website = a.website ∧
    (a.counting v).AlertStatus = a.AlertStatus := by
  unfold Aggregator.counting
  split <;> simp

theorem countOut_frame (a : Aggregator) (q : QueueElement) :
    (a.countOut q).mem = a.mem ∧ (a.countOut q).heap = a.heap ∧
    (a.countOut q).first = a.first ∧ (a.countOut q).last = a.last ∧
    (a.countOut q).duration = a.duration ∧ (a.countOut q).website = a.website ∧
    (a.countOut q).AlertStatus = a.AlertStatus := by
  unfold Aggregator.countOut
  split <;> simp

theorem initLast_frame (a : Aggregator) :
    a.initLast.mem = a.mem ∧ a.initLast.heap = a.heap ∧ a.initLast.first = a.first ∧
    a.initLast.duration = a.duration ∧ a.initLast.website = a.website ∧
    a.initLast.AlertStatus = a.AlertStatus ∧ a.initLast.count = a.count ∧
    a.initLast.errorCount = a.errorCount ∧ a.initLast.sumResTime = a.sumResTime ∧
    a.initLast.statusCount = a.statusCount ∧ a.initLast.statusAgg = a.statusAgg := by
  unfold Aggregator.initLast
  split <;> simp

theorem initLast_last (a : Aggregator) :
    a.initLast.last = (match a.last with | none => a.first | some x => some x) := by
  unfold Aggregator.initLast
  split <;> simp_all

/-- A fresh aggregator satisfies the invariant with no event. -/
theorem Inv.fresh (d : Int) (w : String) : Inv (NewAggregator d w) [] 1 := by
  refine ⟨rfl, ?_, le_refl _, Or.inl ⟨rfl, rfl, rfl, rfl⟩, ?_, ?_, rfl, ?_, rfl, ?_, ?_⟩
  · intro j x hx; simp at hx
  · intro j h1 h2; simp at h2
  · refine ⟨?_, ⟨sentinel, rfl, rfl⟩, ?_⟩
    · intro i v hv
      have hi : i = 0 := by
        have := get_lt hv
        simp [NewAggregator, NewMaxHeap] at this
        exact this
      subst hi
      simp [NewAggregator, NewMaxHeap] at hv
      subst hv
      exact ⟨sentinel, rfl, rfl⟩
    · intro e he
      simp [NewAggregator, NewMaxHeap] at he
      subst he
      exact le_refl _
  · intro v
    simp [NewAggregator, NewMaxHeap]
  · refine ⟨rfl, rfl, rfl, fun _ => rfl, fun _ => rfl⟩
  · intro j x hj; omega

/-- The queue append of `Add` on a state satisfying the invariant. -/
theorem link_spec {a : Aggregator} {es : List QueueElement} {l : Nat} (h : Inv a es l)
    (e : QueueElement) :
    ∃ mem1 : Mem, a.link e = some { a with mem := mem1, first := some (es.length + 1) } ∧
      mem1.length = es.length + 2 ∧ mem1[es.length + 1]? = some e ∧
      (∀ (q : Nat) (y : QueueElement), a.mem[q]? = some y →
        ∃ y' : QueueElement, mem1[q]? = some y' ∧ y'.Value = y.Value ∧
          y'.Timestamp = y.Timestamp ∧ y'.heapIndex = y.heapIndex ∧
          (q ≠ es.length → y'.next = y.next)) ∧
      (es ≠ [] → ∃ y' : QueueElement, mem1[es.length]? = some y' ∧
        y'.next = some (es.length + 1)) := by
  have hlen := h.len
  rcases h.ends with ⟨hes, _, _, hfirst⟩ | ⟨hl, _, hfirst⟩
  · subst hes
    refine ⟨a.mem ++ [e], ?_, ?_, ?_, ?_, ?_⟩
    · simp [Aggregator.link, hfirst, hlen]
    · simp [hlen]
    · simp [List.getElem?_append, hlen]
    · intro q y hq
      have hqlt := get_lt hq
      exact ⟨y, by rw [List.getElem?_append, if_pos hqlt]; exact hq, rfl, rfl, rfl, fun _ => rfl⟩
    · intro hc; exact absurd rfl hc
  · have hn : es.length < a.mem.length := by omega
    have hfe : a.mem[es.length]? = some a.mem[es.length] := List.getElem?_eq_getElem hn
    have hfe0 : (a.mem ++ [e])[es.length]? = some a.mem[es.length] := by
      rw [List.getElem?_append, if_pos hn]; exact hfe
    refine ⟨(a.mem ++ [e]).set es.length { a.mem[es.length] with next := some (es.length + 1) },
      ?_, ?_, ?_, ?_, ?_⟩
    · simp only [Aggregator.link, hfirst, hfe0, hlen]
    · simp [hlen]
    · rw [List.getElem?_set]
      simp [List.getElem?_append, hlen]
    · intro q y hq
      have hqlt := get_lt hq
      by_cases hqn : q = es.length
      · subst hqn
        rw [hfe] at hq
        cases hq
        refine ⟨{ a.mem[es.length] with next := some (es.length + 1) }, ?_, rfl, rfl, rfl,
          fun hc => absurd rfl hc⟩
        rw [List.getElem?_set]
        simp [hlen]
        omega
      · refine ⟨y, ?_, rfl, rfl, rfl, fun _ => rfl⟩
        rw [List.getElem?_set, if_neg (Ne.symm hqn), List.getElem?_append, if_pos hqlt]
        exact hq
    · intro _
      refine ⟨{ a.mem[es.length] with next := some (es.length + 1) }, ?_, rfl⟩
      rw [List.getElem?_set]
      simp [hlen]
      omega

/-- Everything `Add` does before the expiry loop keeps the invariant, with the
new event appended. -/
theorem pre_expire {a : Aggregator} {es : List QueueElement} {l : Nat} (h : Inv a es l)
    (e : QueueElement) (he : e.Value.ResponseTime ≤ maxInt64) :
    ∃ a3 : Aggregator,
      (∃ a1 a2 : Aggregator, a.link e = some a1 ∧ a1.heapInsert = some a2 ∧
        a2.countIn = some a3) ∧
      Inv a3.initLast (es ++ [e]) l ∧ a3.mem.length = es.length + 2 ∧
      a3.initLast.duration = a.duration ∧ a3.initLast.website = a.website ∧
      a3.initLast.AlertStatus = a.AlertStatus := by
  obtain ⟨mem1, hlink, hlen1, hnew1, hold1, hnext1⟩ := link_spec h e
  -- the heap is still well formed over the extended memory
  have hok1 : HeapOK mem1 a.heap.values := by
    refine ⟨?_, ?_, ?_⟩
    · intro i v hv
      obtain ⟨y, hy, hyi⟩ := h.heap.back i v hv
      obtain ⟨y', hy', _, _, hhi, _⟩ := hold1 v y hy
      exact ⟨y', hy', by rw [hhi, hyi]⟩
    · obtain ⟨s, hs, hmax⟩ := h.heap.top
      simp only [MaxHeap.elemAt, h.root] at hs ⊢
      obtain ⟨y', hy', hval, _⟩ := hold1 0 s hs
      exact ⟨y', hy', by rw [hval]; exact hmax⟩
    · intro x hx
      obtain ⟨q, hq⟩ := List.mem_iff_getElem?.1 hx
      have hqlt := get_lt hq
      by_cases hqn : q < a.mem.length
      · obtain ⟨y', hy', hval, _⟩ := hold1 q _ (List.getElem?_eq_getElem hqn)
        rw [hq] at hy'
        cases hy'
        rw [hval]
        exact h.heap.bound _ (List.getElem_mem _)
      · have : q = es.length + 1 := by have := h.len; omega
        subst this
        rw [hnew1] at hq
        cases hq
        exact he
  have hnot : es.length + 1 ∉ a.heap.values := by
    intro hc
    rcases (h.members _).1 hc with h0 | ⟨_, h2⟩ <;> omega
  obtain ⟨mem2, vals2, hins, hok2, hc2, hr2, hl2, hm2⟩ :=
    insert_spec hok1 (p := es.length + 1) (by omega) hnot
  obtain ⟨fe, hfe, hfecore⟩ := hc2.get hnew1
  have hfev : fe.Value = e.Value := congrArg Prod.fst hfecore
  have hfet : fe.Timestamp = e.Timestamp := congrArg (fun c => c.2.1) hfecore
  -- the three intermediate states
  let a1 : Aggregator := { a with mem := mem1, first := some (es.length + 1) }
  let a2 : Aggregator := { a1 with mem := mem2, heap := ⟨vals2⟩ }
  have hhi : a1.heapInsert = some a2 := by
    simp only [Aggregator.heapInsert, a1, a2, hins]
  have hci : a2.countIn = some (a2.counting fe.Value) :=
    countIn_eq (p := es.length + 1) rfl hfe
  obtain ⟨fmem, fheap, ffirst, flast, fdur, fweb, falert⟩ := counting_frame a2 fe.Value
  obtain ⟨imem, iheap, ifirst, idur, iweb, ialert, ic, iec, isum, isc, isa⟩ :=
    initLast_frame (a2.counting fe.Value)
  refine ⟨a2.counting fe.Value, ⟨a1, a2, hlink, hhi, hci⟩, ?_, ?_, ?_, ?_, ?_⟩
  · have hlast : (a2.counting fe.Value).initLast.last = some l := by
      rw [initLast_last, flast, ffirst]
      rcases h.ends with ⟨hes, hl1, hlast, _⟩ | ⟨_, hlast, _⟩
      · subst hes
        simp [a2, a1, hlast, hl1]
      · simp [a2, a1, hlast]
    refine ⟨?_, ?_, h.lpos, Or.inr ⟨?_, hlast, ?_⟩, ?_, ?_, ?_, ?_, ?_, ?_, ?_⟩
    · rw [imem, fmem]
      show mem2.length = _
      rw [hc2.length_eq, hlen1]; simp
    · intro j x hx
      rw [imem, fmem]
      show ∃ y : QueueElement, mem2[j + 1]? = some y ∧ y.event = x.event
      rw [List.getElem?_append] at hx
      by_cases hj : j < es.length
      · rw [if_pos hj] at hx
        obtain ⟨y, hy, hye⟩ := h.cells j x hx
        obtain ⟨y', hy', hval, hts, _, _⟩ := hold1 (j + 1) y hy
        obtain ⟨y2, hy2, hcore2⟩ := hc2.get hy'
        refine ⟨y2, hy2, ?_⟩
        have h1 : y2.Value = y'.Value := congrArg Prod.fst hcore2
        have h2 : y2.Timestamp = y'.Timestamp := congrArg (fun c => c.2.1) hcore2
        unfold QueueElement.event at hye ⊢
        rw [h1, h2, hval, hts]; exact hye
      · rw [if_neg hj] at hx
        have hlt := get_lt hx
        simp only [List.length_singleton] at hlt
        have hj' : j = es.length := by omega
        subst hj'
        simp only [Nat.sub_self, List.getElem?_cons_zero, Option.some.injEq] at hx
        subst hx
        refine ⟨fe, hfe, ?_⟩
        unfold QueueElement.event
        rw [hfev, hfet]
    · rcases h.ends with ⟨hes, hl1, _, _⟩ | ⟨hl, _, _⟩
      · simp [hl1]
      · simp; omega
    · rw [ifirst, ffirst]; simp [a2, a1]
    · intro j hlj hjn
      rw [imem, fmem]
      show ∃ y : QueueElement, mem2[j]? = some y ∧ y.next = some (j + 1)
      simp only [List.length_append, List.length_singleton] at hjn
      have hstep : ∃ y' : QueueElement, mem1[j]? = some y' ∧ y'.next = some (j + 1) := by
        by_cases hj : j = es.length
        · subst hj
          have hne : es ≠ [] := by
            intro hc; subst hc
            have := h.lpos
            simp at hlj; omega
          exact hnext1 hne
        · obtain ⟨y, hy, hyn⟩ := h.chain j hlj (by omega)
          obtain ⟨y', hy', _, _, _, hnx⟩ := hold1 j y hy
          exact ⟨y', hy', by rw [hnx hj]; exact hyn⟩
      obtain ⟨y', hy', hyn⟩ := hstep
      obtain ⟨y2, hy2, hcore2⟩ := hc2.get hy'
      have h3 : y2.next = y'.next := congrArg (fun c => c.2.2) hcore2
      exact ⟨y2, hy2, by rw [h3]; exact hyn⟩
    · rw [imem, fmem, iheap, fheap]; exact hok2
    · rw [iheap, fheap]
      show vals2[0]? = some 0
      rw [hr2]; exact h.root
    · intro v
      rw [iheap, fheap]
      show v ∈ vals2 ↔ _
      rw [hm2, h.members]
      simp only [List.length_append, List.length_singleton]
      have := h.lpos
      rcases h.ends with ⟨hes, hl1, _, _⟩ | ⟨hl, _, _⟩
      · subst hes; simp; omega
      · omega
    · rw [iheap, fheap]
      show vals2.length + l = _
      rw [hl2]
      have := h.hlen
      simp only [List.length_append, List.length_singleton]
      omega
    · have hdrop : (es ++ [e]).drop (l - 1) = es.drop (l - 1) ++ [e] := by
        apply List.drop_append_of_le_length
        rcases h.ends with ⟨hes, hl1, _, _⟩ | ⟨hl, _, _⟩
        · simp [hl1]
        · omega
      rw [hdrop, List.map_append]
      have hc : Counted a2 ((es.drop (l - 1)).map (fun e => e.Value)) :=
        ⟨h.counted.count, h.counted.errorCount, h.counted.sumResTime,
          h.counted.statusCount, h.counted.statusAgg⟩
      have hp := hc.push fe.Value
      rw [hfev] at hp
      refine ⟨?_, ?_, ?_, ?_, ?_⟩
      · rw [ic]; rw [hfev]; exact hp.count
      · rw [iec]; rw [hfev]; exact hp.errorCount
      · rw [isum]; rw [hfev]; exact hp.sumResTime
      · rw [isc]; rw [hfev]; exact hp.statusCount
      · rw [isa]; rw [hfev]; exact hp.statusAgg
    · intro j x hj hx
      rw [idur, fdur]
      show ∃ (k : Nat) (y : QueueElement), j < k ∧ (es ++ [e])[k]? = some y ∧
        x.Timestamp + a.duration < y.Timestamp
      have hjl : j < es.length := by
        rcases h.ends with ⟨hes, hl1, _, _⟩ | ⟨hl, _, _⟩
        · omega
        · omega
      rw [List.getElem?_append, if_pos hjl] at hx
      obtain ⟨k, y, hjk, hy, hlt⟩ := h.hist j x hj hx
      refine ⟨k, y, hjk, ?_, hlt⟩
      rw [List.getElem?_append, if_pos (get_lt hy)]
      exact hy
  · rw [fmem]
    show mem2.length = _
    rw [hc2.length_eq, hlen1]
  · rw [idur, fdur]
  · rw [iweb, fweb]
  · rw [ialert, falert]

/-- The expiry loop returns on every state satisfying the invariant, keeps
it, and stops at the first element that is not older than the window. -/
theorem expire_spec : ∀ (fuel : Nat) (a : Aggregator) (es : List QueueElement) (l : Nat),
    Inv a es l → es ≠ [] → 0 ≤ a.duration → es.length < fuel + l →
    ∃ (a' : Aggregator) (l' : Nat), a.expire fuel = some a' ∧ Inv a' es l' ∧ l ≤ l' ∧
      l' ≤ es.length ∧ a'.first = some es.length ∧ a'.last = some l' ∧
      a'.duration = a.duration ∧ a'.website = a.website ∧
      a'.AlertStatus = a.AlertStatus ∧
      (∃ x y : QueueElement, es[l' - 1]? = some x ∧ es[es.length - 1]? = some y ∧
        ¬ (x.Timestamp + a.duration < y.Timestamp)) := by
  intro fuel
  induction fuel with
  | zero =>
    intro a es l h hne _ hf
    rcases h.ends with ⟨hes, _⟩ | ⟨hl, _, _⟩
    · exact absurd hes hne
    · omega
  | succ fuel ih =>
    intro a es l h hne hd hf
    rcases h.ends with ⟨hes, _⟩ | ⟨hl, hlast, hfirst⟩
    · exact absurd hes hne
    have hpos := h.lpos
    have hnpos : 0 < es.length := by omega
    have hb1 : l - 1 < es.length := by omega
    have hb2 : es.length - 1 < es.length := by omega
    have hxl : es[l - 1]? = some es[l - 1] := List.getElem?_eq_getElem hb1
    have hxn : es[es.length - 1]? = some es[es.length - 1] := List.getElem?_eq_getElem hb2
    obtain ⟨lq, hlq, hlqe⟩ := h.cells (l - 1) _ hxl
    obtain ⟨fq, hfq, hfqe⟩ := h.cells (es.length - 1) _ hxn
    have hl11 : l - 1 + 1 = l := by omega
    have hn11 : es.length - 1 + 1 = es.length := by omega
    rw [hl11] at hlq
    rw [hn11] at hfq
    have hlts : lq.Timestamp = (es[l - 1]).Timestamp := congrArg Prod.snd hlqe
    have hlv : lq.Value = (es[l - 1]).Value := congrArg Prod.fst hlqe
    have hfts : fq.Timestamp = (es[es.length - 1]).Timestamp := congrArg Prod.snd hfqe
    by_cases hcond : lq.Timestamp + a.duration < fq.Timestamp
    · -- the oldest element is dropped
      have hln : l < es.length := by
        by_contra hc
        have hleq : l = es.length := by omega
        subst hleq
        rw [hlq] at hfq
        cases hfq
        omega
      obtain ⟨cmem, cheap, cfirst, clast, cdur, cweb, calert⟩ := countOut_frame a lq
      have hmemb : l ∈ a.heap.values := (h.members l).2 (Or.inr ⟨le_refl _, hl⟩)
      have hroot : a.heap.values[0]? ≠ some l := by
        rw [h.root]
        intro hc
        cases hc
        omega
      obtain ⟨mem1, vals1, hdel, hok1, hc1, hr1, hl1, hm1⟩ := delete_spec h.heap hmemb hroot
      obtain ⟨l1, hl1m, hl1core⟩ := hc1.get hlq
      obtain ⟨yl, hyl, hyln⟩ := h.chain l (le_refl _) hln
      rw [hlq] at hyl
      cases hyl
      have hl1n : l1.next = some (l + 1) := by
        have : l1.next = lq.next := congrArg (fun c => c.2.2) hl1core
        rw [this, hyln]
      let a2 : Aggregator :=
        { a.countOut lq with mem := mem1, heap := ⟨vals1⟩, last := l1.next }
      have hdrop : es.drop (l - 1) = es[l - 1] :: es.drop l := by
        have := List.drop_eq_getElem_cons (l := es) (n := l - 1) hb1
        rw [this, hl11]
      have hcnt : Counted (a.countOut lq) ((es.drop l).map (fun e => e.Value)) := by
        have hc := h.counted
        rw [hdrop, List.map_cons] at hc
        exact hc.pop lq hlv
      have hinv2 : Inv a2 es (l + 1) := by
        refine ⟨?_, ?_, by omega, Or.inr ⟨by omega, hl1n, ?_⟩, ?_, hok1, ?_, ?_, ?_, ?_, ?_⟩
        · show mem1.length = _
          rw [hc1.length_eq]; exact h.len
        · intro j x hx
          obtain ⟨y, hy, hye⟩ := h.cells j x hx
          obtain ⟨y', hy', hcore⟩ := hc1.get hy
          refine ⟨y', hy', ?_⟩
          have h1 : y'.Value = y.Value := congrArg Prod.fst hcore
          have h2 : y'.Timestamp = y.Timestamp := congrArg (fun c => c.2.1) hcore
          unfold QueueElement.event at hye ⊢
          rw [h1, h2]; exact hye
        · show (a.countOut lq).first = _
          rw [cfirst]; exact hfirst
        · intro j hlj hjn
          obtain ⟨y, hy, hyn⟩ := h.chain j (by omega) hjn
          obtain ⟨y', hy', hcore⟩ := hc1.get hy
          have h3 : y'.next = y.next := congrArg (fun c => c.2.2) hcore
          exact ⟨y', hy', by rw [h3]; exact hyn⟩
        · show vals1[0]? = some 0
          rw [hr1]; exact h.root
        · intro v
          show v ∈ vals1 ↔ _
          rw [hm1, h.members]
          omega
        · show vals1.length + (l + 1) = _
          have := h.hlen
          omega
        · rw [show l + 1 - 1 = l by omega]
          exact ⟨hcnt.count, hcnt.errorCount, hcnt.sumResTime, hcnt.statusCount,
            hcnt.statusAgg⟩
        · intro j x hj hx
          show ∃ (k : Nat) (y : QueueElement), j < k ∧ es[k]? = some y ∧
            x.Timestamp + (a.countOut lq).duration < y.Timestamp
          rw [cdur]
          by_cases hjl : j + 1 < l
          · exact h.hist j x hjl hx
          · have hj' : j = l - 1 := by omega
            subst hj'
            rw [hxl] at hx
            cases hx
            refine ⟨es.length - 1, _, by omega, hxn, ?_⟩
            rw [← hlts, ← hfts]; exact hcond
      have hd2 : 0 ≤ a2.duration := by
        show 0 ≤ (a.countOut lq).duration
        rw [cdur]; exact hd
      obtain ⟨a', l', hrec, hinv', hll', hl'n, hf', hla', hdur', hweb', hal', hstop⟩ :=
        ih a2 es (l + 1) hinv2 hne hd2 (by omega)
      have hdur2 : a2.duration = a.duration := cdur
      refine ⟨a', l', ?_, hinv', by omega, hl'n, hf', hla', by rw [hdur', hdur2], ?_, ?_, ?_⟩
      · simp only [Aggregator.expire, hlast, hfirst, hlq, hfq, hcond, if_true, cmem, cheap,
          hdel, hl1m]
        exact hrec
      · rw [hweb']; exact cweb
      · rw [hal']; exact calert
      · rw [hdur2] at hstop; exact hstop
    · refine ⟨a, l, ?_, h, le_refl _, hl, hfirst, hlast, rfl, rfl, rfl, ?_⟩
      · simp only [Aggregator.expire, hlast, hfirst, hlq, hfq, hcond, if_false]
      · exact ⟨_, _, hxl, hxn, by rw [← hlts, ← hfts]; exact hcond⟩

/-! ## The alert decision -/

/-- Whatever `emit` returns is one of the three outcomes. -/
theorem emit_cases {a : Aggregator} {r : Aggregator × Option String × Alert}
    (h : a.emit = some r) :
    ∃ (b : Bool) (alert : Alert), r = ({ a with AlertStatus := b }, none, alert) ∧
      ((alert.Init = true → ∃ (fp : Nat) (f : QueueElement), a.first = some fp ∧
          a.mem[fp]? = some f ∧ alert.Timestamp = f.Timestamp) ∧
        ∀ ts : Int, (alert.Init = true → alert.Timestamp = ts) →
          AlertRule a.AlertStatus { a with AlertStatus := b } ts alert) := by
  unfold Aggregator.emit at h
  by_cases h1 : a.low = true ∧ a.AlertStatus = false
  · have hc : (a.availability.leConst 4 5 && a.AlertStatus == false) = true := by
      have := h1.1
      unfold Aggregator.low at this
      simp [this, h1.2]
    simp only [hc, if_true] at h
    cases hf : a.first with
    | none => simp [hf] at h
    | some fp =>
      cases hm : a.mem[fp]? with
      | none => simp [hf, hm] at h
      | some f =>
        simp only [hf, hm, Option.some.injEq] at h
        refine ⟨true, downAlert a f.Timestamp, h.symm, ?_, ?_⟩
        · intro _; exact ⟨fp, f, rfl, hm, rfl⟩
        · intro ts hts
          have : f.Timestamp = ts := hts rfl
          subst this
          exact Or.inl ⟨h1.1, h1.2, rfl, rfl⟩
  · have hc : (a.availability.leConst 4 5 && a.AlertStatus == false) = false := by
      unfold Aggregator.low at h1
      cases hl : a.availability.leConst 4 5 <;> cases hs : a.AlertStatus <;> simp_all
    simp only [hc, Bool.false_eq_true, if_false] at h
    by_cases h2 : a.high = true ∧ a.AlertStatus = true
    · have hc2 : (a.availability.gtConst 4 5 && a.AlertStatus == true) = true := by
        have := h2.1
        unfold Aggregator.high at this
        simp [this, h2.2]
      simp only [hc2, if_true] at h
      cases hf : a.first with
      | none => simp [hf] at h
      | some fp =>
        cases hm : a.mem[fp]? with
        | none => simp [hf, hm] at h
        | some f =>
          simp only [hf, hm, Option.some.injEq] at h
          refine ⟨false, upAlert a f.Timestamp, h.symm, ?_, ?_⟩
          · intro _; exact ⟨fp, f, rfl, hm, rfl⟩
          · intro ts hts
            have : f.Timestamp = ts := hts rfl
            subst this
            exact Or.inr (Or.inl ⟨h2.1, h2.2, rfl, rfl⟩)
    · have hc2 : (a.availability.gtConst 4 5 && a.AlertStatus == true) = false := by
        unfold Aggregator.high at h2
        cases hl : a.availability.gtConst 4 5 <;> cases hs : a.AlertStatus <;> simp_all
      simp only [hc2, Bool.false_eq_true, if_false, Option.some.injEq] at h
      refine ⟨a.AlertStatus, Alert.zero, h.symm, ?_, ?_⟩
      · intro hc; cases hc
      · intro ts _
        exact Or.inr (Or.inr ⟨h1, h2, rfl, rfl⟩)

/-- With a newest element to read, `emit` returns. -/
theorem emit_some {a : Aggregator} {fp : Nat} {f : QueueElement} (hf : a.first = some fp)
    (hm : a.mem[fp]? = some f) : ∃ r, a.emit = some r := by
  unfold Aggregator.emit
  simp only [hf, hm]
  split
  · exact ⟨_, rfl⟩
  · split
    · exact ⟨_, rfl⟩
    · exact ⟨_, rfl⟩

/-- The invariant does not read the alert flag. -/
theorem Inv.setAlert {a : Aggregator} {es : List QueueElement} {l : Nat} (h : Inv a es l)
    (b : Bool) : Inv { a with AlertStatus := b } es l :=
  ⟨h.len, h.cells, h.lpos, h.ends, h.chain, h.heap, h.root, h.members, h.hlen,
    ⟨h.counted.count, h.counted.errorCount, h.counted.sumResTime, h.counted.statusCount,
      h.counted.statusAgg⟩, h.hist⟩

/-! ## Fields that `Add` only changes in its alert decision -/

theorem SameSetup.compose {a b c : Aggregator} (h1 : SameSetup a b) (h2 : SameSetup b c) :
    SameSetup a c :=
  ⟨h2.1.trans h1.1, h2.2.1.trans h1.2.1, h2.2.2.trans h1.2.2⟩

theorem link_frame {a a1 : Aggregator} {e : QueueElement} (h : a.link e = some a1) :
    SameSetup a a1 := by
  unfold Aggregator.link at h
  cases hf : a.first with
  | none =>
    simp only [hf, Option.some.injEq] at h
    subst h
    exact ⟨rfl, rfl, rfl⟩
  | some f =>
    simp only [hf] at h
    cases hm : (a.mem ++ [e])[f]? with
    | none => simp [hm] at h
    | some fe =>
      simp only [hm, Option.some.injEq] at h
      subst h
      exact ⟨rfl, rfl, rfl⟩

theorem heapInsert_frame {a a1 : Aggregator} (h : a.heapInsert = some a1) : SameSetup a a1 := by
  unfold Aggregator.heapInsert at h
  cases hf : a.first with
  | none => simp [hf] at h
  | some p =>
    simp only [hf] at h
    cases hi : a.heap.insert a.mem p with
    | none => simp [hi] at h
    | some r =>
      simp only [hi, Option.some.injEq] at h
      subst h
      exact ⟨rfl, rfl, rfl⟩

theorem countIn_frame {a a1 : Aggregator} (h : a.countIn = some a1) : SameSetup a a1 := by
  unfold Aggregator.countIn at h
  cases hf : a.first with
  | none => simp [hf] at h
  | some p =>
    simp only [hf] at h
    cases hm : a.mem[p]? with
    | none => simp [hm] at h
    | some fe =>
      simp only [hm] at h
      split at h
      · simp only [Option.some.injEq] at h
        subst h
        exact ⟨rfl, rfl, rfl⟩
      · simp only [Option.some.injEq] at h
        subst h
        exact ⟨rfl, rfl, rfl⟩

theorem expire_frame : ∀ (fuel : Nat) (a a' : Aggregator), a.expire fuel = some a' →
    SameSetup a a' := by
  intro fuel
  induction fuel with
  | zero => intro a a' h; simp [Aggregator.expire] at h
  | succ fuel ih =>
    intro a a' h
    unfold Aggregator.expire at h
    cases hl : a.last with
    | none => simp [hl] at h
    | some lp =>
      cases hf : a.first with
      | none => simp [hl, hf] at h
      | some fp =>
        simp only [hl, hf] at h
        cases hml : a.mem[lp]? with
        | none => simp [hml] at h
        | some lq =>
          cases hmf : a.mem[fp]? with
          | none => simp [hml, hmf] at h
          | some fq =>
            simp only [hml, hmf] at h
            split at h
            · cases hd : (a.countOut lq).heap.delete (a.countOut lq).mem lp with
              | none => simp [hd] at h
              | some r =>
                simp only [hd] at h
                cases hm1 : r.1[lp]? with
                | none => simp [hm1] at h
                | some l1 =>
                  simp only [hm1] at h
                  have := ih _ _ h
                  obtain ⟨_, _, _, _, cdur, cweb, calert⟩ := countOut_frame a lq
                  exact ⟨this.1.trans cdur, this.2.1.trans cweb, this.2.2.trans calert⟩
            · simp only [Option.some.injEq] at h
              subst h
              exact ⟨rfl, rfl, rfl⟩

/-- Whatever `Add` returns comes from the alert decision taken in a state with
the duration, website and alert flag of the state before the call. -/
theorem Add_emit {a : Aggregator} {e : QueueElement} {r : Aggregator × Option String × Alert}
    (h : a.Add e = some r) : ∃ a4 : Aggregator, a4.emit = some r ∧ SameSetup a a4 := by
  unfold Aggregator.Add at h
  cases h1 : a.link e with
  | none => simp [h1] at h
  | some a1 =>
    simp only [h1] at h
    cases h2 : a1.heapInsert with
    | none => simp [h2] at h
    | some a2 =>
      simp only [h2] at h
      cases h3 : a2.countIn with
      | none => simp [h3] at h
      | some a3 =>
        simp only [h3] at h
        cases h4 : a3.initLast.expire a3.mem.length with
        | none => simp [h4] at h
        | some a4 =>
          simp only [h4] at h
          refine ⟨a4, h, ?_⟩
          obtain ⟨_, _, _, idur, iweb, ialert, _⟩ := initLast_frame a3
          have hi : SameSetup a3 a3.initLast := ⟨idur, iweb, ialert⟩
          exact (((link_frame h1).compose (heapInsert_frame h2)).compose (countIn_frame h3)).compose
            (hi.compose (expire_frame _ _ _ h4))

/-- From any state whatsoever, what `Add` returns follows the alert rule: a nil
error, and the alert and new flag decided from the availability after
insertion and expiry and the flag before the call; a real alert carries the
timestamp of the newest element. -/
theorem Add_rule_any {a : Aggregator} {e : QueueElement}
    {r : Aggregator × Option String × Alert} (h : a.Add e = some r) :
    r.2.1 = none ∧ r.1.website = a.website ∧
      ∃ ts : Int, AlertRule a.AlertStatus r.1 ts r.2.2 ∧
        (r.2.2.Init = true → ∃ n : QueueElement, r.1.newest = some n ∧ n.Timestamp = ts) := by
  obtain ⟨a4, hemit, hset⟩ := Add_emit h
  obtain ⟨b, alert, hreq, hinit, hrule⟩ := emit_cases hemit
  subst hreq
  refine ⟨rfl, hset.2.1, alert.Timestamp, ?_, ?_⟩
  · have := hrule alert.Timestamp (fun _ => rfl)
    rw [hset.2.2] at this
    exact this
  · intro hi
    obtain ⟨fp, f, hfp, hf, ht⟩ := hinit hi
    refine ⟨f, ?_, ht.symm⟩
    show (match a4.first with | some p => a4.mem[p]? | none => none) = some f
    rw [hfp]; exact hf

/-! ## `Add` on the states it reaches -/

/-! ## Binary rounding -/

theorem bitLen_spec : ∀ (fuel n : Nat), n ≤ fuel →
    n < 2 ^ bitLen fuel n ∧ (n ≠ 0 → 2 ^ (bitLen fuel n - 1) ≤ n) := by
  intro fuel
  induction fuel with
  | zero =>
    intro n hn
    have h0 : n = 0 := by omega
    subst h0
    simp [bitLen]
  | succ f ih =>
    intro n hn
    by_cases h0 : n = 0
    · subst h0
      simp [bitLen]
    · have hrec : bitLen (f + 1) n = bitLen f (n / 2) + 1 := by simp [bitLen, h0]
      rw [hrec]
      obtain ⟨h1, h2⟩ := ih (n / 2) (by omega)
      constructor
      · rw [pow_succ]
        omega
      · intro _
        simp only [Nat.add_sub_cancel]
        by_cases h3 : n / 2 = 0
        · have hz : bitLen f (n / 2) = 0 := by
            rw [h3]
            cases f <;> simp [bitLen]
          rw [hz]
          simp
          omega
        · have h4 := h2 h3
          have hb : 1 ≤ bitLen f (n / 2) := by
            by_contra hc
            have hz : bitLen f (n / 2) = 0 := by omega
            rw [hz] at h1
            simp at h1
            exact h3 h1
          have hp : 2 ^ bitLen f (n / 2) = 2 * 2 ^ (bitLen f (n / 2) - 1) := by
            conv_lhs => rw [show bitLen f (n / 2) = (bitLen f (n / 2) - 1) + 1 by omega]
            rw [pow_succ]
            ring
          omega

/-- A positive number lies between the two powers of two its digit count
gives. -/
theorem bits_spec {n : Nat} (hn : 0 < n) :
    1 ≤ bits n ∧ 2 ^ (bits n - 1) ≤ n ∧ n < 2 ^ bits n := by
  obtain ⟨h1, h2⟩ := bitLen_spec n n (le_refl n)
  refine ⟨?_, h2 (by omega), h1⟩
  by_contra hc
  have hz : bitLen n n = 0 := by
    unfold bits at hc
    omega
  rw [hz] at h1
  simp at h1
  omega

/-- The bounds of `bits_spec` as rational powers. -/
theorem bits_bounds {n : Nat} (hn : 0 < n) :
    (2 : ℚ) ^ ((bits n : ℤ)) / 2 ≤ n ∧ (n : ℚ) < 2 ^ ((bits n : ℤ)) := by
  obtain ⟨h1, h2, h3⟩ := bits_spec hn
  constructor
  · have hp : (2 : ℚ) ^ ((bits n : ℤ)) = 2 * 2 ^ (bits n - 1) := by
      rw [zpow_natCast]
      conv_lhs => rw [show bits n = (bits n - 1) + 1 by omega]
      rw [pow_succ]
      ring
    rw [hp]
    have : ((2 ^ (bits n - 1) : ℕ) : ℚ) ≤ n := by exact_mod_cast h2
    push_cast at this
    linarith
  · rw [zpow_natCast]
    exact_mod_cast h3

/-- What `scale` computes. -/
theorem scale_spec (n d : Nat) (e : Int) (hd : 0 < d) :
    0 < (scale n d e).2 ∧
      ((scale n d e).1 : ℚ) / (scale n d e).2 = (n : ℚ) / d / 2 ^ e := by
  have hd0 : (d : ℚ) ≠ 0 := by exact_mod_cast (Nat.pos_iff_ne_zero.1 hd)
  unfold scale
  by_cases he : 0 ≤ e
  · rw [if_pos he]
    obtain ⟨k, hk⟩ := Int.eq_ofNat_of_zero_le he
    subst hk
    simp only [Int.toNat_ofNat, zpow_natCast]
    refine ⟨Nat.mul_pos hd (Nat.pow_pos (by norm_num)), ?_⟩
    push_cast
    rw [div_div]
  · rw [if_neg he]
    obtain ⟨k, hk⟩ := Int.eq_ofNat_of_zero_le (show 0 ≤ -e by omega)
    have he2 : e = -(k : ℤ) := by omega
    subst he2
    simp only [neg_neg, Int.toNat_ofNat, zpow_neg, zpow_natCast]
    refine ⟨hd, ?_⟩
    push_cast
    field_simp

/-- The exponent of `roundBits` puts the scaled quotient between
`2 ^ (p - 1)` and `2 ^ p`, and the mantissa is the nearest integer to it. -/
theorem roundBits_spec (p n d : Nat) (hn : 0 < n) (hd : 0 < d) :
    0 < (scale n d (roundBits p n d).2).2 ∧
      ((scale n d (roundBits p n d).2).1 : ℚ) / (scale n d (roundBits p n d).2).2 =
        (n : ℚ) / d / 2 ^ (roundBits p n d).2 ∧
      (2 : ℚ) ^ p / 2 ≤ (n : ℚ) / d / 2 ^ (roundBits p n d).2 ∧
      (n : ℚ) / d / 2 ^ (roundBits p n d).2 < 2 ^ p ∧
      (roundBits p n d).1 =
        nearestEven (scale n d (roundBits p n d).2).1 (scale n d (roundBits p n d).2).2 := by
  obtain ⟨hn1, hn2⟩ := bits_bounds hn
  obtain ⟨hd1, hd2⟩ := bits_bounds hd
  have hnq : (0 : ℚ) < n := by exact_mod_cast hn
  have hdq : (0 : ℚ) < d := by exact_mod_cast hd
  have h2 : (2 : ℚ) ≠ 0 := by norm_num
  obtain ⟨e0, he0⟩ : ∃ e0 : ℤ, e0 = (bits n : ℤ) - (bits d : ℤ) - (p : ℤ) := ⟨_, rfl⟩
  have hpow : (2 : ℚ) ^ e0 = 2 ^ (bits n : ℤ) / 2 ^ (bits d : ℤ) / 2 ^ p := by
    rw [he0, zpow_sub₀ h2, zpow_sub₀ h2, zpow_natCast 2 p]
  have hPn : (0 : ℚ) < 2 ^ (bits n : ℤ) := zpow_pos (by norm_num) _
  have hPd : (0 : ℚ) < 2 ^ (bits d : ℤ) := zpow_pos (by norm_num) _
  have hPp : (0 : ℚ) < 2 ^ p := pow_pos (by norm_num) _
  have hPe : (0 : ℚ) < 2 ^ e0 := zpow_pos (by norm_num) _
  have hval : (n : ℚ) / d / 2 ^ e0 =
      n * 2 ^ (bits d : ℤ) * 2 ^ p / (d * 2 ^ (bits n : ℤ)) := by
    rw [hpow]
    field_simp
    ring
  have hdA : (d : ℚ) * 2 ^ (bits n : ℤ) < 2 * (n * 2 ^ (bits d : ℤ)) := by
    have h1 : (d : ℚ) * 2 ^ (bits n : ℤ) < 2 ^ (bits d : ℤ) * 2 ^ (bits n : ℤ) :=
      mul_lt_mul_of_pos_right hd2 hPn
    have h3 : (2 : ℚ) ^ (bits d : ℤ) * 2 ^ (bits n : ℤ) ≤ 2 ^ (bits d : ℤ) * (2 * n) :=
      mul_le_mul_of_nonneg_left (by linarith) (le_of_lt hPd)
    linarith
  have hnB : (n : ℚ) * 2 ^ (bits d : ℤ) < 2 * (d * 2 ^ (bits n : ℤ)) := by
    have h1 : (n : ℚ) * 2 ^ (bits d : ℤ) < 2 ^ (bits n : ℤ) * 2 ^ (bits d : ℤ) :=
      mul_lt_mul_of_pos_right hn2 hPd
    have h3 : (2 : ℚ) ^ (bits n : ℤ) * 2 ^ (bits d : ℤ) ≤ 2 ^ (bits n : ℤ) * (2 * d) :=
      mul_le_mul_of_nonneg_left (by linarith) (le_of_lt hPn)
    linarith
  have hlow : (2 : ℚ) ^ p / 2 < (n : ℚ) / d / 2 ^ e0 := by
    rw [hval, lt_div_iff₀ (by positivity)]
    have := mul_lt_mul_of_pos_right hdA hPp
    linarith
  have hhigh : (n : ℚ) / d / 2 ^ e0 < 2 * 2 ^ p := by
    rw [hval, div_lt_iff₀ (by positivity)]
    have := mul_lt_mul_of_pos_right hnB hPp
    linarith
  obtain ⟨hs0, hv0⟩ := scale_spec n d e0 hd
  have hs0q : (0 : ℚ) < (scale n d e0).2 := by exact_mod_cast hs0
  have hcond : ((scale n d e0).2 * 2 ^ p ≤ (scale n d e0).1) ↔
      (2 : ℚ) ^ p ≤ (n : ℚ) / d / 2 ^ e0 := by
    rw [← hv0, le_div_iff₀ hs0q]
    constructor
    · intro h
      have : (((scale n d e0).2 * 2 ^ p : ℕ) : ℚ) ≤ (scale n d e0).1 := by exact_mod_cast h
      push_cast at this
      linarith
    · intro h
      have : (((scale n d e0).2 * 2 ^ p : ℕ) : ℚ) ≤ (scale n d e0).1 := by
        push_cast
        linarith
      exact_mod_cast this
  have hr2 : (roundBits p n d).2 =
      if (scale n d e0).2 * 2 ^ p ≤ (scale n d e0).1 then e0 + 1 else e0 := by
    rw [he0]
    rfl
  have hr1 : (roundBits p n d).1 =
      nearestEven (scale n d (roundBits p n d).2).1 (scale n d (roundBits p n d).2).2 := rfl
  obtain ⟨hs, hv⟩ := scale_spec n d (roundBits p n d).2 hd
  refine ⟨hs, hv, ?_, ?_, hr1⟩
  · rw [hr2]
    by_cases hc : (scale n d e0).2 * 2 ^ p ≤ (scale n d e0).1
    · rw [if_pos hc, zpow_add_one₀ h2, ← div_div, le_div_iff₀ (by norm_num)]
      have := hcond.1 hc
      linarith
    · rw [if_neg hc]
      exact le_of_lt hlow
  · rw [hr2]
    by_cases hc : (scale n d e0).2 * 2 ^ p ≤ (scale n d e0).1
    · rw [if_pos hc, zpow_add_one₀ h2, ← div_div, div_lt_iff₀ (by norm_num)]
      linarith
    · rw [if_neg hc]
      have := mt hcond.2 hc
      exact lt_of_not_le this

/-! ### The nearest integer -/

theorem nearestEven_cases (N D : Nat) :
    nearestEven N D = N / D ∨ nearestEven N D = N / D + 1 := by
  unfold nearestEven
  split
  · exact Or.inl rfl
  · split
    · exact Or.inr rfl
    · split
      · exact Or.inl rfl
      · exact Or.inr rfl

theorem nearestEven_le {N D M : Nat} (hD : 0 < D) (h : 2 * N < 2 * (D * M) + D) :
    nearestEven N D ≤ M := by
  have hq := Nat.div_add_mod N D
  have hr := Nat.mod_lt N hD
  rcases Nat.lt_trichotomy (N / D) M with hlt | heq | hgt
  · rcases nearestEven_cases N D with hc | hc <;> omega
  · have h1 : 2 * (N % D) < D := by
      rw [heq] at hq
      omega
    unfold nearestEven
    rw [if_pos h1]
    omega
  · exfalso
    have := Nat.mul_le_mul_left D (show M + 1 ≤ N / D from hgt)
    rw [Nat.mul_succ] at this
    omega

theorem nearestEven_le_odd {N D M : Nat} (hD : 0 < D) (hM : M % 2 = 1)
    (h : nearestEven N D ≤ M) : 2 * N < 2 * (D * M) + D := by
  have hq := Nat.div_add_mod N D
  have hr := Nat.mod_lt N hD
  rcases Nat.lt_trichotomy (N / D) M with hlt | heq | hgt
  · have := Nat.mul_le_mul_left D (show N / D + 1 ≤ M from hlt)
    rw [Nat.mul_succ] at this
    omega
  · unfold nearestEven at h
    by_cases h1 : 2 * (N % D) < D
    · rw [heq] at hq
      omega
    · rw [if_neg h1] at h
      by_cases h2 : D < 2 * (N % D)
      · rw [if_pos h2] at h
        omega
      · rw [if_neg h2] at h
        have h3 : ¬ (N / D) % 2 = 0 := by omega
        rw [if_neg h3] at h
        omega
  · exfalso
    rcases nearestEven_cases N D with hc | hc <;> omega

theorem le_nearestEven {N D M : Nat} (hD : 0 < D) (h : D * M ≤ N) : M ≤ nearestEven N D := by
  have h1 : M ≤ N / D := (Nat.le_div_iff_mul_le hD).2 (by rw [Nat.mul_comm]; exact h)
  rcases nearestEven_cases N D with hc | hc <;> omega

theorem nearestEven_le_of_le {N D M : Nat} (hD : 0 < D) (h : N ≤ D * M) :
    nearestEven N D ≤ M :=
  nearestEven_le hD (by omega)

theorem nearestEven_one (N : Nat) : nearestEven N 1 = N := by
  unfold nearestEven
  simp [Nat.mod_one]

theorem nearestEven_zero {D : Nat} (hD : 0 < D) : nearestEven 0 D = 0 := by
  unfold nearestEven
  simp [hD]

/-- What `dyadic` computes. -/
theorem dyadic_spec (m : Nat) (e : Int) :
    0 < (dyadic m e).2 ∧ ((dyadic m e).1 : ℚ) / (dyadic m e).2 = m * 2 ^ e := by
  unfold dyadic
  by_cases he : 0 ≤ e
  · rw [if_pos he]
    obtain ⟨k, hk⟩ := Int.eq_ofNat_of_zero_le he
    subst hk
    simp only [Int.toNat_ofNat, zpow_natCast]
    refine ⟨Nat.one_pos, ?_⟩
    push_cast
    simp
  · rw [if_neg he]
    obtain ⟨k, hk⟩ := Int.eq_ofNat_of_zero_le (show 0 ≤ -e by omega)
    have he2 : e = -(k : ℤ) := by omega
    subst he2
    simp only [neg_neg, Int.toNat_ofNat, zpow_neg, zpow_natCast]
    have hpow : 0 < 2 ^ k := Nat.pow_pos (by norm_num)
    have hg : 0 < Nat.gcd m (2 ^ k) := Nat.gcd_pos_of_pos_right _ hpow
    have hgm : Nat.gcd m (2 ^ k) ∣ m := Nat.gcd_dvd_left _ _
    have hgp : Nat.gcd m (2 ^ k) ∣ 2 ^ k := Nat.gcd_dvd_right _ _
    have hgq : ((Nat.gcd m (2 ^ k) : ℕ) : ℚ) ≠ 0 := by exact_mod_cast (Nat.pos_iff_ne_zero.1 hg)
    refine ⟨Nat.div_pos (Nat.le_of_dvd hpow hgp) hg, ?_⟩
    rw [Nat.cast_div hgm hgq, Nat.cast_div hgp hgq]
    push_cast
    field_simp

/-- The mantissa of a positive quotient lies between `2 ^ p / 2` and
`2 ^ p`. -/
theorem roundBits_mantissa (p n d : Nat) (hp : 1 ≤ p) (hn : 0 < n) (hd : 0 < d) :
    2 ^ (p - 1) ≤ (roundBits p n d).1 ∧ (roundBits p n d).1 ≤ 2 ^ p := by
  obtain ⟨hs, hv, hlo, hhi, hm⟩ := roundBits_spec p n d hn hd
  have hsq : (0 : ℚ) < (scale n d (roundBits p n d).2).2 := by exact_mod_cast hs
  rw [← hv] at hlo hhi
  have hpp : (2 : ℚ) ^ p = 2 * 2 ^ (p - 1) := by
    conv_lhs => rw [show p = (p - 1) + 1 by omega]
    rw [pow_succ]
    ring
  rw [hm]
  constructor
  · apply le_nearestEven hs
    rw [le_div_iff₀ hsq, hpp] at hlo
    have : (((scale n d (roundBits p n d).2).2 * 2 ^ (p - 1) : ℕ) : ℚ) ≤
        (scale n d (roundBits p n d).2).1 := by
      push_cast
      linarith
    exact_mod_cast this
  · apply nearestEven_le_of_le hs
    rw [div_lt_iff₀ hsq] at hhi
    have : (((scale n d (roundBits p n d).2).1 : ℕ) : ℚ) ≤
        ((scale n d (roundBits p n d).2).2 * 2 ^ p : ℕ) := by
      push_cast
      linarith
    exact_mod_cast this

/-- The mantissa of the quotient zero is zero. -/
theorem roundBits_zero (p d : Nat) (hd : 0 < d) : (roundBits p 0 d).1 = 0 := by
  have hm : (roundBits p 0 d).1 =
      nearestEven (scale 0 d (roundBits p 0 d).2).1 (scale 0 d (roundBits p 0 d).2).2 := rfl
  obtain ⟨hs, hv⟩ := scale_spec 0 d (roundBits p 0 d).2 hd
  have h0 : (scale 0 d (roundBits p 0 d).2).1 = 0 := by
    unfold scale
    split <;> simp
  rw [hm, h0]
  exact nearestEven_zero hs

/-- Comparison of a rounded positive quotient with a value of the format whose
mantissa `M` is odd: the rounded quotient is at most `M * 2 ^ E` exactly when
the quotient is below the midpoint `(M + 1/2) * 2 ^ E`. -/
theorem roundBits_le_iff (p n d M : Nat) (E : Int) (hn : 0 < n) (hd : 0 < d)
    (hM1 : 2 ^ p ≤ 2 * M) (hM2 : M < 2 ^ p) (hodd : M % 2 = 1) :
    ((roundBits p n d).1 : ℚ) * 2 ^ (roundBits p n d).2 ≤ M * 2 ^ E ↔
      (n : ℚ) / d < (M + 1 / 2) * 2 ^ E := by
  have hp : 1 ≤ p := by
    by_contra hc
    have : p = 0 := by omega
    subst this
    simp at hM1 hM2
    omega
  obtain ⟨hs, hv, hlo, hhi, hm⟩ := roundBits_spec p n d hn hd
  obtain ⟨hm1, hm2⟩ := roundBits_mantissa p n d hp hn hd
  obtain ⟨m, hmdef⟩ : ∃ m : ℕ, m = (roundBits p n d).1 := ⟨_, rfl⟩
  obtain ⟨e, hedef⟩ : ∃ e : ℤ, e = (roundBits p n d).2 := ⟨_, rfl⟩
  rw [← hmdef] at hm hm1 hm2 ⊢
  rw [← hedef] at hs hv hlo hhi hm ⊢
  have hsq : (0 : ℚ) < (scale n d e).2 := by exact_mod_cast hs
  have h2 : (2 : ℚ) ≠ 0 := by norm_num
  have hPe : (0 : ℚ) < 2 ^ e := zpow_pos (by norm_num) _
  have hPE : (0 : ℚ) < 2 ^ E := zpow_pos (by norm_num) _
  have hPp : (0 : ℚ) < 2 ^ p := pow_pos (by norm_num) _
  have hMq1 : (2 : ℚ) ^ p ≤ 2 * M := by exact_mod_cast hM1
  have hMq2 : (M : ℚ) + 1 ≤ 2 ^ p := by exact_mod_cast hM2
  have hmq2 : (m : ℚ) ≤ 2 ^ p := by exact_mod_cast hm2
  have hmq1 : (2 : ℚ) ^ p ≤ 2 * m := by
    have hpp : 2 ^ p = 2 * 2 ^ (p - 1) := by
      conv_lhs => rw [show p = (p - 1) + 1 by omega]
      rw [pow_succ]
      ring
    have : 2 ^ p ≤ 2 * m := by omega
    exact_mod_cast this
  have hdq : (d : ℚ) ≠ 0 := by exact_mod_cast (Nat.pos_iff_ne_zero.1 hd)
  have hx : (n : ℚ) / d = (n : ℚ) / d / 2 ^ e * 2 ^ e := by
    rw [div_mul_cancel₀ _ (ne_of_gt hPe)]
  have hMnn : (0 : ℚ) ≤ M := Nat.cast_nonneg _
  have hmnn : (0 : ℚ) ≤ m := Nat.cast_nonneg _
  rcases lt_trichotomy e E with hlt | heq | hgt
  · have hstep : (2 : ℚ) ^ e * 2 ≤ 2 ^ E := by
      rw [← zpow_add_one₀ h2]
      exact zpow_le_zpow_right₀ (by norm_num) (by omega)
    have h3 : (2 : ℚ) ^ p * 2 ^ e ≤ M * 2 ^ E := by
      have ha : (2 : ℚ) ^ p * 2 ^ e ≤ 2 * M * 2 ^ e := mul_le_mul_of_nonneg_right hMq1 (le_of_lt hPe)
      have hb : (M : ℚ) * (2 ^ e * 2) ≤ M * 2 ^ E := mul_le_mul_of_nonneg_left hstep hMnn
      linarith
    constructor
    · intro _
      rw [hx]
      have h1 : (n : ℚ) / d / 2 ^ e * 2 ^ e < 2 ^ p * 2 ^ e := mul_lt_mul_of_pos_right hhi hPe
      linarith
    · intro _
      have h1 : (m : ℚ) * 2 ^ e ≤ 2 ^ p * 2 ^ e := mul_le_mul_of_nonneg_right hmq2 (le_of_lt hPe)
      linarith
  · subst heq
    rw [mul_le_mul_right hPe, hx, mul_lt_mul_right hPe, ← hv, div_lt_iff₀ hsq]
    constructor
    · intro h
      have hmM : m ≤ M := by exact_mod_cast h
      rw [hm] at hmM
      have := nearestEven_le_odd hs hodd hmM
      have hc : ((2 * (scale n d e).1 : ℕ) : ℚ) <
          ((2 * ((scale n d e).2 * M) + (scale n d e).2 : ℕ) : ℚ) := by exact_mod_cast this
      push_cast at hc
      linarith
    · intro h
      have hc : ((2 * (scale n d e).1 : ℕ) : ℚ) <
          ((2 * ((scale n d e).2 * M) + (scale n d e).2 : ℕ) : ℚ) := by
        push_cast
        linarith
      have hc2 : 2 * (scale n d e).1 < 2 * ((scale n d e).2 * M) + (scale n d e).2 := by
        exact_mod_cast hc
      have := nearestEven_le hs hc2
      rw [← hm] at this
      exact_mod_cast this
  · have hstep : (2 : ℚ) ^ E * 2 ≤ 2 ^ e := by
      rw [← zpow_add_one₀ h2]
      exact zpow_le_zpow_right₀ (by norm_num) (by omega)
    have h3 : ((M : ℚ) + 1) * 2 ^ E ≤ 2 ^ p / 2 * 2 ^ e := by
      have ha : ((M : ℚ) + 1) * 2 ^ E ≤ 2 ^ p * 2 ^ E := mul_le_mul_of_nonneg_right hMq2 (le_of_lt hPE)
      have hb : (2 : ℚ) ^ p / 2 * (2 ^ E * 2) ≤ 2 ^ p / 2 * 2 ^ e :=
        mul_le_mul_of_nonneg_left hstep (by positivity)
      linarith
    constructor
    · intro h
      exfalso
      have h1 : (2 : ℚ) ^ p / 2 * 2 ^ e ≤ m * 2 ^ e :=
        mul_le_mul_of_nonneg_right (by linarith) (le_of_lt hPe)
      linarith
    · intro h
      exfalso
      rw [hx] at h
      have h1 : (2 : ℚ) ^ p / 2 * 2 ^ e ≤ (n : ℚ) / d / 2 ^ e * 2 ^ e :=
        mul_le_mul_of_nonneg_right hlo (le_of_lt hPe)
      linarith

/-! ### `float32` values -/

theorem Float32.round_den (neg : Bool) (n d : Nat) : (Float32.round neg n d).den ≠ 0 := by
  obtain ⟨hpos, _⟩ := dyadic_spec (roundBits 24 n d).1 (roundBits 24 n d).2
  unfold Float32.round
  cases neg
  · simp only [Bool.false_eq_true, if_false]
    omega
  · simp only [if_true]
    split <;> omega

theorem dyadic_num_pos {m : Nat} (e : Int) (hm : 0 < m) : 0 < (dyadic m e).1 := by
  obtain ⟨hpos, hval⟩ := dyadic_spec m e
  have hq : (0 : ℚ) < (dyadic m e).2 := by exact_mod_cast hpos
  have hv : (0 : ℚ) < (m : ℚ) * 2 ^ e :=
    mul_pos (by exact_mod_cast hm) (zpow_pos (by norm_num) _)
  rw [← hval] at hv
  have : (0 : ℚ) < (dyadic m e).1 := by
    by_contra hc
    have h0 : ((dyadic m e).1 : ℚ) ≤ 0 := not_lt.1 hc
    have := div_nonpos_of_nonpos_of_nonneg h0 (le_of_lt hq)
    linarith
  exact_mod_cast this

theorem Float32.round_num (neg : Bool) (n d : Nat) (hn : 0 < n) (hd : 0 < d) :
    (Float32.round neg n d).num ≠ 0 := by
  obtain ⟨hm1, _⟩ := roundBits_mantissa 24 n d (by norm_num) hn hd
  have hm : 0 < (roundBits 24 n d).1 := lt_of_lt_of_le (Nat.pow_pos (by norm_num)) hm1
  have hv := dyadic_num_pos (roundBits 24 n d).2 hm
  unfold Float32.round
  cases neg
  · simp only [Bool.false_eq_true, if_false]
    omega
  · simp only [if_true]
    omega

/-- The quotient by the conversion of a non-zero integer is finite. -/
theorem Float32.quot_finite (a b : Int) (hb : b ≠ 0) : (Float32.quot a b).den ≠ 0 := by
  have h1 : (Float32.ofInt a).den ≠ 0 := Float32.round_den _ _ _
  have h2 : (Float32.ofInt b).den ≠ 0 := Float32.round_den _ _ _
  have h3 : (Float32.ofInt b).num ≠ 0 :=
    Float32.round_num _ _ _ (Int.natAbs_pos.2 hb) Nat.one_pos
  unfold Float32.quot Float32.div
  rw [if_neg h1, if_neg h2, if_neg h3]
  exact Float32.round_den _ _ _

theorem Float32.gt_eq_not_le (x : Float32) (p q : Nat) (h : x.den ≠ 0) :
    x.gtConst p q = !x.leConst p q := by
  unfold Float32.gtConst Float32.leConst
  rw [if_neg h, if_neg h]
  by_cases hc : x.num * (Float32.ofConst p q).den ≤ (Float32.ofConst p q).num * x.den.natAbs
  · rw [decide_eq_true hc, decide_eq_false (not_lt.2 hc)]
    rfl
  · rw [decide_eq_false hc, decide_eq_true (not_le.1 hc)]
    rfl

theorem Float32.ofConst_four_fifths : Float32.ofConst 4 5 = ⟨13421773, 16777216⟩ := by
  decide

/-- The `float32` nearest to `n / d` is at most `float32(0.8)` exactly when
`n / d` is below the midpoint `26843547 / 2^25` of `float32(0.8)` and the next
value of the format. -/
theorem Float32.round_le_const (n d : Nat) (hd : 0 < d) :
    (Float32.round false n d).leConst 4 5 = decide (n * 33554432 < 26843547 * d) := by
  obtain ⟨hpos, hval⟩ := dyadic_spec (roundBits 24 n d).1 (roundBits 24 n d).2
  have hden := Float32.round_den false n d
  unfold Float32.leConst
  rw [if_neg hden, Float32.ofConst_four_fifths]
  have hx : Float32.round false n d =
      ⟨((dyadic (roundBits 24 n d).1 (roundBits 24 n d).2).1 : Int),
        ((dyadic (roundBits 24 n d).1 (roundBits 24 n d).2).2 : Int)⟩ := by
    unfold Float32.round
    simp
  rw [hx]
  simp only [Int.natAbs_ofNat]
  have hq : (0 : ℚ) < (dyadic (roundBits 24 n d).1 (roundBits 24 n d).2).2 := by
    exact_mod_cast hpos
  have hdq : (0 : ℚ) < d := by exact_mod_cast hd
  have hiff : ((dyadic (roundBits 24 n d).1 (roundBits 24 n d).2).1 : Int) * 16777216 ≤
        13421773 * ((dyadic (roundBits 24 n d).1 (roundBits 24 n d).2).2 : Int) ↔
      ((roundBits 24 n d).1 : ℚ) * 2 ^ (roundBits 24 n d).2 ≤
        ((13421773 : ℕ) : ℚ) * 2 ^ (-24 : ℤ) := by
    rw [← hval, div_le_iff₀ hq]
    have h24 : (2 : ℚ) ^ (-24 : ℤ) = 1 / 16777216 := by norm_num [zpow_neg]
    rw [h24]
    constructor
    · intro h
      have hc : (((dyadic (roundBits 24 n d).1 (roundBits 24 n d).2).1 : Int) : ℚ) * 16777216 ≤
          13421773 * (((dyadic (roundBits 24 n d).1 (roundBits 24 n d).2).2 : Int) : ℚ) := by
        exact_mod_cast h
      push_cast at hc ⊢
      linarith
    · intro h
      have hc : (((dyadic (roundBits 24 n d).1 (roundBits 24 n d).2).1 : Int) : ℚ) * 16777216 ≤
          13421773 * (((dyadic (roundBits 24 n d).1 (roundBits 24 n d).2).2 : Int) : ℚ) := by
        push_cast at h ⊢
        linarith
      exact_mod_cast hc
  by_cases hn : n = 0
  · subst hn
    have hm := roundBits_zero 24 d hd
    have hleft : ((dyadic (roundBits 24 0 d).1 (roundBits 24 0 d).2).1 : Int) * 16777216 ≤
        13421773 * ((dyadic (roundBits 24 0 d).1 (roundBits 24 0 d).2).2 : Int) := by
      rw [hiff, hm]
      simp
      positivity
    simp only [hleft, decide_True]
    symm
    simp only [decide_eq_true_eq]
    omega
  · have hnpos : 0 < n := Nat.pos_of_ne_zero hn
    have hthr := roundBits_le_iff 24 n d 13421773 (-24) hnpos hd (by norm_num) (by norm_num)
      (by norm_num)
    have hmid : (n : ℚ) / d < ((13421773 : ℕ) + 1 / 2) * 2 ^ (-24 : ℤ) ↔
        n * 33554432 < 26843547 * d := by
      have h24 : (2 : ℚ) ^ (-24 : ℤ) = 1 / 16777216 := by norm_num [zpow_neg]
      rw [h24, div_lt_iff₀ hdq]
      constructor
      · intro h
        have hc : ((n * 33554432 : ℕ) : ℚ) < ((26843547 * d : ℕ) : ℚ) := by
          push_cast at h ⊢
          linarith
        exact_mod_cast hc
      · intro h
        have hc : ((n * 33554432 : ℕ) : ℚ) < ((26843547 * d : ℕ) : ℚ) := by exact_mod_cast h
        push_cast at hc ⊢
        linarith
    have hall := hiff.trans (hthr.trans hmid)
    by_cases hc : n * 33554432 < 26843547 * d
    · simp only [hc, decide_True, decide_eq_true_eq]
      exact hall.2 hc
    · simp only [hc, decide_False, decide_eq_false_iff_not]
      exact fun h => hc (hall.1 h)

/-- The conversion of a natural number below `2 ^ 24` is exact. -/
theorem Float32.ofInt_small (n : Nat) (h : n < 16777216) :
    ∃ a b : Nat, Float32.ofInt (n : Int) = ⟨(a : Int), (b : Int)⟩ ∧ 0 < b ∧ (a : ℚ) / b = n := by
  obtain ⟨hpos, hval⟩ := dyadic_spec (roundBits 24 n 1).1 (roundBits 24 n 1).2
  refine ⟨(dyadic (roundBits 24 n 1).1 (roundBits 24 n 1).2).1,
    (dyadic (roundBits 24 n 1).1 (roundBits 24 n 1).2).2, ?_, hpos, ?_⟩
  · unfold Float32.ofInt Float32.round
    simp
  · rw [hval]
    by_cases hn : n = 0
    · subst hn
      rw [roundBits_zero 24 1 Nat.one_pos]
      simp
    · have hnpos : 0 < n := Nat.pos_of_ne_zero hn
      obtain ⟨hs, hv, hlo, hhi, hm⟩ := roundBits_spec 24 n 1 hnpos Nat.one_pos
      have hPe : (0 : ℚ) < 2 ^ (roundBits 24 n 1).2 := zpow_pos (by norm_num) _
      have hnq : (n : ℚ) < 16777216 := by exact_mod_cast h
      have he : (roundBits 24 n 1).2 ≤ 0 := by
        by_contra hc
        have h1 : (1 : ℤ) ≤ (roundBits 24 n 1).2 := by omega
        have h2 : (2 : ℚ) ^ (1 : ℤ) ≤ 2 ^ (roundBits 24 n 1).2 :=
          zpow_le_zpow_right₀ (by norm_num) h1
        rw [zpow_one] at h2
        rw [le_div_iff₀ hPe] at hlo
        norm_num at hlo
        nlinarith
      have hs1 : (scale n 1 (roundBits 24 n 1).2).2 = 1 := by
        unfold scale
        by_cases h0 : 0 ≤ (roundBits 24 n 1).2
        · have : (roundBits 24 n 1).2 = 0 := le_antisymm he h0
          rw [if_pos h0, this]
          simp
        · rw [if_neg h0]
      rw [hs1, nearestEven_one] at hm
      rw [hs1] at hv
      rw [hm]
      have : ((scale n 1 (roundBits 24 n 1).2).1 : ℚ) = (n : ℚ) / 2 ^ (roundBits 24 n 1).2 := by
        have := hv
        simp only [Nat.cast_one, div_one] at this
        exact this
      rw [this, div_mul_cancel₀ _ (ne_of_gt hPe)]

/-- The quotient of two natural numbers below `2 ^ 24` is the rounding of
their exact quotient. -/
theorem Float32.quot_small (s t : Nat) (hs : s < 16777216) (ht0 : 0 < t) (ht : t < 16777216) :
    ∃ N D : Nat, Float32.quot (s : Int) (t : Int) = Float32.round false N D ∧ 0 < D ∧
      (N : ℚ) / D = (s : ℚ) / t := by
  obtain ⟨a, b, hab, hb, hvs⟩ := Float32.ofInt_small s hs
  obtain ⟨c, d, hcd, hd, hvt⟩ := Float32.ofInt_small t ht
  have hbq : (0 : ℚ) < b := by exact_mod_cast hb
  have hdq : (0 : ℚ) < d := by exact_mod_cast hd
  have htq : (0 : ℚ) < t := by exact_mod_cast ht0
  have hc : 0 < c := by
    rcases Nat.eq_zero_or_pos c with h0 | h0
    · rw [h0] at hvt
      simp at hvt
      linarith
    · exact h0
  have hcq : (0 : ℚ) < c := by exact_mod_cast hc
  refine ⟨a * d, b * c, ?_, Nat.mul_pos hb hc, ?_⟩
  · unfold Float32.quot
    rw [hab, hcd]
    unfold Float32.div Float32.neg
    have h1 : ¬ ((b : Int) = 0) := by omega
    have h2 : ¬ ((d : Int) = 0) := by omega
    have h3 : ¬ ((c : Int) = 0) := by omega
    simp only [h1, h2, h3, if_false, Int.natAbs_ofNat]
    have hn1 : decide ((a : Int) < 0) = false := by simp
    have hn2 : decide ((b : Int) < 0) = false := by simp
    have hn3 : decide ((c : Int) < 0) = false := by simp
    have hn4 : decide ((d : Int) < 0) = false := by simp
    simp [hn1, hn2, hn3, hn4]
  · push_cast
    rw [← hvs, ← hvt]
    field_simp

/-- For a window of fewer than `2 ^ 24` elements the test
`availability <= 0.80` of `Add` is the test `s / t < 26843547 / 2^25`. -/
theorem Float32.quot_le_const (s t : Nat) (hst : s ≤ t) (ht0 : 0 < t) (ht : t < 16777216) :
    (Float32.quot (s : Int) (t : Int)).leConst 4 5 = decide (s * 33554432 < 26843547 * t) := by
  obtain ⟨N, D, hq, hD, hv⟩ := Float32.quot_small s t (by omega) ht0 ht
  rw [hq, Float32.round_le_const N D hD]
  have hDq : (0 : ℚ) < D := by exact_mod_cast hD
  have htq : (0 : ℚ) < t := by exact_mod_cast ht0
  have hiff : N * 33554432 < 26843547 * D ↔ s * 33554432 < 26843547 * t := by
    have hcross : (N : ℚ) * t = s * D := by
      field_simp at hv
      linarith
    constructor
    · intro h
      have h1 : ((N * 33554432 : ℕ) : ℚ) < ((26843547 * D : ℕ) : ℚ) := by exact_mod_cast h
      push_cast at h1
      have h2 : ((s * 33554432 : ℕ) : ℚ) < ((26843547 * t : ℕ) : ℚ) := by
        push_cast
        by_contra hc
        have hc2 : (26843547 : ℚ) * t ≤ s * 33554432 := not_lt.1 hc
        have := mul_le_mul_of_nonneg_right hc2 (le_of_lt hDq)
        have h3 := mul_lt_mul_of_pos_right h1 htq
        nlinarith
      exact_mod_cast h2
    · intro h
      have h1 : ((s * 33554432 : ℕ) : ℚ) < ((26843547 * t : ℕ) : ℚ) := by exact_mod_cast h
      push_cast at h1
      have h2 : ((N * 33554432 : ℕ) : ℚ) < ((26843547 * D : ℕ) : ℚ) := by
        push_cast
        by_contra hc
        have hc2 : (26843547 : ℚ) * D ≤ N * 33554432 := not_lt.1 hc
        have := mul_le_mul_of_nonneg_right hc2 (le_of_lt htq)
        have h3 := mul_lt_mul_of_pos_right h1 hDq
        nlinarith
      exact_mod_cast h2
  by_cases hc : s * 33554432 < 26843547 * t
  · simp [hc, hiff.2 hc]
  · simp [hc, mt hiff.1 hc]

/-- For a window of at most 4793490 elements the test `availability <= 0.80`
of `Add` is exact. -/
theorem Float32.quot_le_exact (s t : Nat) (hst : s ≤ t) (ht0 : 0 < t) (ht : t ≤ 4793490) :
    (Float32.quot (s : Int) (t : Int)).leConst 4 5 = decide (5 * s ≤ 4 * t) := by
  rw [Float32.quot_le_const s t hst ht0 (by omega)]
  by_cases hc : 5 * s ≤ 4 * t
  · have : s * 33554432 < 26843547 * t := by omega
    simp [hc, this]
  · have : ¬ s * 33554432 < 26843547 * t := by omega
    simp [hc, this]

/-! ### `float64` and the milliseconds of a duration -/

theorem nOk_add_nErr (vs : List PingLog) : nOk vs + nErr vs = vs.length := by
  unfold nOk nErr
  induction vs with
  | nil => rfl
  | cons v vs ih =>
    simp only [List.countP_cons, List.length_cons]
    cases v.ok <;> simp <;> omega

/-- The denominator of the availability is the size of the window. -/
theorem Inv.total {a : Aggregator} {es : List QueueElement} {l : Nat} (h : Inv a es l) :
    a.count + a.errorCount = ((es.length + 1 - l : Nat) : Int) := by
  rw [h.counted.count, h.counted.errorCount]
  have := nOk_add_nErr ((es.drop (l - 1)).map (fun e => e.Value))
  simp only [List.length_map, List.length_drop] at this
  have hl := h.lpos
  omega

/-- `Add` returns on every state satisfying the invariant and leaves a settled
state; the alert follows the rule. -/
theorem Add_spec {a : Aggregator} {es : List QueueElement} {l : Nat} (h : Inv a es l)
    (hd : 0 ≤ a.duration) (e : QueueElement) (he : e.Value.ResponseTime ≤ maxInt64) :
    ∃ (r : Aggregator × Option String × Alert) (l' : Nat),
      a.Add e = some r ∧ r.2.1 = none ∧ Settled r.1 (es ++ [e]) l' ∧ l ≤ l' ∧
      r.1.duration = a.duration ∧ r.1.website = a.website ∧
      AlertRule a.AlertStatus r.1 e.Timestamp r.2.2 := by
  obtain ⟨a3, ⟨a1, a2, h1, h2, h3⟩, hinv3, hlen3, hdur3, hweb3, hal3⟩ := pre_expire h e he
  have hne : es ++ [e] ≠ [] := by simp
  have hlpos := h.lpos
  obtain ⟨a4, l', hexp, hinv4, hll', hl'n, hf4, hla4, hdur4, hweb4, hal4, hstop⟩ :=
    expire_spec a3.mem.length a3.initLast (es ++ [e]) l hinv3 hne (by rw [hdur3]; exact hd)
      (by rw [hlen3]; simp; omega)
  have hlast : (es ++ [e])[(es ++ [e]).length - 1]? = some e := by simp
  obtain ⟨f, hf, hfe⟩ := hinv4.cells es.length e (by simp)
  have hfts : f.Timestamp = e.Timestamp := congrArg Prod.snd hfe
  have hf4' : a4.first = some (es.length + 1) := by simpa using hf4
  obtain ⟨r, hr⟩ := emit_some hf4' hf
  obtain ⟨b, alert, hreq, hinit, hrule⟩ := emit_cases hr
  have hts : alert.Init = true → alert.Timestamp = e.Timestamp := by
    intro hi
    obtain ⟨fp, f', hfp, hf', ht⟩ := hinit hi
    rw [hf4'] at hfp
    cases hfp
    rw [hf] at hf'
    cases hf'
    rw [ht, hfts]
  have hrule' := hrule e.Timestamp hts
  have hadd : a.Add e = some r := by
    simp only [Aggregator.Add, h1, h2, h3, hexp]
    exact hr
  have hden : ({ a4 with AlertStatus := b } : Aggregator).availability.den ≠ 0 := by
    apply Float32.quot_finite
    show a4.count + a4.errorCount ≠ 0
    rw [hinv4.total]
    simp only [List.length_append, List.length_singleton] at hl'n ⊢
    omega
  have hhl : ({ a4 with AlertStatus := b } : Aggregator).high
      = !({ a4 with AlertStatus := b } : Aggregator).low :=
    Float32.gt_eq_not_le _ 4 5 hden
  subst hreq
  refine ⟨_, l', hadd, rfl, ⟨hinv4.setAlert b, hne, hl'n, hf4, hla4, ?_, ?_⟩, hll', ?_, ?_, ?_⟩
  · obtain ⟨x, y, hx, hy, hxy⟩ := hstop
    refine ⟨x, y, hx, hy, ?_⟩
    show ¬ (x.Timestamp + a4.duration < y.Timestamp)
    rw [hdur4]; exact hxy
  · show b = ({ a4 with AlertStatus := b } : Aggregator).low
    rcases hrule' with ⟨hlow, _, hb, _⟩ | ⟨hhigh, _, hb, _⟩ | ⟨hn1, hn2, hb, _⟩
    · rw [hlow]; exact hb
    · rw [hhl] at hhigh
      have hb' : b = false := hb
      rw [hb']
      cases hl : ({ a4 with AlertStatus := false } : Aggregator).low
      · rfl
      · rw [hb'] at hhigh; rw [hl] at hhigh; simp at hhigh
    · have hb' : b = a4.AlertStatus := hb
      rw [hhl] at hn2
      cases hl : ({ a4 with AlertStatus := b } : Aggregator).low <;>
        cases hs : a4.AlertStatus <;> simp_all
  · show a4.duration = a.duration
    rw [hdur4, hdur3]
  · show a4.website = a.website
    rw [hweb4, hweb3]
  · have : a4.AlertStatus = a.AlertStatus := by rw [hal4, hal3]
    rw [← this]
    exact hrule'

/-! ## The window of a reached state -/

theorem walk_spec {a : Aggregator} {es : List QueueElement} {l : Nat} (h : Inv a es l) :
    ∀ (k j : Nat), l ≤ j → j ≤ es.length → es.length < k + j →
      (walk a.mem (some es.length) k (some j)).map QueueElement.event =
        (es.drop (j - 1)).map QueueElement.event := by
  intro k
  induction k with
  | zero => intro j _ h2 h3; omega
  | succ k ih =>
    intro j hlj hjn hk
    have hl := h.lpos
    have hb : j - 1 < es.length := by omega
    have hj1 : j - 1 + 1 = j := by omega
    obtain ⟨y, hy, hye⟩ := h.cells (j - 1) _ (List.getElem?_eq_getElem hb)
    rw [hj1] at hy
    have hdrop : es.drop (j - 1) = es[j - 1] :: es.drop j := by
      have := List.drop_eq_getElem_cons (l := es) (n := j - 1) hb
      rw [this, hj1]
    rw [hdrop, List.map_cons]
    by_cases hjn' : j = es.length
    · have hnil : es.drop j = [] := by rw [hjn']; simp
      have hif : some j = some es.length := by rw [hjn']
      simp only [walk, hy, hif, if_true, List.map_cons, List.map_nil, hnil]
      rw [hye]
    · obtain ⟨y', hy', hyn⟩ := h.chain j hlj (by omega)
      rw [hy] at hy'
      cases hy'
      have hne : ¬ (some j = some es.length) := by
        intro hc; exact hjn' (Option.some.inj hc)
      simp only [walk, hy, hne, if_false, List.map_cons, hyn]
      rw [hye]
      have := ih (j + 1) (by omega) (by omega) (by omega)
      simp only [Nat.add_sub_cancel] at this
      rw [this]

/-- The window of a settled state: the events from the `l`-th on. -/
theorem Settled.window_eq {a : Aggregator} {es : List QueueElement} {l : Nat}
    (h : Settled a es l) :
    a.window.map QueueElement.event = (es.drop (l - 1)).map QueueElement.event := by
  unfold Aggregator.window
  rw [h.first, h.last, h.inv.len]
  have := h.inv.lpos
  exact walk_spec h.inv (es.length + 1) l (le_refl _) h.lle (by omega)

/-- A run of `Add`s from a state satisfying the invariant returns and ends in a
settled state. -/
theorem addAll_spec : ∀ (new : List QueueElement) (a : Aggregator) (es : List QueueElement)
    (l : Nat), Inv a es l → 0 ≤ a.duration →
    (∀ e ∈ new, e.Value.ResponseTime ≤ maxInt64) → new ≠ [] →
    ∃ (a' : Aggregator) (l' : Nat), addAll a new = some a' ∧ Settled a' (es ++ new) l' ∧
      a'.duration = a.duration ∧ a'.website = a.website := by
  intro new
  induction new with
  | nil => intro a es l _ _ _ hne; exact absurd rfl hne
  | cons e rest ih =>
    intro a es l h hd hb _
    obtain ⟨r, l1, hadd, _, hset, _, hdur, hweb, _⟩ :=
      Add_spec h hd e (hb e (List.mem_cons_self _ _))
    by_cases hrest : rest = []
    · subst hrest
      exact ⟨r.1, l1, by simp [addAll, hadd], hset, hdur, hweb⟩
    · obtain ⟨a', l', hrun, hset', hdur', hweb'⟩ :=
        ih r.1 (es ++ [e]) l1 hset.inv (by rw [hdur]; exact hd)
          (fun x hx => hb x (List.mem_cons_of_mem _ hx)) hrest
      refine ⟨a', l', by simp [addAll, hadd, hrun], ?_, by rw [hdur', hdur], by rw [hweb', hweb]⟩
      simpa using hset'

/-- Every state reached from a fresh aggregator by a non-empty run is settled. -/
theorem reach_settled {d : Int} {w : String} {es : List QueueElement} (hd : 0 ≤ d)
    (hb : ∀ e ∈ es, e.Value.ResponseTime ≤ maxInt64) (hne : es ≠ []) :
    ∃ (a : Aggregator) (l : Nat), addAll (NewAggregator d w) es = some a ∧ Settled a es l ∧
      a.duration = d ∧ a.website = w := by
  obtain ⟨a, l, h1, h2, h3, h4⟩ := addAll_spec es (NewAggregator d w) [] 1 (Inv.fresh d w) hd hb hne
  exact ⟨a, l, h1, by simpa using h2, h3, h4⟩

/-! ## Reached states -/

theorem Settled.values_eq {a : Aggregator} {es : List QueueElement} {l : Nat}
    (h : Settled a es l) :
    a.window.map (fun e => e.Value) = (es.drop (l - 1)).map (fun e => e.Value) := by
  have := congrArg (List.map Prod.fst) h.window_eq
  simpa [List.map_map, Function.comp_def, QueueElement.event] using this

theorem Settled.times_eq {a : Aggregator} {es : List QueueElement} {l : Nat}
    (h : Settled a es l) :
    a.window.map (fun e => e.Timestamp) = (es.drop (l - 1)).map (fun e => e.Timestamp) := by
  have := congrArg (List.map Prod.snd) h.window_eq
  simpa [List.map_map, Function.comp_def, QueueElement.event] using this

/-- The counters of a settled state, read on its window. -/
theorem Settled.counted {a : Aggregator} {es : List QueueElement} {l : Nat}
    (h : Settled a es l) : Counted a (a.window.map (fun e => e.Value)) := by
  rw [h.values_eq]; exact h.inv.counted

/-- What is known of a state reached from a fresh aggregator. -/
theorem reach_inv {d : Int} {w : String} {es : List QueueElement} {a : Aggregator}
    (hd : 0 ≤ d) (hb : ∀ e ∈ es, e.Value.ResponseTime ≤ maxInt64)
    (h : addAll (NewAggregator d w) es = some a) :
    ∃ l : Nat, Inv a es l ∧ a.duration = d ∧ a.website = w ∧ (es ≠ [] → Settled a es l) ∧
      (es = [] → a.AlertStatus = false) := by
  by_cases hne : es = []
  · subst hne
    simp only [addAll, Option.some.injEq] at h
    subst h
    exact ⟨1, Inv.fresh d w, rfl, rfl, fun hc => absurd rfl hc, fun _ => rfl⟩
  · obtain ⟨a', l, h1, h2, h3, h4⟩ := reach_settled (w := w) hd hb hne
    rw [h] at h1
    cases h1
    exact ⟨l, h2.inv, h3, h4, fun _ => h2, fun hc => absurd hc hne⟩

/-- A run from a fresh aggregator followed by one more `Add`. -/
theorem reach_add {d : Int} {w : String} {es : List QueueElement} {e : QueueElement}
    (hd : 0 ≤ d) (hb : ∀ x ∈ es ++ [e], x.Value.ResponseTime ≤ maxInt64) :
    ∃ (a : Aggregator) (r : Aggregator × Option String × Alert) (l l' : Nat),
      addAll (NewAggregator d w) es = some a ∧ a.Add e = some r ∧ r.2.1 = none ∧
      Inv a es l ∧ (es ≠ [] → Settled a es l) ∧ (es = [] → a.AlertStatus = false) ∧
      Settled r.1 (es ++ [e]) l' ∧ r.1.website = w ∧
      AlertRule a.AlertStatus r.1 e.Timestamp r.2.2 := by
  have hb1 : ∀ x ∈ es, x.Value.ResponseTime ≤ maxInt64 :=
    fun x hx => hb x (List.mem_append_left _ hx)
  have he : e.Value.ResponseTime ≤ maxInt64 := hb e (by simp)
  have hrun : ∃ a, addAll (NewAggregator d w) es = some a := by
    by_cases hne : es = []
    · subst hne; exact ⟨_, rfl⟩
    · obtain ⟨a, l, h1, _⟩ := reach_settled (w := w) hd hb1 hne
      exact ⟨a, h1⟩
  obtain ⟨a, ha⟩ := hrun
  obtain ⟨l, hinv, hdur, hweb, hset, hfresh⟩ := reach_inv hd hb1 ha
  obtain ⟨r, l', hadd, herr, hset', _, _, hweb', hrule⟩ :=
    Add_spec hinv (by rw [hdur]; exact hd) e he
  exact ⟨a, r, l, l', ha, hadd, herr, hinv, hset, hfresh, hset', by rw [hweb', hweb], hrule⟩

/-- The duration of an aggregator never changes. -/
theorem reach_add_duration {d : Int} {w : String} {es : List QueueElement} {e : QueueElement}
    {a : Aggregator} {r : Aggregator × Option String × Alert}
    (hd : 0 ≤ d) (hb : ∀ x ∈ es ++ [e], x.Value.ResponseTime ≤ maxInt64)
    (hrun : addAll (NewAggregator d w) es = some a) (hadd : a.Add e = some r) :
    a.duration = d ∧ r.1.duration = d := by
  have hb1 : ∀ x ∈ es, x.Value.ResponseTime ≤ maxInt64 :=
    fun x hx => hb x (List.mem_append_left _ hx)
  obtain ⟨l, hinv, hdur, _, _, _⟩ := reach_inv hd hb1 hrun
  obtain ⟨r', l', hadd', _, _, _, hdur', _, _⟩ :=
    Add_spec hinv (by rw [hdur]; exact hd) e (hb e (by simp))
  rw [hadd] at hadd'
  cases hadd'
  exact ⟨hdur, by rw [hdur', hdur]⟩

/-- A run whose events all carry the same timestamp expires nothing. -/
theorem Settled.keeps_all {a : Aggregator} {es : List QueueElement} {l : Nat}
    (h : Settled a es l) (hd : 0 ≤ a.duration) (ts : Int)
    (hts : ∀ e ∈ es, e.Timestamp = ts) : l = 1 := by
  have hpos := h.inv.lpos
  by_contra hc
  have hlen : 0 < es.length := List.length_pos.2 h.nonempty
  obtain ⟨k, y, _, hy, hlt⟩ :=
    h.inv.hist 0 es[0] (by omega) (List.getElem?_eq_getElem hlen)
  have h1 : (es[0]).Timestamp = ts := hts _ (List.getElem_mem _)
  have h2 : y.Timestamp = ts := hts y (List.getElem?_mem hy)
  rw [h1, h2] at hlt
  omega

/-- In a settled state `statusCount[200]` is between 0 and `count + errorCount`,
which is positive. -/
theorem Settled.counts_range {a : Aggregator} {es : List QueueElement} {l : Nat}
    (h : Settled a es l) :
    0 < a.count + a.errorCount ∧ 0 ≤ a.statusCount 200 ∧
      a.statusCount 200 ≤ a.count + a.errorCount := by
  have hc := h.inv.counted
  have hle : nStatus ((es.drop (l - 1)).map (fun e => e.Value)) 200 ≤
      nOk ((es.drop (l - 1)).map (fun e => e.Value)) := by
    unfold nStatus nOk
    apply List.countP_mono_left
    intro v _ hv
    simp only [Bool.and_eq_true] at hv
    exact hv.1
  have htot := h.inv.total
  have hlle := h.lle
  refine ⟨?_, ?_, ?_⟩
  · rw [htot]; omega
  · rw [hc.statusCount]; exact Int.ofNat_nonneg _
  · rw [hc.statusCount, hc.count, hc.errorCount]
    have : (0 : Int) ≤ nErr ((es.drop (l - 1)).map (fun e => e.Value)) := Int.ofNat_nonneg _
    omega

/-- The two tests of `Add` on counters with `0 <= statusCount[200] <=
count + errorCount` and `0 < count + errorCount`: one is the negation of the
other; for fewer than `2 ^ 24` elements the test `availability <= 0.80` is
`statusCount[200] / (count + errorCount) < 26843547 / 33554432`, and for at
most 4793490 elements it is `statusCount[200] / (count + errorCount) <= 4/5`. -/
theorem Aggregator.low_iff (a : Aggregator) (h0 : 0 ≤ a.statusCount 200)
    (h1 : a.statusCount 200 ≤ a.count + a.errorCount) (h2 : 0 < a.count + a.errorCount) :
    a.high = (!a.low) ∧
    (a.count + a.errorCount < 16777216 →
      (a.low = true ↔
        a.statusCount 200 * 33554432 < 26843547 * (a.count + a.errorCount))) ∧
    (a.count + a.errorCount ≤ 4793490 →
      (a.low = true ↔ 5 * a.statusCount 200 ≤ 4 * (a.count + a.errorCount))) := by
  obtain ⟨s, hs⟩ := Int.eq_ofNat_of_zero_le h0
  obtain ⟨t, ht⟩ := Int.eq_ofNat_of_zero_le (le_of_lt h2)
  have hst : s ≤ t := by omega
  have ht0 : 0 < t := by omega
  have hlow : a.low = (Float32.quot (s : Int) (t : Int)).leConst 4 5 := by
    unfold Aggregator.low Aggregator.availability
    rw [hs, ht]
  refine ⟨?_, ?_, ?_⟩
  · exact Float32.gt_eq_not_le _ 4 5 (Float32.quot_finite _ _ (by omega))
  · intro hlt
    rw [hlow, Float32.quot_le_const s t hst ht0 (by omega), hs, ht, decide_eq_true_eq]
    omega
  · intro hle
    rw [hlow, Float32.quot_le_exact s t hst ht0 (by omega), hs, ht, decide_eq_true_eq]
    omega

/-- The run `twoBlocks A B`: its length, the number of its probes with status
200, the timestamps and the response times. -/
theorem twoBlocks_spec (A B : Nat) :
    nStatus ((twoBlocks A B).map (fun e => e.Value)) 200 = A ∧
      (twoBlocks A B).length = A + B ∧
      ∀ x ∈ twoBlocks A B, x.Timestamp = 0 ∧ x.Value.ResponseTime ≤ maxInt64 := by
  refine ⟨?_, ?_, ?_⟩
  · have h1 : ((probe 0 200 50).Value.ok && decide ((probe 0 200 50).Value.Status = 200)) = true := by
      decide
    have h2 : ((probe 0 500 50).Value.ok && decide ((probe 0 500 50).Value.Status = 200)) = false := by
      decide
    simp only [twoBlocks, nStatus, List.map_append, List.map_replicate, List.countP_append,
      List.countP_replicate, h1, h2, if_true, Bool.false_eq_true, if_false, Nat.add_zero]
  · simp only [twoBlocks, List.length_append, List.length_replicate]
  · intro x hx
    rcases List.mem_append.1 hx with h | h
    · rw [(List.mem_replicate.1 h).2]
      decide
    · rw [(List.mem_replicate.1 h).2]
      decide

theorem twoBlocks_snoc (A B : Nat) :
    twoBlocks A B ++ [probe 0 500 50] = twoBlocks A (B + 1) := by
  unfold twoBlocks
  rw [List.append_assoc, List.replicate_succ']

/-- The state after the run `twoBlocks A B` and the `Add` of one more failed
probe: nothing expires, and the flag follows the `float32` test. -/
theorem twoBlocks_step (A B : Nat) (hA : 0 < A) :
    ∃ (a : Aggregator) (r : Aggregator × Option String × Alert),
      addAll (NewAggregator SHORT_INTERVAL "w") (twoBlocks A B) = some a ∧
      a.Add (probe 0 500 50) = some r ∧
      a.statusCount 200 = (A : Int) ∧ a.count + a.errorCount = ((A + B : Nat) : Int) ∧
      a.AlertStatus = a.low ∧
      r.1.statusCount 200 = (A : Int) ∧ r.1.count + r.1.errorCount = ((A + B + 1 : Nat) : Int) ∧
      r.1.AlertStatus = r.1.low ∧ AlertRule a.AlertStatus r.1 0 r.2.2 := by
  obtain ⟨hn1, hlen1, hall1⟩ := twoBlocks_spec A B
  obtain ⟨hn2, hlen2, hall2⟩ := twoBlocks_spec A (B + 1)
  have hd : (0 : Int) ≤ SHORT_INTERVAL := by decide
  have hb : ∀ x ∈ twoBlocks A B ++ [probe 0 500 50], x.Value.ResponseTime ≤ maxInt64 := by
    rw [twoBlocks_snoc]
    exact fun x hx => (hall2 x hx).2
  have hne : twoBlocks A B ≠ [] := by
    intro hc
    have := congrArg List.length hc
    rw [hlen1] at this
    simp at this
    omega
  obtain ⟨a, r, l, l', hrun, hadd, _, hinv, hset, _, hset', _, hrule⟩ :=
    reach_add (w := "w") hd hb
  obtain ⟨hda, hdr⟩ := reach_add_duration hd hb hrun hadd
  have hs := hset hne
  have hl : l = 1 := hs.keeps_all (by rw [hda]; exact hd) 0 (fun e he => (hall1 e he).1)
  have hl' : l' = 1 := hset'.keeps_all (by rw [hdr]; exact hd) 0
    (by rw [twoBlocks_snoc]; exact fun e he => (hall2 e he).1)
  subst hl
  subst hl'
  have hts : (probe 0 500 50).Timestamp = 0 := by decide
  rw [hts] at hrule
  refine ⟨a, r, hrun, hadd, ?_, ?_, hs.flag, ?_, ?_, hset'.flag, hrule⟩
  · rw [hs.inv.counted.statusCount]
    simp only [Nat.sub_self, List.drop_zero]
    rw [hn1]
  · rw [hs.inv.total, hlen1]
    congr 1
  · rw [hset'.inv.counted.statusCount]
    simp only [Nat.sub_self, List.drop_zero]
    rw [twoBlocks_snoc, hn2]
  · rw [hset'.inv.total, twoBlocks_snoc, hlen2]
    congr 1

/-- The last `Add` of the run `roundingRun` followed by one more failed probe:
4000001 of the 5000001 probes of the window have status 200, the availability
`4000001 / 5000001` is above 0.80, and `Add` returns the "down" alert and sets
the flag, because the `float32` quotient is `float32(0.8)` itself. -/
theorem roundingRun_step :
    ∃ (a : Aggregator) (r : Aggregator × Option String × Alert),
      addAll (NewAggregator SHORT_INTERVAL "w") roundingRun = some a ∧
      a.Add (probe 0 500 50) = some r ∧
      a.AlertStatus = false ∧ a.statusCount 200 = 4000001 ∧ a.count + a.errorCount = 5000000 ∧
      a.high = true ∧
      r.1.AlertStatus = true ∧ r.2.2 = downAlert r.1 0 ∧ r.1.low = true ∧
      r.1.statusCount 200 = 4000001 ∧ r.1.count + r.1.errorCount = 5000001 := by
  obtain ⟨a, r, hrun, hadd, hsa, hta, hfa, hsr, htr, hfr, hrule⟩ :=
    twoBlocks_step 4000001 999999 (by norm_num)
  have hsa' : a.statusCount 200 = 4000001 := by rw [hsa]; rfl
  have hta' : a.count + a.errorCount = 5000000 := by rw [hta]; rfl
  have hsr' : r.1.statusCount 200 = 4000001 := by rw [hsr]; rfl
  have htr' : r.1.count + r.1.errorCount = 5000001 := by rw [htr]; rfl
  have hlowa : a.low = false := by
    unfold Aggregator.low Aggregator.availability
    rw [hsa', hta']
    decide
  have hlowr : r.1.low = true := by
    unfold Aggregator.low Aggregator.availability
    rw [hsr', htr']
    decide
  have hhigha : a.high = true := by
    have := (a.low_iff (by rw [hsa']; decide) (by rw [hsa', hta']; decide)
      (by rw [hta']; decide)).1
    rw [this, hlowa]
    rfl
  have hfa' : a.AlertStatus = false := by rw [hfa, hlowa]
  have hfr' : r.1.AlertStatus = true := by rw [hfr, hlowr]
  refine ⟨a, r, hrun, hadd, hfa', hsa', hta', hhigha, hfr', ?_, hlowr, hsr', htr'⟩
  rcases hrule with ⟨_, _, _, hal⟩ | ⟨_, hold, _, _⟩ | ⟨_, _, hsame, _⟩
  · exact hal
  · rw [hfa'] at hold
    cases hold
  · rw [hfr', hfa'] at hsame
    cases hsame

theorem filter_eq_drop {α : Type} (es : List α) (k : Nat) (p : α → Bool)
    (h1 : ∀ (i : Nat) (hi : i < es.length), i < k → p es[i] = false)
    (h2 : ∀ (i : Nat) (hi : i < es.length), k ≤ i → p es[i] = true) :
    es.filter p = es.drop k := by
  conv_lhs => rw [← List.take_append_drop k es]
  rw [List.filter_append]
  have e1 : (es.take k).filter p = [] := by
    rw [List.filter_eq_nil_iff]
    intro x hx
    obtain ⟨i, hi, hxi⟩ := List.mem_take_iff_getElem.1 hx
    have hik : i < k := lt_of_lt_of_le hi (min_le_left _ _)
    have hiN : i < es.length := lt_of_lt_of_le hi (min_le_right _ _)
    rw [← hxi, h1 i hiN hik]
    simp
  have e2 : (es.drop k).filter p = es.drop k := by
    rw [List.filter_eq_self]
    intro x hx
    obtain ⟨i, hi, hxi⟩ := List.mem_drop_iff_getElem.1 hx
    rw [← hxi]
    exact h2 (k + i) (by omega) (by omega)
  rw [e1, e2, List.nil_append]

/-- With non-decreasing timestamps the kept events are those not older than
the duration, relative to the newest. -/
theorem Settled.filter_eq {a : Aggregator} {es : List QueueElement} {l : Nat}
    (h : Settled a es l) (hs : es.Pairwise (fun x y => x.Timestamp ≤ y.Timestamp))
    (hne : es ≠ []) :
    es.filter (fun x => decide ((es.getLast hne).Timestamp ≤ x.Timestamp + a.duration)) =
      es.drop (l - 1) := by
  have hpos := h.inv.lpos
  have hlle := h.lle
  have hbn : es.length - 1 < es.length := by omega
  have hlast : es.getLast hne = es[es.length - 1] := List.getLast_eq_getElem es hne
  have hsorted := List.pairwise_iff_getElem.1 hs
  obtain ⟨x0, y0, hx0, hy0, hxy⟩ := h.bound
  rw [List.getElem?_eq_getElem hbn] at hy0
  cases hy0
  have hbl : l - 1 < es.length := by omega
  rw [List.getElem?_eq_getElem hbl] at hx0
  cases hx0
  apply filter_eq_drop
  · intro i hiN hil
    obtain ⟨k, y, hik, hy, hlt⟩ := h.inv.hist i es[i] (by omega)
      (List.getElem?_eq_getElem hiN)
    have hkN := get_lt hy
    rw [List.getElem?_eq_getElem hkN] at hy
    cases hy
    have hle : (es[k]).Timestamp ≤ (es[es.length - 1]).Timestamp := by
      by_cases hk : k = es.length - 1
      · subst hk; exact le_refl _
      · exact hsorted k (es.length - 1) hkN hbn (by omega)
    rw [hlast]
    simp only [decide_eq_false_iff_not, not_le]
    omega
  · intro i hiN hli
    have hle : (es[l - 1]).Timestamp ≤ (es[i]).Timestamp := by
      by_cases hi0 : i = l - 1
      · subst hi0; exact le_refl _
      · exact hsorted (l - 1) i hbl hiN (by omega)
    rw [hlast]
    simp only [decide_eq_true_eq]
    omega

/-! ## Claims -/

/-- C1 (code defect): after the seven probes of `heapLossRun` on a 2-minute
aggregator the window holds response times 20, 10, 30 and 10 ms, and
`GetMaxResTime` returns 20, not the maximum 30. -/
theorem C1_max_below_window_maximum :
    (addAll (NewAggregators "w").Short heapLossRun).map
        (fun a => (a.GetMaxResTime.map (fun m => m.1),
          a.window.map (fun e => resMillis e.Value.ResponseTime))) =
      some (some (Float32.ofInt 20), [20, 10, 30, 10]) := by
  decide

/-- C2: for every non-empty sequence of events with non-decreasing timestamps
added to a fresh aggregator of duration `d > 0`, the run returns and the queue,
oldest to newest, is exactly the events `x` added so far, in arrival order,
with `x.Timestamp + d >= ` the newest timestamp; adjacent queue elements have
non-decreasing timestamps. -/
theorem C2_window_contents (d : Int) (w : String) (es : List QueueElement) (hd : 0 < d)
    (hne : es ≠ []) (hb : ∀ e ∈ es, e.Value.ResponseTime ≤ maxInt64)
    (hs : es.Chain' (fun x y => x.Timestamp ≤ y.Timestamp)) :
    ∃ a : Aggregator, addAll (NewAggregator d w) es = some a ∧
      a.window.map QueueElement.event =
        (es.filter (fun x => decide ((es.getLast hne).Timestamp ≤ x.Timestamp + d))).map
          QueueElement.event ∧
      a.window.Chain' (fun x y => x.Timestamp ≤ y.Timestamp) := by
  obtain ⟨a, l, hrun, hset, hdur, _⟩ := reach_settled (w := w) (le_of_lt hd) hb hne
  have hp : es.Pairwise (fun x y => x.Timestamp ≤ y.Timestamp) := by
    have : IsTrans QueueElement (fun x y => x.Timestamp ≤ y.Timestamp) :=
      ⟨fun _ _ _ h1 h2 => le_trans h1 h2⟩
    exact List.chain'_iff_pairwise.1 hs
  refine ⟨a, hrun, ?_, ?_⟩
  · rw [hset.window_eq, ← hdur, hset.filter_eq hp hne]
  · have hpd : (es.drop (l - 1)).Pairwise (fun x y => x.Timestamp ≤ y.Timestamp) :=
      hp.sublist (List.drop_sublist _ _)
    have hpm : ((es.drop (l - 1)).map (fun e => e.Timestamp)).Pairwise (fun s t => s ≤ t) :=
      List.pairwise_map.2 hpd
    rw [← hset.times_eq] at hpm
    exact (List.pairwise_map.1 hpm).chain'

/-- C2, scenario S6: events at 0, 119 s and 121 s in a 2-minute aggregator
leave exactly the last two. -/
theorem C2_window_contents_witness :
    (∃ a : Aggregator, addAll (NewAggregator SHORT_INTERVAL "w") expiryRun = some a ∧
      a.window.map QueueElement.event =
        (expiryRun.filter (fun x => decide ((expiryRun.getLast (by decide)).Timestamp ≤
          x.Timestamp + SHORT_INTERVAL))).map QueueElement.event ∧
      a.window.Chain' (fun x y => x.Timestamp ≤ y.Timestamp)) ∧
    expiryRun.filter (fun x => decide ((expiryRun.getLast (by decide)).Timestamp ≤
          x.Timestamp + SHORT_INTERVAL)) = [probe 119 200 50, probe 121 200 50] ∧
    (addAll (NewAggregator SHORT_INTERVAL "w") expiryRun).map
        (fun a => (a.window.map QueueElement.event, a.GetCount.1)) =
      some ([(probe 119 200 50).event, (probe 121 200 50).event], 2) :=
  ⟨C2_window_contents SHORT_INTERVAL "w" expiryRun (by decide) (by decide) (by decide)
    (by simp [expiryRun, probe]), by decide, by decide⟩

/-- C4: after every `Add` of any run in which error-present events carry
status 0, `GetStatusCount(c)` for a status code `c` in 100..599 is the number
of elements of the window with status `c`, `statusAgg[k]` for a digit `k` in
1..5 is the number of elements whose status divided by 100 is `k`, and no
counter of the two maps is negative. -/
theorem C4_status_counters (d : Int) (w : String) (es : List QueueElement) (hd : 0 ≤ d)
    (hne : es ≠ []) (hb : ∀ e ∈ es, e.Value.ResponseTime ≤ maxInt64)
    (herr : ∀ e ∈ es, e.Value.Error.isSome = true → e.Value.Status = 0) :
    ∃ a : Aggregator, addAll (NewAggregator d w) es = some a ∧
      (∀ c : Int, 100 ≤ c → c ≤ 599 →
        (a.GetStatusCount c).1 = a.window.countP (fun e => decide (e.Value.Status = c))) ∧
      (∀ k : Int, 1 ≤ k → k ≤ 5 →
        a.statusAgg k = a.window.countP (fun e => decide (e.Value.Status.tdiv 100 = k))) ∧
      (∀ c : Int, 0 ≤ a.statusCount c) ∧ (∀ k : Int, 0 ≤ a.statusAgg k) := by
  obtain ⟨a, l, hrun, hset, _, _⟩ := reach_settled (w := w) hd hb hne
  have hc := hset.inv.counted
  have hmem : ∀ v ∈ (es.drop (l - 1)).map (fun e => e.Value),
      v.ok = false → v.Status = 0 := by
    intro v hv hok
    obtain ⟨x, hx, hxv⟩ := List.mem_map.1 hv
    have hxe : x ∈ es := List.mem_of_mem_drop hx
    rw [← hxv]
    apply herr x hxe
    rw [isSome_eq_not_ok, hxv, hok]
    rfl
  refine ⟨a, hrun, ?_, ?_, ?_, ?_⟩
  · intro c hc1 _
    show a.statusCount c = _
    have : (a.window.countP (fun e => decide (e.Value.Status = c))) =
        ((a.window.map (fun e => e.Value)).countP (fun v => decide (v.Status = c))) := by
      rw [List.countP_map]; rfl
    rw [this, hset.values_eq, hc.statusCount, nStatus]
    congr 1
    apply List.countP_congr
    intro v hv
    cases hok : v.ok
    · have := hmem v hv hok
      simp [this]
      omega
    · simp
  · intro k hk1 _
    have : (a.window.countP (fun e => decide (e.Value.Status.tdiv 100 = k))) =
        ((a.window.map (fun e => e.Value)).countP
          (fun v => decide (v.Status.tdiv 100 = k))) := by
      rw [List.countP_map]; rfl
    rw [this, hset.values_eq, hc.statusAgg, nClass]
    congr 1
    apply List.countP_congr
    intro v hv
    cases hok : v.ok
    · have := hmem v hv hok
      simp [this]
      omega
    · simp
  · intro c; rw [hc.statusCount]; exact Int.ofNat_nonneg _
  · intro k; rw [hc.statusAgg]; exact Int.ofNat_nonneg _

/-- C4 on a run with a failed probe and an expiry. -/
theorem C4_status_counters_witness :
    ∃ a : Aggregator, addAll (NewAggregator SHORT_INTERVAL "w") mixedRun = some a ∧
      (∀ c : Int, 100 ≤ c → c ≤ 599 →
        (a.GetStatusCount c).1 = a.window.countP (fun e => decide (e.Value.Status = c))) ∧
      (∀ k : Int, 1 ≤ k → k ≤ 5 →
        a.statusAgg k = a.window.countP (fun e => decide (e.Value.Status.tdiv 100 = k))) ∧
      (∀ c : Int, 0 ≤ a.statusCount c) ∧ (∀ k : Int, 0 ≤ a.statusAgg k) :=
  C4_status_counters SHORT_INTERVAL "w" mixedRun (by decide) (by decide) (by decide)
    (by decide)

/-- C5 (counterexample): after the run `roundingRun` the `Add` of one more
failed probe leaves 4000001 probes with status 200 among 5000001. The
availability `4000001 / 5000001` is above 0.80 and the flag was false, yet
`Add` returns the "down" alert and sets the flag: the `float32` quotient is
`float32(0.8)`. -/
theorem C5_down_alert_above_threshold :
    ∃ (a : Aggregator) (r : Aggregator × Option String × Alert),
      addAll (NewAggregator SHORT_INTERVAL "w") roundingRun = some a ∧
      a.Add (probe 0 500 50) = some r ∧ a.AlertStatus = false ∧
      r.2.2 = downAlert r.1 0 ∧ r.2.2.Init = true ∧ r.1.AlertStatus = true ∧
      r.1.statusCount 200 = 4000001 ∧ r.1.count + r.1.errorCount = 5000001 ∧
      4 * (r.1.count + r.1.errorCount) < 5 * r.1.statusCount 200 ∧
      r.1.availability = Float32.ofConst 4 5 := by
  obtain ⟨a, r, hrun, hadd, hfa, _, _, _, hfr, hal, _, hsr, htr⟩ := roundingRun_step
  refine ⟨a, r, hrun, hadd, hfa, hal, ?_, hfr, hsr, htr, ?_, ?_⟩
  · rw [hal]
    rfl
  · rw [hsr, htr]
    decide
  · unfold Aggregator.availability
    rw [hsr, htr]
    decide

/-- C5 (amended): in every state `a` reached by a run on a fresh aggregator,
`Add e` returns. With availability the `float32` quotient
`float32(statusCount[200]) / float32(count + errorCount)` taken in the state
after insertion and expiry, it returns the "down" alert (`Init` true, that
availability as `Value`, the timestamp of `e`, the URL of the aggregator) and
sets `AlertStatus` exactly when the availability is at most `float32(0.80)`
and `AlertStatus` was false; it returns the "up again" alert and clears
`AlertStatus` exactly when the availability is above `float32(0.80)` and
`AlertStatus` was true; otherwise it returns the zero alert and keeps
`AlertStatus`. When the window holds at most 4793490 elements the two tests
are `statusCount[200] / (count + errorCount) <= 4/5` and its negation, and when
it holds fewer than `2 ^ 24` they are
`statusCount[200] / (count + errorCount) < 26843547 / 33554432` and its
negation. -/
theorem C5_alert_decision (d : Int) (w : String) (es : List QueueElement) (e : QueueElement)
    (hd : 0 ≤ d) (hb : ∀ x ∈ es ++ [e], x.Value.ResponseTime ≤ maxInt64) :
    ∃ (a : Aggregator) (r : Aggregator × Option String × Alert),
      addAll (NewAggregator d w) es = some a ∧ a.Add e = some r ∧
      r.1.website = w ∧
      r.1.availability = Float32.quot (r.1.statusCount 200) (r.1.count + r.1.errorCount) ∧
      ((r.2.2 = downAlert r.1 e.Timestamp ∧ r.1.AlertStatus = true) ↔
        (r.1.low = true ∧ a.AlertStatus = false)) ∧
      ((r.2.2 = upAlert r.1 e.Timestamp ∧ r.1.AlertStatus = false) ↔
        (r.1.high = true ∧ a.AlertStatus = true)) ∧
      (¬ (r.1.low = true ∧ a.AlertStatus = false) →
        ¬ (r.1.high = true ∧ a.AlertStatus = true) →
        r.2.2 = Alert.zero ∧ r.1.AlertStatus = a.AlertStatus) ∧
      (r.1.count + r.1.errorCount ≤ 4793490 →
        ((r.2.2 = downAlert r.1 e.Timestamp ∧ r.1.AlertStatus = true) ↔
          (5 * r.1.statusCount 200 ≤ 4 * (r.1.count + r.1.errorCount) ∧
            a.AlertStatus = false)) ∧
        ((r.2.2 = upAlert r.1 e.Timestamp ∧ r.1.AlertStatus = false) ↔
          (4 * (r.1.count + r.1.errorCount) < 5 * r.1.statusCount 200 ∧
            a.AlertStatus = true))) ∧
      (r.1.count + r.1.errorCount < 16777216 →
        (r.1.low = true ↔
          r.1.statusCount 200 * 33554432 < 26843547 * (r.1.count + r.1.errorCount)) ∧
        (r.1.high = true ↔
          26843547 * (r.1.count + r.1.errorCount) ≤ r.1.statusCount 200 * 33554432)) := by
  obtain ⟨a, r, l, l', hrun, hadd, _, _, _, _, hset', hweb, hrule⟩ := reach_add (w := w) hd hb
  obtain ⟨hpos, hs0, hst⟩ := hset'.counts_range
  obtain ⟨hhl, hmid, hexact⟩ := r.1.low_iff hs0 hst hpos
  have hdown : (r.2.2 = downAlert r.1 e.Timestamp ∧ r.1.AlertStatus = true) ↔
      (r.1.low = true ∧ a.AlertStatus = false) := by
    constructor
    · rintro ⟨hal, hst⟩
      rcases hrule with ⟨h1, h2, _, _⟩ | ⟨_, _, _, h4⟩ | ⟨_, _, _, h4⟩
      · exact ⟨h1, h2⟩
      · rw [h4] at hal
        have := congrArg Alert.Message hal
        simp [upAlert, downAlert] at this
      · rw [h4] at hal
        have := congrArg Alert.Init hal
        simp [Alert.zero, downAlert] at this
    · rintro ⟨hlow, hold⟩
      rcases hrule with ⟨_, _, h3, h4⟩ | ⟨_, h2, _, _⟩ | ⟨h1, _, _, _⟩
      · exact ⟨h4, h3⟩
      · rw [h2] at hold; cases hold
      · exact absurd ⟨hlow, hold⟩ h1
  have hup : (r.2.2 = upAlert r.1 e.Timestamp ∧ r.1.AlertStatus = false) ↔
      (r.1.high = true ∧ a.AlertStatus = true) := by
    constructor
    · rintro ⟨hal, hst⟩
      rcases hrule with ⟨_, _, _, h4⟩ | ⟨h1, h2, _, _⟩ | ⟨_, _, _, h4⟩
      · rw [h4] at hal
        have := congrArg Alert.Message hal
        simp [upAlert, downAlert] at this
      · exact ⟨h1, h2⟩
      · rw [h4] at hal
        have := congrArg Alert.Init hal
        simp [Alert.zero, upAlert] at this
    · rintro ⟨hhigh, hold⟩
      rcases hrule with ⟨_, h2, _, _⟩ | ⟨_, _, h3, h4⟩ | ⟨_, h1, _, _⟩
      · rw [h2] at hold; cases hold
      · exact ⟨h4, h3⟩
      · exact absurd ⟨hhigh, hold⟩ h1
  have hhigh_iff : r.1.high = true ↔ ¬ r.1.low = true := by
    rw [hhl]
    cases r.1.low <;> simp
  refine ⟨a, r, hrun, hadd, hweb, rfl, hdown, hup, ?_, ?_, ?_⟩
  · intro hn1 hn2
    rcases hrule with ⟨h1, h2, _, _⟩ | ⟨h1, h2, _, _⟩ | ⟨_, _, h3, h4⟩
    · exact absurd ⟨h1, h2⟩ hn1
    · exact absurd ⟨h1, h2⟩ hn2
    · exact ⟨h4, h3⟩
  · intro hbound
    have hex := hexact hbound
    constructor
    · rw [hdown, hex]
    · rw [hup, hhigh_iff, hex]
      constructor
      · rintro ⟨h1, h2⟩
        exact ⟨by omega, h2⟩
      · rintro ⟨h1, h2⟩
        exact ⟨by omega, h2⟩
  · intro hbound
    have hm := hmid hbound
    refine ⟨hm, ?_⟩
    rw [hhigh_iff, hm]
    omega

/-- C5 (amended) at availability exactly 0.80: after four probes with status
200 a probe with status 500 gives 4 of 5, and the "down" alert is returned
with the value `float32(0.8)` and the flag set. -/
theorem C5_alert_decision_witness :
    (∃ (a : Aggregator) (r : Aggregator × Option String × Alert),
      addAll (NewAggregator SHORT_INTERVAL "w") fourOfFive = some a ∧
      a.Add (probe 40 500 80) = some r ∧ r.1.website = "w" ∧
      r.1.availability = Float32.quot (r.1.statusCount 200) (r.1.count + r.1.errorCount) ∧
      ((r.2.2 = downAlert r.1 (probe 40 500 80).Timestamp ∧ r.1.AlertStatus = true) ↔
        (r.1.low = true ∧ a.AlertStatus = false)) ∧
      ((r.2.2 = upAlert r.1 (probe 40 500 80).Timestamp ∧ r.1.AlertStatus = false) ↔
        (r.1.high = true ∧ a.AlertStatus = true)) ∧
      (¬ (r.1.low = true ∧ a.AlertStatus = false) →
        ¬ (r.1.high = true ∧ a.AlertStatus = true) →
        r.2.2 = Alert.zero ∧ r.1.AlertStatus = a.AlertStatus) ∧
      (r.1.count + r.1.errorCount ≤ 4793490 →
        ((r.2.2 = downAlert r.1 (probe 40 500 80).Timestamp ∧ r.1.AlertStatus = true) ↔
          (5 * r.1.statusCount 200 ≤ 4 * (r.1.count + r.1.errorCount) ∧
            a.AlertStatus = false)) ∧
        ((r.2.2 = upAlert r.1 (probe 40 500 80).Timestamp ∧ r.1.AlertStatus = false) ↔
          (4 * (r.1.count + r.1.errorCount) < 5 * r.1.statusCount 200 ∧
            a.AlertStatus = true))) ∧
      (r.1.count + r.1.errorCount < 16777216 →
        (r.1.low = true ↔
          r.1.statusCount 200 * 33554432 < 26843547 * (r.1.count + r.1.errorCount)) ∧
        (r.1.high = true ↔
          26843547 * (r.1.count + r.1.errorCount) ≤ r.1.statusCount 200 * 33554432))) ∧
    ((addAll (NewAggregator SHORT_INTERVAL "w") fourOfFive).bind
        (fun a => a.Add (probe 40 500 80))).map
      (fun r => (r.2.2.Init, r.2.2.Value, r.2.2.Timestamp, r.2.2.Url, r.1.AlertStatus)) =
      some (true, ⟨13421773, 16777216⟩, 40000000000, "w", true) :=
  ⟨C5_alert_decision SHORT_INTERVAL "w" fourOfFive (probe 40 500 80) (by decide) (by decide),
    by decide⟩

/-- C6 (counterexample): the first `Add` of a probe with status 500 to a fresh
2-minute aggregator turns the alert flag from false to true, while the
availability before that `Add` is the undefined quotient 0/0 and not a value
above 0.80. And after the run `roundingRun` the `Add` of one more failed probe
turns the flag from false to true while the availability it leaves,
`4000001 / 5000001`, is above 0.80. -/
theorem C6_transition_counterexample :
    ((NewAggregators "w").Short.AlertStatus = false ∧
      ((NewAggregators "w").Short.Add (probe 0 500 80)).map (fun r => r.1.AlertStatus) =
        some true ∧
      (NewAggregators "w").Short.availability.isNaN = true ∧
      (NewAggregators "w").Short.high = false) ∧
    (∃ (a : Aggregator) (r : Aggregator × Option String × Alert),
      addAll (NewAggregator SHORT_INTERVAL "w") roundingRun = some a ∧
      a.Add (probe 0 500 50) = some r ∧ a.AlertStatus = false ∧ r.1.AlertStatus = true ∧
      r.1.statusCount 200 = 4000001 ∧ r.1.count + r.1.errorCount = 5000001 ∧
      4 * (r.1.count + r.1.errorCount) < 5 * r.1.statusCount 200) := by
  refine ⟨by decide, ?_⟩
  obtain ⟨a, r, hrun, hadd, hfa, _, _, _, hfr, _, _, hsr, htr⟩ := roundingRun_step
  refine ⟨a, r, hrun, hadd, hfa, hfr, hsr, htr, ?_⟩
  rw [hsr, htr]
  decide

/-- C6 (amended): in every state `a` reached by a run `es` on a fresh
aggregator, with availability the `float32` quotient that `Add` computes: an
`Add` that turns the alert flag from false to true leaves availability at most
`float32(0.80)`, and availability was above `float32(0.80)` before it unless
the window was still empty (`es = []`); an `Add` that turns the flag from true
to false leaves availability above `float32(0.80)` and availability was at
most `float32(0.80)` before it; the one alert returned is a real one (`Init`)
exactly when the flag changed. For a window of at most 4793490 elements
"at most `float32(0.80)`" is `5 * statusCount[200] <= 4 * (count + errorCount)`
and "above `float32(0.80)`" is its negation. -/
theorem C6_hysteresis (d : Int) (w : String) (es : List QueueElement) (e : QueueElement)
    (hd : 0 ≤ d) (hb : ∀ x ∈ es ++ [e], x.Value.ResponseTime ≤ maxInt64) :
    ∃ (a : Aggregator) (r : Aggregator × Option String × Alert),
      addAll (NewAggregator d w) es = some a ∧ a.Add e = some r ∧
      (a.AlertStatus = false → r.1.AlertStatus = true →
        r.1.low = true ∧ (es ≠ [] → a.high = true)) ∧
      (a.AlertStatus = true → r.1.AlertStatus = false → r.1.high = true ∧ a.low = true) ∧
      (r.2.2.Init = true ↔ r.1.AlertStatus ≠ a.AlertStatus) ∧
      (r.1.count + r.1.errorCount ≤ 4793490 →
        (r.1.low = true ↔ 5 * r.1.statusCount 200 ≤ 4 * (r.1.count + r.1.errorCount)) ∧
        (r.1.high = true ↔ 4 * (r.1.count + r.1.errorCount) < 5 * r.1.statusCount 200)) ∧
      (es ≠ [] → a.count + a.errorCount ≤ 4793490 →
        (a.low = true ↔ 5 * a.statusCount 200 ≤ 4 * (a.count + a.errorCount)) ∧
        (a.high = true ↔ 4 * (a.count + a.errorCount) < 5 * a.statusCount 200)) := by
  obtain ⟨a, r, l, l', hrun, hadd, _, hinv, hset, hfresh, hset', _, hrule⟩ :=
    reach_add (w := w) hd hb
  have hexact : ∀ (x : Aggregator) (xs : List QueueElement) (k : Nat), Settled x xs k →
      x.count + x.errorCount ≤ 4793490 →
      (x.low = true ↔ 5 * x.statusCount 200 ≤ 4 * (x.count + x.errorCount)) ∧
      (x.high = true ↔ 4 * (x.count + x.errorCount) < 5 * x.statusCount 200) := by
    intro x xs k hx hbound
    obtain ⟨hpos, hs0, hst⟩ := hx.counts_range
    obtain ⟨hhl, _, hex⟩ := x.low_iff hs0 hst hpos
    have h1 := hex hbound
    refine ⟨h1, ?_⟩
    rw [hhl]
    cases hl : x.low
    · have : ¬ (5 * x.statusCount 200 ≤ 4 * (x.count + x.errorCount)) := by
        intro hc
        have := h1.2 hc
        rw [hl] at this
        cases this
      simp only [Bool.not_false, true_iff]
      omega
    · have := h1.1 hl
      simp only [Bool.not_true, Bool.false_eq_true, false_iff]
      omega
  refine ⟨a, r, hrun, hadd, ?_, ?_, ?_, hexact r.1 _ _ hset',
    fun hne => hexact a _ _ (hset hne)⟩
  · intro hold hnew
    have hlow : r.1.low = true := by
      rcases hrule with ⟨h1, _, _, _⟩ | ⟨_, h2, _, _⟩ | ⟨_, _, h3, _⟩
      · exact h1
      · rw [h2] at hold; cases hold
      · rw [h3, hold] at hnew; cases hnew
    refine ⟨hlow, ?_⟩
    intro hne
    have hs := hset hne
    have hden : a.availability.den ≠ 0 := by
      apply Float32.quot_finite
      show a.count + a.errorCount ≠ 0
      rw [hinv.total]
      have := hs.lle
      omega
    have hhl : a.high = !a.low := Float32.gt_eq_not_le _ 4 5 hden
    rw [hhl, ← hs.flag, hold]
    rfl
  · intro hold hnew
    have hhigh : r.1.high = true := by
      rcases hrule with ⟨_, h2, _, _⟩ | ⟨h1, _, _, _⟩ | ⟨_, _, h3, _⟩
      · rw [h2] at hold; cases hold
      · exact h1
      · rw [h3, hold] at hnew; cases hnew
    refine ⟨hhigh, ?_⟩
    have hne : es ≠ [] := by
      intro hc
      rw [hfresh hc] at hold
      cases hold
    rw [← (hset hne).flag]; exact hold
  · rcases hrule with ⟨_, h2, h3, h4⟩ | ⟨_, h2, h3, h4⟩ | ⟨_, _, h3, h4⟩
    · rw [h4, h3, h2]; simp [downAlert]
    · rw [h4, h3, h2]; simp [upAlert]
    · rw [h4, h3]; simp [Alert.zero]

/-- C6 (amended) on a run whose fourth probe brings availability from 1 to
3/4: the flag turns from false to true. -/
theorem C6_hysteresis_witness :
    (∃ (a : Aggregator) (r : Aggregator × Option String × Alert),
      addAll (NewAggregator SHORT_INTERVAL "w") [probe 0 200 50, probe 10 200 50, probe 20 200 50]
        = some a ∧
      a.Add (probe 30 500 80) = some r ∧
      (a.AlertStatus = false → r.1.AlertStatus = true →
        r.1.low = true ∧
          ([probe 0 200 50, probe 10 200 50, probe 20 200 50] ≠ [] → a.high = true)) ∧
      (a.AlertStatus = true → r.1.AlertStatus = false → r.1.high = true ∧ a.low = true) ∧
      (r.2.2.Init = true ↔ r.1.AlertStatus ≠ a.AlertStatus) ∧
      (r.1.count + r.1.errorCount ≤ 4793490 →
        (r.1.low = true ↔ 5 * r.1.statusCount 200 ≤ 4 * (r.1.count + r.1.errorCount)) ∧
        (r.1.high = true ↔ 4 * (r.1.count + r.1.errorCount) < 5 * r.1.statusCount 200)) ∧
      ([probe 0 200 50, probe 10 200 50, probe 20 200 50] ≠ [] →
        a.count + a.errorCount ≤ 4793490 →
        (a.low = true ↔ 5 * a.statusCount 200 ≤ 4 * (a.count + a.errorCount)) ∧
        (a.high = true ↔ 4 * (a.count + a.errorCount) < 5 * a.statusCount 200))) ∧
    ((addAll (NewAggregator SHORT_INTERVAL "w")
        [probe 0 200 50, probe 10 200 50, probe 20 200 50]).bind
        (fun a => (a.Add (probe 30 500 80)).map
          (fun r => (a.AlertStatus, a.high, r.1.AlertStatus, r.1.low, r.2.2.Init)))) =
      some (false, true, true, true, true) ∧
    ((addAll (NewAggregator SHORT_INTERVAL "w")
        [probe 0 200 50, probe 10 200 50, probe 20 200 50]).bind
        (fun a => (a.Add (probe 30 500 80)).map
          (fun r => (a.availability, r.1.availability, r.1.statusCount 200)))) =
      some (⟨1, 1⟩, ⟨3, 4⟩, 3) :=
  ⟨C6_hysteresis SHORT_INTERVAL "w" [probe 0 200 50, probe 10 200 50, probe 20 200 50]
    (probe 30 500 80) (by decide) (by decide), by decide, by decide⟩

/-- C8: after every `Add` of any run, timestamps in any order, on a fresh
aggregator of duration `d > 0`: the element `last` points to is the head of
the queue, the element `first` points to is the event just added, and the
newest timestamp exceeds the oldest by at most `d`. -/
theorem C8_window_bound (d : Int) (w : String) (es : List QueueElement) (hd : 0 < d)
    (hne : es ≠ []) (hb : ∀ e ∈ es, e.Value.ResponseTime ≤ maxInt64) :
    ∃ (a : Aggregator) (o n : QueueElement), addAll (NewAggregator d w) es = some a ∧
      a.oldest = some o ∧ a.newest = some n ∧ a.window.head? = some o ∧
      n.event = (es.getLast hne).event ∧ n.Timestamp - o.Timestamp ≤ d := by
  obtain ⟨a, l, hrun, hset, hdur, _⟩ := reach_settled (w := w) (le_of_lt hd) hb hne
  have hpos := hset.inv.lpos
  have hlle := hset.lle
  have hbl : l - 1 < es.length := by omega
  have hbn : es.length - 1 < es.length := by omega
  have hl11 : l - 1 + 1 = l := by omega
  have hn11 : es.length - 1 + 1 = es.length := by omega
  obtain ⟨o, ho, hoe⟩ := hset.inv.cells (l - 1) _ (List.getElem?_eq_getElem hbl)
  obtain ⟨n, hn, hne'⟩ := hset.inv.cells (es.length - 1) _ (List.getElem?_eq_getElem hbn)
  rw [hl11] at ho
  rw [hn11] at hn
  obtain ⟨x, y, hx, hy, hxy⟩ := hset.bound
  rw [List.getElem?_eq_getElem hbl] at hx
  rw [List.getElem?_eq_getElem hbn] at hy
  cases hx
  cases hy
  have hots : o.Timestamp = (es[l - 1]).Timestamp := congrArg Prod.snd hoe
  have hnts : n.Timestamp = (es[es.length - 1]).Timestamp := congrArg Prod.snd hne'
  refine ⟨a, o, n, hrun, ?_, ?_, ?_, ?_, ?_⟩
  · simp only [Aggregator.oldest, hset.last, ho]
  · simp only [Aggregator.newest, hset.first, hn]
  · unfold Aggregator.window
    rw [hset.first, hset.last, hset.inv.len]
    simp only [walk, ho]
    split <;> rfl
  · rw [List.getLast_eq_getElem es hne]; exact hne'
  · rw [hots, hnts]
    rw [hdur] at hxy
    omega

/-- C8 on a run whose timestamps go back and forth. -/
theorem C8_window_bound_witness :
    ∃ (a : Aggregator) (o n : QueueElement),
      addAll (NewAggregator SHORT_INTERVAL "w")
        [probe 100 200 50, probe 0 200 60, probe 300 500 70, probe 200 200 80] = some a ∧
      a.oldest = some o ∧ a.newest = some n ∧ a.window.head? = some o ∧
      n.event = (([probe 100 200 50, probe 0 200 60, probe 300 500 70,
        probe 200 200 80] : List QueueElement).getLast (by decide)).event ∧
      n.Timestamp - o.Timestamp ≤ SHORT_INTERVAL :=
  C8_window_bound SHORT_INTERVAL "w"
    [probe 100 200 50, probe 0 200 60, probe 300 500 70, probe 200 200 80]
    (by decide) (by decide) (by decide)

set_option maxRecDepth 16000 in
/-- C9: scenario S1 on the test fixture. After each of the eight `Add`s the
alert flag, `GetCount`, `GetAvgResTime`, `GetMaxResTime` and the status counts
of 200, 500 and 401 are the expected ones. -/
theorem C9_scenario_S1 :
    (trace (NewAggregators "http://www.example.com").Short pingLogs).map (Option.map observe) =
      [some ⟨false, 1, some 50, some 50, 1, 0, 0⟩,
       some ⟨false, 2, some 50, some 50, 2, 0, 0⟩,
       some ⟨false, 3, some 50, some 50, 3, 0, 0⟩,
       some ⟨true, 3, some 60, some 80, 2, 1, 0⟩,
       some ⟨false, 3, some 60, some 80, 2, 1, 0⟩,
       some ⟨false, 3, some 60, some 80, 2, 1, 0⟩,
       some ⟨true, 2, some 50, some 50, 2, 0, 0⟩,
       some ⟨true, 2, some 50, some 50, 1, 0, 1⟩] := by
  decide

/-- C10 (code defect): on a freshly constructed aggregator `GetMaxResTime`
does not return: `getMax` reads index 1 of a heap that holds the sentinel only. -/
theorem C10_getMaxResTime_fresh_fails (d : Int) (w : String) :
    (NewAggregator d w).heap.values.length = 1 ∧ (NewAggregator d w).heap.getMax = none ∧
      (NewAggregator d w).GetMaxResTime = none :=
  ⟨rfl, rfl, rfl⟩

/-! ## Go maps -/

theorem lookup_filter_ne {V : Type} (l : List (String × V)) (k k' : String) :
    (l.filter (fun kv => kv.1 != k)).lookup k' = if k' = k then none else l.lookup k' := by
  induction l with
  | nil => simp
  | cons kv l ih =>
    obtain ⟨a, v⟩ := kv
    by_cases ha : a = k
    · subst ha
      simp only [List.filter_cons, bne_self_eq_false, Bool.false_eq_true, if_false, ih]
      by_cases hk : k' = a
      · simp [hk]
      · have hb : (k' == a) = false := by simpa using hk
        simp [hk, List.lookup_cons, hb]
    · have hne : (a != k) = true := by simpa using ha
      simp only [List.filter_cons, hne, if_true, List.lookup_cons, ih]
      by_cases hk : k' = k
      · subst hk
        have : (k' == a) = false := by simpa using fun h => ha h.symm
        simp [this]
      · simp [hk]

theorem GoMap.get_empty {V : Type} (k : String) : (GoMap.empty : GoMap V).get k = none := rfl

theorem GoMap.get_set {V : Type} (m : GoMap V) (k k' : String) (v : V) :
    (m.set k v).get k' = if k' = k then some v else m.get k' := by
  unfold GoMap.set GoMap.get
  simp only [List.lookup_cons, lookup_filter_ne]
  by_cases hk : k' = k
  · simp [hk]
  · have : (k' == k) = false := by simpa using hk
    simp [hk, this]

theorem GoMap.get_del {V : Type} (m : GoMap V) (k k' : String) :
    (m.del k).get k' = if k' = k then none else m.get k' := by
  unfold GoMap.del GoMap.get
  exact lookup_filter_ne _ _ _

theorem lookup_map_snd {V : Type} (l : List (String × V)) (f : V → V) (k : String) :
    (l.map (fun kv => (kv.1, f kv.2))).lookup k = (l.lookup k).map f := by
  induction l with
  | nil => rfl
  | cons kv l ih =>
    obtain ⟨a, v⟩ := kv
    simp only [List.map_cons, List.lookup_cons, ih]
    cases k == a <;> rfl

/-- The prober entries after a launched goroutine began to run. -/
theorem proberBegins_get (o : Orchestrator) (addr : Nat) (url : String) :
    (o.proberBegins addr).pingers.get url =
      (o.pingers.get url).map
        (fun p => if addr ∈ o.spawned ∧ p.addr = addr then p.Start else p) := by
  unfold Orchestrator.proberBegins
  by_cases h : addr ∈ o.spawned
  · simp only [h, if_true, true_and]
    have : (fun kv : String × Pinger => if kv.2.addr = addr then (kv.1, kv.2.Start) else kv) =
        (fun kv => (kv.1, (fun p : Pinger => if p.addr = addr then p.Start else p) kv.2)) := by
      funext kv
      by_cases hk : kv.2.addr = addr <;> simp [hk]
    unfold GoMap.get
    simp only [this]
    exact lookup_map_snd o.pingers.entries
      (fun p : Pinger => if p.addr = addr then p.Start else p) url
  · simp only [h, if_false, false_and]
    cases o.pingers.get url <;> rfl

theorem proberBegins_frame (o : Orchestrator) (addr : Nat) :
    (o.proberBegins addr).aggregators = o.aggregators ∧
    (o.proberBegins addr).reports = o.reports ∧ (o.proberBegins addr).alerts = o.alerts := by
  unfold Orchestrator.proberBegins
  split <;> exact ⟨rfl, rfl, rfl⟩


/-! ## The operations of the orchestrator, case by case -/

theorem Register_new {o : Orchestrator} {w : Website} (now : Int)
    (hp : o.pingers.get w.Url = none) (ha : o.aggregators.get w.Url = none) :
    o.Register w now =
      ({ o with
          pingers := o.pingers.set w.Url (NewPinger o.nextAddr w)
          nextAddr := o.nextAddr + 1
          aggregators := o.aggregators.set w.Url (NewAggregators w.Url)
          reports := o.reports.set w.Url (NewReport w).1
          alerts := o.alerts ++ [lifecycleAlert w.Url now
            ("Website " ++ w.Url ++ " is registered for monitoring")] }, none) := by
  simp [Orchestrator.Register, hp, Orchestrator.addAggregators, ha, NewReport]

theorem Register_dup {o : Orchestrator} {w : Website} {p : Pinger} (now : Int)
    (hp : o.pingers.get w.Url = some p) :
    o.Register w now =
      ({ o with alerts := o.alerts ++ [lifecycleAlert w.Url now
          ("Website " ++ w.Url ++ " is already registered for monitoring, aborting")] },
        some ("WEBSITE " ++ w.Url ++ " ALREADY REGISTERED")) := by
  simp [Orchestrator.Register, hp]

theorem Unregister_absent {o : Orchestrator} {url : String} (now : Int)
    (hp : o.pingers.get url = none) :
    o.Unregister url now =
      ({ o with alerts := o.alerts ++ [lifecycleAlert url now
          ("Website " ++ url ++ " is not registered, aborting")] },
        some ("WEBSITE " ++ url ++ " IS NOT REGISTERED")) := by
  simp [Orchestrator.Unregister, hp]

theorem Unregister_running {o : Orchestrator} {url : String} {p : Pinger} (now : Int)
    (hp : o.pingers.get url = some p) (hr : p.IsRunning = true) :
    o.Unregister url now =
      ({ o with alerts := o.alerts ++ [lifecycleAlert url now
          ("Website " ++ url ++ " is still running, aborting")] },
        some ("PINGER FOR WEBSITE " ++ url ++ " IS STILL RUNNING")) := by
  simp [Orchestrator.Unregister, hp, hr]

theorem Unregister_idle {o : Orchestrator} {url : String} {p : Pinger} {g : Aggregators}
    (now : Int) (hp : o.pingers.get url = some p) (hr : p.IsRunning = false)
    (ha : o.aggregators.get url = some g) :
    o.Unregister url now =
      ({ o with
          pingers := o.pingers.del url
          reports := o.reports.del url
          aggregators := o.aggregators.del url
          alerts := o.alerts ++ [lifecycleAlert url now
            ("Website " ++ url ++ " is unregistered")] }, none) := by
  simp [Orchestrator.Unregister, hp, hr, Orchestrator.deleteAggregators, ha]

theorem Start_absent {o : Orchestrator} {url : String} (now : Int)
    (hp : o.pingers.get url = none) :
    o.Start url now = some (o, false, some ("WEBSITE " ++ url ++ " IS NOT REGISTERED")) := by
  simp [Orchestrator.Start, hp]

theorem Start_running {o : Orchestrator} {url : String} {p : Pinger} (now : Int)
    (hp : o.pingers.get url = some p) (hr : p.IsRunning = true) :
    o.Start url now = some (o, false, none) := by
  simp [Orchestrator.Start, hp, hr]

theorem Start_idle {o : Orchestrator} {url : String} {p : Pinger} {r : Report} (now : Int)
    (hp : o.pingers.get url = some p) (hr : p.IsRunning = false)
    (hrep : o.reports.get url = some r) :
    o.Start url now =
      some ({ o with
          reports := o.reports.set url { r with Active := true }
          spawned := o.spawned ++ [p.addr]
          alerts := o.alerts ++ [lifecycleAlert url now
            ("Website " ++ url ++ " monitoring has started")] }, true, none) := by
  simp [Orchestrator.Start, hp, hr, hrep]

theorem Pause_absent {o : Orchestrator} {url : String} (now : Int)
    (hp : o.pingers.get url = none) :
    o.Pause url now = some (o, false, some ("WEBSITE " ++ url ++ " IS NOT REGISTERED")) := by
  simp [Orchestrator.Pause, hp]

theorem Pause_idle {o : Orchestrator} {url : String} {p : Pinger} (now : Int)
    (hp : o.pingers.get url = some p) (hr : p.IsRunning = false) :
    o.Pause url now = some (o, false, none) := by
  simp [Orchestrator.Pause, hp, hr]

theorem Pause_running {o : Orchestrator} {url : String} {p : Pinger} {r : Report} (now : Int)
    (hp : o.pingers.get url = some p) (hr : p.IsRunning = true)
    (hrep : o.reports.get url = some r) :
    o.Pause url now =
      some ({ o with
          reports := o.reports.set url { r with Active := false }
          pingers := o.pingers.set url p.Pause
          alerts := o.alerts ++ [lifecycleAlert url now
            ("Website " ++ url ++ " monitoring is paused")] }, true, none) := by
  simp [Orchestrator.Pause, hp, hr, hrep]

theorem AggLog_absent {o : Orchestrator} {log : PingLog}
    (ha : o.aggregators.get log.Website = none) :
    o.AggLog log = some (o, some ("NO AGGREGATOR FOR WEBSITE " ++ log.Website)) := by
  simp [Orchestrator.AggLog, ha]

/-- `AggLog` on a registered URL whose three `Add`s return with a nil error. -/
theorem AggLog_present {o : Orchestrator} {log : PingLog} {g : Aggregators}
    {rS rM rL : Aggregator × Option String × Alert}
    (ha : o.aggregators.get log.Website = some g)
    (hS : g.Short.Add (wrapper log) = some rS) (hSe : rS.2.1 = none)
    (hM : g.Medium.Add (wrapper log) = some rM) (hMe : rM.2.1 = none)
    (hL : g.Long.Add (wrapper log) = some rL) (hLe : rL.2.1 = none) :
    o.AggLog log =
      some ({ o with
          aggregators := o.aggregators.set log.Website ⟨rS.1, rM.1, rL.1⟩
          alerts := o.alerts ++ (if rS.2.2.Init then [rS.2.2] else []) }, none) := by
  obtain ⟨s1, s2, s3⟩ := rS
  obtain ⟨m1, m2, m3⟩ := rM
  obtain ⟨l1, l2, l3⟩ := rL
  simp only at hSe hMe hLe
  subst hSe hMe hLe
  simp only [Orchestrator.AggLog, ha, hS, hM, hL]
  by_cases hi : s3.Init = true
  · simp [hi]
  · simp [hi]


/-! ## The registry invariant and the soundness of the aggregators -/

theorem isSome_eq_none {α : Type} {x y : Option α} (h : x.isSome = y.isSome) (hx : x = none) :
    y = none := by
  subst hx
  cases y with
  | none => rfl
  | some v => simp at h

theorem isSome_eq_some {α β : Type} {x : Option α} {y : Option β} {a : α}
    (h : x.isSome = y.isSome) (hx : x = some a) : ∃ b, y = some b := by
  subst hx
  cases y with
  | none => simp at h
  | some v => exact ⟨v, rfl⟩

theorem Orchestrator.KeysAgree.agg_none {o : Orchestrator} (hk : o.KeysAgree) {url : String}
    (h : o.pingers.get url = none) : o.aggregators.get url = none := by
  have := (hk url).1
  rw [h] at this
  cases hg : o.aggregators.get url with
  | none => rfl
  | some g => rw [hg] at this; simp at this

theorem Orchestrator.KeysAgree.agg_some {o : Orchestrator} (hk : o.KeysAgree) {url : String} {p : Pinger}
    (h : o.pingers.get url = some p) : ∃ g, o.aggregators.get url = some g :=
  isSome_eq_some (hk url).1 h

theorem Orchestrator.KeysAgree.rep_some {o : Orchestrator} (hk : o.KeysAgree) {url : String} {p : Pinger}
    (h : o.pingers.get url = some p) : ∃ r, o.reports.get url = some r :=
  isSome_eq_some (hk url).2 h

theorem Orchestrator.KeysAgree.ping_some {o : Orchestrator} (hk : o.KeysAgree) {url : String}
    {g : Aggregators} (h : o.aggregators.get url = some g) : ∃ p, o.pingers.get url = some p :=
  isSome_eq_some (hk url).1.symm h

/-- The registry invariant depends on the key sets only. -/
theorem Orchestrator.KeysAgree.of_same_keys {o o' : Orchestrator} (hk : o.KeysAgree)
    (h1 : ∀ url, (o'.pingers.get url).isSome = (o.pingers.get url).isSome)
    (h2 : ∀ url, (o'.aggregators.get url).isSome = (o.aggregators.get url).isSome)
    (h3 : ∀ url, (o'.reports.get url).isSome = (o.reports.get url).isSome) :
    o'.KeysAgree := by
  intro url
  rw [h1, h2, h3]
  exact hk url

theorem GoMap.isSome_set_same {V : Type} (m : GoMap V) {k : String} {v0 : V} (v : V)
    (h : m.get k = some v0) (url : String) :
    ((m.set k v).get url).isSome = (m.get url).isSome := by
  rw [GoMap.get_set]
  by_cases hu : url = k
  · subst hu; simp [h]
  · simp [hu]

theorem keysAgree_empty : GetOrchestrator.KeysAgree := by
  intro url
  exact ⟨rfl, rfl⟩

theorem sound_empty : GetOrchestrator.Sound := by
  intro url g h
  cases h

theorem Register_keysAgree {o : Orchestrator} (hk : o.KeysAgree) (w : Website) (now : Int) :
    (o.Register w now).1.KeysAgree := by
  cases hp : o.pingers.get w.Url with
  | some p =>
    rw [Register_dup now hp]
    exact hk
  | none =>
    rw [Register_new now hp (hk.agg_none hp)]
    intro url
    simp only [GoMap.get_set]
    by_cases hu : url = w.Url
    · simp [hu]
    · simp only [hu, if_false]
      exact hk url

theorem Unregister_keysAgree {o : Orchestrator} (hk : o.KeysAgree) (url : String) (now : Int) :
    (o.Unregister url now).1.KeysAgree := by
  cases hp : o.pingers.get url with
  | none =>
    rw [Unregister_absent now hp]
    exact hk
  | some p =>
    cases hr : p.IsRunning with
    | true =>
      rw [Unregister_running now hp hr]
      exact hk
    | false =>
      obtain ⟨g, hg⟩ := hk.agg_some hp
      rw [Unregister_idle now hp hr hg]
      intro u
      simp only [GoMap.get_del]
      by_cases hu : u = url
      · simp [hu]
      · simp only [hu, if_false]
        exact hk u

theorem Start_keysAgree {o : Orchestrator} (hk : o.KeysAgree) (url : String) (now : Int) :
    ∃ r, o.Start url now = some r ∧ r.1.KeysAgree ∧ r.1.aggregators = o.aggregators := by
  cases hp : o.pingers.get url with
  | none => exact ⟨_, Start_absent now hp, hk, rfl⟩
  | some p =>
    cases hr : p.IsRunning with
    | true => exact ⟨_, Start_running now hp hr, hk, rfl⟩
    | false =>
      obtain ⟨r, hrep⟩ := hk.rep_some hp
      refine ⟨_, Start_idle now hp hr hrep, ?_, rfl⟩
      exact hk.of_same_keys (fun _ => rfl) (fun _ => rfl)
        (fun u => GoMap.isSome_set_same o.reports _ hrep u)

theorem Pause_keysAgree {o : Orchestrator} (hk : o.KeysAgree) (url : String) (now : Int) :
    ∃ r, o.Pause url now = some r ∧ r.1.KeysAgree ∧ r.1.aggregators = o.aggregators := by
  cases hp : o.pingers.get url with
  | none => exact ⟨_, Pause_absent now hp, hk, rfl⟩
  | some p =>
    cases hr : p.IsRunning with
    | false => exact ⟨_, Pause_idle now hp hr, hk, rfl⟩
    | true =>
      obtain ⟨r, hrep⟩ := hk.rep_some hp
      refine ⟨_, Pause_running now hp hr hrep, ?_, rfl⟩
      exact hk.of_same_keys (fun u => GoMap.isSome_set_same o.pingers _ hp u) (fun _ => rfl)
        (fun u => GoMap.isSome_set_same o.reports _ hrep u)

theorem proberBegins_keysAgree {o : Orchestrator} (hk : o.KeysAgree) (addr : Nat) :
    (o.proberBegins addr).KeysAgree := by
  obtain ⟨ha, hr, _⟩ := proberBegins_frame o addr
  apply hk.of_same_keys
  · intro url
    rw [proberBegins_get]
    cases o.pingers.get url <;> rfl
  · intro url; rw [ha]
  · intro url; rw [hr]


theorem addAll_snoc (es : List QueueElement) (e : QueueElement) :
    ∀ a : Aggregator, addAll a (es ++ [e]) =
      match addAll a es with
      | some a' => (a'.Add e).map (fun r => r.1)
      | none => none := by
  induction es with
  | nil =>
    intro a
    simp only [List.nil_append, addAll]
    cases a.Add e <;> rfl
  | cons x xs ih =>
    intro a
    simp only [List.cons_append, addAll]
    cases hx : a.Add x with
    | none => rfl
    | some r => exact ih r.1

/-- One more `Add` on a state reached from a fresh aggregator returns, with a
nil error, and the state it leaves is the one reached by the longer run. -/
theorem reach_step {d : Int} {w : String} {es : List QueueElement} {a : Aggregator}
    {e : QueueElement} (hd : 0 ≤ d) (hb : ∀ x ∈ es ++ [e], x.Value.ResponseTime ≤ maxInt64)
    (h : addAll (NewAggregator d w) es = some a) :
    ∃ r : Aggregator × Option String × Alert, a.Add e = some r ∧ r.2.1 = none ∧
      addAll (NewAggregator d w) (es ++ [e]) = some r.1 := by
  obtain ⟨a', r, _, _, hrun, hadd, herr, _⟩ := reach_add (w := w) hd hb
  rw [h] at hrun
  cases hrun
  refine ⟨r, hadd, herr, ?_⟩
  rw [addAll_snoc, h]
  simp [hadd]

/-- One more probe event fed to a triple: the three `Add`s return with a nil
error and the triple is fed with the longer list. -/
theorem Fed.step {g : Aggregators} {url : String} {logs : List PingLog} (h : Fed g url logs)
    (log : PingLog) (hl : log.ResponseTime ≤ maxInt64) :
    ∃ rS rM rL : Aggregator × Option String × Alert,
      g.Short.Add (wrapper log) = some rS ∧ rS.2.1 = none ∧
      g.Medium.Add (wrapper log) = some rM ∧ rM.2.1 = none ∧
      g.Long.Add (wrapper log) = some rL ∧ rL.2.1 = none ∧
      Fed ⟨rS.1, rM.1, rL.1⟩ url (logs ++ [log]) := by
  have hb : ∀ x ∈ logs.map wrapper ++ [wrapper log], x.Value.ResponseTime ≤ maxInt64 := by
    intro x hx
    rcases List.mem_append.1 hx with hx | hx
    · obtain ⟨l, hlm, hlx⟩ := List.mem_map.1 hx
      rw [← hlx]
      exact h.bounded l hlm
    · simp only [List.mem_singleton] at hx
      rw [hx]
      exact hl
  obtain ⟨rS, hS, hSe, hSr⟩ := reach_step (w := url) (d := SHORT_INTERVAL) (by decide) hb h.short
  obtain ⟨rM, hM, hMe, hMr⟩ := reach_step (w := url) (d := MEDIUM_INTERVAL) (by decide) hb h.medium
  obtain ⟨rL, hL, hLe, hLr⟩ := reach_step (w := url) (d := LONG_INTERAVL) (by decide) hb h.long
  refine ⟨rS, rM, rL, hS, hSe, hM, hMe, hL, hLe, ?_, ?_, ?_, ?_⟩
  · intro l hlm
    rcases List.mem_append.1 hlm with hlm | hlm
    · exact h.bounded l hlm
    · simp only [List.mem_singleton] at hlm
      rw [hlm]; exact hl
  · rw [List.map_append]; exact hSr
  · rw [List.map_append]; exact hMr
  · rw [List.map_append]; exact hLr

theorem Fed.initial (url : String) : Fed (NewAggregators url) url [] :=
  ⟨fun _ h => (by cases h), rfl, rfl, rfl⟩

theorem Orchestrator.Sound.of_same {o o' : Orchestrator} (hs : o.Sound)
    (h : o'.aggregators = o.aggregators) : o'.Sound := by
  intro url g hg
  rw [h] at hg
  exact hs url g hg

theorem Register_sound {o : Orchestrator} (hk : o.KeysAgree) (hs : o.Sound) (w : Website)
    (now : Int) : (o.Register w now).1.Sound := by
  cases hp : o.pingers.get w.Url with
  | some p =>
    rw [Register_dup now hp]
    exact hs.of_same rfl
  | none =>
    rw [Register_new now hp (hk.agg_none hp)]
    intro url g hg
    simp only [GoMap.get_set] at hg
    by_cases hu : url = w.Url
    · simp only [hu, if_true, Option.some.injEq] at hg
      subst hg
      rw [hu]
      exact ⟨[], Fed.initial _⟩
    · simp only [hu, if_false] at hg
      exact hs url g hg

theorem Unregister_sound {o : Orchestrator} (hk : o.KeysAgree) (hs : o.Sound) (url : String)
    (now : Int) : (o.Unregister url now).1.Sound := by
  cases hp : o.pingers.get url with
  | none =>
    rw [Unregister_absent now hp]
    exact hs.of_same rfl
  | some p =>
    cases hr : p.IsRunning with
    | true =>
      rw [Unregister_running now hp hr]
      exact hs.of_same rfl
    | false =>
      obtain ⟨g, hg⟩ := hk.agg_some hp
      rw [Unregister_idle now hp hr hg]
      intro u g' hg'
      simp only [GoMap.get_del] at hg'
      by_cases hu : u = url
      · simp [hu] at hg'
      · simp only [hu, if_false] at hg'
        exact hs u g' hg'

/-- `AggLog` returns in every sound state, and keeps the invariants. -/
theorem AggLog_inv {o : Orchestrator} (hk : o.KeysAgree) (hs : o.Sound) (log : PingLog)
    (hl : log.ResponseTime ≤ maxInt64) :
    ∃ r, o.AggLog log = some r ∧ r.1.KeysAgree ∧ r.1.Sound := by
  cases ha : o.aggregators.get log.Website with
  | none => exact ⟨_, AggLog_absent ha, hk, hs⟩
  | some g =>
    obtain ⟨logs, hfed⟩ := hs _ g ha
    obtain ⟨rS, rM, rL, hS, hSe, hM, hMe, hL, hLe, hfed'⟩ := hfed.step log hl
    refine ⟨_, AggLog_present ha hS hSe hM hMe hL hLe, ?_, ?_⟩
    · exact hk.of_same_keys (fun _ => rfl)
        (fun u => GoMap.isSome_set_same o.aggregators _ ha u) (fun _ => rfl)
    · intro url g' hg'
      simp only [GoMap.get_set] at hg'
      by_cases hu : url = log.Website
      · simp only [hu, if_true, Option.some.injEq] at hg'
        subst hg'
        rw [hu]
        exact ⟨_, hfed'⟩
      · simp only [hu, if_false] at hg'
        exact hs url g' hg'

/-- Every call with a probe event in range returns and keeps the invariants. -/
theorem call_inv {o : Orchestrator} (hk : o.KeysAgree) (hs : o.Sound) (c : Call)
    (hc : c.bounded) : ∃ o', o.call c = some o' ∧ o'.KeysAgree ∧ o'.Sound := by
  cases c with
  | register w now => exact ⟨_, rfl, Register_keysAgree hk w now, Register_sound hk hs w now⟩
  | unregister url now =>
    exact ⟨_, rfl, Unregister_keysAgree hk url now, Unregister_sound hk hs url now⟩
  | start url now =>
    obtain ⟨r, hr, hk', ha⟩ := Start_keysAgree hk url now
    exact ⟨r.1, by simp [Orchestrator.call, hr], hk', hs.of_same ha⟩
  | pause url now =>
    obtain ⟨r, hr, hk', ha⟩ := Pause_keysAgree hk url now
    exact ⟨r.1, by simp [Orchestrator.call, hr], hk', hs.of_same ha⟩
  | aggLog log =>
    obtain ⟨r, hr, hk', hs'⟩ := AggLog_inv hk hs log hc
    exact ⟨r.1, by simp [Orchestrator.call, hr], hk', hs'⟩
  | proberBegins addr =>
    exact ⟨_, rfl, proberBegins_keysAgree hk addr, hs.of_same (proberBegins_frame o addr).1⟩

/-- Every sequence of calls returns and keeps the invariants. -/
theorem run_inv : ∀ (calls : List Call) (o : Orchestrator), o.KeysAgree → o.Sound →
    (∀ c ∈ calls, c.bounded) → ∃ o', o.run calls = some o' ∧ o'.KeysAgree ∧ o'.Sound := by
  intro calls
  induction calls with
  | nil => intro o hk hs _; exact ⟨o, rfl, hk, hs⟩
  | cons c cs ih =>
    intro o hk hs hb
    obtain ⟨o1, h1, hk1, hs1⟩ := call_inv hk hs c (hb c (List.mem_cons_self _ _))
    obtain ⟨o2, h2, hk2, hs2⟩ := ih o1 hk1 hs1 (fun x hx => hb x (List.mem_cons_of_mem _ hx))
    exact ⟨o2, by simp [Orchestrator.run, h1, h2], hk2, hs2⟩


/-! ## Claims on the orchestrator -/

/-- Every state reached from a fresh orchestrator satisfies the invariants. -/
theorem reach_orchestrator (calls : List Call) (hb : ∀ c ∈ calls, c.bounded) :
    ∃ o, GetOrchestrator.run calls = some o ∧ o.KeysAgree ∧ o.Sound :=
  run_inv calls GetOrchestrator keysAgree_empty sound_empty hb

/-- C11: from an empty orchestrator every sequence of `Register`, `Unregister`,
`Start`, `Pause` and `AggLog` calls (and of prober goroutines starting to run)
returns and leaves the maps `pingers`, `aggregators` and `reports` with the
same keys; so `Register` of a URL without prober returns nil and `Unregister`
of a URL with an idle prober returns nil: the error branches of
`addAggregators` and `deleteAggregators` are not taken. -/
theorem C11_registry_invariant (calls : List Call) (hb : ∀ c ∈ calls, c.bounded) :
    ∃ o, GetOrchestrator.run calls = some o ∧
      (∀ url : String, ((o.pingers.get url).isSome ↔ (o.aggregators.get url).isSome) ∧
        ((o.pingers.get url).isSome ↔ (o.reports.get url).isSome)) ∧
      (∀ (w : Website) (now : Int), o.pingers.get w.Url = none →
        (({ o with pingers := o.pingers.set w.Url (NewPinger o.nextAddr w),
                   nextAddr := o.nextAddr + 1 } : Orchestrator).addAggregators w.Url).2 = none ∧
        (o.Register w now).2 = none) ∧
      (∀ (url : String) (now : Int) (p : Pinger), o.pingers.get url = some p →
        p.IsRunning = false →
        (({ o with pingers := o.pingers.del url, reports := o.reports.del url } :
            Orchestrator).deleteAggregators url).2 = none ∧
        (o.Unregister url now).2 = none) := by
  obtain ⟨o, hrun, hk, _⟩ := reach_orchestrator calls hb
  refine ⟨o, hrun, ?_, ?_, ?_⟩
  · intro url
    obtain ⟨h1, h2⟩ := hk url
    rw [h1, ← h1, h2]
    exact ⟨Iff.rfl, Iff.rfl⟩
  · intro w now hp
    have ha := hk.agg_none hp
    refine ⟨?_, ?_⟩
    · simp [Orchestrator.addAggregators, ha]
    · rw [Register_new now hp ha]
  · intro url now p hp hr
    obtain ⟨g, hg⟩ := hk.agg_some hp
    refine ⟨?_, ?_⟩
    · simp [Orchestrator.deleteAggregators, hg]
    · rw [Unregister_idle now hp hr hg]

/-- C11 on a run that registers two endpoints, starts and feeds one, pauses
it and unregisters it. -/
theorem C11_registry_invariant_witness :
    ∃ o, GetOrchestrator.run
        [Call.register ⟨"a", 100⟩ 0, Call.register ⟨"b", 200⟩ 1, Call.start "a" 2,
         Call.proberBegins 0, Call.aggLog ⟨3, "a", none, 200, 50000000⟩, Call.pause "a" 4,
         Call.unregister "a" 5, Call.unregister "c" 6] = some o ∧
      (∀ url : String, ((o.pingers.get url).isSome ↔ (o.aggregators.get url).isSome) ∧
        ((o.pingers.get url).isSome ↔ (o.reports.get url).isSome)) ∧
      (∀ (w : Website) (now : Int), o.pingers.get w.Url = none →
        (({ o with pingers := o.pingers.set w.Url (NewPinger o.nextAddr w),
                   nextAddr := o.nextAddr + 1 } : Orchestrator).addAggregators w.Url).2 = none ∧
        (o.Register w now).2 = none) ∧
      (∀ (url : String) (now : Int) (p : Pinger), o.pingers.get url = some p →
        p.IsRunning = false →
        (({ o with pingers := o.pingers.del url, reports := o.reports.del url } :
            Orchestrator).deleteAggregators url).2 = none ∧
        (o.Unregister url now).2 = none) :=
  C11_registry_invariant _ (by simp [Call.bounded, maxInt64])


/-- C12: in every state reached from a fresh orchestrator, `Register` of an
endpoint whose URL has no prober returns nil; afterwards the URL has a prober
that is not running, the fresh aggregators and an inactive report, the entries
of every other URL are unchanged, and exactly one alert is sent, with `Init`
true, `Value` 0 and the URL of the endpoint. -/
theorem C12_register_new (calls : List Call) (hb : ∀ c ∈ calls, c.bounded) (w : Website)
    (now : Int) :
    ∃ o, GetOrchestrator.run calls = some o ∧
      (o.pingers.get w.Url = none →
        ∃ o' : Orchestrator, o.Register w now = (o', none) ∧
          o'.pingers.get w.Url = some (NewPinger o.nextAddr w) ∧
          (NewPinger o.nextAddr w).IsRunning = false ∧
          o'.aggregators.get w.Url = some (NewAggregators w.Url) ∧
          o'.reports.get w.Url = some (NewReport w).1 ∧ (NewReport w).1.Active = false ∧
          (∀ url : String, url ≠ w.Url →
            o'.pingers.get url = o.pingers.get url ∧
            o'.aggregators.get url = o.aggregators.get url ∧
            o'.reports.get url = o.reports.get url) ∧
          ∃ al : Alert, o'.alerts = o.alerts ++ [al] ∧ al.Init = true ∧
            al.Value = Float32.ofInt 0 ∧ al.Url = w.Url) := by
  obtain ⟨o, hrun, hk, _⟩ := reach_orchestrator calls hb
  refine ⟨o, hrun, ?_⟩
  intro hp
  refine ⟨_, Register_new now hp (hk.agg_none hp), ?_, rfl, ?_, ?_, rfl, ?_, ?_⟩
  · simp [GoMap.get_set]
  · simp [GoMap.get_set]
  · simp [GoMap.get_set]
  · intro url hu
    simp [GoMap.get_set, hu]
  · exact ⟨_, rfl, rfl, rfl, rfl⟩

/-- C12 on an orchestrator that already holds another endpoint. -/
theorem C12_register_new_witness :
    (∃ o, GetOrchestrator.run [Call.register ⟨"a", 100⟩ 0, Call.start "a" 1] = some o ∧
      (o.pingers.get (⟨"b", 200⟩ : Website).Url = none →
        ∃ o' : Orchestrator, o.Register ⟨"b", 200⟩ 2 = (o', none) ∧
          o'.pingers.get (⟨"b", 200⟩ : Website).Url = some (NewPinger o.nextAddr ⟨"b", 200⟩) ∧
          (NewPinger o.nextAddr ⟨"b", 200⟩).IsRunning = false ∧
          o'.aggregators.get (⟨"b", 200⟩ : Website).Url =
            some (NewAggregators (⟨"b", 200⟩ : Website).Url) ∧
          o'.reports.get (⟨"b", 200⟩ : Website).Url = some (NewReport ⟨"b", 200⟩).1 ∧
          (NewReport ⟨"b", 200⟩).1.Active = false ∧
          (∀ url : String, url ≠ (⟨"b", 200⟩ : Website).Url →
            o'.pingers.get url = o.pingers.get url ∧
            o'.aggregators.get url = o.aggregators.get url ∧
            o'.reports.get url = o.reports.get url) ∧
          ∃ al : Alert, o'.alerts = o.alerts ++ [al] ∧ al.Init = true ∧
            al.Value = Float32.ofInt 0 ∧ al.Url = (⟨"b", 200⟩ : Website).Url)) ∧
    (GetOrchestrator.run [Call.register ⟨"a", 100⟩ 0, Call.start "a" 1]).map
        (fun o => ((o.pingers.get "b").isNone, (o.Register ⟨"b", 200⟩ 2).2,
          (o.Register ⟨"b", 200⟩ 2).1.alerts.length)) = some (true, none, 3) :=
  ⟨C12_register_new _ (by simp [Call.bounded]) ⟨"b", 200⟩ 2, by decide⟩

/-- C13: in every state in which the URL of the endpoint has a prober,
`Register` returns the "ALREADY REGISTERED" error, sends exactly one alert and
changes nothing else; so on a fresh orchestrator a first `Register` returns
nil, a second one of the same endpoint an error, and two alerts are sent in
total. -/
theorem C13_register_twice (o : Orchestrator) (w : Website) (now : Int) (p : Pinger)
    (hp : o.pingers.get w.Url = some p) :
    (∃ al : Alert, al.Init = true ∧ al.Url = w.Url ∧
      o.Register w now =
        ({ o with alerts := o.alerts ++ [al] },
          some ("WEBSITE " ++ w.Url ++ " ALREADY REGISTERED"))) ∧
    (o.Register w now).1.pingers = o.pingers ∧
    (o.Register w now).1.aggregators = o.aggregators ∧
    (o.Register w now).1.reports = o.reports ∧
    (∀ (w' : Website) (t1 t2 : Int),
      (GetOrchestrator.Register w' t1).2 = none ∧
      ((GetOrchestrator.Register w' t1).1.Register w' t2).2 =
        some ("WEBSITE " ++ w'.Url ++ " ALREADY REGISTERED") ∧
      ((GetOrchestrator.Register w' t1).1.Register w' t2).1.alerts.length = 2) := by
  refine ⟨⟨_, rfl, rfl, Register_dup now hp⟩, ?_, ?_, ?_, ?_⟩
  · rw [Register_dup now hp]
  · rw [Register_dup now hp]
  · rw [Register_dup now hp]
  · intro w' t1 t2
    have h1 : GetOrchestrator.Register w' t1 = _ :=
      Register_new (o := GetOrchestrator) (w := w') t1 rfl rfl
    have h2 : (GetOrchestrator.Register w' t1).1.pingers.get w'.Url =
        some (NewPinger 0 w') := by
      rw [h1]
      simp [GoMap.get_set, GetOrchestrator]
    refine ⟨by rw [h1], ?_, ?_⟩
    · rw [Register_dup t2 h2]
    · rw [Register_dup t2 h2, h1]
      simp [GetOrchestrator]

/-- C13, scenario S3 on the endpoint of the tests. -/
theorem C13_register_twice_witness :
    ((∃ al : Alert, al.Init = true ∧ al.Url = (⟨"example", 100⟩ : Website).Url ∧
      (GetOrchestrator.Register ⟨"example", 100⟩ 0).1.Register ⟨"example", 100⟩ 1 =
        ({ (GetOrchestrator.Register ⟨"example", 100⟩ 0).1 with
            alerts := (GetOrchestrator.Register ⟨"example", 100⟩ 0).1.alerts ++ [al] },
          some ("WEBSITE " ++ (⟨"example", 100⟩ : Website).Url ++ " ALREADY REGISTERED"))) ∧
    ((GetOrchestrator.Register ⟨"example", 100⟩ 0).1.Register ⟨"example", 100⟩ 1).1.pingers =
      (GetOrchestrator.Register ⟨"example", 100⟩ 0).1.pingers ∧
    ((GetOrchestrator.Register ⟨"example", 100⟩ 0).1.Register ⟨"example", 100⟩ 1).1.aggregators =
      (GetOrchestrator.Register ⟨"example", 100⟩ 0).1.aggregators ∧
    ((GetOrchestrator.Register ⟨"example", 100⟩ 0).1.Register ⟨"example", 100⟩ 1).1.reports =
      (GetOrchestrator.Register ⟨"example", 100⟩ 0).1.reports ∧
    (∀ (w' : Website) (t1 t2 : Int),
      (GetOrchestrator.Register w' t1).2 = none ∧
      ((GetOrchestrator.Register w' t1).1.Register w' t2).2 =
        some ("WEBSITE " ++ w'.Url ++ " ALREADY REGISTERED") ∧
      ((GetOrchestrator.Register w' t1).1.Register w' t2).1.alerts.length = 2)) ∧
    ((GetOrchestrator.Register ⟨"example", 100⟩ 0).2,
      ((GetOrchestrator.Register ⟨"example", 100⟩ 0).1.Register ⟨"example", 100⟩ 1).2,
      ((GetOrchestrator.Register ⟨"example", 100⟩ 0).1.Register
        ⟨"example", 100⟩ 1).1.alerts.map (fun al => al.Init)) =
      (none, some "WEBSITE example ALREADY REGISTERED", [true, true]) :=
  ⟨C13_register_twice (GetOrchestrator.Register ⟨"example", 100⟩ 0).1 ⟨"example", 100⟩ 1
    (NewPinger 0 ⟨"example", 100⟩) (by decide), by decide⟩


/-- `Unregister` in a state satisfying the registry invariant: when it returns
an error. -/
theorem Unregister_error_iff {o : Orchestrator} (hk : o.KeysAgree) (url : String) (now : Int) :
    (o.Unregister url now).2 ≠ none ↔
      (o.pingers.get url = none ∨
        ∃ p : Pinger, o.pingers.get url = some p ∧ p.IsRunning = true) := by
  cases hp : o.pingers.get url with
  | none =>
    rw [Unregister_absent now hp]
    simp
  | some p =>
    cases hr : p.IsRunning with
    | true =>
      rw [Unregister_running now hp hr]
      simp [hr]
    | false =>
      obtain ⟨g, hg⟩ := hk.agg_some hp
      rw [Unregister_idle now hp hr hg]
      simp [hr]

/-- The scenario S4 with the prober goroutine made explicit. -/
theorem unregister_scenario (w : Website) (t1 t2 t3 t4 t5 : Int) :
    ∃ (r2 r4 : Orchestrator × Bool × Option String),
      (GetOrchestrator.Register w t1).2 = none ∧
      (GetOrchestrator.Register w t1).1.Start w.Url t2 = some r2 ∧ r2.2.2 = none ∧
      ((r2.1.proberBegins 0).Unregister w.Url t3).2 =
        some ("PINGER FOR WEBSITE " ++ w.Url ++ " IS STILL RUNNING") ∧
      ((r2.1.proberBegins 0).Unregister w.Url t3).1.Pause w.Url t4 = some r4 ∧
      r4.2.2 = none ∧ (r4.1.Unregister w.Url t5).2 = none := by
  have h1 := Register_new (o := GetOrchestrator) (w := w) t1 rfl rfl
  obtain ⟨o1, ho1⟩ : ∃ o1, o1 = (GetOrchestrator.Register w t1).1 := ⟨_, rfl⟩
  have hp1 : o1.pingers.get w.Url = some (NewPinger 0 w) := by
    rw [ho1, h1]; simp [GoMap.get_set, GetOrchestrator]
  have hr1 : o1.reports.get w.Url = some (NewReport w).1 := by
    rw [ho1, h1]; simp [GoMap.get_set]
  have ha1 : o1.aggregators.get w.Url = some (NewAggregators w.Url) := by
    rw [ho1, h1]; simp [GoMap.get_set]
  have hs1 : o1.spawned = [] := by rw [ho1, h1]; rfl
  have h2 := Start_idle (o := o1) t2 hp1 rfl hr1
  obtain ⟨o2, ho2⟩ : ∃ o2 : Orchestrator, o2 = { o1 with
      reports := o1.reports.set w.Url { (NewReport w).1 with Active := true }
      spawned := o1.spawned ++ [(NewPinger 0 w).addr]
      alerts := o1.alerts ++ [lifecycleAlert w.Url t2
        ("Website " ++ w.Url ++ " monitoring has started")] } := ⟨_, rfl⟩
  rw [← ho2] at h2
  have hp2 : o2.pingers.get w.Url = some (NewPinger 0 w) := by rw [ho2]; exact hp1
  have hs2 : 0 ∈ o2.spawned := by rw [ho2]; simp [hs1, NewPinger]
  have hr2 : o2.reports.get w.Url = some { (NewReport w).1 with Active := true } := by
    rw [ho2]; simp [GoMap.get_set]
  have ha2 : o2.aggregators.get w.Url = some (NewAggregators w.Url) := by
    rw [ho2]; exact ha1
  obtain ⟨o3, ho3⟩ : ∃ o3, o3 = o2.proberBegins 0 := ⟨_, rfl⟩
  have hp3 : o3.pingers.get w.Url = some (NewPinger 0 w).Start := by
    rw [ho3, proberBegins_get, hp2]
    simp [hs2, NewPinger]
  obtain ⟨hfa, hfr, _⟩ := proberBegins_frame o2 0
  rw [← ho3] at hfa hfr
  have h3 := Unregister_running (o := o3) t3 hp3 rfl
  obtain ⟨o4, ho4⟩ : ∃ o4 : Orchestrator, o4 = { o3 with alerts := o3.alerts ++
      [lifecycleAlert w.Url t3 ("Website " ++ w.Url ++ " is still running, aborting")] } :=
    ⟨_, rfl⟩
  rw [← ho4] at h3
  have hp4 : o4.pingers.get w.Url = some (NewPinger 0 w).Start := by rw [ho4]; exact hp3
  have hr4 : o4.reports.get w.Url = some { (NewReport w).1 with Active := true } := by
    rw [ho4]; show o3.reports.get w.Url = _; rw [hfr]; exact hr2
  have ha4 : o4.aggregators.get w.Url = some (NewAggregators w.Url) := by
    rw [ho4]; show o3.aggregators.get w.Url = _; rw [hfa]; exact ha2
  have h4 := Pause_running (o := o4) t4 hp4 rfl hr4
  obtain ⟨o5, ho5⟩ : ∃ o5 : Orchestrator, o5 = { o4 with
      reports := o4.reports.set w.Url
        { ({ (NewReport w).1 with Active := true } : Report) with Active := false }
      pingers := o4.pingers.set w.Url (NewPinger 0 w).Start.Pause
      alerts := o4.alerts ++ [lifecycleAlert w.Url t4
        ("Website " ++ w.Url ++ " monitoring is paused")] } := ⟨_, rfl⟩
  rw [← ho5] at h4
  have hp5 : o5.pingers.get w.Url = some (NewPinger 0 w).Start.Pause := by
    rw [ho5]; simp [GoMap.get_set]
  have ha5 : o5.aggregators.get w.Url = some (NewAggregators w.Url) := by
    rw [ho5]; exact ha4
  have h5 := Unregister_idle (o := o5) t5 hp5 rfl ha5
  rw [← ho1]
  refine ⟨(o2, true, none), (o5, true, none), by rw [h1], h2, rfl, ?_, ?_, rfl, ?_⟩
  · show ((o2.proberBegins 0).Unregister w.Url t3).2 = _
    rw [← ho3, h3]
  · show ((o2.proberBegins 0).Unregister w.Url t3).1.Pause w.Url t4 = _
    rw [← ho3, h3]
    exact h4
  · show (o5.Unregister w.Url t5).2 = none
    rw [h5]


/-- C14, as written, on scenario S4 run without delay: `Register` and `Start`
return nil, `Start` has launched the goroutine of the prober (address 0), which
has not run yet, so the running flag is still false and `Unregister` returns
nil and removes the endpoint. -/
theorem C14_unregister_before_prober_runs :
    ∃ r2 : Orchestrator × Bool × Option String,
      (GetOrchestrator.Register ⟨"example", 100⟩ 0).2 = none ∧
      (GetOrchestrator.Register ⟨"example", 100⟩ 0).1.Start "example" 1 = some r2 ∧
      r2.2 = (true, none) ∧ r2.1.spawned = [0] ∧
      (r2.1.pingers.get "example").map (fun p => p.IsRunning) = some false ∧
      (r2.1.Unregister "example" 2).2 = none ∧
      ((r2.1.Unregister "example" 2).1.pingers.get "example").isSome = false :=
  ⟨_, by decide, rfl, rfl, rfl, by decide, by decide, by decide⟩

/-- C14 (amended): in every state with the registry invariant, `Unregister`
returns an error exactly when the URL has no prober or its prober has the
running flag set; in both cases the three maps are unchanged and exactly one
alert is sent. In particular after `Register` and `Start`, once the goroutine
of the prober has set the running flag, `Unregister` returns the "STILL
RUNNING" error, and after a following `Pause`, `Unregister` returns nil. -/
theorem C14_unregister_refusal (o : Orchestrator) (hk : o.KeysAgree) (url : String) (now : Int) :
    ((o.Unregister url now).2 ≠ none ↔
      (o.pingers.get url = none ∨
        ∃ p : Pinger, o.pingers.get url = some p ∧ p.IsRunning = true)) ∧
    ((o.Unregister url now).2 ≠ none →
      (o.Unregister url now).1.pingers = o.pingers ∧
      (o.Unregister url now).1.aggregators = o.aggregators ∧
      (o.Unregister url now).1.reports = o.reports ∧
      ∃ al : Alert, (o.Unregister url now).1.alerts = o.alerts ++ [al] ∧ al.Init = true ∧
        al.Url = url) ∧
    (∀ (w : Website) (t1 t2 t3 t4 t5 : Int),
      ∃ (r2 r4 : Orchestrator × Bool × Option String),
        (GetOrchestrator.Register w t1).2 = none ∧
        (GetOrchestrator.Register w t1).1.Start w.Url t2 = some r2 ∧ r2.2.2 = none ∧
        ((r2.1.proberBegins 0).Unregister w.Url t3).2 =
          some ("PINGER FOR WEBSITE " ++ w.Url ++ " IS STILL RUNNING") ∧
        ((r2.1.proberBegins 0).Unregister w.Url t3).1.Pause w.Url t4 = some r4 ∧
        r4.2.2 = none ∧ (r4.1.Unregister w.Url t5).2 = none) := by
  refine ⟨Unregister_error_iff hk url now, ?_, unregister_scenario⟩
  intro herr
  cases hp : o.pingers.get url with
  | none =>
    rw [Unregister_absent now hp]
    exact ⟨rfl, rfl, rfl, _, rfl, rfl, rfl⟩
  | some p =>
    cases hr : p.IsRunning with
    | true =>
      rw [Unregister_running now hp hr]
      exact ⟨rfl, rfl, rfl, _, rfl, rfl, rfl⟩
    | false =>
      obtain ⟨g, hg⟩ := hk.agg_some hp
      rw [Unregister_idle now hp hr hg] at herr
      exact absurd rfl herr

/-- C14 (amended) on the orchestrator of the tests after `Register`, `Start`
and the start of the prober goroutine. -/
theorem C14_unregister_refusal_witness :
    (((((GetOrchestrator.Register ⟨"example", 100⟩ 0).1.proberBegins 0).Unregister
        "example" 3).2 ≠ none ↔
      (((GetOrchestrator.Register ⟨"example", 100⟩ 0).1.proberBegins 0).pingers.get "example" =
          none ∨
        ∃ p : Pinger,
          ((GetOrchestrator.Register ⟨"example", 100⟩ 0).1.proberBegins 0).pingers.get
            "example" = some p ∧ p.IsRunning = true)) ∧
    ((((GetOrchestrator.Register ⟨"example", 100⟩ 0).1.proberBegins 0).Unregister
        "example" 3).2 ≠ none →
      (((GetOrchestrator.Register ⟨"example", 100⟩ 0).1.proberBegins 0).Unregister
        "example" 3).1.pingers =
        ((GetOrchestrator.Register ⟨"example", 100⟩ 0).1.proberBegins 0).pingers ∧
      (((GetOrchestrator.Register ⟨"example", 100⟩ 0).1.proberBegins 0).Unregister
        "example" 3).1.aggregators =
        ((GetOrchestrator.Register ⟨"example", 100⟩ 0).1.proberBegins 0).aggregators ∧
      (((GetOrchestrator.Register ⟨"example", 100⟩ 0).1.proberBegins 0).Unregister
        "example" 3).1.reports =
        ((GetOrchestrator.Register ⟨"example", 100⟩ 0).1.proberBegins 0).reports ∧
      ∃ al : Alert,
        (((GetOrchestrator.Register ⟨"example", 100⟩ 0).1.proberBegins 0).Unregister
          "example" 3).1.alerts =
          ((GetOrchestrator.Register ⟨"example", 100⟩ 0).1.proberBegins 0).alerts ++ [al] ∧
        al.Init = true ∧ al.Url = "example") ∧
    (∀ (w : Website) (t1 t2 t3 t4 t5 : Int),
      ∃ (r2 r4 : Orchestrator × Bool × Option String),
        (GetOrchestrator.Register w t1).2 = none ∧
        (GetOrchestrator.Register w t1).1.Start w.Url t2 = some r2 ∧ r2.2.2 = none ∧
        ((r2.1.proberBegins 0).Unregister w.Url t3).2 =
          some ("PINGER FOR WEBSITE " ++ w.Url ++ " IS STILL RUNNING") ∧
        ((r2.1.proberBegins 0).Unregister w.Url t3).1.Pause w.Url t4 = some r4 ∧
        r4.2.2 = none ∧ (r4.1.Unregister w.Url t5).2 = none)) ∧
    ((GetOrchestrator.run [Call.register ⟨"example", 100⟩ 0, Call.start "example" 1,
        Call.proberBegins 0]).map (fun o => (o.Unregister "example" 2).2) =
      some (some "PINGER FOR WEBSITE example IS STILL RUNNING") ∧
     (GetOrchestrator.run [Call.register ⟨"example", 100⟩ 0, Call.start "example" 1,
        Call.proberBegins 0, Call.unregister "example" 2, Call.pause "example" 3]).map
          (fun o => (o.Unregister "example" 4).2) = some none) :=
  ⟨C14_unregister_refusal ((GetOrchestrator.Register ⟨"example", 100⟩ 0).1.proberBegins 0)
    (proberBegins_keysAgree (Register_keysAgree keysAgree_empty _ _) 0) "example" 3,
    by decide, by decide⟩

/-- C15: in every state in which the URL has a prober that is not running and
aggregators, `Unregister` returns nil, removes the URL from `pingers`,
`aggregators` and `reports`, leaves the entries of every other URL unchanged
and sends exactly one alert; a second `Unregister` right after it returns the
"IS NOT REGISTERED" error. -/
theorem C15_unregister_idle (o : Orchestrator) (url : String) (now now2 : Int) (p : Pinger)
    (g : Aggregators) (hp : o.pingers.get url = some p) (hr : p.IsRunning = false)
    (ha : o.aggregators.get url = some g) :
    (o.Unregister url now).2 = none ∧
    (o.Unregister url now).1.pingers.get url = none ∧
    (o.Unregister url now).1.aggregators.get url = none ∧
    (o.Unregister url now).1.reports.get url = none ∧
    (∀ u : String, u ≠ url →
      (o.Unregister url now).1.pingers.get u = o.pingers.get u ∧
      (o.Unregister url now).1.aggregators.get u = o.aggregators.get u ∧
      (o.Unregister url now).1.reports.get u = o.reports.get u) ∧
    (∃ al : Alert, (o.Unregister url now).1.alerts = o.alerts ++ [al] ∧ al.Init = true ∧
      al.Url = url) ∧
    ((o.Unregister url now).1.Unregister url now2).2 =
      some ("WEBSITE " ++ url ++ " IS NOT REGISTERED") := by
  have h := Unregister_idle now hp hr ha
  have hp2 : (o.Unregister url now).1.pingers.get url = none := by
    rw [h]; simp [GoMap.get_del]
  refine ⟨by rw [h], hp2, ?_, ?_, ?_, ?_, ?_⟩
  · rw [h]; simp [GoMap.get_del]
  · rw [h]; simp [GoMap.get_del]
  · intro u hu
    rw [h]
    simp [GoMap.get_del, hu]
  · rw [h]
    exact ⟨_, rfl, rfl, rfl⟩
  · rw [Unregister_absent now2 hp2]

/-- C15 on the orchestrator of the tests, with a second endpoint that stays. -/
theorem C15_unregister_idle_witness :
    ((((GetOrchestrator.Register ⟨"example", 100⟩ 0).1.Register ⟨"other", 200⟩ 1).1.Unregister
        "example" 2).2 = none ∧
    (((GetOrchestrator.Register ⟨"example", 100⟩ 0).1.Register ⟨"other", 200⟩ 1).1.Unregister
        "example" 2).1.pingers.get "example" = none ∧
    (((GetOrchestrator.Register ⟨"example", 100⟩ 0).1.Register ⟨"other", 200⟩ 1).1.Unregister
        "example" 2).1.aggregators.get "example" = none ∧
    (((GetOrchestrator.Register ⟨"example", 100⟩ 0).1.Register ⟨"other", 200⟩ 1).1.Unregister
        "example" 2).1.reports.get "example" = none ∧
    (∀ u : String, u ≠ "example" →
      (((GetOrchestrator.Register ⟨"example", 100⟩ 0).1.Register ⟨"other", 200⟩ 1).1.Unregister
          "example" 2).1.pingers.get u =
        ((GetOrchestrator.Register ⟨"example", 100⟩ 0).1.Register
          ⟨"other", 200⟩ 1).1.pingers.get u ∧
      (((GetOrchestrator.Register ⟨"example", 100⟩ 0).1.Register ⟨"other", 200⟩ 1).1.Unregister
          "example" 2).1.aggregators.get u =
        ((GetOrchestrator.Register ⟨"example", 100⟩ 0).1.Register
          ⟨"other", 200⟩ 1).1.aggregators.get u ∧
      (((GetOrchestrator.Register ⟨"example", 100⟩ 0).1.Register ⟨"other", 200⟩ 1).1.Unregister
          "example" 2).1.reports.get u =
        ((GetOrchestrator.Register ⟨"example", 100⟩ 0).1.Register
          ⟨"other", 200⟩ 1).1.reports.get u) ∧
    (∃ al : Alert,
      (((GetOrchestrator.Register ⟨"example", 100⟩ 0).1.Register ⟨"other", 200⟩ 1).1.Unregister
          "example" 2).1.alerts =
        ((GetOrchestrator.Register ⟨"example", 100⟩ 0).1.Register
          ⟨"other", 200⟩ 1).1.alerts ++ [al] ∧ al.Init = true ∧ al.Url = "example") ∧
    ((((GetOrchestrator.Register ⟨"example", 100⟩ 0).1.Register ⟨"other", 200⟩ 1).1.Unregister
        "example" 2).1.Unregister "example" 3).2 =
      some ("WEBSITE " ++ "example" ++ " IS NOT REGISTERED")) ∧
    ((((GetOrchestrator.Register ⟨"example", 100⟩ 0).1.Register ⟨"other", 200⟩ 1).1.Unregister
        "example" 2).1.pingers.entries.map (fun kv => kv.1) = ["other"] ∧
     (((GetOrchestrator.Register ⟨"example", 100⟩ 0).1.Register ⟨"other", 200⟩ 1).1.Unregister
        "example" 2).1.alerts.length = 3) :=
  ⟨C15_unregister_idle ((GetOrchestrator.Register ⟨"example", 100⟩ 0).1.Register
      ⟨"other", 200⟩ 1).1 "example" 2 3 (NewPinger 0 ⟨"example", 100⟩)
      (NewAggregators "example") (by decide) rfl (by simp [Orchestrator.Register,
        Orchestrator.addAggregators, GetOrchestrator, GoMap.get, GoMap.set, GoMap.empty,
        NewReport, List.lookup]),
    by decide, by decide⟩


/-- The goroutine launched by `Start` for the prober of `url`, once it runs,
leaves that prober with the running flag set. -/
theorem proberBegins_running {o : Orchestrator} {url : String} {p : Pinger}
    (hp : o.pingers.get url = some p) (h : p.IsRunning = true ∨ p.addr ∈ o.spawned) :
    ∃ q : Pinger, (o.proberBegins p.addr).pingers.get url = some q ∧ q.IsRunning = true ∧
      q.addr = p.addr ∧ q.Pause = p.Pause := by
  rw [proberBegins_get, hp]
  by_cases hs : p.addr ∈ o.spawned
  · exact ⟨p.Start, by simp [hs], rfl, rfl, rfl⟩
  · rcases h with h | h
    · refine ⟨p, by simp [hs], h, rfl, rfl⟩
    · exact absurd h hs

/-- `Start`, the goroutine of the prober, then `Pause`. -/
theorem start_pause {o : Orchestrator} {url : String} {p : Pinger} {r : Report}
    (t1 t2 : Int) (hp : o.pingers.get url = some p) (hrep : o.reports.get url = some r) :
    ∃ (rs rp : Orchestrator × Bool × Option String),
      o.Start url t1 = some rs ∧ rs.2.2 = none ∧
      (rs.1.proberBegins p.addr).Pause url t2 = some rp ∧ rp.2 = (true, none) ∧
      rp.1.pingers.get url = some p.Pause ∧
      rp.1.reports.get url = some { r with Active := false } := by
  cases hr : p.IsRunning with
  | false =>
    have h1 := Start_idle t1 hp hr hrep
    obtain ⟨o2, ho2⟩ : ∃ o2 : Orchestrator, o2 = { o with
        reports := o.reports.set url { r with Active := true }
        spawned := o.spawned ++ [p.addr]
        alerts := o.alerts ++ [lifecycleAlert url t1
          ("Website " ++ url ++ " monitoring has started")] } := ⟨_, rfl⟩
    rw [← ho2] at h1
    have hp2 : o2.pingers.get url = some p := by rw [ho2]; exact hp
    have hs2 : p.addr ∈ o2.spawned := by rw [ho2]; simp
    have hr2 : o2.reports.get url = some { r with Active := true } := by
      rw [ho2]; simp [GoMap.get_set]
    obtain ⟨q, hq, hqr, _, hqp⟩ := proberBegins_running hp2 (Or.inr hs2)
    have hr3 : (o2.proberBegins p.addr).reports.get url = some { r with Active := true } := by
      rw [(proberBegins_frame o2 p.addr).2.1]; exact hr2
    have h3 := Pause_running t2 hq hqr hr3
    refine ⟨(o2, true, none), _, h1, rfl, h3, rfl, ?_, ?_⟩
    · simp [GoMap.get_set, hqp]
    · simp [GoMap.get_set]
  | true =>
    have h1 := Start_running t1 hp hr
    obtain ⟨q, hq, hqr, _, hqp⟩ := proberBegins_running hp (Or.inl hr)
    have hr3 : (o.proberBegins p.addr).reports.get url = some r := by
      rw [(proberBegins_frame o p.addr).2.1]; exact hrep
    have h3 := Pause_running t2 hq hqr hr3
    refine ⟨(o, false, none), _, h1, rfl, h3, rfl, ?_, ?_⟩
    · simp [GoMap.get_set, hqp]
    · simp [GoMap.get_set]

/-- C16: for every URL with a prober and a report, whatever the state,
`Start` returns, and after the goroutine of the prober has set the running
flag `Pause` returns and leaves the prober with `IsRunning` false and the
report with `Active` false. -/
theorem C16_start_then_pause (o : Orchestrator) (url : String) (t1 t2 : Int) (p : Pinger)
    (r : Report) (hp : o.pingers.get url = some p) (hrep : o.reports.get url = some r) :
    ∃ (rs rp : Orchestrator × Bool × Option String) (p' : Pinger) (r' : Report),
      o.Start url t1 = some rs ∧ rs.2.2 = none ∧
      (rs.1.proberBegins p.addr).Pause url t2 = some rp ∧ rp.2.2 = none ∧
      rp.1.pingers.get url = some p' ∧ p'.IsRunning = false ∧
      rp.1.reports.get url = some r' ∧ r'.Active = false := by
  obtain ⟨rs, rp, h1, h2, h3, h4, h5, h6⟩ := start_pause t1 t2 hp hrep
  exact ⟨rs, rp, p.Pause, { r with Active := false }, h1, h2, h3, by rw [h4], h5, rfl, h6, rfl⟩

/-- C16 on the orchestrator of the tests, from the state after `Register` and
from the state in which the prober already runs. -/
theorem C16_start_then_pause_witness :
    (∃ (rs rp : Orchestrator × Bool × Option String) (p' : Pinger) (r' : Report),
      (GetOrchestrator.Register ⟨"example", 100⟩ 0).1.Start "example" 1 = some rs ∧
      rs.2.2 = none ∧
      (rs.1.proberBegins (NewPinger 0 ⟨"example", 100⟩).addr).Pause "example" 2 = some rp ∧
      rp.2.2 = none ∧
      rp.1.pingers.get "example" = some p' ∧ p'.IsRunning = false ∧
      rp.1.reports.get "example" = some r' ∧ r'.Active = false) ∧
    ((GetOrchestrator.run [Call.register ⟨"example", 100⟩ 0, Call.start "example" 1,
        Call.proberBegins 0, Call.pause "example" 2]).map
      (fun o => ((o.pingers.get "example").map (fun p => p.IsRunning),
        (o.reports.get "example").map (fun r => r.Active))) = some (some false, some false) ∧
     (GetOrchestrator.run [Call.register ⟨"example", 100⟩ 0, Call.start "example" 1,
        Call.proberBegins 0, Call.start "example" 2, Call.proberBegins 0,
        Call.pause "example" 3]).map
      (fun o => ((o.pingers.get "example").map (fun p => p.IsRunning),
        (o.reports.get "example").map (fun r => r.Active))) = some (some false, some false)) :=
  ⟨C16_start_then_pause (GetOrchestrator.Register ⟨"example", 100⟩ 0).1 "example" 1 2
    (NewPinger 0 ⟨"example", 100⟩) (NewReport ⟨"example", 100⟩).1 (by decide) (by decide),
    by decide, by decide⟩

/-- C17: in every state with the registry invariant `Start` and `Pause`
return, with an error exactly when the URL has no prober, and then with the
state unchanged. For a URL with prober `p` and report `r`: when `p` is not
running, `Start` sets `Active` in the report, launches the goroutine of the
prober (which sets the running flag once it runs), sends one alert and returns
true, and `Pause` returns false with the state unchanged; when `p` is running,
`Start` returns false with the state unchanged, and `Pause` clears `Active` in
the report and the running flag, sends one alert and returns true. -/
theorem C17_start_pause_contract (o : Orchestrator) (hk : o.KeysAgree) (url : String)
    (now : Int) :
    (∃ rs : Orchestrator × Bool × Option String, o.Start url now = some rs ∧
      (rs.2.2 ≠ none ↔ o.pingers.get url = none) ∧
      (rs.2.2 ≠ none → rs.1 = o ∧ rs.2.1 = false)) ∧
    (∃ rp : Orchestrator × Bool × Option String, o.Pause url now = some rp ∧
      (rp.2.2 ≠ none ↔ o.pingers.get url = none) ∧
      (rp.2.2 ≠ none → rp.1 = o ∧ rp.2.1 = false)) ∧
    (∀ p : Pinger, o.pingers.get url = some p → ∃ r : Report, o.reports.get url = some r ∧
      (p.IsRunning = false →
        (∃ al : Alert, al.Init = true ∧ al.Url = url ∧
          o.Start url now =
            some ({ o with
                reports := o.reports.set url { r with Active := true }
                spawned := o.spawned ++ [p.addr]
                alerts := o.alerts ++ [al] }, true, none)) ∧
        (∀ rs : Orchestrator × Bool × Option String, o.Start url now = some rs →
          ∃ q : Pinger, (rs.1.proberBegins p.addr).pingers.get url = some q ∧
            q.IsRunning = true) ∧
        o.Pause url now = some (o, false, none)) ∧
      (p.IsRunning = true →
        o.Start url now = some (o, false, none) ∧
        (∃ al : Alert, al.Init = true ∧ al.Url = url ∧
          o.Pause url now =
            some ({ o with
                reports := o.reports.set url { r with Active := false }
                pingers := o.pingers.set url p.Pause
                alerts := o.alerts ++ [al] }, true, none)) ∧
        p.Pause.IsRunning = false)) := by
  refine ⟨?_, ?_, ?_⟩
  · cases hp : o.pingers.get url with
    | none => exact ⟨_, Start_absent now hp, by simp, fun _ => ⟨rfl, rfl⟩⟩
    | some p =>
      obtain ⟨r, hrep⟩ := hk.rep_some hp
      cases hr : p.IsRunning with
      | false => exact ⟨_, Start_idle now hp hr hrep, by simp, fun h => absurd rfl h⟩
      | true => exact ⟨_, Start_running now hp hr, by simp, fun h => absurd rfl h⟩
  · cases hp : o.pingers.get url with
    | none => exact ⟨_, Pause_absent now hp, by simp, fun _ => ⟨rfl, rfl⟩⟩
    | some p =>
      obtain ⟨r, hrep⟩ := hk.rep_some hp
      cases hr : p.IsRunning with
      | false => exact ⟨_, Pause_idle now hp hr, by simp, fun h => absurd rfl h⟩
      | true => exact ⟨_, Pause_running now hp hr hrep, by simp, fun h => absurd rfl h⟩
  · intro p hp
    obtain ⟨r, hrep⟩ := hk.rep_some hp
    refine ⟨r, hrep, ?_, ?_⟩
    · intro hr
      refine ⟨⟨_, rfl, rfl, Start_idle now hp hr hrep⟩, ?_, Pause_idle now hp hr⟩
      intro rs hrs
      rw [Start_idle now hp hr hrep] at hrs
      cases hrs
      have hp2 : ({ o with
          reports := o.reports.set url { r with Active := true }
          spawned := o.spawned ++ [p.addr]
          alerts := o.alerts ++ [lifecycleAlert url now
            ("Website " ++ url ++ " monitoring has started")] } : Orchestrator).pingers.get url =
          some p := hp
      obtain ⟨q, hq, hqr, _⟩ := proberBegins_running hp2 (Or.inr (by simp))
      exact ⟨q, hq, hqr⟩
    · intro hr
      exact ⟨Start_running now hp hr, ⟨_, rfl, rfl, Pause_running now hp hr hrep⟩, rfl⟩

/-- C17 on the orchestrator of the tests after `Register`. -/
theorem C17_start_pause_contract_witness :
    ((∃ rs : Orchestrator × Bool × Option String, registered.Start "example" 1 = some rs ∧
      (rs.2.2 ≠ none ↔ registered.pingers.get "example" = none) ∧
      (rs.2.2 ≠ none → rs.1 = registered ∧ rs.2.1 = false)) ∧
    (∃ rp : Orchestrator × Bool × Option String, registered.Pause "example" 1 = some rp ∧
      (rp.2.2 ≠ none ↔ registered.pingers.get "example" = none) ∧
      (rp.2.2 ≠ none → rp.1 = registered ∧ rp.2.1 = false)) ∧
    (∀ p : Pinger, registered.pingers.get "example" = some p →
      ∃ r : Report, registered.reports.get "example" = some r ∧
      (p.IsRunning = false →
        (∃ al : Alert, al.Init = true ∧ al.Url = "example" ∧
          registered.Start "example" 1 =
            some ({ registered with
                reports := registered.reports.set "example" { r with Active := true }
                spawned := registered.spawned ++ [p.addr]
                alerts := registered.alerts ++ [al] }, true, none)) ∧
        (∀ rs : Orchestrator × Bool × Option String, registered.Start "example" 1 = some rs →
          ∃ q : Pinger, (rs.1.proberBegins p.addr).pingers.get "example" = some q ∧
            q.IsRunning = true) ∧
        registered.Pause "example" 1 = some (registered, false, none)) ∧
      (p.IsRunning = true →
        registered.Start "example" 1 = some (registered, false, none) ∧
        (∃ al : Alert, al.Init = true ∧ al.Url = "example" ∧
          registered.Pause "example" 1 =
            some ({ registered with
                reports := registered.reports.set "example" { r with Active := false }
                pingers := registered.pingers.set "example" p.Pause
                alerts := registered.alerts ++ [al] }, true, none)) ∧
        p.Pause.IsRunning = false))) ∧
    ((registered.Start "example" 1).map (fun r => (r.2, r.1.alerts.length, r.1.spawned,
        (r.1.reports.get "example").map (fun x => x.Active))) =
      some ((true, none), 2, [0], some true) ∧
     (registered.Pause "example" 1).map (fun r => (r.2, r.1.alerts.length)) =
      some ((false, none), 1) ∧
     (registered.Start "other" 1).map (fun r => (r.2, r.1.alerts.length)) =
      some ((false, some "WEBSITE other IS NOT REGISTERED"), 1) ∧
     (GetOrchestrator.run [Call.register ⟨"example", 100⟩ 0, Call.start "example" 1,
        Call.proberBegins 0]).bind (fun o => (o.Start "example" 2).map
          (fun r => (r.2, r.1.alerts.length))) = some ((false, none), 2) ∧
     (GetOrchestrator.run [Call.register ⟨"example", 100⟩ 0, Call.start "example" 1,
        Call.proberBegins 0]).bind (fun o => (o.Pause "example" 2).map
          (fun r => (r.2, r.1.alerts.length,
            (r.1.pingers.get "example").map (fun x => x.IsRunning),
            (r.1.reports.get "example").map (fun x => x.Active)))) =
        some ((true, none), 3, some false, some false)) :=
  ⟨C17_start_pause_contract registered (Register_keysAgree keysAgree_empty _ _) "example" 1,
    by decide, by decide, by decide, by decide, by decide⟩


/-- The durations of a fed triple are those of `NewAggregators`. -/
theorem Fed.durations {g : Aggregators} {url : String} {logs : List PingLog}
    (h : Fed g url logs) :
    g.Short.duration = SHORT_INTERVAL ∧ g.Medium.duration = MEDIUM_INTERVAL ∧
      g.Long.duration = LONG_INTERAVL := by
  have hb : ∀ e ∈ logs.map wrapper, e.Value.ResponseTime ≤ maxInt64 := by
    intro e he
    obtain ⟨l, hl, hle⟩ := List.mem_map.1 he
    rw [← hle]
    exact h.bounded l hl
  obtain ⟨_, _, hS, _⟩ := reach_inv (w := url) (d := SHORT_INTERVAL) (by decide) hb h.short
  obtain ⟨_, _, hM, _⟩ := reach_inv (w := url) (d := MEDIUM_INTERVAL) (by decide) hb h.medium
  obtain ⟨_, _, hL, _⟩ := reach_inv (w := url) (d := LONG_INTERAVL) (by decide) hb h.long
  exact ⟨hS, hM, hL⟩

/-- C18: in every state, for every probe event whose URL has no entry in
`aggregators`, `AggLog` returns the "NO AGGREGATOR FOR WEBSITE" error and the
state it leaves is the state before: no alert is sent, and the three maps,
with every aggregator in them, are unchanged. -/
theorem C18_aggLog_unregistered (o : Orchestrator) (log : PingLog)
    (ha : o.aggregators.get log.Website = none) :
    ∃ o' : Orchestrator,
      o.AggLog log = some (o', some ("NO AGGREGATOR FOR WEBSITE " ++ log.Website)) ∧
      o'.alerts = o.alerts ∧ o'.pingers = o.pingers ∧ o'.aggregators = o.aggregators ∧
      o'.reports = o.reports ∧ o' = o :=
  ⟨o, AggLog_absent ha, rfl, rfl, rfl, rfl, rfl⟩

/-- C18 on the orchestrator of the tests, for an event of another URL. -/
theorem C18_aggLog_unregistered_witness :
    (∃ o' : Orchestrator,
      registered.AggLog ⟨3, "other", none, 200, 50000000⟩ =
        some (o', some ("NO AGGREGATOR FOR WEBSITE " ++
          (⟨3, "other", none, 200, 50000000⟩ : PingLog).Website)) ∧
      o'.alerts = registered.alerts ∧ o'.pingers = registered.pingers ∧
      o'.aggregators = registered.aggregators ∧ o'.reports = registered.reports ∧
      o' = registered) ∧
    (registered.AggLog ⟨3, "other", none, 200, 50000000⟩).map
        (fun r => (r.2, r.1.alerts.length)) =
      some (some "NO AGGREGATOR FOR WEBSITE other", 1) :=
  ⟨C18_aggLog_unregistered registered ⟨3, "other", none, 200, 50000000⟩ rfl, by decide⟩

/-- C19: in every state reached from a fresh orchestrator, for every probe
event whose URL has aggregators, these have the durations 2 minutes, 10
minutes and 1 hour, each of the three `Add`s of the event returns, and `AggLog`
returns nil and leaves the state in which each of the three aggregators is the
one left by its `Add`, the aggregators of every other URL are unchanged, and
the alerts sent are those before, followed by the alert returned by the `Add`
of the Short aggregator when its `Init` is true and by nothing otherwise. -/
theorem C19_aggLog_feeds (calls : List Call) (hb : ∀ c ∈ calls, c.bounded) (log : PingLog)
    (hl : log.ResponseTime ≤ maxInt64) :
    ∃ o, GetOrchestrator.run calls = some o ∧
      ∀ g : Aggregators, o.aggregators.get log.Website = some g →
        g.Short.duration = 2 * 60 * 1000000000 ∧ g.Medium.duration = 10 * 60 * 1000000000 ∧
        g.Long.duration = 60 * 60 * 1000000000 ∧
        ∃ (rS rM rL : Aggregator × Option String × Alert) (o' : Orchestrator),
          g.Short.Add (wrapper log) = some rS ∧ g.Medium.Add (wrapper log) = some rM ∧
          g.Long.Add (wrapper log) = some rL ∧
          o.AggLog log = some (o', none) ∧
          o'.aggregators.get log.Website = some ⟨rS.1, rM.1, rL.1⟩ ∧
          (∀ url : String, url ≠ log.Website →
            o'.aggregators.get url = o.aggregators.get url) ∧
          o'.pingers = o.pingers ∧ o'.reports = o.reports ∧
          o'.alerts = o.alerts ++ (if rS.2.2.Init then [rS.2.2] else []) := by
  obtain ⟨o, hrun, _, hs⟩ := reach_orchestrator calls hb
  refine ⟨o, hrun, ?_⟩
  intro g hg
  obtain ⟨logs, hfed⟩ := hs _ g hg
  obtain ⟨hdS, hdM, hdL⟩ := hfed.durations
  obtain ⟨rS, rM, rL, hS, hSe, hM, hMe, hL, hLe, _⟩ := hfed.step log hl
  refine ⟨by rw [hdS]; rfl, by rw [hdM]; rfl, by rw [hdL]; rfl, rS, rM, rL, _, hS, hM, hL,
    AggLog_present hg hS hSe hM hMe hL hLe, ?_, ?_, rfl, rfl, rfl⟩
  · simp [GoMap.get_set]
  · intro url hu
    simp [GoMap.get_set, hu]

/-- C19 on an orchestrator with two endpoints, one of which has been fed. -/
theorem C19_aggLog_feeds_witness :
    (∃ o, GetOrchestrator.run [Call.register ⟨"a", 100⟩ 0, Call.register ⟨"b", 200⟩ 1,
        Call.start "a" 2, Call.proberBegins 0, Call.aggLog ⟨3, "a", none, 200, 50000000⟩,
        Call.aggLog ⟨4, "b", none, 500, 80000000⟩] = some o ∧
      ∀ g : Aggregators,
        o.aggregators.get (⟨5, "a", none, 500, 70000000⟩ : PingLog).Website = some g →
        g.Short.duration = 2 * 60 * 1000000000 ∧ g.Medium.duration = 10 * 60 * 1000000000 ∧
        g.Long.duration = 60 * 60 * 1000000000 ∧
        ∃ (rS rM rL : Aggregator × Option String × Alert) (o' : Orchestrator),
          g.Short.Add (wrapper ⟨5, "a", none, 500, 70000000⟩) = some rS ∧
          g.Medium.Add (wrapper ⟨5, "a", none, 500, 70000000⟩) = some rM ∧
          g.Long.Add (wrapper ⟨5, "a", none, 500, 70000000⟩) = some rL ∧
          o.AggLog ⟨5, "a", none, 500, 70000000⟩ = some (o', none) ∧
          o'.aggregators.get (⟨5, "a", none, 500, 70000000⟩ : PingLog).Website =
            some ⟨rS.1, rM.1, rL.1⟩ ∧
          (∀ url : String, url ≠ (⟨5, "a", none, 500, 70000000⟩ : PingLog).Website →
            o'.aggregators.get url = o.aggregators.get url) ∧
          o'.pingers = o.pingers ∧ o'.reports = o.reports ∧
          o'.alerts = o.alerts ++ (if rS.2.2.Init then [rS.2.2] else [])) ∧
    ((GetOrchestrator.run [Call.register ⟨"a", 100⟩ 0, Call.register ⟨"b", 200⟩ 1,
        Call.start "a" 2, Call.proberBegins 0, Call.aggLog ⟨3, "a", none, 200, 50000000⟩,
        Call.aggLog ⟨4, "b", none, 500, 80000000⟩]).bind (fun o =>
      (o.AggLog ⟨5, "a", none, 500, 70000000⟩).map (fun r =>
        (r.2, o.alerts.length, r.1.alerts.length))) = some (none, 4, 5) ∧
     (GetOrchestrator.run [Call.register ⟨"a", 100⟩ 0, Call.register ⟨"b", 200⟩ 1,
        Call.start "a" 2, Call.proberBegins 0, Call.aggLog ⟨3, "a", none, 200, 50000000⟩,
        Call.aggLog ⟨4, "b", none, 500, 80000000⟩]).bind (fun o =>
      (o.AggLog ⟨5, "a", none, 500, 70000000⟩).bind (fun r =>
        (r.1.aggregators.get "a").map (fun g => (g.Short.count, g.Medium.count, g.Long.count)))) =
        some (2, 2, 2) ∧
     (GetOrchestrator.run [Call.register ⟨"a", 100⟩ 0, Call.register ⟨"b", 200⟩ 1,
        Call.start "a" 2, Call.proberBegins 0, Call.aggLog ⟨3, "a", none, 200, 50000000⟩,
        Call.aggLog ⟨4, "b", none, 500, 80000000⟩]).bind (fun o =>
      (o.AggLog ⟨5, "a", none, 500, 70000000⟩).bind (fun r =>
        (r.1.aggregators.get "b").map (fun g => (g.Short.count, g.Medium.count, g.Long.count)))) =
        some (1, 1, 1)) :=
  ⟨C19_aggLog_feeds _ (by simp [Call.bounded, maxInt64]) ⟨5, "a", none, 500, 70000000⟩
    (by decide), by decide, by decide, by decide⟩


/-! ## Config parsing -/

/-- The pieces of `splitChars`: there is a first one, none holds the
separator, and joined by separators they give the list back. -/
theorem splitChars_spec (sep : Char) : ∀ cs : List Char,
    ∃ (f : List Char) (fs : List (List Char)), splitChars sep cs = f :: fs ∧ sep ∉ f ∧
      (∀ g ∈ fs, sep ∉ g) ∧ cs = f ++ (fs.map (fun g => sep :: g)).flatten := by
  intro cs
  induction cs with
  | nil => exact ⟨[], [], rfl, by simp, by simp, by simp⟩
  | cons c cs ih =>
    obtain ⟨f, fs, h1, h2, h3, h4⟩ := ih
    by_cases hc : c = sep
    · refine ⟨[], f :: fs, by simp [splitChars, hc, h1], by simp, ?_, ?_⟩
      · intro g hg
        rcases List.mem_cons.1 hg with hg | hg
        · rw [hg]; exact h2
        · exact h3 g hg
      · rw [hc]
        simp only [List.map_cons, List.flatten_cons, List.nil_append, List.cons_append]
        rw [← h4]
    · refine ⟨c :: f, fs, by simp [splitChars, hc, h1], ?_, h3, ?_⟩
      · intro hm
        rcases List.mem_cons.1 hm with hm | hm
        · exact hc hm.symm
        · exact h2 hm
      · rw [List.cons_append, ← h4]

theorem splitChars_no_sep (sep : Char) : ∀ cs : List Char, sep ∉ cs →
    splitChars sep cs = [cs] := by
  intro cs
  induction cs with
  | nil => intro _; rfl
  | cons c cs ih =>
    intro h
    have hc : c ≠ sep := fun e => h (by simp [e])
    have hcs : sep ∉ cs := fun e => h (List.mem_cons_of_mem _ e)
    simp [splitChars, hc, ih hcs]

theorem splitChars_sep (sep : Char) (rest : List Char) : ∀ f : List Char, sep ∉ f →
    splitChars sep (f ++ sep :: rest) = f :: splitChars sep rest := by
  intro f
  induction f with
  | nil => intro _; simp [splitChars]
  | cons c cs ih =>
    intro h
    have hc : c ≠ sep := fun e => h (by simp [e])
    have hcs : sep ∉ cs := fun e => h (List.mem_cons_of_mem _ e)
    simp [splitChars, hc, ih hcs]

theorem isPrefixOf_iff_append : ∀ p s : List Char,
    p.isPrefixOf s = true ↔ ∃ t : List Char, s = p ++ t := by
  intro p
  induction p with
  | nil => intro s; simp
  | cons a p ih =>
    intro s
    cases s with
    | nil => simp [List.isPrefixOf]
    | cons b s =>
      simp only [List.isPrefixOf, Bool.and_eq_true, beq_iff_eq, ih, List.cons_append,
        List.cons.injEq]
      constructor
      · rintro ⟨hab, t, ht⟩
        exact ⟨t, hab.symm, ht⟩
      · rintro ⟨t, hab, ht⟩
        exact ⟨hab.symm, t, ht⟩

theorem indexFrom_range (p : List Char) : ∀ (s : List Char) (i : Nat),
    indexFrom p s i = -1 ∨ (i : Int) ≤ indexFrom p s i := by
  intro s
  induction s with
  | nil =>
    intro i
    unfold indexFrom
    split
    · exact Or.inr (le_refl _)
    · exact Or.inl rfl
  | cons c cs ih =>
    intro i
    unfold indexFrom
    split
    · exact Or.inr (le_refl _)
    · rcases ih (i + 1) with h | h
      · exact Or.inl h
      · right
        have : ((i + 1 : Nat) : Int) = (i : Int) + 1 := by push_cast; rfl
        omega

/-- The test `strings.Index(s, substr) == 0` holds exactly when `s` begins
with `substr`. -/
theorem Index_eq_zero (s p : String) :
    strings.Index s p = 0 ↔ ∃ t : String, s = p ++ t := by
  have hstr : (∃ t : String, s = p ++ t) ↔ ∃ t : List Char, s.data = p.data ++ t := by
    constructor
    · rintro ⟨t, ht⟩
      exact ⟨t.data, by rw [ht, String.data_append]⟩
    · rintro ⟨t, ht⟩
      exact ⟨String.mk t, String.ext (by rw [String.data_append, ht])⟩
  rw [hstr, ← isPrefixOf_iff_append]
  unfold strings.Index
  cases hs : s.data with
  | nil =>
    unfold indexFrom
    by_cases h : p.data.isPrefixOf [] = true
    · simp [h]
    · simp [h]
  | cons c cs =>
    unfold indexFrom
    by_cases h : p.data.isPrefixOf (c :: cs) = true
    · simp [h]
    · simp only [h, if_false, Bool.false_eq_true, iff_false]
      rcases indexFrom_range p.data cs (0 + 1) with h1 | h1
      · rw [h1]; decide
      · intro h0
        rw [h0] at h1
        simp at h1

/-- The URL `parseConfig` computes from the first field of a line. -/
theorem url_cases (field : String) :
    (HasScheme field →
      (if !(strings.Index field "http://" == 0 || strings.Index field "https://" == 0) then
          "http://" ++ field else field) = field) ∧
    (¬ HasScheme field →
      (if !(strings.Index field "http://" == 0 || strings.Index field "https://" == 0) then
          "http://" ++ field else field) = "http://" ++ field) := by
  have h : (strings.Index field "http://" == 0 || strings.Index field "https://" == 0) = true ↔
      HasScheme field := by
    simp only [Bool.or_eq_true, beq_iff_eq, Index_eq_zero]
    exact Iff.rfl
  constructor
  · intro hs
    simp [h.2 hs]
  · intro hs
    have : (strings.Index field "http://" == 0 || strings.Index field "https://" == 0) =
        false := by
      cases hb : (strings.Index field "http://" == 0 || strings.Index field "https://" == 0)
      · rfl
      · exact absurd (h.1 hb) hs
    simp [this]

/-- The URL `parseConfig` computes begins with `http://` or `https://`. -/
theorem url_hasScheme (field : String) :
    HasScheme (if !(strings.Index field "http://" == 0 || strings.Index field "https://" == 0)
      then "http://" ++ field else field) := by
  by_cases hs : HasScheme field
  · rw [(url_cases field).1 hs]; exact hs
  · rw [(url_cases field).2 hs]; exact Or.inl ⟨field, rfl⟩

/-- The endpoint built for a line without comma. -/
theorem parseLine_one (line : String) (h : ',' ∉ line.data) :
    parseLine line = Except.ok
      { Url := if !(strings.Index line "http://" == 0 || strings.Index line "https://" == 0)
          then "http://" ++ line else line,
        CheckInterval := 1000 } := by
  have hs : strings.Split line ',' = [line] := by
    unfold strings.Split
    rw [splitChars_no_sep _ _ h]
    rfl
  simp [parseLine, hs, DEFAULT_CHECKING_INTERVAL]

/-- The result for a line `field,second` with one comma. -/
theorem parseLine_two (field second : String) (h0 : ',' ∉ field.data)
    (h1 : ',' ∉ second.data) :
    parseLine (field ++ "," ++ second) =
      match strconv.Atoi second with
      | none => Except.error "INVALID CONFIG FILE: INTERVAL MUST BE INTEGER"
      | some interval => Except.ok
          { Url := if !(strings.Index field "http://" == 0 ||
                strings.Index field "https://" == 0) then "http://" ++ field else field,
            CheckInterval := interval } := by
  have hs : strings.Split (field ++ "," ++ second) ',' = [field, second] := by
    unfold strings.Split
    have hd : (field ++ "," ++ second).data = field.data ++ ',' :: second.data := by
      simp [String.data_append]
    rw [hd, splitChars_sep _ _ _ h0, splitChars_no_sep _ _ h1]
    rfl
  simp only [parseLine, hs]
  simp

/-- The lines for which `parseLine` returns an endpoint. -/
theorem parseLine_ok {line : String} {w : Website} (h : parseLine line = Except.ok w) :
    ∃ field : String,
      ((',' ∉ line.data ∧ field = line ∧ w.CheckInterval = 1000) ∨
        (∃ second : String, line = field ++ "," ++ second ∧ ',' ∉ field.data ∧
          ',' ∉ second.data ∧ strconv.Atoi second = some w.CheckInterval)) ∧
      w.Url = (if !(strings.Index field "http://" == 0 ||
          strings.Index field "https://" == 0) then "http://" ++ field else field) := by
  obtain ⟨f, fs, h1, h2, h3, h4⟩ := splitChars_spec ',' line.data
  cases fs with
  | nil =>
    have hl : ',' ∉ line.data := by
      rw [h4]; simpa using h2
    rw [parseLine_one line hl] at h
    cases h
    exact ⟨line, Or.inl ⟨hl, rfl, rfl⟩, rfl⟩
  | cons g gs =>
    cases gs with
    | nil =>
      have hg : ',' ∉ g := h3 g (by simp)
      have hl : line = String.mk f ++ "," ++ String.mk g := by
        apply String.ext
        rw [h4]
        simp [String.data_append]
      rw [hl, parseLine_two (String.mk f) (String.mk g) h2 hg] at h
      cases ha : strconv.Atoi (String.mk g) with
      | none => rw [ha] at h; cases h
      | some n =>
        rw [ha] at h
        cases h
        exact ⟨String.mk f, Or.inr ⟨String.mk g, hl, h2, hg, ha⟩, rfl⟩
    | cons g2 gs =>
      have hs : (strings.Split line ',').length > 2 := by
        unfold strings.Split
        rw [h1]
        simp
      simp [parseLine, hs] at h

theorem keepFirst_mem : ∀ (ws acc : List Website) (x : Website),
    x ∈ keepFirst acc ws → x ∈ acc ∨ x ∈ ws := by
  intro ws
  induction ws with
  | nil => intro acc x h; exact Or.inl h
  | cons w ws ih =>
    intro acc x h
    unfold keepFirst at h
    split at h
    · rcases ih acc x h with h | h
      · exact Or.inl h
      · exact Or.inr (List.mem_cons_of_mem _ h)
    · rcases ih (acc ++ [w]) x h with h | h
      · rcases List.mem_append.1 h with h | h
        · exact Or.inl h
        · simp only [List.mem_singleton] at h
          exact Or.inr (by rw [h]; exact List.mem_cons_self _ _)
      · exact Or.inr (List.mem_cons_of_mem _ h)

theorem keepFirst_acc : ∀ (ws acc : List Website) (x : Website),
    x ∈ acc → x ∈ keepFirst acc ws := by
  intro ws
  induction ws with
  | nil => intro acc x h; exact h
  | cons w ws ih =>
    intro acc x h
    unfold keepFirst
    split
    · exact ih acc x h
    · exact ih (acc ++ [w]) x (List.mem_append_left _ h)

/-- The URL of every endpoint handed to `keepFirst` is the URL of an endpoint
of the result. -/
theorem keepFirst_urls : ∀ (ws acc : List Website) (w : Website), w ∈ ws →
    w.Url ∈ (keepFirst acc ws).map (fun x => x.Url) := by
  intro ws
  induction ws with
  | nil => intro acc w h; cases h
  | cons v ws ih =>
    intro acc w h
    unfold keepFirst
    rcases List.mem_cons.1 h with h | h
    · subst h
      split
      · rename_i hin
        obtain ⟨x, hx, hxu⟩ := List.mem_map.1 hin
        exact List.mem_map.2 ⟨x, keepFirst_acc ws acc x hx, hxu⟩
      · exact List.mem_map.2 ⟨w, keepFirst_acc ws (acc ++ [w]) w (by simp), rfl⟩
    · split
      · exact ih acc w h
      · exact ih (acc ++ [v]) w h

/-- Endpoints with pairwise distinct URLs, none of them in `acc`, are all kept,
in order. -/
theorem keepFirst_nodup : ∀ (ws acc : List Website),
    (ws.map (fun x => x.Url)).Nodup →
    (∀ w ∈ ws, w.Url ∉ acc.map (fun x => x.Url)) → keepFirst acc ws = acc ++ ws := by
  intro ws
  induction ws with
  | nil => intro acc _ _; simp [keepFirst]
  | cons w ws ih =>
    intro acc hn hd
    unfold keepFirst
    have hw : w.Url ∉ acc.map (fun x => x.Url) := hd w (List.mem_cons_self _ _)
    simp only [hw, if_false]
    rw [List.map_cons, List.nodup_cons] at hn
    rw [ih (acc ++ [w]) hn.2 ?_]
    · simp
    · intro v hv hin
      rw [List.map_append, List.mem_append] at hin
      rcases hin with hin | hin
      · exact hd v (List.mem_cons_of_mem _ hv) hin
      · simp only [List.map_cons, List.map_nil, List.mem_singleton] at hin
        exact hn.1 (by rw [← hin]; exact List.mem_map.2 ⟨v, hv, rfl⟩)

/-- The loop of `parseConfig`, when it returns a nil error: every remaining
line gave an endpoint, and the lists returned are those endpoints added to
`websites`, first occurrence of a URL only, and their URLs. -/
theorem loop_spec : ∀ (rest : List String) (websites : List Website) (urls : List String)
    (foundUrls : GoMap Bool), urls = websites.map (fun x => x.Url) →
    (∀ u : String, (foundUrls.get u).isSome = true ↔ u ∈ urls) →
    (parseConfig.loop rest websites urls foundUrls).2.2 = none →
    ∃ ws : List Website, rest.map parseLine = ws.map Except.ok ∧
      parseConfig.loop rest websites urls foundUrls =
        (keepFirst websites ws, (keepFirst websites ws).map (fun x => x.Url), none) := by
  intro rest
  induction rest with
  | nil =>
    intro websites urls foundUrls hU _ _
    exact ⟨[], rfl, by simp [parseConfig.loop, keepFirst, hU]⟩
  | cons line rest ih =>
    intro websites urls foundUrls hU hF h
    cases hl : parseLine line with
    | error e => simp [parseConfig.loop, hl] at h
    | ok w =>
      cases hf : foundUrls.get w.Url with
      | none =>
        have hnot : w.Url ∉ websites.map (fun x => x.Url) := by
          rw [← hU, ← hF]
          simp [hf]
        have hstep : parseConfig.loop (line :: rest) websites urls foundUrls =
            parseConfig.loop rest (websites ++ [w]) (urls ++ [w.Url])
              (foundUrls.set w.Url true) := by
          simp [parseConfig.loop, hl, hf]
        rw [hstep] at h ⊢
        obtain ⟨ws, h1, h2⟩ := ih (websites ++ [w]) (urls ++ [w.Url])
          (foundUrls.set w.Url true) (by simp [hU]) (by
            intro u
            rw [GoMap.get_set, List.mem_append, List.mem_singleton, ← hF]
            by_cases hu : u = w.Url
            · simp [hu]
            · simp [hu]) h
        refine ⟨w :: ws, by simp [h1, hl], ?_⟩
        rw [h2]
        simp [keepFirst, hnot]
      | some b =>
        have hin : w.Url ∈ websites.map (fun x => x.Url) := by
          rw [← hU, ← hF]
          simp [hf]
        have hstep : parseConfig.loop (line :: rest) websites urls foundUrls =
            parseConfig.loop rest websites urls foundUrls := by
          simp [parseConfig.loop, hl, hf]
        rw [hstep] at h ⊢
        obtain ⟨ws, h1, h2⟩ := ih websites urls foundUrls hU hF h
        refine ⟨w :: ws, by simp [h1, hl], ?_⟩
        rw [h2]
        simp [keepFirst, hin]

/-- `parseConfig` when it returns a nil error. -/
theorem parseConfig_spec {lines : List String} (h : (parseConfig.onLines lines).2.2 = none) :
    ∃ ws : List Website, lines.map parseLine = ws.map Except.ok ∧
      parseConfig.onLines lines = (keepFirst [] ws, (keepFirst [] ws).map (fun x => x.Url), none) :=
  loop_spec lines [] [] GoMap.empty rfl (by intro u; simp [GoMap.get_empty]) h


/-- When the loop of `parseConfig` returns a nil error, every line is `URL` or
`URL,INTERVAL` and the endpoint built for it has as URL the URL field
unchanged when the field begins with `http://` or `https://` and `http://`
followed by the field otherwise, and as `CheckInterval` the integer
`strconv.Atoi` reads in the second field, or 1000 when the line has no comma;
its URL is among the URLs returned. Every endpoint returned is the endpoint of
a line and its URL begins with `http://` or `https://`, the URLs returned are
those of the endpoints returned, and when no two lines give the same URL the
endpoints returned are those of the lines, in order. -/
theorem onLines_endpoints (lines : List String)
    (h : (parseConfig.onLines lines).2.2 = none) :
    (∀ line ∈ lines, ∃ (field : String) (w : Website), parseLine line = Except.ok w ∧
      ((',' ∉ line.data ∧ field = line ∧ w.CheckInterval = 1000) ∨
        (∃ second : String, line = field ++ "," ++ second ∧ ',' ∉ field.data ∧
          ',' ∉ second.data ∧ strconv.Atoi second = some w.CheckInterval)) ∧
      (HasScheme field → w.Url = field) ∧
      (¬ HasScheme field → w.Url = "http://" ++ field) ∧
      w.Url ∈ (parseConfig.onLines lines).2.1) ∧
    (∀ w ∈ (parseConfig.onLines lines).1, ∃ line ∈ lines, parseLine line = Except.ok w) ∧
    (∀ w ∈ (parseConfig.onLines lines).1, HasScheme w.Url) ∧
    (parseConfig.onLines lines).2.1 = (parseConfig.onLines lines).1.map (fun w => w.Url) ∧
    (∀ ws : List Website, lines.map parseLine = ws.map Except.ok →
      (ws.map (fun w => w.Url)).Nodup → (parseConfig.onLines lines).1 = ws) := by
  obtain ⟨ws, hmap, hres⟩ := parseConfig_spec h
  have hline : ∀ line ∈ lines, ∃ w ∈ ws, parseLine line = Except.ok w := by
    intro line hl
    have : parseLine line ∈ ws.map Except.ok := by
      rw [← hmap]; exact List.mem_map.2 ⟨line, hl, rfl⟩
    obtain ⟨w, hw, hwe⟩ := List.mem_map.1 this
    exact ⟨w, hw, hwe.symm⟩
  have hback : ∀ w ∈ ws, ∃ line ∈ lines, parseLine line = Except.ok w := by
    intro w hw
    have : (Except.ok w : Except String Website) ∈ lines.map parseLine := by
      rw [hmap]; exact List.mem_map.2 ⟨w, hw, rfl⟩
    obtain ⟨line, hl, hle⟩ := List.mem_map.1 this
    exact ⟨line, hl, hle⟩
  rw [hres]
  refine ⟨?_, ?_, ?_, rfl, ?_⟩
  · intro line hl
    obtain ⟨w, hw, hok⟩ := hline line hl
    obtain ⟨field, hcases, hurl⟩ := parseLine_ok hok
    refine ⟨field, w, hok, hcases, ?_, ?_, keepFirst_urls ws [] w hw⟩
    · intro hs
      rw [hurl, (url_cases field).1 hs]
    · intro hs
      rw [hurl, (url_cases field).2 hs]
  · intro w hw
    rcases keepFirst_mem ws [] w hw with hw | hw
    · cases hw
    · exact hback w hw
  · intro w hw
    rcases keepFirst_mem ws [] w hw with hw | hw
    · cases hw
    · obtain ⟨line, _, hok⟩ := hback w hw
      obtain ⟨field, _, hurl⟩ := parseLine_ok hok
      rw [hurl]
      exact url_hasScheme field
  · intro ws2 hmap2 hnodup
    have hws : ws2 = ws := by
      have : ws2.map (Except.ok : Website → Except String Website) = ws.map Except.ok := by
        rw [← hmap2, hmap]
      exact List.map_injective_iff.2 (fun a b hab => by cases hab; rfl) this
    subst hws
    show keepFirst [] ws2 = ws2
    rw [keepFirst_nodup ws2 [] hnodup (by simp)]
    simp


/-! ## Config parsing: the errors -/

theorem digitsNat_cons (c : Char) (cs : List Char) :
    digitsNat (c :: cs) = (c.toNat - 48) * 10 ^ cs.length + digitsNat cs := by
  unfold digitsNat
  simp only [List.reverse_cons, List.map_append, List.map_cons, List.map_nil,
    Nat.ofDigits_append, List.length_map, List.length_reverse, Nat.ofDigits_singleton]
  ring

/-- The loop of `strconv.Atoi` reads the value of a string of digits. -/
theorem digitsValue_some : ∀ (ds : List Char) (n : Nat), (∀ c ∈ ds, c.isDigit = true) →
    digitsValue ds n = some (n * 10 ^ ds.length + digitsNat ds) := by
  intro ds
  induction ds with
  | nil => intro n _; simp [digitsValue, digitsNat]
  | cons c cs ih =>
    intro n hall
    have hc : c.isDigit = true := hall c (List.mem_cons_self _ _)
    have hcs : ∀ x ∈ cs, x.isDigit = true := fun x hx => hall x (List.mem_cons_of_mem _ hx)
    unfold digitsValue
    rw [if_pos hc, ih _ hcs, digitsNat_cons, List.length_cons]
    congr 1
    ring

/-- The loop of `strconv.Atoi` fails at a character that is not a digit. -/
theorem digitsValue_none : ∀ (ds : List Char) (n : Nat), ¬ (∀ c ∈ ds, c.isDigit = true) →
    digitsValue ds n = none := by
  intro ds
  induction ds with
  | nil => intro n h; exact absurd (fun c hc => by cases hc) h
  | cons c cs ih =>
    intro n hall
    unfold digitsValue
    by_cases hc : c.isDigit = true
    · rw [if_pos hc]
      apply ih
      intro hcs
      apply hall
      intro x hx
      rcases List.mem_cons.1 hx with hx | hx
      · rw [hx]; exact hc
      · exact hcs x hx
    · rw [if_neg hc]

theorem atoi_plus (ds : List Char) (n : Int) :
    (digitsValue ds 0).bind (fun a => if a < 2 ^ 63 then some (a : Int) else none) = some n ↔
      (∀ c ∈ ds, c.isDigit = true) ∧ n = (digitsNat ds : Int) ∧ n < (2 : Int) ^ 63 := by
  by_cases hall : ∀ c ∈ ds, c.isDigit = true
  · rw [digitsValue_some ds 0 hall]
    simp only [Nat.zero_mul, Nat.zero_add, Option.some_bind]
    by_cases hr : digitsNat ds < 2 ^ 63
    · rw [if_pos hr]
      have hr' : ((digitsNat ds : Nat) : Int) < (2 : Int) ^ 63 := by exact_mod_cast hr
      constructor
      · intro h
        have := Option.some.inj h
        exact ⟨hall, this.symm, by rw [← this]; exact hr'⟩
      · rintro ⟨_, h, _⟩
        rw [h]
    · rw [if_neg hr]
      constructor
      · intro h; cases h
      · rintro ⟨_, h, h2⟩
        rw [h] at h2
        exact absurd (by exact_mod_cast h2) hr
  · rw [digitsValue_none ds 0 hall]
    constructor
    · intro h; cases h
    · rintro ⟨h, _⟩
      exact absurd h hall

theorem atoi_minus (ds : List Char) (n : Int) :
    (digitsValue ds 0).bind (fun a => if a ≤ 2 ^ 63 then some (-(a : Int)) else none) = some n ↔
      (∀ c ∈ ds, c.isDigit = true) ∧ n = -(digitsNat ds : Int) ∧ -(2 : Int) ^ 63 ≤ n := by
  by_cases hall : ∀ c ∈ ds, c.isDigit = true
  · rw [digitsValue_some ds 0 hall]
    simp only [Nat.zero_mul, Nat.zero_add, Option.some_bind]
    by_cases hr : digitsNat ds ≤ 2 ^ 63
    · rw [if_pos hr]
      have hr' : ((digitsNat ds : Nat) : Int) ≤ (2 : Int) ^ 63 := by exact_mod_cast hr
      constructor
      · intro h
        have := Option.some.inj h
        exact ⟨hall, this.symm, by rw [← this]; omega⟩
      · rintro ⟨_, h, _⟩
        rw [h]
    · rw [if_neg hr]
      constructor
      · intro h; cases h
      · rintro ⟨_, h, h2⟩
        rw [h] at h2
        have h3 : ((digitsNat ds : Nat) : Int) ≤ (2 : Int) ^ 63 := by omega
        exact absurd (by exact_mod_cast h3) hr
  · rw [digitsValue_none ds 0 hall]
    constructor
    · intro h; cases h
    · rintro ⟨h, _⟩
      exact absurd h hall

theorem natCast_range (k : Nat) : -(2 : Int) ^ 63 ≤ (k : Int) := by
  have h1 : (0 : Int) ≤ (k : Int) := Int.natCast_nonneg _
  have h2 : (0 : Int) < (2 : Int) ^ 63 := by norm_num
  omega

theorem neg_natCast_range (k : Nat) : -(k : Int) < (2 : Int) ^ 63 := by
  have h1 : (0 : Int) ≤ (k : Int) := Int.natCast_nonneg _
  have h2 : (0 : Int) < (2 : Int) ^ 63 := by norm_num
  omega

/-- `strconv.Atoi` returns `n` exactly for the decimal notations of the
integers `n` in the range of a 64-bit `int`. -/
theorem Atoi_eq_some (s : String) (n : Int) :
    strconv.Atoi s = some n ↔ Denotes s n ∧ -(2 : Int) ^ 63 ≤ n ∧ n < (2 : Int) ^ 63 := by
  have hminus : ('-' : Char).isDigit = false := by decide
  have hplus : ('+' : Char).isDigit = false := by decide
  have hpm : ('+' : Char) ≠ '-' := by decide
  unfold strconv.Atoi
  split
  · rename_i hs
    constructor
    · intro h; cases h
    · rintro ⟨⟨ds, hne, _, h | h | h⟩, _⟩
      · exact absurd (h.1.symm.trans hs) hne
      · rw [hs] at h; cases h.1
      · rw [hs] at h; cases h.1
  · rename_i ds hs
    have hden : Denotes s n ↔ ds ≠ [] ∧ (∀ c ∈ ds, c.isDigit = true) ∧
        n = -(digitsNat ds : Int) := by
      constructor
      · rintro ⟨ds', hne, hall, h | h | h⟩
        · have := hall '-' (by rw [← h.1, hs]; simp)
          rw [hminus] at this; cases this
        · have := h.1
          rw [hs] at this
          simp only [List.cons.injEq] at this
          exact absurd this.1.symm hpm
        · have := h.1
          rw [hs] at this
          simp only [List.cons.injEq, true_and] at this
          subst this
          exact ⟨hne, hall, h.2⟩
      · rintro ⟨hne, hall, h⟩
        exact ⟨ds, hne, hall, Or.inr (Or.inr ⟨hs, h⟩)⟩
    by_cases hemp : ds = []
    · subst hemp
      simp only [List.isEmpty_nil, if_true]
      constructor
      · intro h; cases h
      · rintro ⟨h, _⟩
        exact absurd rfl (hden.1 h).1
    · have hie : ds.isEmpty = false := by
        cases ds with
        | nil => exact absurd rfl hemp
        | cons _ _ => rfl
      simp only [hie, Bool.false_eq_true, if_false]
      rw [atoi_minus, hden]
      constructor
      · rintro ⟨hall, h, hlo⟩
        exact ⟨⟨hemp, hall, h⟩, hlo, by rw [h]; exact neg_natCast_range _⟩
      · rintro ⟨⟨_, hall, h⟩, hlo, _⟩
        exact ⟨hall, h, hlo⟩
  · rename_i ds hs
    have hden : Denotes s n ↔ ds ≠ [] ∧ (∀ c ∈ ds, c.isDigit = true) ∧
        n = (digitsNat ds : Int) := by
      constructor
      · rintro ⟨ds', hne, hall, h | h | h⟩
        · have := hall '+' (by rw [← h.1, hs]; simp)
          rw [hplus] at this; cases this
        · have := h.1
          rw [hs] at this
          simp only [List.cons.injEq, true_and] at this
          subst this
          exact ⟨hne, hall, h.2⟩
        · have := h.1
          rw [hs] at this
          simp only [List.cons.injEq] at this
          exact absurd this.1 hpm
      · rintro ⟨hne, hall, h⟩
        exact ⟨ds, hne, hall, Or.inr (Or.inl ⟨hs, h⟩)⟩
    by_cases hemp : ds = []
    · subst hemp
      simp only [List.isEmpty_nil, if_true]
      constructor
      · intro h; cases h
      · rintro ⟨h, _⟩
        exact absurd rfl (hden.1 h).1
    · have hie : ds.isEmpty = false := by
        cases ds with
        | nil => exact absurd rfl hemp
        | cons _ _ => rfl
      simp only [hie, Bool.false_eq_true, if_false]
      rw [atoi_plus, hden]
      constructor
      · rintro ⟨hall, h, hhi⟩
        exact ⟨⟨hemp, hall, h⟩, by rw [h]; exact natCast_range _, hhi⟩
      · rintro ⟨⟨_, hall, h⟩, _, hhi⟩
        exact ⟨hall, h, hhi⟩
  · rename_i ds hnil hmi hpl
    have hden : Denotes s n ↔ (∀ c ∈ s.data, c.isDigit = true) ∧
        n = (digitsNat s.data : Int) := by
      constructor
      · rintro ⟨ds', hne, hall, h | h | h⟩
        · rw [h.1]
          exact ⟨hall, h.2⟩
        · exact absurd h.1 (hpl ds')
        · exact absurd h.1 (hmi ds')
      · rintro ⟨hall, h⟩
        exact ⟨s.data, hnil, hall, Or.inl ⟨rfl, h⟩⟩
    rw [atoi_plus, hden]
    constructor
    · rintro ⟨hall, h, hhi⟩
      exact ⟨⟨hall, h⟩, by rw [h]; exact natCast_range _, hhi⟩
    · rintro ⟨⟨hall, h⟩, _, hhi⟩
      exact ⟨hall, h, hhi⟩


theorem splitChars_length (sep : Char) (cs : List Char) :
    (splitChars sep cs).length = cs.count sep + 1 := by
  induction cs with
  | nil => rfl
  | cons c cs ih =>
    obtain ⟨f, fs, h1, _⟩ := splitChars_spec sep cs
    by_cases hc : c = sep
    · subst hc
      simp [splitChars, ih]
    · have hb : (c == sep) = false := by simpa using hc
      rw [h1] at ih
      simp only [splitChars, hc, if_false, h1, List.length_cons, List.count_cons, hb,
        Bool.false_eq_true]
      simpa using ih

theorem dropWhile_sep (sep : Char) (rest : List Char) : ∀ f : List Char, sep ∉ f →
    (f ++ sep :: rest).dropWhile (fun c => c != sep) = sep :: rest := by
  intro f
  induction f with
  | nil => intro _; simp [List.dropWhile]
  | cons c cs ih =>
    intro h
    have hc : c ≠ sep := fun e => h (by simp [e])
    have hcs : sep ∉ cs := fun e => h (List.mem_cons_of_mem _ e)
    have hb : (c != sep) = true := by simpa using hc
    simp only [List.cons_append, List.dropWhile_cons, hb, if_true]
    exact ih hcs

theorem takeWhile_sep (sep : Char) (rest : List Char) : ∀ f : List Char, sep ∉ f →
    (f ++ sep :: rest).takeWhile (fun c => c != sep) = f := by
  intro f
  induction f with
  | nil => intro _; simp [List.takeWhile]
  | cons c cs ih =>
    intro h
    have hc : c ≠ sep := fun e => h (by simp [e])
    have hcs : sep ∉ cs := fun e => h (List.mem_cons_of_mem _ e)
    have hb : (c != sep) = true := by simpa using hc
    simp only [List.cons_append, List.takeWhile_cons, hb, if_true, ih hcs]

theorem takeWhile_no_sep (sep : Char) : ∀ f : List Char, sep ∉ f →
    f.takeWhile (fun c => c != sep) = f := by
  intro f
  induction f with
  | nil => intro _; rfl
  | cons c cs ih =>
    intro h
    have hc : c ≠ sep := fun e => h (by simp [e])
    have hcs : sep ∉ cs := fun e => h (List.mem_cons_of_mem _ e)
    have hb : (c != sep) = true := by simpa using hc
    simp only [List.cons_append, List.takeWhile_cons, hb, if_true, ih hcs]

/-- A line by its number of commas: none, one (then it is its two fields
joined by the comma), or more. -/
theorem line_shape (line : String) :
    (commas line = 0 ∧ ',' ∉ line.data ∧ firstField line = line) ∨
    (commas line = 1 ∧ line = firstField line ++ "," ++ secondField line ∧
      ',' ∉ (firstField line).data ∧ ',' ∉ (secondField line).data) ∨
    (2 ≤ commas line ∧ 2 < (strings.Split line ',').length) := by
  obtain ⟨f, fs, h1, h2, h3, h4⟩ := splitChars_spec ',' line.data
  have hlen := splitChars_length ',' line.data
  rw [h1] at hlen
  simp only [List.length_cons] at hlen
  cases fs with
  | nil =>
    left
    have hl : line.data = f := by simpa using h4
    refine ⟨by unfold commas; simpa using hlen.symm, by rw [hl]; exact h2, ?_⟩
    apply String.ext
    show line.data.takeWhile (fun c => c != ',') = line.data
    rw [hl]
    exact takeWhile_no_sep ',' f h2
  | cons g gs =>
    cases gs with
    | nil =>
      right; left
      have hg : ',' ∉ g := h3 g (by simp)
      have hl : line.data = f ++ ',' :: g := by simpa using h4
      have hff : firstField line = String.mk f := by
        unfold firstField
        rw [hl, takeWhile_sep ',' g f h2]
      have hsf : secondField line = String.mk g := by
        unfold secondField
        rw [hl, dropWhile_sep ',' g f h2]
        rfl
      refine ⟨by unfold commas; simpa using hlen.symm, ?_, by rw [hff]; exact h2,
        by rw [hsf]; exact hg⟩
      apply String.ext
      rw [hff, hsf, hl]
      simp [String.data_append]
    | cons g2 gs =>
      right; right
      refine ⟨by unfold commas; simp at hlen; omega, ?_⟩
      unfold strings.Split
      rw [h1]
      simp

/-- The result of `parseLine` by the number of commas of the line. -/
theorem parseLine_cases (line : String) :
    (commas line = 0 → ∃ w : Website, parseLine line = Except.ok w ∧ w.CheckInterval = 1000) ∧
    (commas line = 1 →
      (∀ n : Int, strconv.Atoi (secondField line) = some n →
        ∃ w : Website, parseLine line = Except.ok w ∧ w.CheckInterval = n) ∧
      (strconv.Atoi (secondField line) = none →
        parseLine line = Except.error "INVALID CONFIG FILE: INTERVAL MUST BE INTEGER")) ∧
    (2 ≤ commas line →
      parseLine line = Except.error "INVALID CONFIG FILE: 1 WEBSITE PER lINE") := by
  rcases line_shape line with ⟨h0, hno, _⟩ | ⟨h1, hl, hf, hs⟩ | ⟨h2, hsplit⟩
  · refine ⟨fun _ => ⟨_, parseLine_one line hno, rfl⟩, fun h => ?_, fun h => ?_⟩
    · rw [h0] at h; cases h
    · rw [h0] at h; omega
  · refine ⟨fun h => ?_, fun _ => ⟨?_, ?_⟩, fun h => ?_⟩
    · rw [h1] at h; cases h
    · intro n hn
      have := parseLine_two (firstField line) (secondField line) hf hs
      rw [← hl, hn] at this
      exact ⟨_, this, rfl⟩
    · intro hn
      have := parseLine_two (firstField line) (secondField line) hf hs
      rw [← hl, hn] at this
      exact this
    · rw [h1] at h; omega
  · refine ⟨fun h => ?_, fun h => ?_, fun _ => ?_⟩
    · rw [h] at h2; omega
    · rw [h] at h2; omega
    · simp [parseLine, hsplit]

/-- The lines for which `parseLine` returns an endpoint are the good ones. -/
theorem parseLine_good (line : String) :
    GoodLine line ↔ ∃ w : Website, parseLine line = Except.ok w := by
  obtain ⟨h0, h1, h2⟩ := parseLine_cases line
  constructor
  · rintro ⟨hle, hint⟩
    by_cases hc : commas line = 0
    · obtain ⟨w, hw, _⟩ := h0 hc
      exact ⟨w, hw⟩
    · have hc1 : commas line = 1 := by omega
      obtain ⟨n, hden, hlo, hhi⟩ := hint hc1
      obtain ⟨w, hw, _⟩ := (h1 hc1).1 n ((Atoi_eq_some _ n).2 ⟨hden, hlo, hhi⟩)
      exact ⟨w, hw⟩
  · rintro ⟨w, hw⟩
    have hle : commas line ≤ 1 := by
      by_contra hc
      rw [h2 (by omega)] at hw
      cases hw
    refine ⟨hle, fun hc1 => ?_⟩
    cases ha : strconv.Atoi (secondField line) with
    | none =>
      rw [(h1 hc1).2 ha] at hw
      cases hw
    | some n => exact ⟨n, (Atoi_eq_some _ n).1 ha⟩

/-- The loop of `parseConfig` returns an error and nil slices as soon as one
of the remaining lines gives an error. -/
theorem loop_error : ∀ (rest : List String) (websites : List Website) (urls : List String)
    (foundUrls : GoMap Bool), (∃ line ∈ rest, ∀ w : Website, parseLine line ≠ Except.ok w) →
    ∃ e : String, parseConfig.loop rest websites urls foundUrls = ([], [], some e) := by
  intro rest
  induction rest with
  | nil => intro _ _ _ h; obtain ⟨_, hl, _⟩ := h; cases hl
  | cons line rest ih =>
    intro websites urls foundUrls h
    cases hl : parseLine line with
    | error e => exact ⟨e, by simp [parseConfig.loop, hl]⟩
    | ok w =>
      have hrest : ∃ l ∈ rest, ∀ w : Website, parseLine l ≠ Except.ok w := by
        obtain ⟨l, hlm, hbad⟩ := h
        rcases List.mem_cons.1 hlm with hlm | hlm
        · subst hlm
          exact absurd hl (hbad w)
        · exact ⟨l, hlm, hbad⟩
      cases hf : foundUrls.get w.Url with
      | none =>
        obtain ⟨e, he⟩ := ih (websites ++ [w]) (urls ++ [w.Url]) (foundUrls.set w.Url true) hrest
        exact ⟨e, by simp [parseConfig.loop, hl, hf, he]⟩
      | some b =>
        obtain ⟨e, he⟩ := ih websites urls foundUrls hrest
        exact ⟨e, by simp [parseConfig.loop, hl, hf, he]⟩

/-- The loop of `parseConfig` returns a nil error when every remaining line
gives an endpoint. -/
theorem loop_total : ∀ (rest : List String) (websites : List Website) (urls : List String)
    (foundUrls : GoMap Bool), (∀ line ∈ rest, ∃ w : Website, parseLine line = Except.ok w) →
    (parseConfig.loop rest websites urls foundUrls).2.2 = none := by
  intro rest
  induction rest with
  | nil => intro _ _ _ _; rfl
  | cons line rest ih =>
    intro websites urls foundUrls h
    obtain ⟨w, hl⟩ := h line (List.mem_cons_self _ _)
    have hrest : ∀ l ∈ rest, ∃ w : Website, parseLine l = Except.ok w :=
      fun l hlm => h l (List.mem_cons_of_mem _ hlm)
    cases hf : foundUrls.get w.Url with
    | none =>
      have := ih (websites ++ [w]) (urls ++ [w.Url]) (foundUrls.set w.Url true) hrest
      simpa [parseConfig.loop, hl, hf] using this
    | some b =>
      have := ih websites urls foundUrls hrest
      simpa [parseConfig.loop, hl, hf] using this

/-- `parseConfig` returns a nil error exactly on the configs of good lines. -/
theorem parseConfig_ok_iff (lines : List String) :
    (parseConfig.onLines lines).2.2 = none ↔ ∀ line ∈ lines, GoodLine line := by
  constructor
  · intro h line hl
    by_contra hbad
    obtain ⟨e, he⟩ := loop_error lines [] [] GoMap.empty
      ⟨line, hl, fun w hw => hbad ((parseLine_good line).2 ⟨w, hw⟩)⟩
    unfold parseConfig.onLines at h
    rw [he] at h
    cases h
  · intro h
    exact loop_total lines [] [] GoMap.empty (fun line hl => (parseLine_good line).1 (h line hl))

/-- `parseConfig` returns nil slices with a non-nil error. -/
theorem parseConfig_error {lines : List String} (h : (parseConfig.onLines lines).2.2 ≠ none) :
    (parseConfig.onLines lines).1 = [] ∧ (parseConfig.onLines lines).2.1 = [] := by
  have hbad : ¬ ∀ line ∈ lines, GoodLine line := fun hg => h ((parseConfig_ok_iff lines).2 hg)
  have : ∃ line ∈ lines, ∀ w : Website, parseLine line ≠ Except.ok w := by
    by_contra hc
    apply hbad
    intro line hl
    by_contra hg
    exact hc ⟨line, hl, fun w hw => hg ((parseLine_good line).2 ⟨w, hw⟩)⟩
  obtain ⟨e, he⟩ := loop_error lines [] [] GoMap.empty this
  unfold parseConfig.onLines
  rw [he]
  exact ⟨rfl, rfl⟩


/-! ## Config parsing: the scanner -/

/-- The scanner reports no error exactly when every raw line is shorter than
its buffer, and it then delivers every line; its only error is `ErrTooLong`. -/
theorem scan_spec : ∀ raws : List (List Char),
    ((bufio.scan raws).2 = none ↔ ∀ raw ∈ raws, byteLength raw < MaxScanTokenSize) ∧
    ((bufio.scan raws).2 = none →
      (bufio.scan raws).1 = raws.map (fun raw => String.mk (dropCR raw))) := by
  intro raws
  induction raws with
  | nil => simp [bufio.scan]
  | cons raw rest ih =>
    obtain ⟨ih1, ih2⟩ := ih
    by_cases hlong : MaxScanTokenSize ≤ byteLength raw
    · have hs : bufio.scan (raw :: rest) = ([], some "bufio.Scanner: token too long") := by
        simp [bufio.scan, hlong]
      rw [hs]
      refine ⟨⟨fun h => (by cases h), fun h => ?_⟩, fun h => (by cases h)⟩
      have := h raw (List.mem_cons_self _ _)
      omega
    · have hs : bufio.scan (raw :: rest) =
          (String.mk (dropCR raw) :: (bufio.scan rest).1, (bufio.scan rest).2) := by
        simp [bufio.scan, hlong]
      rw [hs]
      refine ⟨⟨fun h => ?_, fun h => ?_⟩, fun h => ?_⟩
      · intro x hx
        rcases List.mem_cons.1 hx with hx | hx
        · subst hx
          omega
        · exact ih1.1 h x hx
      · exact ih1.2 (fun x hx => h x (List.mem_cons_of_mem _ hx))
      · show String.mk (dropCR raw) :: (bufio.scan rest).1 = _
        rw [ih2 h]
        rfl

/-- `parseConfig` in terms of its loop and of the scanner. -/
theorem parseConfig_cases (file : String) :
    ((parseConfig.onLines (bufio.scan (rawLines file)).1).2.2 ≠ none →
      parseConfig file = parseConfig.onLines (bufio.scan (rawLines file)).1 ∧
        (parseConfig file).2.2 ≠ none) ∧
    ((parseConfig.onLines (bufio.scan (rawLines file)).1).2.2 = none →
      ∀ e : String, (bufio.scan (rawLines file)).2 = some e →
        parseConfig file = ([], [], some e)) ∧
    ((parseConfig.onLines (bufio.scan (rawLines file)).1).2.2 = none →
      (bufio.scan (rawLines file)).2 = none →
        parseConfig file = parseConfig.onLines (bufio.scan (rawLines file)).1) := by
  have herr := @parseConfig_error (bufio.scan (rawLines file)).1
  unfold parseConfig
  unfold parseConfig.onLines at herr ⊢
  rcases hloop : parseConfig.loop (bufio.scan (rawLines file)).1 [] [] GoMap.empty with
    ⟨ws, us, err⟩
  rw [hloop] at herr
  cases err with
  | some e =>
    obtain ⟨h1, h2⟩ := herr (by simp)
    simp only at h1 h2
    subst h1
    subst h2
    simp
  | none =>
    cases hscan : (bufio.scan (rawLines file)).2 with
    | some e => simp
    | none => simp

/-- `parseConfig` returns a nil error exactly when the scanner reports none
and the loop returns none; the result is then that of the loop on the lines of
the file. -/
theorem parseConfig_ok {file : String} (h : (parseConfig file).2.2 = none) :
    (∀ raw ∈ rawLines file, byteLength raw < MaxScanTokenSize) ∧
      parseConfig file = parseConfig.onLines (fileLines file) ∧
      (parseConfig.onLines (fileLines file)).2.2 = none := by
  obtain ⟨h1, h2, h3⟩ := parseConfig_cases file
  have hloop : (parseConfig.onLines (bufio.scan (rawLines file)).1).2.2 = none := by
    by_contra hc
    exact (h1 hc).2 h
  have hscan : (bufio.scan (rawLines file)).2 = none := by
    cases hs : (bufio.scan (rawLines file)).2 with
    | none => rfl
    | some e =>
      rw [h2 hloop e hs] at h
      cases h
  obtain ⟨hs1, hs2⟩ := scan_spec (rawLines file)
  have hlines : (bufio.scan (rawLines file)).1 = fileLines file := hs2 hscan
  rw [hlines] at hloop h3
  exact ⟨hs1.1 hscan, h3 hloop hscan, hloop⟩

/-- C20: when `parseConfig` returns a nil error, every line of the file is
shorter than the buffer of the scanner and is `URL` or
`URL,INTERVAL` and the endpoint built for it has as URL the URL field
unchanged when the field begins with `http://` or `https://` and `http://`
followed by the field otherwise, and as `CheckInterval` the integer
`strconv.Atoi` reads in the second field, or 1000 when the line has no comma;
its URL is among the URLs returned. Every endpoint returned is the endpoint of
a line and its URL begins with `http://` or `https://`, the URLs returned are
those of the endpoints returned, and when no two lines give the same URL the
endpoints returned are those of the lines, in order. -/
theorem C20_parseConfig_endpoints (file : String)
    (h : (parseConfig file).2.2 = none) :
    (∀ raw ∈ rawLines file, byteLength raw < MaxScanTokenSize) ∧
    (∀ line ∈ fileLines file, ∃ (field : String) (w : Website), parseLine line = Except.ok w ∧
      ((',' ∉ line.data ∧ field = line ∧ w.CheckInterval = 1000) ∨
        (∃ second : String, line = field ++ "," ++ second ∧ ',' ∉ field.data ∧
          ',' ∉ second.data ∧ strconv.Atoi second = some w.CheckInterval)) ∧
      (HasScheme field → w.Url = field) ∧
      (¬ HasScheme field → w.Url = "http://" ++ field) ∧
      w.Url ∈ (parseConfig file).2.1) ∧
    (∀ w ∈ (parseConfig file).1, ∃ line ∈ fileLines file, parseLine line = Except.ok w) ∧
    (∀ w ∈ (parseConfig file).1, HasScheme w.Url) ∧
    (parseConfig file).2.1 = (parseConfig file).1.map (fun w => w.Url) ∧
    (∀ ws : List Website, (fileLines file).map parseLine = ws.map Except.ok →
      (ws.map (fun w => w.Url)).Nodup → (parseConfig file).1 = ws) := by
  obtain ⟨hshort, heq, hok⟩ := parseConfig_ok h
  rw [heq]
  exact ⟨hshort, onLines_endpoints (fileLines file) hok⟩

/-- C20 on the file of the two lines `example.com` and `http://a.test,500`:
they yield `[(http://example.com, 1000), (http://a.test, 500)]`; and on a file
with `\r\n` line ends and no newline after the last line. -/
theorem C20_parseConfig_endpoints_witness :
    ((∀ raw ∈ rawLines "example.com\nhttp://a.test,500\n", byteLength raw < MaxScanTokenSize) ∧
    (∀ line ∈ fileLines "example.com\nhttp://a.test,500\n", ∃ (field : String) (w : Website), parseLine line = Except.ok w ∧
      ((',' ∉ line.data ∧ field = line ∧ w.CheckInterval = 1000) ∨
        (∃ second : String, line = field ++ "," ++ second ∧ ',' ∉ field.data ∧
          ',' ∉ second.data ∧ strconv.Atoi second = some w.CheckInterval)) ∧
      (HasScheme field → w.Url = field) ∧
      (¬ HasScheme field → w.Url = "http://" ++ field) ∧
      w.Url ∈ (parseConfig "example.com\nhttp://a.test,500\n").2.1) ∧
    (∀ w ∈ (parseConfig "example.com\nhttp://a.test,500\n").1, ∃ line ∈ fileLines "example.com\nhttp://a.test,500\n", parseLine line = Except.ok w) ∧
    (∀ w ∈ (parseConfig "example.com\nhttp://a.test,500\n").1, HasScheme w.Url) ∧
    (parseConfig "example.com\nhttp://a.test,500\n").2.1 = (parseConfig "example.com\nhttp://a.test,500\n").1.map (fun w => w.Url) ∧
    (∀ ws : List Website, (fileLines "example.com\nhttp://a.test,500\n").map parseLine = ws.map Except.ok →
      (ws.map (fun w => w.Url)).Nodup → (parseConfig "example.com\nhttp://a.test,500\n").1 = ws)) ∧
    fileLines "example.com\nhttp://a.test,500\n" = ["example.com", "http://a.test,500"] ∧
    parseConfig "example.com\nhttp://a.test,500\n" =
      ([⟨"http://example.com", 1000⟩, ⟨"http://a.test", 500⟩],
        ["http://example.com", "http://a.test"], none) ∧
    fileLines "https://b.test\r\nc.test,+25\r\nb.test,-3" =
      ["https://b.test", "c.test,+25", "b.test,-3"] ∧
    (parseConfig "https://b.test\r\nc.test,+25\r\nb.test,-3").1 =
      [⟨"https://b.test", 1000⟩, ⟨"http://c.test", 25⟩, ⟨"http://b.test", -3⟩] :=
  ⟨C20_parseConfig_endpoints "example.com\nhttp://a.test,500\n" (by decide), by decide, by decide,
    by decide, by decide⟩


/-- The loop of `parseConfig` returns a nil error exactly on good lines, nil
slices with an error, and an error on a line with more than one comma or with
a second field that is not a decimal integer. -/
theorem onLines_errors (lines : List String) :
    ((parseConfig.onLines lines).2.2 = none ↔ ∀ line ∈ lines, GoodLine line) ∧
    ((parseConfig.onLines lines).2.2 ≠ none →
      (parseConfig.onLines lines).1 = [] ∧ (parseConfig.onLines lines).2.1 = []) :=
  ⟨parseConfig_ok_iff lines, parseConfig_error⟩

/-- What `keepFirst` adds to `acc`: a sublist of `ws` with pairwise distinct
URLs, none of them in `acc`, each the first endpoint of `ws` with its URL. -/
theorem keepFirst_spec : ∀ (ws acc : List Website),
    ∃ r : List Website, keepFirst acc ws = acc ++ r ∧ r.Sublist ws ∧
      (r.map (fun x => x.Url)).Nodup ∧
      ∀ w ∈ r, w.Url ∉ acc.map (fun x => x.Url) ∧
        ws.find? (fun x => x.Url == w.Url) = some w := by
  intro ws
  induction ws with
  | nil => intro acc; exact ⟨[], by simp [keepFirst], List.Sublist.slnil, List.nodup_nil, by simp⟩
  | cons v ws ih =>
    intro acc
    by_cases hin : v.Url ∈ acc.map (fun x => x.Url)
    · obtain ⟨r, h1, h2, h3, h4⟩ := ih acc
      refine ⟨r, by simp [keepFirst, hin, h1], h2.cons v, h3, ?_⟩
      intro w hw
      obtain ⟨hwa, hwf⟩ := h4 w hw
      refine ⟨hwa, ?_⟩
      have hne : (v.Url == w.Url) = false := by
        have : v.Url ≠ w.Url := fun e => hwa (e ▸ hin)
        simpa using this
      rw [List.find?_cons, hne]
      exact hwf
    · obtain ⟨r, h1, h2, h3, h4⟩ := ih (acc ++ [v])
      have hvr : v.Url ∉ r.map (fun x => x.Url) := by
        intro hm
        obtain ⟨w, hw, hwu⟩ := List.mem_map.1 hm
        apply (h4 w hw).1
        rw [List.map_append, List.mem_append]
        right
        simp only [List.map_cons, List.map_nil, List.mem_singleton]
        exact hwu
      refine ⟨v :: r, by simp [keepFirst, hin, h1], h2.cons₂ v, ?_, ?_⟩
      · rw [List.map_cons, List.nodup_cons]
        exact ⟨hvr, h3⟩
      · intro w hw
        rcases List.mem_cons.1 hw with hw | hw
        · subst hw
          exact ⟨hin, by simp [List.find?_cons]⟩
        · obtain ⟨hwa, hwf⟩ := h4 w hw
          rw [List.map_append, List.mem_append, not_or] at hwa
          refine ⟨hwa.1, ?_⟩
          have hne : (v.Url == w.Url) = false := by
            have : v.Url ≠ w.Url := by
              intro e
              apply hwa.2
              simp [e]
            simpa using this
          rw [List.find?_cons, hne]
          exact hwf

/-- When the loop of `parseConfig` returns a nil error, with `ws` the endpoints built
for the lines in order, the endpoints returned form a sublist of `ws` (so they
are in order of appearance) with pairwise distinct URLs; every URL of `ws`
is the URL of a returned endpoint, and the returned endpoint with a given URL
is the first endpoint of `ws` with that URL (so it has the interval of that
line, and the later lines with the URL are dropped). The URLs returned are
those of the endpoints returned, in the same order. -/
theorem onLines_first_kept (lines : List String)
    (h : (parseConfig.onLines lines).2.2 = none) :
    ∃ ws : List Website, lines.map parseLine = ws.map Except.ok ∧
      ((parseConfig.onLines lines).1.map (fun w => w.Url)).Nodup ∧
      (parseConfig.onLines lines).1.Sublist ws ∧
      (∀ w ∈ ws, w.Url ∈ (parseConfig.onLines lines).1.map (fun x => x.Url)) ∧
      (∀ w ∈ (parseConfig.onLines lines).1, ws.find? (fun x => x.Url == w.Url) = some w) ∧
      (parseConfig.onLines lines).2.1 = (parseConfig.onLines lines).1.map (fun w => w.Url) := by
  obtain ⟨ws, hmap, hres⟩ := parseConfig_spec h
  obtain ⟨r, h1, h2, h3, h4⟩ := keepFirst_spec ws []
  rw [List.nil_append] at h1
  refine ⟨ws, hmap, ?_, ?_, ?_, ?_, ?_⟩
  · rw [hres]; show ((keepFirst [] ws).map (fun w => w.Url)).Nodup
    rw [h1]; exact h3
  · rw [hres]; show (keepFirst [] ws).Sublist ws
    rw [h1]; exact h2
  · intro w hw
    rw [hres]
    exact keepFirst_urls ws [] w hw
  · intro w hw
    rw [hres] at hw
    have hw' : w ∈ keepFirst [] ws := hw
    rw [h1] at hw'
    exact (h4 w hw').2
  · rw [hres]


/-- C22: when `parseConfig` returns a nil error, with `ws` the endpoints built
for the lines of the file in order, the endpoints returned form a sublist of `ws` (so they
are in order of appearance) with pairwise distinct URLs; every URL of `ws`
is the URL of a returned endpoint, and the returned endpoint with a given URL
is the first endpoint of `ws` with that URL (so it has the interval of that
line, and the later lines with the URL are dropped). The URLs returned are
those of the endpoints returned, in the same order. -/
theorem C22_first_occurrence_kept (file : String)
    (h : (parseConfig file).2.2 = none) :
    ∃ ws : List Website, (fileLines file).map parseLine = ws.map Except.ok ∧
      ((parseConfig file).1.map (fun w => w.Url)).Nodup ∧
      (parseConfig file).1.Sublist ws ∧
      (∀ w ∈ ws, w.Url ∈ (parseConfig file).1.map (fun x => x.Url)) ∧
      (∀ w ∈ (parseConfig file).1, ws.find? (fun x => x.Url == w.Url) = some w) ∧
      (parseConfig file).2.1 = (parseConfig file).1.map (fun w => w.Url) := by
  obtain ⟨_, heq, hok⟩ := parseConfig_ok h
  rw [heq]
  exact onLines_first_kept (fileLines file) hok

/-- C22 on a config in which two URLs come back, one of them written without
its scheme the second time. -/
theorem C22_first_occurrence_kept_witness :
    (∃ ws : List Website, (fileLines "a.test,5\nhttp://b.test\na.test,6\nb.test,7\nc.test\n").map parseLine = ws.map Except.ok ∧
      ((parseConfig "a.test,5\nhttp://b.test\na.test,6\nb.test,7\nc.test\n").1.map (fun w => w.Url)).Nodup ∧
      (parseConfig "a.test,5\nhttp://b.test\na.test,6\nb.test,7\nc.test\n").1.Sublist ws ∧
      (∀ w ∈ ws, w.Url ∈ (parseConfig "a.test,5\nhttp://b.test\na.test,6\nb.test,7\nc.test\n").1.map (fun x => x.Url)) ∧
      (∀ w ∈ (parseConfig "a.test,5\nhttp://b.test\na.test,6\nb.test,7\nc.test\n").1, ws.find? (fun x => x.Url == w.Url) = some w) ∧
      (parseConfig "a.test,5\nhttp://b.test\na.test,6\nb.test,7\nc.test\n").2.1 = (parseConfig "a.test,5\nhttp://b.test\na.test,6\nb.test,7\nc.test\n").1.map (fun w => w.Url)) ∧
    fileLines "a.test,5\nhttp://b.test\na.test,6\nb.test,7\nc.test\n" = ["a.test,5", "http://b.test", "a.test,6", "b.test,7", "c.test"] ∧
    parseConfig "a.test,5\nhttp://b.test\na.test,6\nb.test,7\nc.test\n" =
      ([⟨"http://a.test", 5⟩, ⟨"http://b.test", 1000⟩, ⟨"http://c.test", 1000⟩],
        ["http://a.test", "http://b.test", "http://c.test"], none) :=
  ⟨C22_first_occurrence_kept "a.test,5\nhttp://b.test\na.test,6\nb.test,7\nc.test\n" (by decide), by decide, by decide⟩

/-- C23 (code defect): `parseConfig` checks that the second field is an
integer, not that it is positive: the lines `x,0` and `y,-5` are parsed
without error into endpoints with the check intervals 0 and -5. -/
theorem C23_nonpositive_interval_accepted :
    fileLines "x,0\ny,-5\n" = ["x,0", "y,-5"] ∧
    parseConfig "x,0\ny,-5\n" =
      ([⟨"http://x", 0⟩, ⟨"http://y", -5⟩], ["http://x", "http://y"], none) ∧
    ¬ ∀ w ∈ (parseConfig "x,0\ny,-5\n").1, 0 < w.CheckInterval := by
  refine ⟨by decide, by decide, by decide⟩


/-! ## Scenario S1 with events one minute apart, and the order of the heap -/

/-- C24, as written: with the eight events exactly one minute apart the
2-minute window holds three events after the seventh and after the eighth
`Add` (the event exactly two minutes old is kept), so `GetCount` is 3 and not
2 after both. -/
theorem C24_counts_one_minute_apart :
    (trace (NewAggregators "w").Short minuteRun).map
        (fun r => r.map (fun x => x.1.GetCount.1)) ≠
      [some 1, some 2, some 3, some 3, some 3, some 3, some 2, some 2] ∧
    ((trace (NewAggregators "w").Short minuteRun).drop 6).map
        (fun r => r.map (fun x => (x.1.GetCount.1,
          x.1.window.map (fun e => e.Timestamp / 1000000000)))) =
      [some (3, [240, 300, 360]), some (3, [300, 360, 420])] := by
  refine ⟨by decide, by decide⟩

/-- C24 (amended): a fresh 2-minute aggregator fed the eight error-free events
of S1 exactly one minute apart returns from every `Add` with a nil error, the
alert-fired flags are `[F,F,F,T,F,F,T,T]` and `GetCount` after each `Add` is
`[1,2,3,3,3,3,3,3]`: from the fourth event on, each `Add` ages one event out
and the window keeps three. -/
theorem C24_scenario_one_minute_apart :
    minuteRun.map (fun e => (e.Timestamp / 60000000000, e.Value.Status,
        e.Value.ResponseTime / 1000000)) =
      [(0, 200, 50), (1, 200, 50), (2, 200, 50), (3, 500, 80), (4, 200, 50), (5, 200, 50),
       (6, 200, 50), (7, 401, 50)] ∧
    minuteRun.all (fun e => e.Value.Error.isNone) = true ∧
    (NewAggregators "w").Short.duration = 2 * 60 * 1000000000 ∧
    (trace (NewAggregators "w").Short minuteRun).map
        (fun r => r.map (fun x => x.2.Init)) =
      [some false, some false, some false, some true, some false, some false, some true,
       some true] ∧
    (trace (NewAggregators "w").Short minuteRun).map
        (fun r => r.map (fun x => x.1.GetCount.1)) =
      [some 1, some 2, some 3, some 3, some 3, some 3, some 3, some 3] := by
  refine ⟨by decide, by decide, by decide, by decide, by decide⟩

/-- C25 (code defect): the heap built by `insert` of the keys 10, 5, 9, 1, 2, 8
is in max-heap order; `delete` of the element with key 1 moves the tail (key
8) into its slot at index 4, under the parent of key 5 at index 2, and only
sifts down: the result holds the previous elements without the deleted one,
but is not in max-heap order. The two deletions of `TestHeapDelete` give the
status arrays `[0,4,5,3,1]` and `[0,4,1,3]`. -/
theorem C25_delete_breaks_order :
    (heapOf orderFixture).map (fun h => (keys h, decide (HeapOrder h.1 h.2.values))) =
      some ([10, 5, 9, 1, 2, 8], true) ∧
    (heapOf orderFixture).bind (fun h => (h.2.delete h.1 3).map
        (fun h1 => (keys h1, decide (HeapOrder h1.1 h1.2.values)))) =
      some ([10, 5, 9, 8, 2], false) ∧
    (heapOf insertFixture).bind (fun h => (h.2.delete h.1 1).map statuses) =
      some [0, 4, 5, 3, 1] ∧
    (heapOf insertFixture).bind (fun h => (h.2.delete h.1 1).bind
        (fun h1 => (h1.2.delete h1.1 4).map statuses)) = some [0, 4, 1, 3] := by
  refine ⟨by decide, by decide, by decide, by decide⟩


/-! ## `insert` and the order of the heap -/

theorem keyOf_sameCore {mem mem' : Mem} (h : SameCore mem mem') (v : Nat) :
    keyOf mem' v = keyOf mem v := by
  unfold keyOf
  cases hv : mem[v]? with
  | none =>
    have : mem'[v]? = none := by
      rw [List.getElem?_eq_none_iff] at hv ⊢
      rw [h.length_eq]; exact hv
    rw [this]
  | some e =>
    obtain ⟨e', he', hc⟩ := h.get hv
    rw [he']
    exact congrArg (fun x => x.1.ResponseTime) hc

theorem keyAt_sameCore {mem mem' : Mem} (h : SameCore mem mem') (vals : List Nat) (i : Nat) :
    keyAt mem' vals i = keyAt mem vals i := by
  unfold keyAt
  cases vals[i]? with
  | none => rfl
  | some v => exact keyOf_sameCore h v

theorem keyAt_elemAt {mem : Mem} {vals : List Nat} {i : Nat} {e : QueueElement}
    (h : MaxHeap.elemAt mem ⟨vals⟩ i = some e) : keyAt mem vals i = e.Value.ResponseTime := by
  unfold MaxHeap.elemAt at h
  unfold keyAt keyOf
  cases hv : vals[i]? with
  | none => simp [hv] at h
  | some v =>
    simp only [hv] at h
    simp only [h]

theorem keyAt_get {mem : Mem} {vals : List Nat} {i : Nat} (hi : i < vals.length) :
    keyAt mem vals i = keyOf mem vals[i] := by
  unfold keyAt
  rw [List.getElem?_eq_getElem hi]

/-- The keys of the heap array after a swap of the indices `i` and `j`. -/
theorem keyAt_swap {mem mem' : Mem} (hc : SameCore mem mem') (vals : List Nat) {i j : Nat}
    (hi : i < vals.length) (hj : j < vals.length) (k : Nat) :
    keyAt mem' ((vals.set i vals[j]).set j vals[i]) k =
      if k = j then keyAt mem vals i else if k = i then keyAt mem vals j
      else keyAt mem vals k := by
  have hg := getElem?_swap vals hi hj k
  unfold keyAt
  rw [hg]
  by_cases hkj : k = j
  · simp only [hkj, if_true, List.getElem?_eq_getElem hi]
    exact keyOf_sameCore hc _
  · by_cases hki : k = i
    · subst hki
      simp only [hkj, if_false, if_true, List.getElem?_eq_getElem hj]
      exact keyOf_sameCore hc _
    · simp only [hkj, hki, if_false]
      cases vals[k]? with
      | none => rfl
      | some v => exact keyOf_sameCore hc v

/-- The sift-up of the element at `cur`, on a heap in order except that this
element may exceed its parent: the result is in order, and every element with
a key not below that of the sifted one stays at its index. -/
theorem bubbleUpLoop_order : ∀ (fuel : Nat) (mem : Mem) (vals : List Nat) (cur : Nat),
    HeapOK mem vals → cur < vals.length → cur < fuel →
    (∀ i : Nat, i < vals.length → 1 ≤ i → i ≠ cur →
      keyAt mem vals i ≤ keyAt mem vals (i / 2)) →
    (∀ i : Nat, i < vals.length → 1 ≤ i → i / 2 = cur → 1 ≤ cur →
      keyAt mem vals i ≤ keyAt mem vals (cur / 2)) →
    ∀ (mem' : Mem) (vals' : List Nat),
      MaxHeap.bubbleUpLoop fuel mem ⟨vals⟩ cur (cur / 2) = some (mem', ⟨vals'⟩) →
      (∀ i : Nat, i < vals'.length → 1 ≤ i → keyAt mem' vals' i ≤ keyAt mem' vals' (i / 2)) ∧
      (∀ i : Nat, i < vals.length → i ≠ cur → keyAt mem vals cur ≤ keyAt mem vals i →
        vals'[i]? = vals[i]?) := by
  intro fuel
  induction fuel with
  | zero => intro mem vals cur _ _ hf; omega
  | succ fuel ih =>
    intro mem vals cur hok hcur hfuel hex hgp mem' vals' hres
    by_cases h0 : 0 < cur
    · have hpar : cur / 2 < vals.length := by omega
      obtain ⟨c, hc, hcm, _⟩ := elemAt_some hok.back hcur
      obtain ⟨p, hp, hpm, _⟩ := elemAt_some hok.back hpar
      have hkc : keyAt mem vals cur = c.Value.ResponseTime := keyAt_elemAt hc
      have hkp : keyAt mem vals (cur / 2) = p.Value.ResponseTime := keyAt_elemAt hp
      by_cases hgt : c.gt p = true
      · have hlt : keyAt mem vals (cur / 2) < keyAt mem vals cur := by
          rw [hkc, hkp]
          simpa [QueueElement.gt] using hgt
        have hpar1 : 1 ≤ cur / 2 := by
          by_contra hlt'
          have hz : cur / 2 = 0 := by omega
          obtain ⟨s, hs, hmax⟩ := hok.top
          rw [hz] at hp
          rw [hp] at hs
          cases hs
          have hcb : c.Value.ResponseTime ≤ maxInt64 :=
            hok.bound c (List.mem_iff_getElem?.2 ⟨_, hcm⟩)
          simp only [QueueElement.gt, decide_eq_true_eq] at hgt
          omega
        obtain ⟨mem1, hsw, hb1, hc1⟩ := swap_spec hok.back hcur hpar
        have hkey := keyAt_swap hc1 vals hcur hpar
        have hget := getElem?_swap vals hcur hpar
        generalize hv1 : (vals.set cur vals[cur / 2]).set (cur / 2) vals[cur] = vals1
          at hsw hb1 hkey hget
        have hl1 : vals1.length = vals.length := by rw [← hv1]; simp
        have hr1 : vals1[0]? = vals[0]? := by
          rw [hget 0]
          have h1 : (0 : Nat) ≠ cur / 2 := by omega
          have h2 : (0 : Nat) ≠ cur := by omega
          simp [h1, h2]
        have hok1 := hok.of_step hb1 hc1 hr1
        have hrec : MaxHeap.bubbleUpLoop fuel mem1 ⟨vals1⟩ (cur / 2) (cur / 2 / 2) =
            some (mem', ⟨vals'⟩) := by
          simpa [MaxHeap.bubbleUpLoop, h0, hc, hp, hgt, hsw] using hres
        have hex1 : ∀ i : Nat, i < vals1.length → 1 ≤ i → i ≠ cur / 2 →
            keyAt mem1 vals1 i ≤ keyAt mem1 vals1 (i / 2) := by
          intro i hi h1 hne
          rw [hl1] at hi
          rw [hkey i, hkey (i / 2)]
          simp only [hne, if_false]
          by_cases hic : i = cur
          · subst hic
            simp only [if_true]
            exact le_of_lt hlt
          · simp only [hic, if_false]
            by_cases hq : i / 2 = cur / 2
            · simp only [hq, if_true]
              have := hex i hi h1 hic
              rw [hq] at this
              exact le_trans this (le_of_lt hlt)
            · simp only [hq, if_false]
              by_cases hq2 : i / 2 = cur
              · simp only [hq2, if_true]
                exact hgp i hi h1 hq2 (by omega)
              · simp only [hq2, if_false]
                exact hex i hi h1 hic
        have hgp1 : ∀ i : Nat, i < vals1.length → 1 ≤ i → i / 2 = cur / 2 → 1 ≤ cur / 2 →
            keyAt mem1 vals1 i ≤ keyAt mem1 vals1 (cur / 2 / 2) := by
          intro i hi h1 hq _
          rw [hl1] at hi
          rw [hkey i, hkey (cur / 2 / 2)]
          have hn1 : cur / 2 / 2 ≠ cur / 2 := by omega
          have hn2 : cur / 2 / 2 ≠ cur := by omega
          have hn3 : i ≠ cur / 2 := by omega
          simp only [hn1, hn2, hn3, if_false]
          have hpp : keyAt mem vals (cur / 2) ≤ keyAt mem vals (cur / 2 / 2) :=
            hex (cur / 2) hpar hpar1 (by omega)
          by_cases hic : i = cur
          · simp only [hic, if_true]
            exact hpp
          · simp only [hic, if_false]
            have := hex i hi h1 hic
            rw [hq] at this
            exact le_trans this hpp
        obtain ⟨hord, hstab⟩ := ih mem1 vals1 (cur / 2) hok1 (by omega) (by omega) hex1 hgp1
          mem' vals' hrec
        refine ⟨hord, ?_⟩
        intro i hi hic hle
        have hip : i ≠ cur / 2 := by
          intro e
          rw [e] at hle
          omega
        have h1 := hstab i (by rw [hl1]; exact hi) hip (by
          rw [hkey i, hkey (cur / 2)]
          simp only [hip, hic, if_false, if_true]
          exact hle)
        rw [h1, hget i]
        simp [hip, hic]
      · have hres' : (mem, (⟨vals⟩ : MaxHeap)) = (mem', ⟨vals'⟩) := by
          simpa [MaxHeap.bubbleUpLoop, h0, hc, hp, hgt] using hres
        have hm : mem = mem' := congrArg Prod.fst hres'
        have hv : vals = vals' := congrArg (fun x => x.2.values) hres'
        subst hm hv
        refine ⟨?_, fun _ _ _ _ => rfl⟩
        intro i hi h1
        by_cases hic : i = cur
        · subst hic
          rw [hkc, hkp]
          simp only [QueueElement.gt, decide_eq_true_eq, not_lt] at hgt
          exact hgt
        · exact hex i hi h1 hic
    · have hres' : (mem, (⟨vals⟩ : MaxHeap)) = (mem', ⟨vals'⟩) := by
        simpa [MaxHeap.bubbleUpLoop, h0] using hres
      have hm : mem = mem' := congrArg Prod.fst hres'
      have hv : vals = vals' := congrArg (fun x => x.2.values) hres'
      subst hm hv
      refine ⟨?_, fun _ _ _ _ => rfl⟩
      intro i hi h1
      exact hex i hi h1 (by omega)


/-- The heap structure, from conditions that can be evaluated. -/
theorem HeapOK.of_check {mem : Mem} {vals : List Nat}
    (hb : ∀ i : Nat, i < vals.length →
      (MaxHeap.elemAt mem ⟨vals⟩ i).map (fun e => e.heapIndex) = some i)
    (ht : (MaxHeap.elemAt mem ⟨vals⟩ 0).map (fun s => s.Value.ResponseTime) = some maxInt64)
    (hbd : ∀ e ∈ mem, e.Value.ResponseTime ≤ maxInt64) : HeapOK mem vals := by
  refine ⟨?_, ?_, hbd⟩
  · intro i v hv
    have hi := get_lt hv
    have := hb i hi
    unfold MaxHeap.elemAt at this
    simp only [hv] at this
    cases hm : mem[v]? with
    | none => simp [hm] at this
    | some e =>
      simp only [hm, Option.map_some', Option.some.injEq] at this
      exact ⟨e, rfl, this⟩
  · cases hs : MaxHeap.elemAt mem ⟨vals⟩ 0 with
    | none => simp [hs] at ht
    | some s =>
      simp only [hs, Option.map_some', Option.some.injEq] at ht
      exact ⟨s, rfl, ht⟩

theorem BackIdx.nodup {mem : Mem} {vals : List Nat} (hb : BackIdx mem vals) : vals.Nodup := by
  rw [List.nodup_iff_getElem?_ne_getElem?]
  intro i j hij hj h
  have hvj : vals[j]? = some vals[j] := List.getElem?_eq_getElem hj
  have := hb.inj (h.trans hvj) hvj
  omega

/-- On a structured heap the order also holds between index 1 and the
sentinel. -/
theorem HeapOrder.extend {mem : Mem} {vals : List Nat} (hok : HeapOK mem vals)
    (h : HeapOrder mem vals) :
    ∀ i : Nat, i < vals.length → 1 ≤ i → keyAt mem vals i ≤ keyAt mem vals (i / 2) := by
  intro i hi h1
  by_cases h2 : 2 ≤ i
  · exact h i hi h2
  · have hi1 : i = 1 := by omega
    subst hi1
    obtain ⟨s, hs, hmax⟩ := hok.top
    obtain ⟨e, he, hem, _⟩ := elemAt_some hok.back hi
    rw [keyAt_elemAt he]
    show e.Value.ResponseTime ≤ keyAt mem vals 0
    rw [keyAt_elemAt hs, hmax]
    exact hok.bound e (List.mem_iff_getElem?.2 ⟨_, hem⟩)

/-- In a heap in order no key after the sentinel exceeds the key at index 1. -/
theorem HeapOrder.root_max {mem : Mem} {vals : List Nat} (h : HeapOrder mem vals) :
    ∀ i : Nat, 1 ≤ i → i < vals.length → keyAt mem vals i ≤ keyAt mem vals 1 := by
  intro i
  induction i using Nat.strong_induction_on with
  | _ i ih =>
    intro h1 hi
    by_cases h2 : 2 ≤ i
    · exact le_trans (h i hi h2) (ih (i / 2) (by omega) (by omega) (by omega))
    · have : i = 1 := by omega
      subst this
      exact le_refl _

/-- `insert` on a structured heap in order: the result is in order, and the
elements with a key not below that of the new one stay at their indices. -/
theorem insert_order {mem : Mem} {vals : List Nat} {p : Nat} (hok : HeapOK mem vals)
    (hord : HeapOrder mem vals) (hp : p < mem.length) (hnot : p ∉ vals)
    {mem' : Mem} {vals' : List Nat}
    (hins : MaxHeap.insert mem ⟨vals⟩ p = some (mem', ⟨vals'⟩)) :
    HeapOrder mem' vals' ∧
    (∀ i : Nat, i < vals.length → keyOf mem p ≤ keyAt mem vals i → vals'[i]? = vals[i]?) := by
  have hpe : mem[p]? = some mem[p] := List.getElem?_eq_getElem hp
  have hpos := hok.length_pos
  have hc1 : SameCore mem (mem.set p { mem[p] with heapIndex := vals.length }) :=
    SameCore.set_heapIndex vals.length hpe
  have hb1 : BackIdx (mem.set p { mem[p] with heapIndex := vals.length }) (vals ++ [p]) := by
    intro i v hv
    rw [List.getElem?_append] at hv
    by_cases hi : i < vals.length
    · rw [if_pos hi] at hv
      obtain ⟨e, he, hei⟩ := hok.back i v hv
      have hne : p ≠ v := fun hc => hnot (hc ▸ List.getElem?_mem hv)
      exact ⟨e, by simp [List.getElem?_set, hne, he], hei⟩
    · rw [if_neg hi] at hv
      have hlt := get_lt hv
      simp only [List.length_singleton] at hlt
      have hi0 : i - vals.length = 0 := by omega
      rw [hi0] at hv
      simp only [List.getElem?_cons_zero, Option.some.injEq] at hv
      subst hv
      refine ⟨{ mem[p] with heapIndex := vals.length }, by simp [List.getElem?_set, hp], ?_⟩
      show vals.length = i
      omega
  have hr1 : (vals ++ [p])[0]? = vals[0]? := by
    rw [List.getElem?_append, if_pos hpos]
  have hok1 := hok.of_step hb1 hc1 hr1
  generalize hm1 : mem.set p { mem[p] with heapIndex := vals.length } = mem1 at hc1 hb1 hok1
  have hloop : MaxHeap.bubbleUpLoop (vals.length + 1) mem1 ⟨vals ++ [p]⟩ vals.length
      (vals.length / 2) = some (mem', ⟨vals'⟩) := by
    simp only [MaxHeap.insert, hpe, MaxHeap.bubbleUp, List.length_append, List.length_singleton,
      Nat.add_sub_cancel] at hins
    rw [← hm1]
    exact hins
  have hold : ∀ i : Nat, i < vals.length → keyAt mem1 (vals ++ [p]) i = keyAt mem vals i := by
    intro i hi
    rw [keyAt_sameCore hc1]
    unfold keyAt
    rw [List.getElem?_append, if_pos hi]
  have hnew : keyAt mem1 (vals ++ [p]) vals.length = keyOf mem p := by
    rw [keyAt_sameCore hc1]
    unfold keyAt
    simp
  have hext := hord.extend hok
  obtain ⟨h1, h2⟩ := bubbleUpLoop_order (vals.length + 1) mem1 (vals ++ [p]) vals.length hok1
    (by simp) (by omega)
    (by
      intro i hi h1 hne
      have hi' : i < vals.length := by
        simp only [List.length_append, List.length_singleton] at hi
        omega
      rw [hold i hi', hold (i / 2) (by omega)]
      exact hext i hi' h1)
    (by
      intro i hi h1 hq _
      simp only [List.length_append, List.length_singleton] at hi
      omega)
    mem' vals' hloop
  refine ⟨fun i hi h2' => h1 i hi (by omega), ?_⟩
  intro i hi hle
  have := h2 i (by simp; omega) (by omega) (by rw [hnew, hold i hi]; exact hle)
  rw [this, List.getElem?_append, if_pos hi]

/-- C26: for every heap with the structure `NewMaxHeap`, `insert` and `delete`
keep (sentinel at index 0, valid back-indices, keys within `int64`) that is in
max-heap order, and every allocated element `p` not yet in it, `insert`
returns; the heap array is then a permutation of the previous one with `p`
appended, the elements are unchanged but for their back-indices, the heap has
again that structure and is in max-heap order, `getMax` returns an element
whose key is the largest after the sentinel, and every element with a key not
below that of `p`, so also one with an equal key, stays at its index: `p` is
not moved above it. -/
theorem C26_insert_correct (mem : Mem) (vals : List Nat) (p : Nat) (hok : HeapOK mem vals)
    (hord : HeapOrder mem vals) (hp : p < mem.length) (hnot : p ∉ vals) :
    ∃ (mem' : Mem) (vals' : List Nat),
      MaxHeap.insert mem ⟨vals⟩ p = some (mem', ⟨vals'⟩) ∧
      vals'.Perm (vals ++ [p]) ∧ SameCore mem mem' ∧ HeapOK mem' vals' ∧
      HeapOrder mem' vals' ∧
      (∃ m : Nat, MaxHeap.getMax ⟨vals'⟩ = some m ∧
        ∀ i : Nat, 1 ≤ i → i < vals'.length → keyAt mem' vals' i ≤ keyOf mem' m) ∧
      (∀ i : Nat, i < vals.length → keyOf mem p ≤ keyAt mem vals i →
        vals'[i]? = vals[i]?) := by
  obtain ⟨mem', vals', hins, hok', hc, _, hlen, hmem⟩ := insert_spec hok hp hnot
  obtain ⟨hord', hstab⟩ := insert_order hok hord hp hnot hins
  have hpos := hok.length_pos
  have h1 : 1 < vals'.length := by omega
  refine ⟨mem', vals', hins, ?_, hc, hok', hord', ⟨vals'[1], ?_, ?_⟩, hstab⟩
  · have hn1 : vals'.Nodup := hok'.back.nodup
    have hn2 : (vals ++ [p]).Nodup := by
      rw [List.nodup_append]
      refine ⟨hok.back.nodup, List.nodup_singleton p, ?_⟩
      intro a ha hb
      simp only [List.mem_singleton] at hb
      exact hnot (hb ▸ ha)
    refine (List.perm_ext_iff_of_nodup hn1 hn2).2 ?_
    intro v
    rw [hmem v]
    simp
  · unfold MaxHeap.getMax
    exact List.getElem?_eq_getElem h1
  · intro i hi1 hi
    have := hord'.root_max i hi1 hi
    rw [keyAt_get h1] at this
    exact this

/-- C26 on the last insert of `TestHeapInsert`: the element of status 5 and
key 3 goes into the heap of the four elements inserted before it. -/
theorem C26_insert_correct_witness :
    (∃ (mem' : Mem) (vals' : List Nat),
      MaxHeap.insert fourInserted.1 ⟨fourInserted.2.values⟩ 4 = some (mem', ⟨vals'⟩) ∧
      vals'.Perm (fourInserted.2.values ++ [4]) ∧ SameCore fourInserted.1 mem' ∧
      HeapOK mem' vals' ∧ HeapOrder mem' vals' ∧
      (∃ m : Nat, MaxHeap.getMax ⟨vals'⟩ = some m ∧
        ∀ i : Nat, 1 ≤ i → i < vals'.length → keyAt mem' vals' i ≤ keyOf mem' m) ∧
      (∀ i : Nat, i < fourInserted.2.values.length →
        keyOf fourInserted.1 4 ≤ keyAt fourInserted.1 fourInserted.2.values i →
        vals'[i]? = fourInserted.2.values[i]?)) ∧
    (statuses fourInserted = [0, 4, 2, 3, 1] ∧
     (fourInserted.2.insert fourInserted.1 4).map statuses = some [0, 4, 2, 3, 1, 5] ∧
     (heapOf insertFixture).map statuses = some [0, 4, 2, 3, 1, 5] ∧
     (heapOf tieFixture).map statuses = some [0, 1, 2, 3]) :=
  ⟨C26_insert_correct fourInserted.1 fourInserted.2.values 4
    (HeapOK.of_check (by decide) (by decide) (by decide)) (by decide) (by decide) (by decide),
    by decide, by decide, by decide, by decide⟩


/-! ## The heap and the queue of a reached state -/

/-- The queue of a state satisfying the invariant, as the objects at the
addresses from `j` to the newest. -/
theorem walk_objs {a : Aggregator} {es : List QueueElement} {l : Nat} (h : Inv a es l) :
    ∀ (k j : Nat), l ≤ j → j ≤ es.length → es.length < k + j →
      walk a.mem (some es.length) k (some j) =
        (List.range' j (es.length + 1 - j)).filterMap (fun v => a.mem[v]?) := by
  intro k
  induction k with
  | zero => intro j _ h2 h3; omega
  | succ k ih =>
    intro j hlj hjn hk
    have hl := h.lpos
    have hb : j - 1 < es.length := by omega
    have hj1 : j - 1 + 1 = j := by omega
    obtain ⟨y, hy, _⟩ := h.cells (j - 1) _ (List.getElem?_eq_getElem hb)
    rw [hj1] at hy
    by_cases hjn' : j = es.length
    · have hif : some j = some es.length := by rw [hjn']
      have hr : es.length + 1 - j = 1 := by omega
      simp only [walk, hy, hif, if_true, hr, List.range'_one, List.filterMap_cons,
        List.filterMap_nil]
    · obtain ⟨y', hy', hyn⟩ := h.chain j hlj (by omega)
      rw [hy] at hy'
      cases hy'
      have hif : ¬ (some j = some es.length) := by
        intro hc
        exact hjn' (Option.some.inj hc)
      have hr : es.length + 1 - j = (es.length + 1 - (j + 1)) + 1 := by omega
      simp only [walk, hy, hif, if_false, hyn]
      rw [ih (j + 1) (by omega) (by omega) (by omega), hr, List.range'_succ,
        List.filterMap_cons, hy]

/-- The window of a settled state: the objects at the addresses from the
oldest to the newest. -/
theorem Settled.window_objs {a : Aggregator} {es : List QueueElement} {l : Nat}
    (h : Settled a es l) :
    a.window = (List.range' l (es.length + 1 - l)).filterMap (fun v => a.mem[v]?) := by
  unfold Aggregator.window
  rw [h.first, h.last, h.inv.len]
  have := h.inv.lpos
  exact walk_objs h.inv (es.length + 1) l (le_refl _) h.lle (by omega)

/-- In a settled state the heap array after the sentinel is a permutation of
the addresses of the queue. -/
theorem Settled.heap_perm {a : Aggregator} {es : List QueueElement} {l : Nat}
    (h : Settled a es l) :
    a.heap.values.tail.Perm (List.range' l (es.length + 1 - l)) ∧ a.heap.values.Nodup ∧
      a.heap.values.tail.length + l = es.length + 1 := by
  have hnd := h.inv.heap.back.nodup
  have hpos := h.inv.lpos
  have hlen := h.inv.hlen
  have hroot := h.inv.root
  cases hv : a.heap.values with
  | nil => rw [hv] at hroot; simp at hroot
  | cons v0 rest =>
    rw [hv] at hroot hnd hlen
    simp only [List.getElem?_cons_zero, Option.some.injEq] at hroot
    subst hroot
    simp only [List.tail_cons, List.length_cons] at hlen ⊢
    rw [List.nodup_cons] at hnd
    refine ⟨?_, List.nodup_cons.2 hnd, by omega⟩
    refine (List.perm_ext_iff_of_nodup hnd.2 (List.nodup_range' _ _)).2 ?_
    intro v
    have hm := h.inv.members v
    rw [hv, List.mem_cons] at hm
    rw [List.mem_range']
    constructor
    · intro hvr
      have h0 : v ≠ 0 := fun e => hnd.1 (e ▸ hvr)
      rcases hm.1 (Or.inr hvr) with hz | ⟨h1, h2⟩
      · exact absurd hz h0
      · exact ⟨v - l, by omega, by omega⟩
    · rintro ⟨i, hi, hvi⟩
      have : v = 0 ∨ v ∈ rest := hm.2 (Or.inr ⟨by omega, by omega⟩)
      rcases this with hz | hr
      · omega
      · exact hr

/-- C27: after every `Add` of any run on a fresh aggregator, the heap array
holds at index 0 the address of the sentinel, whose key is `math.MaxInt64`,
and after it the elements of the queue, each exactly once: the array has no
repetition, the objects its entries after the first point to are a
permutation of the queue, and their number is `count + errorCount`; and every
element of the array stores its index as `heapIndex`. This back-index
property is kept by `swap` of two indices of the array and, on a heap with the
sentinel and keys within `int64`, by `insert` of a new element and by `delete`
of an element other than the sentinel. -/
theorem C27_heap_holds_queue (d : Int) (w : String) (es : List QueueElement) (hd : 0 ≤ d)
    (hne : es ≠ []) (hb : ∀ e ∈ es, e.Value.ResponseTime ≤ maxInt64) :
    (∃ a : Aggregator, addAll (NewAggregator d w) es = some a ∧
      a.heap.values[0]? = some 0 ∧
      (∃ s : QueueElement, a.mem[0]? = some s ∧ s.Value.ResponseTime = maxInt64) ∧
      a.heap.values.Nodup ∧
      (a.heap.values.tail.filterMap (fun v => a.mem[v]?)).Perm a.window ∧
      a.window.length = a.heap.values.tail.length ∧
      (a.heap.values.tail.length : Int) = a.count + a.errorCount ∧
      BackIdx a.mem a.heap.values) ∧
    (∀ (mem : Mem) (vals : List Nat) (i j : Nat), BackIdx mem vals → i < vals.length →
      j < vals.length → ∃ (mem' : Mem) (m' : MaxHeap),
        MaxHeap.swap mem ⟨vals⟩ i j = some (mem', m') ∧ BackIdx mem' m'.values) ∧
    (∀ (mem : Mem) (vals : List Nat) (p : Nat), HeapOK mem vals → p < mem.length → p ∉ vals →
      ∃ (mem' : Mem) (m' : MaxHeap),
        MaxHeap.insert mem ⟨vals⟩ p = some (mem', m') ∧ BackIdx mem' m'.values) ∧
    (∀ (mem : Mem) (vals : List Nat) (p : Nat), HeapOK mem vals → p ∈ vals →
      vals[0]? ≠ some p → ∃ (mem' : Mem) (m' : MaxHeap),
        MaxHeap.delete mem ⟨vals⟩ p = some (mem', m') ∧ BackIdx mem' m'.values) := by
  refine ⟨?_, ?_, ?_, ?_⟩
  · obtain ⟨a, l, hrun, hset, _, _⟩ := reach_settled (w := w) hd hb hne
    obtain ⟨hperm, hnd, hlen⟩ := hset.heap_perm
    have htot := hset.inv.total
    have hlle := hset.lle
    have hpos := hset.inv.lpos
    have hwin := hset.window_objs
    have hwl : a.window.length = a.heap.values.tail.length := by
      have h1 := congrArg List.length hset.window_eq
      simp only [List.length_map, List.length_drop] at h1
      omega
    refine ⟨a, hrun, hset.inv.root, ?_, hnd, ?_, hwl, ?_, hset.inv.heap.back⟩
    · obtain ⟨s, hs, hmax⟩ := hset.inv.heap.top
      simp only [MaxHeap.elemAt, hset.inv.root] at hs
      exact ⟨s, hs, hmax⟩
    · rw [hwin]
      exact hperm.filterMap _
    · rw [htot]
      omega
  · intro mem vals i j hb hi hj
    obtain ⟨mem', h1, h2, _⟩ := swap_spec hb hi hj
    exact ⟨mem', _, h1, h2⟩
  · intro mem vals p hok hp hnot
    obtain ⟨mem', vals', h1, h2, _⟩ := insert_spec hok hp hnot
    exact ⟨mem', _, h1, h2.back⟩
  · intro mem vals p hok hp hroot
    obtain ⟨mem', vals', h1, h2, _⟩ := delete_spec hok hp hroot
    exact ⟨mem', _, h1, h2.back⟩


/-- C27 on the seven probes of `heapLossRun`, three of which have expired. -/
theorem C27_heap_holds_queue_witness :
    ((∃ a : Aggregator, addAll (NewAggregator SHORT_INTERVAL "w") heapLossRun = some a ∧
      a.heap.values[0]? = some 0 ∧
      (∃ s : QueueElement, a.mem[0]? = some s ∧ s.Value.ResponseTime = maxInt64) ∧
      a.heap.values.Nodup ∧
      (a.heap.values.tail.filterMap (fun v => a.mem[v]?)).Perm a.window ∧
      a.window.length = a.heap.values.tail.length ∧
      (a.heap.values.tail.length : Int) = a.count + a.errorCount ∧
      BackIdx a.mem a.heap.values) ∧
    (∀ (mem : Mem) (vals : List Nat) (i j : Nat), BackIdx mem vals → i < vals.length →
      j < vals.length → ∃ (mem' : Mem) (m' : MaxHeap),
        MaxHeap.swap mem ⟨vals⟩ i j = some (mem', m') ∧ BackIdx mem' m'.values) ∧
    (∀ (mem : Mem) (vals : List Nat) (p : Nat), HeapOK mem vals → p < mem.length → p ∉ vals →
      ∃ (mem' : Mem) (m' : MaxHeap),
        MaxHeap.insert mem ⟨vals⟩ p = some (mem', m') ∧ BackIdx mem' m'.values) ∧
    (∀ (mem : Mem) (vals : List Nat) (p : Nat), HeapOK mem vals → p ∈ vals →
      vals[0]? ≠ some p → ∃ (mem' : Mem) (m' : MaxHeap),
        MaxHeap.delete mem ⟨vals⟩ p = some (mem', m') ∧ BackIdx mem' m'.values)) ∧
    (addAll (NewAggregator SHORT_INTERVAL "w") heapLossRun).map
        (fun a => (a.heap.values, a.count + a.errorCount, a.window.map (fun e => e.heapIndex))) =
      some ([0, 4, 6, 7, 5], 4, [1, 4, 2, 3]) :=
  ⟨C27_heap_holds_queue SHORT_INTERVAL "w" heapLossRun (by decide) (by decide) (by decide),
    by decide⟩

/-! ## The alert flag along a run -/

/-- Every `Add` of a run from a state satisfying the invariant returns and
leaves a settled state. -/
theorem trace_settled : ∀ (new : List QueueElement) (a : Aggregator) (es : List QueueElement)
    (l : Nat), Inv a es l → 0 ≤ a.duration →
    (∀ e ∈ new, e.Value.ResponseTime ≤ maxInt64) →
    (trace a new).length = new.length ∧
    ∀ r ∈ trace a new, ∃ (x : Aggregator × Alert) (es' : List QueueElement) (l' : Nat),
      r = some x ∧ Settled x.1 es' l' := by
  intro new
  induction new with
  | nil => intro a es l _ _ _; exact ⟨rfl, fun r hr => by cases hr⟩
  | cons e rest ih =>
    intro a es l h hd hb
    obtain ⟨r, l1, hadd, _, hset, _, hdur, _, _⟩ :=
      Add_spec h hd e (hb e (List.mem_cons_self _ _))
    obtain ⟨h1, h2⟩ := ih r.1 (es ++ [e]) l1 hset.inv (by rw [hdur]; exact hd)
      (fun x hx => hb x (List.mem_cons_of_mem _ hx))
    have ht : trace a (e :: rest) = some (r.1, r.2.2) :: trace r.1 rest := by
      simp [trace, hadd]
    rw [ht]
    refine ⟨by simp [h1], ?_⟩
    intro x hx
    rcases List.mem_cons.1 hx with hx | hx
    · exact ⟨(r.1, r.2.2), es ++ [e], l1, hx, hset⟩
    · exact h2 x hx

/-- In a settled state the flag is the `float32` test `availability <= 0.80`
of `Add`: for fewer than `2 ^ 24` elements it is set exactly when
`statusCount[200] / (count + errorCount)` is below `26843547 / 33554432`, and
for at most 4793490 elements exactly when `statusCount[200]` is at most four
fifths of the number of elements. -/
theorem Settled.flag_iff {a : Aggregator} {es : List QueueElement} {l : Nat}
    (h : Settled a es l) :
    0 < a.count + a.errorCount ∧
    (a.count + a.errorCount < 16777216 →
      (a.AlertStatus = true ↔
        a.statusCount 200 * 33554432 < 26843547 * (a.count + a.errorCount))) ∧
    (a.count + a.errorCount ≤ 4793490 →
      (a.AlertStatus = true ↔ a.statusCount 200 * 5 ≤ 4 * (a.count + a.errorCount))) := by
  obtain ⟨hpos, hs0, hst⟩ := h.counts_range
  obtain ⟨_, hmid, hex⟩ := a.low_iff hs0 hst hpos
  refine ⟨hpos, ?_, ?_⟩
  · intro hb
    rw [h.flag]
    exact hmid hb
  · intro hb
    rw [h.flag, hex hb]
    omega

/-- The alerts of any run alternate, starting with the one the flag allows. -/
theorem emitted_alternating : ∀ (es : List QueueElement) (a : Aggregator),
    Alternating a.AlertStatus (emitted a es) := by
  intro es
  induction es with
  | nil =>
    intro a
    unfold emitted trace
    cases a.AlertStatus <;> trivial
  | cons e rest ih =>
    intro a
    cases hadd : a.Add e with
    | none =>
      have : emitted a (e :: rest) = [] := by simp [emitted, trace, hadd]
      rw [this]
      cases a.AlertStatus <;> trivial
    | some r =>
      obtain ⟨_, _, ts, hrule, _⟩ := Add_rule_any hadd
      have hem : emitted a (e :: rest) =
          (if r.2.2.Init then [r.2.2] else []) ++ emitted r.1 rest := by
        unfold emitted
        simp only [trace, hadd, List.filterMap_cons]
        cases r.2.2.Init <;> simp
      have hrec := ih r.1
      rw [hem]
      rcases hrule with ⟨_, hold, hnew, hal⟩ | ⟨_, hold, hnew, hal⟩ | ⟨_, _, hnew, hal⟩
      · rw [hnew] at hrec
        rw [hold, hal]
        exact ⟨rfl, hrec⟩
      · rw [hnew] at hrec
        rw [hold, hal]
        exact ⟨rfl, hrec⟩
      · rw [hnew] at hrec
        rw [hal]
        exact hrec

/-- Alternating alerts by their position. -/
theorem Alternating.at_index : ∀ (l : List Alert) (b : Bool) (i : Nat) (al : Alert),
    Alternating b l → l[i]? = some al →
    (((b = false ∧ i % 2 = 0) ∨ (b = true ∧ i % 2 = 1)) → al.isDown = true) ∧
    (((b = false ∧ i % 2 = 1) ∨ (b = true ∧ i % 2 = 0)) → al.isUp = true) := by
  intro l
  induction l with
  | nil => intro b i al _ h; simp at h
  | cons x rest ih =>
    intro b i al halt h
    cases b with
    | false =>
      obtain ⟨hx, hrest⟩ := halt
      cases i with
      | zero =>
        simp only [List.getElem?_cons_zero, Option.some.injEq] at h
        subst h
        exact ⟨fun _ => hx, fun hc => by rcases hc with ⟨_, hc⟩ | ⟨hc, _⟩ <;> simp at hc⟩
      | succ i =>
        simp only [List.getElem?_cons_succ] at h
        obtain ⟨h1, h2⟩ := ih true i al hrest h
        refine ⟨fun hc => h1 (Or.inr ⟨rfl, ?_⟩), fun hc => h2 (Or.inr ⟨rfl, ?_⟩)⟩
        · rcases hc with ⟨_, hc⟩ | ⟨hc, _⟩
          · omega
          · cases hc
        · rcases hc with ⟨_, hc⟩ | ⟨hc, _⟩
          · omega
          · cases hc
    | true =>
      obtain ⟨hx, hrest⟩ := halt
      cases i with
      | zero =>
        simp only [List.getElem?_cons_zero, Option.some.injEq] at h
        subst h
        exact ⟨fun hc => by rcases hc with ⟨hc, _⟩ | ⟨_, hc⟩ <;> simp at hc, fun _ => hx⟩
      | succ i =>
        simp only [List.getElem?_cons_succ] at h
        obtain ⟨h1, h2⟩ := ih false i al hrest h
        refine ⟨fun hc => h1 (Or.inl ⟨rfl, ?_⟩), fun hc => h2 (Or.inl ⟨rfl, ?_⟩)⟩
        · rcases hc with ⟨hc, _⟩ | ⟨_, hc⟩
          · cases hc
          · omega
        · rcases hc with ⟨hc, _⟩ | ⟨_, hc⟩
          · cases hc
          · omega

/-- C28 (counterexample): after the run `roundingRun` and one more failed
probe the window holds 5000001 probes, 4000001 of them with status 200: the
flag is set while `statusCount[200] / (count + errorCount)` is above 0.80. -/
theorem C28_flag_above_threshold :
    ∃ a : Aggregator,
      addAll (NewAggregator SHORT_INTERVAL "w") (roundingRun ++ [probe 0 500 50]) = some a ∧
      a.AlertStatus = true ∧ a.statusCount 200 = 4000001 ∧
      a.count + a.errorCount = 5000001 ∧
      ¬ (a.statusCount 200 * 5 ≤ 4 * (a.count + a.errorCount)) := by
  obtain ⟨a, r, hrun, hadd, _, _, _, _, hfr, _, _, hsr, htr⟩ := roundingRun_step
  refine ⟨r.1, ?_, hfr, hsr, htr, ?_⟩
  · rw [addAll_snoc, hrun]
    simp [hadd]
  · rw [hsr, htr]
    decide

/-- C28 (amended): every `Add` of any run on a fresh aggregator returns, and
after it the window is not empty and `AlertStatus` is true exactly when the
`float32` quotient `float32(statusCount[200]) / float32(count + errorCount)`
is at most `float32(0.80)`; for a window of at most 4793490 elements that is
when five times `statusCount[200]` is at most four times `count + errorCount`,
and for fewer than `2 ^ 24` elements when `statusCount[200] / (count +
errorCount)` is below `26843547 / 33554432`. The alerts sent along the run
alternate: those at even positions, counted from 0, are "down" alerts and
those at odd positions "up again" alerts. -/
theorem C28_flag_mirrors_availability (d : Int) (w : String) (es : List QueueElement)
    (hd : 0 ≤ d) (hb : ∀ e ∈ es, e.Value.ResponseTime ≤ maxInt64) :
    (trace (NewAggregator d w) es).length = es.length ∧
    (∀ r ∈ trace (NewAggregator d w) es, ∃ x : Aggregator × Alert, r = some x ∧
      0 < x.1.count + x.1.errorCount ∧
      x.1.AlertStatus =
        (Float32.quot (x.1.statusCount 200) (x.1.count + x.1.errorCount)).leConst 4 5 ∧
      (x.1.count + x.1.errorCount ≤ 4793490 →
        (x.1.AlertStatus = true ↔
          x.1.statusCount 200 * 5 ≤ 4 * (x.1.count + x.1.errorCount))) ∧
      (x.1.count + x.1.errorCount < 16777216 →
        (x.1.AlertStatus = true ↔
          x.1.statusCount 200 * 33554432 < 26843547 * (x.1.count + x.1.errorCount)))) ∧
    (∀ (i : Nat) (al : Alert), (emitted (NewAggregator d w) es)[i]? = some al →
      al.Init = true ∧ (i % 2 = 0 → al.isDown = true) ∧ (i % 2 = 1 → al.isUp = true)) := by
  obtain ⟨hlen, hall⟩ := trace_settled es (NewAggregator d w) [] 1 (Inv.fresh d w) hd hb
  refine ⟨hlen, ?_, ?_⟩
  · intro r hr
    obtain ⟨x, es', l', hx, hset⟩ := hall r hr
    obtain ⟨h1, h2, h3⟩ := hset.flag_iff
    exact ⟨x, hx, h1, hset.flag, h3, h2⟩
  · intro i al hi
    have halt := emitted_alternating es (NewAggregator d w)
    obtain ⟨h1, h2⟩ := Alternating.at_index _ _ i al halt hi
    have hinit : al.Init = true := by
      have hm : al ∈ emitted (NewAggregator d w) es := List.getElem?_mem hi
      unfold emitted at hm
      obtain ⟨r, _, hr⟩ := List.mem_filterMap.1 hm
      cases r with
      | none => simp at hr
      | some x =>
        by_cases hx : x.2.Init = true
        · simp only [hx, if_true, Option.some.injEq] at hr
          rw [← hr]; exact hx
        · simp [hx] at hr
    exact ⟨hinit, fun h => h1 (Or.inl ⟨rfl, h⟩), fun h => h2 (Or.inl ⟨rfl, h⟩)⟩

/-- C28 (amended) on a run in which the availability falls, recovers and falls
again. -/
theorem C28_flag_mirrors_availability_witness :
    ((trace (NewAggregator SHORT_INTERVAL "w") flappingRun).length = flappingRun.length ∧
    (∀ r ∈ trace (NewAggregator SHORT_INTERVAL "w") flappingRun,
      ∃ x : Aggregator × Alert, r = some x ∧
      0 < x.1.count + x.1.errorCount ∧
      x.1.AlertStatus =
        (Float32.quot (x.1.statusCount 200) (x.1.count + x.1.errorCount)).leConst 4 5 ∧
      (x.1.count + x.1.errorCount ≤ 4793490 →
        (x.1.AlertStatus = true ↔
          x.1.statusCount 200 * 5 ≤ 4 * (x.1.count + x.1.errorCount))) ∧
      (x.1.count + x.1.errorCount < 16777216 →
        (x.1.AlertStatus = true ↔
          x.1.statusCount 200 * 33554432 < 26843547 * (x.1.count + x.1.errorCount)))) ∧
    (∀ (i : Nat) (al : Alert),
      (emitted (NewAggregator SHORT_INTERVAL "w") flappingRun)[i]? = some al →
      al.Init = true ∧ (i % 2 = 0 → al.isDown = true) ∧ (i % 2 = 1 → al.isUp = true))) ∧
    (emitted (NewAggregator SHORT_INTERVAL "w") flappingRun).map
        (fun al => (al.isDown, al.isUp, al.Timestamp / 1000000000)) =
      [(true, false, 10), (false, true, 140), (true, false, 190)] ∧
    (trace (NewAggregator SHORT_INTERVAL "w") flappingRun).map
        (fun r => r.map (fun x => (x.1.AlertStatus, x.1.statusCount 200,
          x.1.count + x.1.errorCount))) =
      [some (false, 1, 1), some (true, 1, 2), some (true, 1, 2), some (false, 2, 2),
       some (false, 3, 3), some (false, 4, 4), some (false, 5, 5), some (false, 5, 6),
       some (true, 5, 7)] :=
  ⟨C28_flag_mirrors_availability SHORT_INTERVAL "w" flappingRun (by decide) (by decide),
    by decide, by decide⟩

/-- C29: in every state reached by a run on a fresh aggregator of duration
`d >= 0`, in particular `d > 0`, and for every event, whatever the
timestamps, `Add` returns (so its expiry loop ends) with a nil error; after it
`last` and `first` are not nil, the element `first` points to carries the
event just added and is in the heap, and the window is not empty and ends
with that event. -/
theorem C29_add_total (d : Int) (w : String) (es : List QueueElement) (e : QueueElement)
    (hd : 0 ≤ d) (hb : ∀ x ∈ es ++ [e], x.Value.ResponseTime ≤ maxInt64) :
    ∃ (a : Aggregator) (r : Aggregator × Option String × Alert),
      addAll (NewAggregator d w) es = some a ∧ a.Add e = some r ∧ r.2.1 = none ∧
      r.1.last ≠ none ∧ r.1.first ≠ none ∧
      r.1.newest.map QueueElement.event = some e.event ∧
      (∃ p : Nat, r.1.first = some p ∧ p ∈ r.1.heap.values) ∧
      r.1.window ≠ [] ∧
      (∃ older : List (PingLog × Int),
        r.1.window.map QueueElement.event = older ++ [e.event]) := by
  obtain ⟨a, r, l, l', hrun, hadd, herr, _, _, _, hset, _, _⟩ := reach_add (w := w) hd hb
  have hlle := hset.lle
  have hpos := hset.inv.lpos
  simp only [List.length_append, List.length_singleton] at hlle
  have hwin := hset.window_eq
  have hdrop : (es ++ [e]).drop (l' - 1) = es.drop (l' - 1) ++ [e] :=
    List.drop_append_of_le_length (by omega)
  rw [hdrop, List.map_append, List.map_cons, List.map_nil] at hwin
  refine ⟨a, r, hrun, hadd, herr, by rw [hset.last]; simp, by rw [hset.first]; simp, ?_,
    ⟨_, hset.first, ?_⟩, ?_, ⟨_, hwin⟩⟩
  · obtain ⟨y, hy, hye⟩ := hset.inv.cells es.length e (by simp)
    unfold Aggregator.newest
    rw [hset.first]
    simp only [List.length_append, List.length_singleton]
    rw [hy]
    exact congrArg some hye
  · rw [hset.inv.members]
    right
    simp only [List.length_append, List.length_singleton]
    omega
  · intro hnil
    rw [hnil] at hwin
    simp at hwin

/-- C29 on an event older than all those of the window it is added to. -/
theorem C29_add_total_witness :
    (∃ (a : Aggregator) (r : Aggregator × Option String × Alert),
      addAll (NewAggregator SHORT_INTERVAL "w") heapLossRun = some a ∧
      a.Add (probe 5 500 70) = some r ∧ r.2.1 = none ∧
      r.1.last ≠ none ∧ r.1.first ≠ none ∧
      r.1.newest.map QueueElement.event = some (probe 5 500 70).event ∧
      (∃ p : Nat, r.1.first = some p ∧ p ∈ r.1.heap.values) ∧
      r.1.window ≠ [] ∧
      (∃ older : List (PingLog × Int),
        r.1.window.map QueueElement.event = older ++ [(probe 5 500 70).event])) ∧
    ((addAll (NewAggregator SHORT_INTERVAL "w") heapLossRun).bind
        (fun a => (a.Add (probe 5 500 70)).map
          (fun r => (r.2.1, r.1.window.map (fun x => x.Timestamp / 1000000000))))) =
      some (none, [90, 120, 150, 210, 5]) ∧
    ((addAll (NewAggregator SHORT_INTERVAL "w") heapLossRun).bind
        (fun a => (a.Add (probe 1000 200 70)).map
          (fun r => (r.2.1, r.1.window.map (fun x => x.Timestamp / 1000000000))))) =
      some (none, [1000]) :=
  ⟨C29_add_total SHORT_INTERVAL "w" heapLossRun (probe 5 500 70) (by decide) (by decide),
    by decide, by decide⟩


/-! ## Nested windows -/

/-- With non-decreasing timestamps, the longer of two durations keeps at least
what the shorter keeps. -/
theorem Settled.nested {a1 a2 : Aggregator} {es : List QueueElement} {l1 l2 : Nat}
    (h1 : Settled a1 es l1) (h2 : Settled a2 es l2)
    (hs : es.Pairwise (fun x y => x.Timestamp ≤ y.Timestamp))
    (hd : a1.duration ≤ a2.duration) : l2 ≤ l1 := by
  by_contra hc
  have hlt : l1 < l2 := by omega
  have hpos := h1.inv.lpos
  have hl2 := h2.lle
  obtain ⟨x, y, hx, hy, hxy⟩ := h1.bound
  obtain ⟨k, z, hjk, hz, hlt2⟩ := h2.inv.hist (l1 - 1) x (by omega) hx
  have hkN := get_lt hz
  have hyN := get_lt hy
  have hsorted := List.pairwise_iff_getElem.1 hs
  rw [List.getElem?_eq_getElem hkN] at hz
  rw [List.getElem?_eq_getElem hyN] at hy
  cases hz
  cases hy
  have hle : (es[k]).Timestamp ≤ (es[es.length - 1]).Timestamp := by
    by_cases hk : k = es.length - 1
    · subst hk; exact le_refl _
    · exact hsorted k (es.length - 1) hkN hyN (by omega)
  omega

/-- Two settled states on the same events with non-decreasing timestamps and
ordered durations have nested windows and counters. -/
theorem Settled.nest {a1 a2 : Aggregator} {es : List QueueElement} {l1 l2 : Nat}
    (h1 : Settled a1 es l1) (h2 : Settled a2 es l2)
    (hs : es.Pairwise (fun x y => x.Timestamp ≤ y.Timestamp))
    (hd : a1.duration ≤ a2.duration) : Nested a1 a2 := by
  have hl := Settled.nested h1 h2 hs hd
  have hp2 := h2.inv.lpos
  have hsuf : List.IsSuffix (es.drop (l1 - 1)) (es.drop (l2 - 1)) := by
    have : es.drop (l1 - 1) = (es.drop (l2 - 1)).drop (l1 - l2) := by
      rw [List.drop_drop]
      congr 1
      omega
    rw [this]
    exact List.drop_suffix _ _
  have hsub : ((es.drop (l1 - 1)).map (fun e => e.Value)).Sublist
      ((es.drop (l2 - 1)).map (fun e => e.Value)) := (hsuf.sublist).map _
  have c1 := h1.inv.counted
  have c2 := h2.inv.counted
  have hok : a1.count ≤ a2.count := by
    rw [c1.count, c2.count]
    exact_mod_cast hsub.countP_le _
  have herr : a1.errorCount ≤ a2.errorCount := by
    rw [c1.errorCount, c2.errorCount]
    exact_mod_cast hsub.countP_le _
  refine ⟨?_, by omega, hok, herr, ?_⟩
  · rw [h1.window_eq, h2.window_eq]
    obtain ⟨t, ht⟩ := hsuf
    exact ⟨t.map QueueElement.event, by rw [← ht, List.map_append]⟩
  · intro c
    show a1.statusCount c ≤ a2.statusCount c
    rw [c1.statusCount, c2.statusCount]
    exact_mod_cast hsub.countP_le _

/-- The triple of a registered endpoint after a run of `AggLog` of events of
that endpoint. -/
theorem feed_run (url : String) : ∀ (logs : List PingLog) (o : Orchestrator) (g : Aggregators)
    (logs0 : List PingLog), o.aggregators.get url = some g → Fed g url logs0 →
    (∀ l ∈ logs, l.Website = url) → (∀ l ∈ logs, l.ResponseTime ≤ maxInt64) →
    ∃ (o' : Orchestrator) (g' : Aggregators), o.run (logs.map Call.aggLog) = some o' ∧
      o'.aggregators.get url = some g' ∧ Fed g' url (logs0 ++ logs) := by
  intro logs
  induction logs with
  | nil =>
    intro o g logs0 hg hfed _ _
    exact ⟨o, g, rfl, hg, by simpa using hfed⟩
  | cons log rest ih =>
    intro o g logs0 hg hfed hw hr
    have hweb : log.Website = url := hw log (List.mem_cons_self _ _)
    obtain ⟨rS, rM, rL, hS, hSe, hM, hMe, hL, hLe, hfed'⟩ :=
      hfed.step log (hr log (List.mem_cons_self _ _))
    have hg' : o.aggregators.get log.Website = some g := by rw [hweb]; exact hg
    have hagg := AggLog_present hg' hS hSe hM hMe hL hLe
    obtain ⟨o1, ho1⟩ : ∃ o1 : Orchestrator, o1 = { o with
        aggregators := o.aggregators.set log.Website ⟨rS.1, rM.1, rL.1⟩
        alerts := o.alerts ++ (if rS.2.2.Init then [rS.2.2] else []) } := ⟨_, rfl⟩
    rw [← ho1] at hagg
    have hg1 : o1.aggregators.get url = some ⟨rS.1, rM.1, rL.1⟩ := by
      rw [ho1]
      show (o.aggregators.set log.Website ⟨rS.1, rM.1, rL.1⟩).get url = _
      rw [GoMap.get_set, hweb]
      simp
    obtain ⟨o', g', hrun, hget, hfin⟩ := ih o1 ⟨rS.1, rM.1, rL.1⟩ (logs0 ++ [log]) hg1
      hfed' (fun l hl => hw l (List.mem_cons_of_mem _ hl))
      (fun l hl => hr l (List.mem_cons_of_mem _ hl))
    refine ⟨o', g', ?_, hget, by simpa using hfin⟩
    simp only [List.map_cons, Orchestrator.run, Orchestrator.call, hagg, Option.map_some']
    exact hrun

/-- The three aggregators of a triple fed with events of non-decreasing
timestamps are nested. -/
theorem Fed.nest_triple {g : Aggregators} {url : String} {logs : List PingLog} (h : Fed g url logs)
    (hne : logs ≠ []) (hs : logs.Pairwise (fun x y => x.Time ≤ y.Time)) :
    Nested g.Short g.Medium ∧ Nested g.Medium g.Long := by
  have hb : ∀ e ∈ logs.map wrapper, e.Value.ResponseTime ≤ maxInt64 := by
    intro e he
    obtain ⟨l, hl, hle⟩ := List.mem_map.1 he
    rw [← hle]
    exact h.bounded l hl
  have hne' : logs.map wrapper ≠ [] := by simpa using hne
  have hp : (logs.map wrapper).Pairwise (fun x y => x.Timestamp ≤ y.Timestamp) :=
    List.pairwise_map.2 hs
  obtain ⟨aS, lS, hrS, hsS, hdS, _⟩ :=
    reach_settled (w := url) (d := SHORT_INTERVAL) (by decide) hb hne'
  obtain ⟨aM, lM, hrM, hsM, hdM, _⟩ :=
    reach_settled (w := url) (d := MEDIUM_INTERVAL) (by decide) hb hne'
  obtain ⟨aL, lL, hrL, hsL, hdL, _⟩ :=
    reach_settled (w := url) (d := LONG_INTERAVL) (by decide) hb hne'
  have eS : aS = g.Short := Option.some.inj (hrS.symm.trans h.short)
  have eM : aM = g.Medium := Option.some.inj (hrM.symm.trans h.medium)
  have eL : aL = g.Long := Option.some.inj (hrL.symm.trans h.long)
  subst eS eM eL
  exact ⟨Settled.nest hsS hsM hp (by rw [hdS, hdM]; decide),
    Settled.nest hsM hsL hp (by rw [hdM, hdL]; decide)⟩

/-- C30: in every state reached from a fresh orchestrator, after `Register`
of an endpoint not yet registered and `AggLog` of one or more events of that
endpoint with non-decreasing timestamps, every call returns and the triple of
the endpoint is nested: the events of the Short window are a suffix of those
of the Medium window, which are a suffix of those of the Long window, and
`count + errorCount`, `GetCount`, `GetErrorCount` and every
`GetStatusCount(c)` of Short are at most those of Medium, which are at most
those of Long. -/
theorem C30_windows_nested (calls : List Call) (hb : ∀ c ∈ calls, c.bounded) (w : Website)
    (now : Int) (logs : List PingLog) (hne : logs ≠ [])
    (hw : ∀ l ∈ logs, l.Website = w.Url) (hr : ∀ l ∈ logs, l.ResponseTime ≤ maxInt64)
    (hs : logs.Pairwise (fun x y => x.Time ≤ y.Time)) :
    ∃ o, GetOrchestrator.run calls = some o ∧
      (o.pingers.get w.Url = none →
        ∃ (o' : Orchestrator) (g : Aggregators),
          (o.Register w now).1.run (logs.map Call.aggLog) = some o' ∧
          o'.aggregators.get w.Url = some g ∧
          Nested g.Short g.Medium ∧ Nested g.Medium g.Long) := by
  obtain ⟨o, hrun, hk, _⟩ := reach_orchestrator calls hb
  refine ⟨o, hrun, ?_⟩
  intro hp
  have hreg := Register_new now hp (hk.agg_none hp)
  have hget : (o.Register w now).1.aggregators.get w.Url = some (NewAggregators w.Url) := by
    rw [hreg]
    simp [GoMap.get_set]
  obtain ⟨o', g, hrun', hg, hfed⟩ :=
    feed_run w.Url logs (o.Register w now).1 (NewAggregators w.Url) [] hget (Fed.initial _) hw hr
  rw [List.nil_append] at hfed
  exact ⟨o', g, hrun', hg, hfed.nest_triple hne hs⟩

/-- C30 on three events seven minutes apart: the Short window keeps the last
one, the Medium window the last two and the Long window all three. -/
theorem C30_windows_nested_witness :
    (∃ o, GetOrchestrator.run [Call.register ⟨"other", 200⟩ 0] = some o ∧
      (o.pingers.get (⟨"example", 100⟩ : Website).Url = none →
        ∃ (o' : Orchestrator) (g : Aggregators),
          (o.Register ⟨"example", 100⟩ 1).1.run (sparseLogs.map Call.aggLog) = some o' ∧
          o'.aggregators.get (⟨"example", 100⟩ : Website).Url = some g ∧
          Nested g.Short g.Medium ∧ Nested g.Medium g.Long)) ∧
    ((GetOrchestrator.run ([Call.register ⟨"other", 200⟩ 0, Call.register ⟨"example", 100⟩ 1] ++
        sparseLogs.map Call.aggLog)).bind (fun o => (o.aggregators.get "example").map
          (fun g => (g.Short.window.map (fun e => e.Timestamp / 60000000000),
            g.Medium.window.map (fun e => e.Timestamp / 60000000000),
            g.Long.window.map (fun e => e.Timestamp / 60000000000)))) =
      some ([14], [7, 14], [0, 7, 14]) ∧
     (GetOrchestrator.run ([Call.register ⟨"other", 200⟩ 0, Call.register ⟨"example", 100⟩ 1] ++
        sparseLogs.map Call.aggLog)).bind (fun o => (o.aggregators.get "example").map
          (fun g => ([g.Short.GetCount.1, g.Medium.GetCount.1, g.Long.GetCount.1],
            [g.Short.GetErrorCount.1, g.Medium.GetErrorCount.1, g.Long.GetErrorCount.1],
            [(g.Short.GetStatusCount 200).1, (g.Medium.GetStatusCount 200).1,
              (g.Long.GetStatusCount 200).1]))) =
      some ([1, 1, 2], [0, 1, 1], [1, 1, 2])) :=
  ⟨C30_windows_nested [Call.register ⟨"other", 200⟩ 0] (by simp [Call.bounded])
    ⟨"example", 100⟩ 1 sparseLogs (by decide) (by decide) (by decide)
    (by simp [sparseLogs]), by decide, by decide⟩


/-! ## The operations on all endpoints -/

theorem lookup_mem {V : Type} : ∀ (l : List (String × V)) (k : String) (v : V),
    l.lookup k = some v → (k, v) ∈ l := by
  intro l
  induction l with
  | nil => intro k v h; simp at h
  | cons kv l ih =>
    intro k v h
    obtain ⟨a, b⟩ := kv
    by_cases hk : k = a
    · subst hk
      simp only [List.lookup_cons, beq_self_eq_true, Option.some.injEq] at h
      subst h
      exact List.mem_cons_self _ _
    · have hb : (k == a) = false := by simpa using hk
      simp only [List.lookup_cons, hb] at h
      exact List.mem_cons_of_mem _ (ih k v h)

theorem lookup_of_mem {V : Type} : ∀ (l : List (String × V)) (k : String) (v : V),
    (l.map (fun kv => kv.1)).Nodup → (k, v) ∈ l → l.lookup k = some v := by
  intro l
  induction l with
  | nil => intro k v _ h; cases h
  | cons kv l ih =>
    intro k v hn h
    obtain ⟨a, b⟩ := kv
    rw [List.map_cons, List.nodup_cons] at hn
    rcases List.mem_cons.1 h with h | h
    · cases h
      simp [List.lookup_cons]
    · have hk : k ≠ a := by
        intro e
        apply hn.1
        rw [← e]
        exact List.mem_map.2 ⟨(k, v), h, rfl⟩
      have hb : (k == a) = false := by simpa using hk
      simp only [List.lookup_cons, hb]
      exact ih k v hn.2 h

theorem lookup_isSome {V : Type} : ∀ (l : List (String × V)) (k : String),
    (l.lookup k).isSome = decide (k ∈ l.map (fun kv => kv.1)) := by
  intro l
  induction l with
  | nil => intro k; simp
  | cons kv l ih =>
    intro k
    obtain ⟨a, b⟩ := kv
    by_cases hk : k = a
    · subst hk
      simp [List.lookup_cons]
    · have hb : (k == a) = false := by simpa using hk
      simp only [List.lookup_cons, hb, ih, List.map_cons, List.mem_cons, hk, false_or]

theorem GoMap.entries_nil {V : Type} (m : GoMap V) (h : ∀ k : String, m.get k = none) :
    m.entries = [] := by
  cases he : m.entries with
  | nil => rfl
  | cons kv l =>
    have := h kv.1
    unfold GoMap.get at this
    rw [he] at this
    simp [List.lookup_cons] at this

/-- The registry invariant from the check on the entries. -/
theorem Orchestrator.KeysAgree.of_keysMatch {o : Orchestrator} (h : o.keysMatch = true) :
    o.KeysAgree := by
  unfold Orchestrator.keysMatch at h
  simp only [Bool.and_eq_true, List.all_eq_true, decide_eq_true_eq] at h
  obtain ⟨⟨⟨h1, h2⟩, h3⟩, h4⟩ := h
  intro url
  unfold GoMap.get
  rw [lookup_isSome, lookup_isSome, lookup_isSome]
  constructor
  · by_cases hp : url ∈ o.pingers.entries.map (fun kv => kv.1)
    · have := h1 url hp
      unfold GoMap.keys at this
      simp [hp, this]
    · have : url ∉ o.aggregators.entries.map (fun kv => kv.1) := fun ha => hp (h2 url ha)
      simp [hp, this]
  · by_cases hp : url ∈ o.pingers.entries.map (fun kv => kv.1)
    · have := h3 url hp
      unfold GoMap.keys at this
      simp [hp, this]
    · have : url ∉ o.reports.entries.map (fun kv => kv.1) := fun ha => hp (h4 url ha)
      simp [hp, this]

/-- In a keyed state a slice of `GetPingers` holds each registered prober,
under its URL, once. -/
theorem Orchestrator.Keyed.slice {o : Orchestrator} (hw : o.Keyed) {ps : List Pinger}
    (hperm : ps.Perm o.GetPingers.1) :
    (∀ p ∈ ps, o.pingers.get p.Url = some p) ∧
    (∀ (u : String) (q : Pinger), o.pingers.get u = some q → q ∈ ps ∧ q.Url = u) ∧
    (ps.map (fun p => p.Url)).Nodup := by
  obtain ⟨hn, hu⟩ := hw
  refine ⟨?_, ?_, ?_⟩
  · intro p hp
    have hp' : p ∈ o.pingers.entries.map (fun kv => kv.2) := hperm.mem_iff.1 hp
    obtain ⟨kv, hkv, hkp⟩ := List.mem_map.1 hp'
    have hk := hu kv hkv
    obtain ⟨k, v⟩ := kv
    simp only at hkp hk
    subst hkp
    rw [hk]
    exact lookup_of_mem _ _ _ hn hkv
  · intro u q hq
    have hm := lookup_mem _ _ _ hq
    refine ⟨hperm.mem_iff.2 (List.mem_map.2 ⟨(u, q), hm, rfl⟩), hu (u, q) hm⟩
  · have h1 : (ps.map (fun p => p.Url)).Perm
        ((o.pingers.entries.map (fun kv => kv.2)).map (fun p => p.Url)) := hperm.map _
    have h2 : (o.pingers.entries.map (fun kv => kv.2)).map (fun p => p.Url) =
        o.pingers.entries.map (fun kv => kv.1) := by
      rw [List.map_map]
      apply List.map_congr_left
      intro kv hkv
      exact hu kv hkv
    rw [h2] at h1
    exact h1.nodup_iff.2 hn

theorem Keyed_set {o o' : Orchestrator} (hw : o.Keyed) {k : String} {v : Pinger}
    (hv : v.Url = k) (h : o'.pingers = o.pingers.set k v) : o'.Keyed := by
  obtain ⟨hn, hu⟩ := hw
  unfold Orchestrator.Keyed
  rw [h]
  unfold GoMap.set
  refine ⟨?_, ?_⟩
  · simp only [List.map_cons, List.nodup_cons]
    refine ⟨?_, (hn.sublist ((List.filter_sublist _).map _))⟩
    intro hm
    obtain ⟨kv, hkv, hk⟩ := List.mem_map.1 hm
    have := (List.mem_filter.1 hkv).2
    simp at this
    exact this hk
  · intro kv hkv
    rcases List.mem_cons.1 hkv with hkv | hkv
    · rw [hkv]; exact hv
    · exact hu kv (List.mem_filter.1 hkv).1

theorem Keyed_del {o o' : Orchestrator} (hw : o.Keyed) {k : String}
    (h : o'.pingers = o.pingers.del k) : o'.Keyed := by
  obtain ⟨hn, hu⟩ := hw
  unfold Orchestrator.Keyed
  rw [h]
  unfold GoMap.del
  exact ⟨hn.sublist ((List.filter_sublist _).map _),
    fun kv hkv => hu kv (List.mem_filter.1 hkv).1⟩

theorem Keyed_same {o o' : Orchestrator} (hw : o.Keyed) (h : o'.pingers = o.pingers) :
    o'.Keyed := by
  unfold Orchestrator.Keyed
  rw [h]
  exact hw

theorem Pinger.pause_idle {p : Pinger} (h : p.IsRunning = false) : p.Pause = p := by
  cases p
  simp only at h
  simp [Pinger.Pause, h]

/-- One `Pause` of a registered URL in a state with the registry invariant. -/
theorem Pause_step {o : Orchestrator} (hk : o.KeysAgree) (hw : o.Keyed) {url : String}
    {q : Pinger} (hq : o.pingers.get url = some q) (now : Int) :
    ∃ (o' : Orchestrator) (b : Bool), o.Pause url now = some (o', b, none) ∧
      o'.KeysAgree ∧ o'.Keyed ∧
      (∀ u : String, o'.pingers.get u =
        (o.pingers.get u).map (fun x => if u = url then x.Pause else x)) ∧
      (∀ (u : String) (r : Report), o.reports.get u = some r → r.Active = false →
        ∃ r' : Report, o'.reports.get u = some r' ∧ r'.Active = false) ∧
      (q.IsRunning = true → ∃ r' : Report, o'.reports.get url = some r' ∧ r'.Active = false) := by
  have hurl : q.Url = url := hw.2 (url, q) (lookup_mem _ _ _ hq)
  cases hr : q.IsRunning with
  | false =>
    refine ⟨o, false, Pause_idle now hq hr, hk, hw, ?_, fun u r h1 h2 => ⟨r, h1, h2⟩,
      fun h => by cases h⟩
    intro u
    by_cases hu : u = url
    · subst hu
      simp [hq, Pinger.pause_idle hr]
    · cases o.pingers.get u <;> simp [hu]
  | true =>
    obtain ⟨r, hrep⟩ := hk.rep_some hq
    have hres := Pause_running now hq hr hrep
    obtain ⟨_, hres', hk', _⟩ := Pause_keysAgree hk url now
    rw [hres] at hres'
    cases hres'
    refine ⟨_, true, hres, hk', Keyed_set hw (v := q.Pause) hurl rfl, ?_, ?_, ?_⟩
    · intro u
      show (o.pingers.set url q.Pause).get u = _
      rw [GoMap.get_set]
      by_cases hu : u = url
      · subst hu
        simp [hq]
      · cases o.pingers.get u <;> simp [hu]
    · intro u r0 h1 h2
      show ∃ r', (o.reports.set url { r with Active := false }).get u = some r' ∧ _
      rw [GoMap.get_set]
      by_cases hu : u = url
      · exact ⟨{ r with Active := false }, by simp [hu], rfl⟩
      · exact ⟨r0, by simp [hu, h1], h2⟩
    · intro _
      refine ⟨{ r with Active := false }, ?_, rfl⟩
      show (o.reports.set url { r with Active := false }).get url = _
      rw [GoMap.get_set]
      simp

/-- The loop of `PauseAll` over probers whose URLs are registered. -/
theorem pauseLoop_spec (clock : String → Int) : ∀ (ps : List Pinger) (o : Orchestrator),
    o.KeysAgree → o.Keyed → (∀ p ∈ ps, ∃ q : Pinger, o.pingers.get p.Url = some q) →
    ∃ o1 : Orchestrator, Orchestrator.pauseLoop clock o ps = some (o1, none) ∧
      o1.KeysAgree ∧ o1.Keyed ∧
      (∀ u : String, o1.pingers.get u =
        (o.pingers.get u).map
          (fun x => if u ∈ ps.map (fun p => p.Url) then x.Pause else x)) ∧
      (∀ (u : String) (r : Report), o.reports.get u = some r → r.Active = false →
        ∃ r' : Report, o1.reports.get u = some r' ∧ r'.Active = false) ∧
      (∀ (u : String) (q : Pinger), o.pingers.get u = some q → q.IsRunning = true →
        u ∈ ps.map (fun p => p.Url) →
        ∃ r' : Report, o1.reports.get u = some r' ∧ r'.Active = false) := by
  intro ps
  induction ps with
  | nil =>
    intro o hk hw _
    refine ⟨o, rfl, hk, hw, ?_, fun u r h1 h2 => ⟨r, h1, h2⟩, fun u q _ _ h => by simp at h⟩
    intro u
    cases o.pingers.get u <;> simp
  | cons p ps ih =>
    intro o hk hw hreg
    obtain ⟨q, hq⟩ := hreg p (List.mem_cons_self _ _)
    obtain ⟨o', b, hp, hk', hw', hping, hmono, hrun⟩ := Pause_step hk hw hq (clock p.Url)
    have hreg' : ∀ p' ∈ ps, ∃ q' : Pinger, o'.pingers.get p'.Url = some q' := by
      intro p' hp'
      obtain ⟨q', hq'⟩ := hreg p' (List.mem_cons_of_mem _ hp')
      rw [hping, hq']
      exact ⟨_, rfl⟩
    obtain ⟨o1, hloop, hk1, hw1, hping1, hmono1, hrun1⟩ := ih o' hk' hw' hreg'
    refine ⟨o1, by simp [Orchestrator.pauseLoop, hp, hloop], hk1, hw1, ?_, ?_, ?_⟩
    · intro u
      rw [hping1, hping]
      cases o.pingers.get u with
      | none => rfl
      | some x =>
        simp only [Option.map_some', List.map_cons, List.mem_cons]
        by_cases h1 : u = p.Url
        · by_cases h2 : u ∈ ps.map (fun p => p.Url)
          · simp [h1, h2, Pinger.Pause]
          · simp only [h1, true_or, if_true]
            rw [h1] at h2
            simp [h2]
        · by_cases h2 : u ∈ ps.map (fun p => p.Url)
          · simp [h1, h2]
          · simp [h1, h2]
    · intro u r h1 h2
      obtain ⟨r', h3, h4⟩ := hmono u r h1 h2
      exact hmono1 u r' h3 h4
    · intro u x hx hxr hu
      by_cases h1 : u = p.Url
      · rw [h1] at hx
        rw [hq] at hx
        cases hx
        obtain ⟨r', h3, h4⟩ := hrun hxr
        rw [h1]
        exact hmono1 p.Url r' h3 h4
      · have hu' : u ∈ ps.map (fun p => p.Url) := by
          rw [List.map_cons, List.mem_cons] at hu
          rcases hu with hu | hu
          · exact absurd hu h1
          · exact hu
        have hx' : o'.pingers.get u = some x := by
          rw [hping, hx]
          simp [h1]
        exact hrun1 u x hx' hxr hu'

/-- The loop of `StartAll` over probers whose URLs are registered returns a
nil error. -/
theorem startLoop_spec (clock : String → Int) : ∀ (ps : List Pinger) (o : Orchestrator),
    o.KeysAgree → (∀ p ∈ ps, ∃ q : Pinger, o.pingers.get p.Url = some q) →
    ∃ o1 : Orchestrator, Orchestrator.startLoop clock o ps = some (o1, none) ∧
      o1.pingers = o.pingers := by
  intro ps
  induction ps with
  | nil => intro o _ _; exact ⟨o, rfl, rfl⟩
  | cons p ps ih =>
    intro o hk hreg
    obtain ⟨q, hq⟩ := hreg p (List.mem_cons_self _ _)
    have hstep : ∃ (o' : Orchestrator) (b : Bool),
        o.Start p.Url (clock p.Url) = some (o', b, none) ∧ o'.KeysAgree ∧
          o'.pingers = o.pingers := by
      obtain ⟨r0, hr0, hk0, _⟩ := Start_keysAgree hk p.Url (clock p.Url)
      cases hr : q.IsRunning with
      | true =>
        have := Start_running (clock p.Url) hq hr
        rw [this] at hr0
        cases hr0
        exact ⟨o, false, this, hk, rfl⟩
      | false =>
        obtain ⟨r, hrep⟩ := hk.rep_some hq
        have := Start_idle (clock p.Url) hq hr hrep
        rw [this] at hr0
        cases hr0
        exact ⟨_, true, this, hk0, rfl⟩
    obtain ⟨o', b, hs, hk', hp'⟩ := hstep
    obtain ⟨o1, hloop, h1⟩ := ih o' hk' (by
      intro p' hp''
      rw [hp']
      exact hreg p' (List.mem_cons_of_mem _ hp''))
    exact ⟨o1, by simp [Orchestrator.startLoop, hs, hloop], by rw [h1, hp']⟩

/-- The loop of `UnregisterAll` over idle probers with distinct registered
URLs removes them. -/
theorem unregisterLoop_spec (clock : String → Int) : ∀ (ps : List Pinger) (o : Orchestrator),
    o.KeysAgree → (ps.map (fun p => p.Url)).Nodup →
    (∀ p ∈ ps, ∃ q : Pinger, o.pingers.get p.Url = some q ∧ q.IsRunning = false) →
    ∃ o2 : Orchestrator, Orchestrator.unregisterLoop clock o ps = (o2, none) ∧
      (∀ u : String, o2.pingers.get u =
        if u ∈ ps.map (fun p => p.Url) then none else o.pingers.get u) ∧
      (∀ u : String, o2.aggregators.get u =
        if u ∈ ps.map (fun p => p.Url) then none else o.aggregators.get u) ∧
      (∀ u : String, o2.reports.get u =
        if u ∈ ps.map (fun p => p.Url) then none else o.reports.get u) := by
  intro ps
  induction ps with
  | nil => intro o _ _ _; exact ⟨o, rfl, by simp, by simp, by simp⟩
  | cons p ps ih =>
    intro o hk hn hreg
    rw [List.map_cons, List.nodup_cons] at hn
    obtain ⟨q, hq, hqr⟩ := hreg p (List.mem_cons_self _ _)
    obtain ⟨g, hg⟩ := hk.agg_some hq
    have hun := Unregister_idle (clock p.Url) hq hqr hg
    have hk' := Unregister_keysAgree hk p.Url (clock p.Url)
    obtain ⟨o', ho'⟩ : ∃ o' : Orchestrator, o' = (o.Unregister p.Url (clock p.Url)).1 :=
      ⟨_, rfl⟩
    have hpair : o.Unregister p.Url (clock p.Url) = (o', none) := by
      rw [ho', hun]
    rw [← ho'] at hk'
    have hP : ∀ u : String, o'.pingers.get u = if u = p.Url then none else o.pingers.get u := by
      intro u; rw [ho', hun]; exact GoMap.get_del _ _ _
    have hA : ∀ u : String, o'.aggregators.get u =
        if u = p.Url then none else o.aggregators.get u := by
      intro u; rw [ho', hun]; exact GoMap.get_del _ _ _
    have hR : ∀ u : String, o'.reports.get u = if u = p.Url then none else o.reports.get u := by
      intro u; rw [ho', hun]; exact GoMap.get_del _ _ _
    have hreg' : ∀ p' ∈ ps, ∃ q' : Pinger, o'.pingers.get p'.Url = some q' ∧
        q'.IsRunning = false := by
      intro p' hp'
      obtain ⟨q', hq', hqr'⟩ := hreg p' (List.mem_cons_of_mem _ hp')
      have hne : p'.Url ≠ p.Url := by
        intro e
        apply hn.1
        rw [← e]
        exact List.mem_map.2 ⟨p', hp', rfl⟩
      exact ⟨q', by rw [hP, if_neg hne]; exact hq', hqr'⟩
    obtain ⟨o2, hloop, h1, h2, h3⟩ := ih o' hk' hn.2 hreg'
    refine ⟨o2, by simp [Orchestrator.unregisterLoop, hpair, hloop], ?_, ?_, ?_⟩
    · intro u
      rw [h1, hP]
      by_cases ha : u = p.Url <;> by_cases hb : u ∈ ps.map (fun p => p.Url) <;>
        simp [ha, hb]
    · intro u
      rw [h2, hA]
      by_cases ha : u = p.Url <;> by_cases hb : u ∈ ps.map (fun p => p.Url) <;>
        simp [ha, hb]
    · intro u
      rw [h3, hR]
      by_cases ha : u = p.Url <;> by_cases hb : u ∈ ps.map (fun p => p.Url) <;>
        simp [ha, hb]


/-- Every call keeps the probers keyed by their URLs. -/
theorem call_keyed {o : Orchestrator} (hk : o.KeysAgree) (hs : o.Sound) (hw : o.Keyed)
    (c : Call) (hc : c.bounded) {o' : Orchestrator} (h : o.call c = some o') : o'.Keyed := by
  cases c with
  | register w now =>
    simp only [Orchestrator.call, Option.some.injEq] at h
    subst h
    cases hp : o.pingers.get w.Url with
    | some p => rw [Register_dup now hp]; exact Keyed_same hw rfl
    | none =>
      rw [Register_new now hp (hk.agg_none hp)]
      exact Keyed_set hw (v := NewPinger o.nextAddr w) rfl rfl
  | unregister url now =>
    simp only [Orchestrator.call, Option.some.injEq] at h
    subst h
    cases hp : o.pingers.get url with
    | none => rw [Unregister_absent now hp]; exact Keyed_same hw rfl
    | some p =>
      cases hr : p.IsRunning with
      | true => rw [Unregister_running now hp hr]; exact Keyed_same hw rfl
      | false =>
        obtain ⟨g, hg⟩ := hk.agg_some hp
        rw [Unregister_idle now hp hr hg]
        exact Keyed_del hw rfl
  | start url now =>
    cases hp : o.pingers.get url with
    | none =>
      rw [Orchestrator.call, Start_absent now hp] at h
      cases h
      exact hw
    | some p =>
      cases hr : p.IsRunning with
      | true =>
        rw [Orchestrator.call, Start_running now hp hr] at h
        cases h
        exact hw
      | false =>
        obtain ⟨r, hrep⟩ := hk.rep_some hp
        rw [Orchestrator.call, Start_idle now hp hr hrep] at h
        cases h
        exact Keyed_same hw rfl
  | pause url now =>
    cases hp : o.pingers.get url with
    | none =>
      rw [Orchestrator.call, Pause_absent now hp] at h
      cases h
      exact hw
    | some p =>
      obtain ⟨o1, b, h1, _, hw1, _⟩ := Pause_step hk hw hp now
      rw [Orchestrator.call, h1] at h
      cases h
      exact hw1
  | aggLog log =>
    cases ha : o.aggregators.get log.Website with
    | none =>
      rw [Orchestrator.call, AggLog_absent ha] at h
      cases h
      exact hw
    | some g =>
      obtain ⟨logs, hfed⟩ := hs _ g ha
      obtain ⟨rS, rM, rL, hS, hSe, hM, hMe, hL, hLe, _⟩ := hfed.step log hc
      rw [Orchestrator.call, AggLog_present ha hS hSe hM hMe hL hLe] at h
      cases h
      exact Keyed_same hw rfl
  | proberBegins addr =>
    simp only [Orchestrator.call, Option.some.injEq] at h
    subst h
    unfold Orchestrator.proberBegins
    by_cases hin : addr ∈ o.spawned
    · rw [if_pos hin]
      obtain ⟨hn, hu⟩ := hw
      unfold Orchestrator.Keyed
      refine ⟨?_, ?_⟩
      · have : (o.pingers.entries.map
            (fun kv => if kv.2.addr = addr then (kv.1, kv.2.Start) else kv)).map
              (fun kv => kv.1) = o.pingers.entries.map (fun kv => kv.1) := by
          rw [List.map_map]
          apply List.map_congr_left
          intro kv _
          by_cases hk' : kv.2.addr = addr <;> simp [hk']
        show ((o.pingers.entries.map
          (fun kv => if kv.2.addr = addr then (kv.1, kv.2.Start) else kv)).map
            (fun kv => kv.1)).Nodup
        rw [this]
        exact hn
      · intro kv hkv
        have hkv' : kv ∈ o.pingers.entries.map
            (fun kv => if kv.2.addr = addr then (kv.1, kv.2.Start) else kv) := hkv
        obtain ⟨kv0, h0, he⟩ := List.mem_map.1 hkv'
        have := hu kv0 h0
        by_cases hk' : kv0.2.addr = addr
        · rw [if_pos hk'] at he
          rw [← he]
          exact this
        · rw [if_neg hk'] at he
          rw [← he]
          exact this
    · rw [if_neg hin]
      exact hw

/-- Every state reached from a fresh orchestrator has the registry invariant
and holds its probers keyed by their URLs. -/
theorem run_ready : ∀ (calls : List Call) (o : Orchestrator), o.KeysAgree → o.Sound →
    o.Keyed → (∀ c ∈ calls, c.bounded) →
    ∃ o', o.run calls = some o' ∧ o'.KeysAgree ∧ o'.Keyed := by
  intro calls
  induction calls with
  | nil => intro o hk _ hw _; exact ⟨o, rfl, hk, hw⟩
  | cons c cs ih =>
    intro o hk hs hw hb
    have hc := hb c (List.mem_cons_self _ _)
    obtain ⟨o1, h1, hk1, hs1⟩ := call_inv hk hs c hc
    have hw1 := call_keyed hk hs hw c hc h1
    obtain ⟨o2, h2, hk2, hw2⟩ :=
      ih o1 hk1 hs1 hw1 (fun x hx => hb x (List.mem_cons_of_mem _ hx))
    exact ⟨o2, by simp [Orchestrator.run, h1, h2], hk2, hw2⟩

theorem reach_ready (calls : List Call) (hb : ∀ c ∈ calls, c.bounded) :
    ∃ o, GetOrchestrator.run calls = some o ∧ o.KeysAgree ∧ o.Keyed :=
  run_ready calls GetOrchestrator keysAgree_empty sound_empty
    ⟨List.nodup_nil, fun kv h => by cases h⟩ hb

/-- The shutdown sequence when its calls follow one another with no goroutine
starting to run in between. In every state with the registry invariant whose
probers are keyed by their URLs (every state reached from a fresh orchestrator
is one), and for every order `ps` in which `GetPingers` yields the probers:
`PauseAll` returns nil, it keeps the registered URLs, afterwards no prober has
`IsRunning` set, and the report of every prober that was running has `Active`
false; an `UnregisterAll` on the state `PauseAll` left, in every order `qs`,
returns nil and leaves `pingers`, `aggregators` and `reports` empty; and
`StartAll` returns nil. -/
theorem shutdown_atomic (o : Orchestrator) (hk : o.KeysAgree) (hw : o.Keyed) (ps : List Pinger)
    (hperm : ps.Perm o.GetPingers.1) (clock : String → Int) :
    (∃ o1 : Orchestrator, o.PauseAll ps clock = some (o1, none) ∧
      (∀ url : String, (o1.pingers.get url).isSome = (o.pingers.get url).isSome) ∧
      (∀ (url : String) (p : Pinger), o1.pingers.get url = some p → p.IsRunning = false) ∧
      (∀ (url : String) (p : Pinger), o.pingers.get url = some p → p.IsRunning = true →
        ∃ r : Report, o1.reports.get url = some r ∧ r.Active = false) ∧
      (∀ (qs : List Pinger) (clock2 : String → Int), qs.Perm o1.GetPingers.1 →
        ∃ o2 : Orchestrator, o1.UnregisterAll qs clock2 = (o2, none) ∧
          o2.pingers.entries = [] ∧ o2.aggregators.entries = [] ∧ o2.reports.entries = [])) ∧
    (∃ o3 : Orchestrator, o.StartAll ps clock = some (o3, none)) := by
  obtain ⟨hvis, hcov, _⟩ := hw.slice hperm
  have hreg : ∀ p ∈ ps, ∃ q : Pinger, o.pingers.get p.Url = some q :=
    fun p hp => ⟨p, hvis p hp⟩
  refine ⟨?_, ?_⟩
  · obtain ⟨o1, hloop, hk1, hw1, hping, _, hrun⟩ := pauseLoop_spec clock ps o hk hw hreg
    have hidle : ∀ (url : String) (p : Pinger), o1.pingers.get url = some p →
        p.IsRunning = false := by
      intro url p hp
      rw [hping] at hp
      cases hq : o.pingers.get url with
      | none => rw [hq] at hp; cases hp
      | some q =>
        rw [hq] at hp
        obtain ⟨hqm, hqu⟩ := hcov url q hq
        have hin : url ∈ ps.map (fun p => p.Url) := List.mem_map.2 ⟨q, hqm, hqu⟩
        simp only [Option.map_some', hin, if_true, Option.some.injEq] at hp
        rw [← hp]
        rfl
    refine ⟨o1, hloop, ?_, hidle, ?_, ?_⟩
    · intro url
      rw [hping]
      cases o.pingers.get url <;> rfl
    · intro url p hp hr
      obtain ⟨hqm, hqu⟩ := hcov url p hp
      exact hrun url p hp hr (List.mem_map.2 ⟨p, hqm, hqu⟩)
    · intro qs clock2 hq
      obtain ⟨hvis1, hcov1, hnd1⟩ := hw1.slice hq
      obtain ⟨o2, hun, hP, hA, hR⟩ := unregisterLoop_spec clock2 qs o1 hk1 hnd1
        (fun p hp => ⟨p, hvis1 p hp, hidle _ p (hvis1 p hp)⟩)
      have hnone : ∀ u : String, u ∉ qs.map (fun p => p.Url) → o1.pingers.get u = none := by
        intro u hu
        cases hg : o1.pingers.get u with
        | none => rfl
        | some q =>
          obtain ⟨hqm, hqu⟩ := hcov1 u q hg
          exact absurd (List.mem_map.2 ⟨q, hqm, hqu⟩) hu
      refine ⟨o2, hun, GoMap.entries_nil _ ?_, GoMap.entries_nil _ ?_, GoMap.entries_nil _ ?_⟩
      · intro u
        rw [hP]
        by_cases hu : u ∈ qs.map (fun p => p.Url)
        · simp [hu]
        · simp [hu, hnone u hu]
      · intro u
        rw [hA]
        by_cases hu : u ∈ qs.map (fun p => p.Url)
        · simp [hu]
        · simp only [hu, if_false]
          have := (hk1 u).1
          rw [hnone u hu] at this
          cases hg : o1.aggregators.get u with
          | none => rfl
          | some g => rw [hg] at this; cases this
      · intro u
        rw [hR]
        by_cases hu : u ∈ qs.map (fun p => p.Url)
        · simp [hu]
        · simp only [hu, if_false]
          have := (hk1 u).2
          rw [hnone u hu] at this
          cases hg : o1.reports.get u with
          | none => rfl
          | some g => rw [hg] at this; cases this
  · obtain ⟨o3, hloop, _⟩ := startLoop_spec clock ps o hk hreg
    exact ⟨o3, hloop⟩

/-- The shutdown sequence without a goroutine starting in between, on an
orchestrator with a running prober, a prober whose goroutine has not run yet
and an idle one, the slice of `GetPingers` taken in reverse. -/
theorem shutdown_atomic_fixture :
    ((∃ o1 : Orchestrator,
      shutdownFixture.PauseAll shutdownFixture.GetPingers.1.reverse (fun _ => 9) =
        some (o1, none) ∧
      (∀ url : String,
        (o1.pingers.get url).isSome = (shutdownFixture.pingers.get url).isSome) ∧
      (∀ (url : String) (p : Pinger), o1.pingers.get url = some p → p.IsRunning = false) ∧
      (∀ (url : String) (p : Pinger), shutdownFixture.pingers.get url = some p →
        p.IsRunning = true → ∃ r : Report, o1.reports.get url = some r ∧ r.Active = false) ∧
      (∀ (qs : List Pinger) (clock2 : String → Int), qs.Perm o1.GetPingers.1 →
        ∃ o2 : Orchestrator, o1.UnregisterAll qs clock2 = (o2, none) ∧
          o2.pingers.entries = [] ∧ o2.aggregators.entries = [] ∧ o2.reports.entries = [])) ∧
    (∃ o3 : Orchestrator,
      shutdownFixture.StartAll shutdownFixture.GetPingers.1.reverse (fun _ => 9) =
        some (o3, none))) ∧
    (shutdownFixture.pingers.entries.map (fun kv => (kv.1, kv.2.IsRunning)) =
      [("c", false), ("b", false), ("a", true)] ∧
     (shutdownFixture.PauseAll shutdownFixture.GetPingers.1.reverse (fun _ => 9)).map
        (fun r => (r.2, r.1.pingers.entries.map (fun kv => (kv.1, kv.2.IsRunning)),
          r.1.reports.entries.map (fun kv => (kv.1, kv.2.Active)))) =
      some (none, [("a", false), ("c", false), ("b", false)],
        [("a", false), ("b", true), ("c", false)]) ∧
     (shutdownFixture.PauseAll shutdownFixture.GetPingers.1.reverse (fun _ => 9)).map
        (fun r => ((r.1.UnregisterAll r.1.GetPingers.1 (fun _ => 10)).2,
          (r.1.UnregisterAll r.1.GetPingers.1 (fun _ => 10)).1.pingers.keys,
          (r.1.UnregisterAll r.1.GetPingers.1 (fun _ => 10)).1.aggregators.keys ++
            (r.1.UnregisterAll r.1.GetPingers.1 (fun _ => 10)).1.reports.keys)) =
      some (none, [], []) ∧
     (shutdownFixture.UnregisterAll shutdownFixture.GetPingers.1 (fun _ => 9)).2 =
      some "PINGER FOR WEBSITE a IS STILL RUNNING") :=
  ⟨shutdown_atomic shutdownFixture (Orchestrator.KeysAgree.of_keysMatch (by decide)) (by decide)
    shutdownFixture.GetPingers.1.reverse (List.reverse_perm _) (fun _ => 9),
    by decide, by decide, by decide, by decide⟩

end Monitor
